import Mathlib

/-!
# Shallow embedding of the `shallow-water` stepper

Sources embedded: `src/stepper.c` (allocation, grid layout, periodic halo exchange, limiter,
predictor, corrector, sub-step, run loop), `src/shallow2d.c` (shallow-water flux and wave
speed) and `src/ldriver.c` (the diagnostic `solution_check`, the raster output `viz_open` and
`viz_frame`).

Conventions of the embedding.

* `float` values are rationals: every operation is taken in exact arithmetic, and float
  literals stand for the decimal they are written as.  A division by zero, which gives an
  infinity or a NaN in C, gives 0 here; no theorem below depends on the value of one.
* A `float*` is a pair of a buffer (`Buf`, a total map from C `int` offsets to values)
  and a base offset.  Pointers that the C code declares `restrict` and that address
  different allocations (or different arguments) are different `Buf` values; pointers
  into the same scratch row block share one `Buf` and differ in their base offset.
* `for (i = lo; i < hi; ++i)` is `forRange lo hi`; a loop whose body may hit an
  `assert` is `forRangeM` and yields `none` when the assertion fails.
* `while (!done)` in `central2d_xrun` is unrolled with an explicit fuel argument.
* The OpenMP parallel region runs with the `partx * party` threads it asks for, numbered from
  0; up to the barrier every thread reads the global buffer and writes only its own block, so
  the region is a function of the global buffer before it.
* The OpenMP `parallel for` of `shallow2dv_speed` with its declared reduction is run by a team of
  `nthreads` threads under an arbitrary schedule `owner`: every thread folds the iterations it
  owns into private copies, and the combiner folds the private copies into the variables.
* C `int` division and remainder are `Int.tdiv` and `Int.tmod`; a C `int` is an integer without
  overflow.
* The library function `sqrtf` is not part of the repository: the wave-speed kernel takes it as
  a parameter, and no theorem depends on its values.
* Index safety is stated on access traces: the kernels of a sub-step once more, keeping the
  offsets that they read and write instead of the values.
-/

namespace ShallowWater

/-! ## Memory and loops -/

/-- Flat array of values addressed by a C `int` offset. -/
abbrev Buf := Int → ℚ

/-- The assignment `b[i] = x`. -/
def store (b : Buf) (i : Int) (x : ℚ) : Buf := fun j => if j = i then x else b j

/-- Run `body 0`, `body 1`, ..., `body (n-1)` in this order. -/
def loopN {σ : Type} (body : Nat → σ → σ) : Nat → σ → σ
  | 0, s => s
  | n + 1, s => body n (loopN body n s)

/-- The loop `for (int i = lo; i < hi; ++i) body`. -/
def forRange {σ : Type} (lo hi : Int) (body : Int → σ → σ) (s : σ) : σ :=
  loopN (fun i => body (lo + (i : Int))) (hi - lo).toNat s

/-- Run `body 0`, ..., `body (n-1)` in this order, stopping with `none` at the first failure. -/
def loopNM {σ : Type} (body : Nat → σ → Option σ) : Nat → σ → Option σ
  | 0, s => some s
  | n + 1, s => (loopNM body n s).bind (body n)

/-- The loop `for (int i = lo; i < hi; ++i) body` for a body that can fail an assertion. -/
def forRangeM {σ : Type} (lo hi : Int) (body : Int → σ → Option σ) (s : σ) : Option σ :=
  loopNM (fun i => body (lo + (i : Int))) (hi - lo).toNat s

/-! ## Simulation descriptor and grid layout (`stepper.c`, lines 18-63) -/

/-- Flux callback `flux(FU, GU, U, ncell, field_stride)`: the three pointers are given as
buffer and base offset; the result is the new contents of `FU` and `GU`. -/
abbrev flux_t := Buf → Int → Buf → Int → Buf → Int → Int → Int → Buf × Buf

/-- Wave-speed callback `speed(cxy, U, ncell, field_stride)`: the result is the new `cxy`. -/
abbrev speed_t := ℚ × ℚ → Buf → Int → Int → Int → ℚ × ℚ

/-- The struct `central2d_t`. -/
structure central2d_t where
  nfield : Int
  nx : Int
  ny : Int
  ng : Int
  dx : ℚ
  dy : ℚ
  cfl : ℚ
  flux : flux_t
  speed : speed_t
  u : Buf
  v : Buf
  f : Buf
  g : Buf
  scratch : Buf

/-- The function `central2d_init(w, h, nx, ny, nfield, flux, speed, cfl)`: `block` is the initial
content of the one block that it allocates for `u`, `v`, `f`, `g` and `scratch`. -/
def central2d_init (block : Buf) (w h : ℚ) (nx ny nfield : Int) (flux : flux_t)
    (speed : speed_t) (cfl : ℚ) : central2d_t :=
  let ng : Int := 4
  let nx_all := nx + 2 * ng
  let ny_all := ny + 2 * ng
  let nc := nx_all * ny_all
  let N := nfield * nc
  central2d_t.mk nfield nx ny ng (w / (nx : ℚ)) (h / (ny : ℚ)) cfl flux speed
    (fun i => block i) (fun i => block (N + i)) (fun i => block (2 * N + i))
    (fun i => block (3 * N + i)) (fun i => block (4 * N + i))

/-- The function `central2d_offset(sim, k, ix, iy)`. -/
def central2d_offset (sim : central2d_t) (k ix iy : Int) : Int :=
  let nx := sim.nx
  let ny := sim.ny
  let ng := sim.ng
  let nx_all := nx + 2 * ng
  let ny_all := ny + 2 * ng
  (k * ny_all + (ng + iy)) * nx_all + (ng + ix)

/-! ## Boundary conditions (`stepper.c`, lines 81-177) -/

/-- The function `copy_subgrid(dst, src, nx, ny, stride1, stride2)` with `dst = dstbuf + d0` and
`src = srcbuf + s0`.  The source is `restrict`: it is read as it was at the call. -/
def copy_subgrid (dst : Buf) (d0 : Int) (src : Buf) (s0 : Int)
    (nx ny stride1 stride2 : Int) : Buf :=
  forRange 0 ny (fun iy dst =>
    forRange 0 nx (fun ix dst =>
      store dst (d0 + (iy * stride1 + ix)) (src (s0 + (iy * stride2 + ix)))) dst) dst

/-- The function `copy_subgrid_allfield(dst, src, nx, ny, c1, c2, stride1, stride2, nfield)`. -/
def copy_subgrid_allfield (dst : Buf) (d0 : Int) (src : Buf) (s0 : Int)
    (nx ny c1 c2 stride1 stride2 nfield : Int) : Buf :=
  forRange 0 nfield (fun k dst =>
    copy_subgrid dst (d0 + k * c1) src (s0 + k * c2) nx ny stride1 stride2) dst

/-- The body of the field loop of `central2d_periodic_full` for field `k`: every copy reads
and writes `u`. -/
def central2d_periodic_full_field (nx ny ng : Int) (k : Int) (u : Buf) : Buf :=
  let s := nx + 2 * ng
  let field_stride := (ny + 2 * ng) * s
  let l := nx
  let lg := 0
  let r := ng
  let rg := nx + ng
  let b := ny * s
  let bg := 0
  let t := ng * s
  let tg := (nx + ng) * s
  let uk := k * field_stride
  let u := copy_subgrid u (uk + lg) u (uk + l) ng (ny + 2 * ng) s s
  let u := copy_subgrid u (uk + rg) u (uk + r) ng (ny + 2 * ng) s s
  let u := copy_subgrid u (uk + tg) u (uk + t) (nx + 2 * ng) ng s s
  copy_subgrid u (uk + bg) u (uk + b) (nx + 2 * ng) ng s s

/-- The function `central2d_periodic_full(u, nx, ny, ng, nfield)`. -/
def central2d_periodic_full (u : Buf) (nx ny ng nfield : Int) : Buf :=
  forRange 0 nfield (central2d_periodic_full_field nx ny ng) u

/-- The body of the field loop of `central2d_periodic` for field `k`: the nine copies. -/
def central2d_periodic_field (src : Buf) (nx ny ng partx party px py : Int)
    (k : Int) (u : Buf) : Buf :=
  let s := nx + 2 * ng
  let s2 := nx * partx + 2 * ng
  let field_stride := (ny + 2 * ng) * s
  let field_stride2 := (ny * party + 2 * ng) * s2
  let uk := k * field_stride
  let srck := k * field_stride2
  let modxl := if px = 0 then partx else px
  let modxr := if px = partx - 1 then 0 else px + 1
  let modyb := if py = 0 then party else py
  let modyt := if py = party - 1 then 0 else py + 1
  let u := copy_subgrid u uk src (srck + modyb * ny * s2 + modxl * nx) ng ng s s2
  let u := copy_subgrid u (uk + ng * s) src (srck + (ng + py * ny) * s2 + modxl * nx)
    ng ny s s2
  let u := copy_subgrid u (uk + (ng + ny) * s) src
    (srck + (ng + modyt * ny) * s2 + modxl * nx) ng ng s s2
  let u := copy_subgrid u (uk + ng) src (srck + modyb * ny * s2 + px * nx + ng) nx ng s s2
  let u := copy_subgrid u (uk + ng * s + ng) src (srck + (ng + py * ny) * s2 + px * nx + ng)
    nx ny s s2
  let u := copy_subgrid u (uk + (ng + ny) * s + ng) src
    (srck + (ng + modyt * ny) * s2 + px * nx + ng) nx ng s s2
  let u := copy_subgrid u (uk + ng + nx) src (srck + modyb * ny * s2 + modxr * nx + ng)
    ng ng s s2
  let u := copy_subgrid u (uk + ng * s + nx + ng) src
    (srck + (ng + py * ny) * s2 + modxr * nx + ng) ng ny s s2
  copy_subgrid u (uk + (ng + ny) * s + ng + nx) src
    (srck + (ng + modyt * ny) * s2 + modxr * nx + ng) ng ng s s2

/-- The function `central2d_periodic(u, src, nx, ny, ng, partx, party, px, py, nfield)`: fill the padded
tile buffer `u` of tile `(px, py)` from the global buffer `src`. -/
def central2d_periodic (u : Buf) (src : Buf)
    (nx ny ng partx party px py nfield : Int) : Buf :=
  forRange 0 nfield (central2d_periodic_field src nx ny ng partx party px py) u

/-! ## Derivatives with limiters (`stepper.c`, lines 197-241) -/

/-- The function `fabsf` in exact arithmetic. -/
def fabsf (x : ℚ) : ℚ := if x < 0 then -x else x

/-- The function `copysignf(s, a)`: the magnitude of `s` with the sign of `a` (a zero `a` counts as `+0`). -/
def copysignf (s a : ℚ) : ℚ := if a < 0 then -fabsf s else fabsf s

/-- The function `xmin2s(s, a, b)`. -/
def xmin2s (s a b : ℚ) : ℚ :=
  let sa := copysignf s a
  let sb := copysignf s b
  let abs_a := fabsf a
  let abs_b := fabsf b
  let min_abs := if abs_a < abs_b then abs_a else abs_b
  (sa + sb) * min_abs

/-- The function `limdiff(um, u0, up)`. -/
def limdiff (um u0 up : ℚ) : ℚ :=
  let theta : ℚ := 2
  let quarter : ℚ := 1 / 4
  let du1 := u0 - um
  let du2 := up - u0
  let duc := up - um
  xmin2s quarter (xmin2s theta du1 du2) duc

/-- The function `limited_deriv1(du, u, ncell)` with `du = dubuf + d0` and `u = ubuf + u0`. -/
def limited_deriv1 (du : Buf) (d0 : Int) (u : Buf) (u0 : Int) (ncell : Int) : Buf :=
  forRange 0 ncell (fun i du =>
    store du (d0 + i) (limdiff (u (u0 + (i - 1))) (u (u0 + i)) (u (u0 + (i + 1))))) du

/-- The function `limited_derivk(du, u, ncell, stride)`; `none` when `assert(stride > 0)` fails. -/
def limited_derivk (du : Buf) (d0 : Int) (u : Buf) (u0 : Int) (ncell stride : Int) :
    Option Buf :=
  if 0 < stride then
    some (forRange 0 ncell (fun i du =>
      store du (d0 + i)
        (limdiff (u (u0 + (i - stride))) (u (u0 + i)) (u (u0 + (i + stride))))) du)
  else none

/-! ## Advancing a time step (`stepper.c`, lines 277-410) -/

/-- The function `central2d_predict(v, scratch, u, f, g, dtcdx2, dtcdy2, nx, ny, nfield)`; the result is
the new contents of `v` and `scratch`. -/
def central2d_predict (v scratch u f g : Buf) (dtcdx2 dtcdy2 : ℚ)
    (nx ny nfield : Int) : Option (Buf × Buf) :=
  let fx : Int := 0
  let gy : Int := nx
  forRangeM 0 nfield (fun k st =>
    forRangeM 1 (ny - 1) (fun iy st =>
      let offset := (k * ny + iy) * nx + 1
      let scratch := limited_deriv1 st.2 (fx + 1) f offset (nx - 2)
      (limited_derivk scratch (gy + 1) g offset (nx - 2) nx).bind (fun scratch =>
        some (forRange 1 (nx - 1) (fun ix v =>
          let offset := (k * ny + iy) * nx + ix
          store v offset (u offset - dtcdx2 * scratch (fx + ix) - dtcdy2 * scratch (gy + ix)))
          st.1, scratch))) st) (v, scratch)

/-- The function `central2d_correct_sd(s, d, ux, uy, u, f, g, dtcdx2, dtcdy2, xlo, xhi)`: the rows `s`,
`d`, `ux`, `uy` are base offsets into the scratch block; `u`, `f`, `g` are buffer and base
offset.  The result is the new scratch block. -/
def central2d_correct_sd (scratch : Buf) (s d ux uy : Int)
    (u : Buf) (u0 : Int) (f : Buf) (f0 : Int) (g : Buf) (g0 : Int)
    (dtcdx2 dtcdy2 : ℚ) (xlo xhi : Int) : Buf :=
  let scratch := forRange xlo xhi (fun ix sc =>
    store sc (s + ix)
      (1 / 4 * (u (u0 + ix) + u (u0 + (ix + 1))) +
       1 / 16 * (sc (ux + ix) - sc (ux + (ix + 1))) +
       dtcdx2 * (f (f0 + ix) - f (f0 + (ix + 1))))) scratch
  forRange xlo xhi (fun ix sc =>
    store sc (d + ix)
      (1 / 16 * (sc (uy + ix) + sc (uy + (ix + 1))) +
       dtcdy2 * (g (g0 + ix) + g (g0 + (ix + 1))))) scratch

/-- Local state of `central2d_correct`: the output buffer, the scratch block and the four
row pointers `s0`, `d0`, `s1`, `d1` that the row loop swaps. -/
structure CorrectState where
  v : Buf
  scratch : Buf
  s0 : Int
  d0 : Int
  s1 : Int
  d1 : Int

/-- The body of the row loop `for (iy = ylo; iy < yhi; ++iy)` of `central2d_correct` for
field `k`. -/
def central2d_correct_row (v0 : Int) (u f g : Buf) (dtcdx2 dtcdy2 : ℚ)
    (xlo xhi nx ny : Int) (k iy : Int) (st : CorrectState) : Option CorrectState :=
  let ux : Int := 0
  let uy : Int := nx
  let vk := v0 + k * ny * nx
  let uk := k * ny * nx
  let fk := k * ny * nx
  let gk := k * ny * nx
  let s0 := st.s1
  let s1 := st.s0
  let d0 := st.d1
  let d1 := st.d0
  let scratch := limited_deriv1 st.scratch (ux + 1) u (uk + (iy + 1) * nx + 1) (nx - 2)
  (limited_derivk scratch (uy + 1) u (uk + (iy + 1) * nx + 1) (nx - 2) nx).bind
    (fun scratch =>
      let scratch := central2d_correct_sd scratch s1 d1 ux uy
        u (uk + (iy + 1) * nx) f (fk + (iy + 1) * nx) g (gk + (iy + 1) * nx)
        dtcdx2 dtcdy2 xlo xhi
      let v := forRange xlo xhi (fun ix v =>
        store v (vk + (iy * nx + ix))
          ((scratch (s1 + ix) + scratch (s0 + ix)) - (scratch (d1 + ix) - scratch (d0 + ix))))
        st.v
      some (CorrectState.mk v scratch s0 d0 s1 d1))

/-- The body of the field loop `for (k = 0; k < nfield; ++k)` of `central2d_correct`. -/
def central2d_correct_field (v0 : Int) (u f g : Buf) (dtcdx2 dtcdy2 : ℚ)
    (xlo xhi ylo yhi nx ny : Int) (k : Int) (st : CorrectState) : Option CorrectState :=
  let ux : Int := 0
  let uy : Int := nx
  let uk := k * ny * nx
  let fk := k * ny * nx
  let gk := k * ny * nx
  let scratch := limited_deriv1 st.scratch (ux + 1) u (uk + ylo * nx + 1) (nx - 2)
  (limited_derivk scratch (uy + 1) u (uk + ylo * nx + 1) (nx - 2) nx).bind
    (fun scratch =>
      let scratch := central2d_correct_sd scratch st.s1 st.d1 ux uy
        u (uk + ylo * nx) f (fk + ylo * nx) g (gk + ylo * nx) dtcdx2 dtcdy2 xlo xhi
      forRangeM ylo yhi (central2d_correct_row v0 u f g dtcdx2 dtcdy2 xlo xhi nx ny k)
        (CorrectState.mk st.v scratch st.s0 st.d0 st.s1 st.d1))

/-- The function `central2d_correct(v, scratch, u, f, g, dtcdx2, dtcdy2, xlo, xhi, ylo, yhi, nx, ny,
nfield)` with `v = vbuf + v0`; `none` when one of the two assertions fails.  The result is
the new contents of `v` and `scratch`. -/
def central2d_correct (v : Buf) (v0 : Int) (scratch u f g : Buf) (dtcdx2 dtcdy2 : ℚ)
    (xlo xhi ylo yhi nx ny nfield : Int) : Option (Buf × Buf) :=
  if 0 ≤ xlo ∧ xlo < xhi ∧ xhi ≤ nx then
    if 0 ≤ ylo ∧ ylo < yhi ∧ yhi ≤ ny then
      (forRangeM 0 nfield
        (central2d_correct_field v0 u f g dtcdx2 dtcdy2 xlo xhi ylo yhi nx ny)
        (CorrectState.mk v scratch (2 * nx) (3 * nx) (4 * nx) (5 * nx))).map
        (fun st => (st.v, st.scratch))
    else none
  else none

/-- Buffers that `central2d_step` leaves behind: `v`, `scratch`, `f`, `g`. -/
structure StepResult where
  v : Buf
  scratch : Buf
  f : Buf
  g : Buf

/-- The function `central2d_step(u, v, scratch, f, g, io, nx, ny, ng, nfield, flux, speed, dt, dx, dy)`. -/
def central2d_step (u v scratch f g : Buf) (io nx ny ng nfield : Int)
    (flux : flux_t) (_speed : speed_t) (dt dx dy : ℚ) : Option StepResult :=
  let nx_all := nx + 2 * ng
  let ny_all := ny + 2 * ng
  let dtcdx2 := 1 / 2 * dt / dx
  let dtcdy2 := 1 / 2 * dt / dy
  let fg := flux f 0 g 0 u 0 (nx_all * ny_all) (nx_all * ny_all)
  (central2d_predict v scratch u fg.1 fg.2 dtcdx2 dtcdy2 nx_all ny_all nfield).bind
    (fun vs =>
      let fg := forRange 1 (ny_all - 1) (fun iy fg =>
        let jj := iy * nx_all + 1
        flux fg.1 jj fg.2 jj vs.1 jj (nx_all - 2) (nx_all * ny_all)) fg
      (central2d_correct vs.1 (io * (nx_all + 1)) vs.2 u fg.1 fg.2 dtcdx2 dtcdy2
        (ng - io) (nx + ng - io) (ng - io) (ny + ng - io) nx_all ny_all nfield).map
        (fun r => StepResult.mk r.1 r.2 fg.1 fg.2))

/-! ## Shallow-water flux (`shallow2d.c`, lines 20-46 and 82-89) -/

/-- The constant `g` of `shallow2d.c`. -/
def shallow2d_g : ℚ := 98 / 10

/-- The function `shallow2dv_flux(fh, fhu, fhv, gh, ghu, ghv, h, hu, hv, g, ncell)`: the six output
pointers are base offsets into `FU` and `GU`, the three inputs base offsets into `U`.  The two
`memcpy` calls are the first two loops. -/
def shallow2dv_flux (FU : Buf) (fh fhu fhv : Int) (GU : Buf) (gh ghu ghv : Int)
    (U : Buf) (h hu hv : Int) (g : ℚ) (ncell : Int) : Buf × Buf :=
  let FU := forRange 0 ncell (fun i FU => store FU (fh + i) (U (hu + i))) FU
  let GU := forRange 0 ncell (fun i GU => store GU (gh + i) (U (hv + i))) GU
  forRange 0 ncell (fun i FG =>
    let hi := U (h + i)
    let hui := U (hu + i)
    let hvi := U (hv + i)
    let inv_h := 1 / hi
    let FU := store FG.1 (fhu + i) (hui * hui * inv_h + (1 / 2 * g) * hi * hi)
    let FU := store FU (fhv + i) (hui * hvi * inv_h)
    let GU := store FG.2 (ghu + i) (hui * hvi * inv_h)
    let GU := store GU (ghv + i) (hvi * hvi * inv_h + (1 / 2 * g) * hi * hi)
    (FU, GU)) (FU, GU)

/-- The function `shallow2d_flux(FU, GU, U, ncell, field_stride)`. -/
def shallow2d_flux : flux_t := fun FU f0 GU g0 U u0 ncell field_stride =>
  shallow2dv_flux FU f0 (f0 + field_stride) (f0 + 2 * field_stride)
    GU g0 (g0 + field_stride) (g0 + 2 * field_stride)
    U u0 (u0 + field_stride) (u0 + 2 * field_stride) shallow2d_g ncell

/-- The shallow-water x-flux of one cell state `s = (h, hu, hv)`, by field. -/
def shallow2d_phi (s : Int → ℚ) (k : Int) : ℚ :=
  if k = 0 then s 1
  else if k = 1 then s 1 * s 1 * (1 / s 0) + (1 / 2 * shallow2d_g) * s 0 * s 0
  else s 1 * s 2 * (1 / s 0)

/-- The shallow-water y-flux of one cell state `s = (h, hu, hv)`, by field. -/
def shallow2d_psi (s : Int → ℚ) (k : Int) : ℚ :=
  if k = 0 then s 2
  else if k = 1 then s 1 * s 2 * (1 / s 0)
  else s 2 * s 2 * (1 / s 0) + (1 / 2 * shallow2d_g) * s 0 * s 0

/-! ## Shallow-water wave speed (`shallow2d.c`, lines 49-79 and 92-96) -/

/-- The function `fmaxf` in exact arithmetic. -/
def fmaxf (a b : ℚ) : ℚ := max a b

/-- The function `fminf` in exact arithmetic. -/
def fminf (a b : ℚ) : ℚ := min a b

/-- The constant `INT_MIN` of `limits.h` for a 32-bit `int`, converted to `float`. -/
def INT_MIN : ℚ := -2147483648

/-- The iterations of the loop of `shallow2dv_speed` that thread `t` of the team runs, on its
private copies of `cx` and `cy`, which the reduction clause initialises to `INT_MIN`.
`owner i` is the thread that the schedule gives iteration `i` to. -/
def shallow2dv_speed_thread (sqrtf : ℚ → ℚ) (owner : Int → Int) (t : Int)
    (U : Buf) (h hu hv : Int) (g : ℚ) (ncell : Int) : ℚ × ℚ :=
  forRange 0 ncell (fun i c =>
    if owner i = t then
      let hi := U (h + i)
      if fabsf hi < 1 / 100000 then c
      else
        let inv_hi := 1 / U (h + i)
        let root_gh := sqrtf (g * hi)
        let cxi := fabsf (U (hu + i) * inv_hi) + root_gh
        let cyi := fabsf (U (hv + i) * inv_hi) + root_gh
        (fmaxf c.1 cxi, fmaxf c.2 cyi)
    else c) (INT_MIN, INT_MIN)

/-- The function `shallow2dv_speed(cxy, h, hu, hv, g, ncell)`: the three inputs are base offsets into
`U`; the result is the new `cxy`.  The loop is an OpenMP `parallel for` with the declared
reduction `fmaxf` on `cx` and `cy`: a team of `nthreads` threads shares the iterations, and at
the end the combiner `omp_out = fmaxf(omp_out, omp_in)` folds the private copy of every thread
into the value that the variable had before the loop.  The library function `sqrtf` is a
parameter. -/
def shallow2dv_speed (sqrtf : ℚ → ℚ) (nthreads : Int) (owner : Int → Int) (cxy : ℚ × ℚ)
    (U : Buf) (h hu hv : Int) (g : ℚ) (ncell : Int) : ℚ × ℚ :=
  let cx := cxy.1
  let cy := cxy.2
  forRange 0 nthreads (fun t c =>
    let priv := shallow2dv_speed_thread sqrtf owner t U h hu hv g ncell
    (fmaxf c.1 priv.1, fmaxf c.2 priv.2)) (cx, cy)

/-- The function `shallow2d_speed(cxy, U, ncell, field_stride)`. -/
def shallow2d_speed (sqrtf : ℚ → ℚ) (nthreads : Int) (owner : Int → Int) : speed_t :=
  fun cxy U u0 ncell field_stride =>
    shallow2dv_speed sqrtf nthreads owner cxy U u0 (u0 + field_stride)
      (u0 + 2 * field_stride) shallow2d_g ncell

/-- The value `r` is the maximum of the start value `c0`, of `INT_MIN` and of the values
`val i` of the cells `0 ≤ i < n` with `keep i`: it is an upper bound of all of these and it is
one of them. -/
def IsSpeedMax (r c0 : ℚ) (n : Int) (keep : Int → Prop) (val : Int → ℚ) : Prop :=
  c0 ≤ r ∧ INT_MIN ≤ r ∧ (∀ i, 0 ≤ i → i < n → keep i → val i ≤ r) ∧
    (r = c0 ∨ r = INT_MIN ∨ ∃ i, 0 ≤ i ∧ i < n ∧ keep i ∧ r = val i)

/-! ## Diagnostics (`ldriver.c`, lines 37-61) -/

/-- Local variables of `solution_check`. -/
structure CheckState where
  h_sum : ℚ
  hu_sum : ℚ
  hv_sum : ℚ
  hmin : ℚ
  hmax : ℚ

/-- The two loops of `solution_check(sim)` over the interior cells. -/
def solution_check_scan (sim : central2d_t) : CheckState :=
  let nx := sim.nx
  let ny := sim.ny
  let u := sim.u
  let hmin := u (central2d_offset sim 0 0 0)
  let hmax := hmin
  forRange 0 ny (fun j st =>
    forRange 0 nx (fun i st =>
      let h := u (central2d_offset sim 0 i j)
      CheckState.mk (st.h_sum + h) (st.hu_sum + u (central2d_offset sim 1 i j))
        (st.hv_sum + u (central2d_offset sim 2 i j)) (fminf h st.hmin) (fmaxf h st.hmax)) st)
    (CheckState.mk 0 0 0 hmin hmax)

/-- The function `solution_check(sim)`: the values that it prints, or `none` when
`assert(hmin > 0)` fails. -/
def solution_check (sim : central2d_t) : Option CheckState :=
  let st := solution_check_scan sim
  let cell_area := sim.dx * sim.dy
  let h_sum := st.h_sum * cell_area
  let hu_sum := st.hu_sum * cell_area
  let hv_sum := st.hv_sum * cell_area
  if st.hmin > 0 then some (CheckState.mk h_sum hu_sum hv_sum st.hmin st.hmax) else none

/-! ## Raster output (`ldriver.c`, lines 73-97) -/

/-- The loop `for (i = i0; i < hi; i += step) body` for a body that returns through `Option`,
with at most `fuel` iterations: `none` when the loop is still running after `fuel`
iterations. -/
def forStepM {σ : Type} (step hi : Int) (body : Int → σ → Option σ) : Nat → Int → σ → Option σ
  | 0, i, s => if i < hi then none else some s
  | fuel + 1, i, s =>
    if i < hi then (body i s).bind (forStepM step hi body fuel (i + step)) else some s

/-- The function `viz_open(fname, sim, vskip)` when the file opens: the two scalars
`{sim->nx / vskip, sim->ny / vskip}` that it writes, the quotients taken in `int`. -/
def viz_open (sim : central2d_t) (vskip : Int) : List ℚ :=
  [((Int.tdiv sim.nx vskip : Int) : ℚ), ((Int.tdiv sim.ny vskip : Int) : ℚ)]

/-- The function `viz_frame(fp, sim, vskip)` for an open file: the scalars that it writes, in
the order of the `fwrite` calls, after the content `out` that the file has. -/
def viz_frame (fuel : Nat) (out : List ℚ) (sim : central2d_t) (vskip : Int) :
    Option (List ℚ) :=
  forStepM vskip sim.ny (fun iy out =>
    forStepM vskip sim.nx (fun ix out =>
      some (out ++ [sim.u (central2d_offset sim 0 ix iy)])) fuel 0 out) fuel 0 out

/-! ## Advance a fixed time (`stepper.c`, lines 427-542) -/

/-- The work of thread `j` of the parallel region up to the barrier: allocate the tile block
(`block` is its initial, arbitrary content), fill the tile from the global `u`, take the two
sub-steps.  The result is the tile buffer `pu`. -/
def central2d_xrun_tile (u block : Buf) (nx ny ng nfield : Int) (flux : flux_t)
    (speed : speed_t) (dt dx dy : ℚ) (partx party j : Int) : Option Buf :=
  let sx := Int.tdiv nx partx
  let sy := Int.tdiv ny party
  let sx_all := sx + 2 * ng
  let sy_all := sy + 2 * ng
  let pc := sx_all * sy_all
  let pN := nfield * pc
  let px := Int.tmod j partx
  let py := Int.tdiv j party
  let pu : Buf := fun i => block i
  let pv : Buf := fun i => block (pN + i)
  let pf : Buf := fun i => block (2 * pN + i)
  let pg : Buf := fun i => block (3 * pN + i)
  let pscratch : Buf := fun i => block (4 * pN + i)
  let pu := central2d_periodic pu u sx sy ng partx party px py nfield
  (central2d_step pu pv pscratch pf pg 0 (sx + 4) (sy + 4) (ng - 2) nfield flux speed
    dt dx dy).bind (fun r1 =>
    (central2d_step r1.v pu r1.scratch r1.f r1.g 1 sx sy ng nfield flux speed
      dt dx dy).map (fun r2 => r2.v))

/-- The parallel region of one pass of the run loop for a `partx` by `party` tiling and
`partx * party` threads: every thread computes its tile from the global state as it was
before the region, and after the barrier copies the tile interior back. -/
def central2d_xrun_sweep (u : Buf) (alloc : Int → Buf) (nx ny ng nfield : Int)
    (flux : flux_t) (speed : speed_t) (dt dx dy : ℚ) (partx party : Int) : Option Buf :=
  let nx_all := nx + 2 * ng
  let ny_all := ny + 2 * ng
  let c := nx_all * ny_all
  let sx := Int.tdiv nx partx
  let sy := Int.tdiv ny party
  let sx_all := sx + 2 * ng
  let sy_all := sy + 2 * ng
  let pc := sx_all * sy_all
  forRangeM 0 (partx * party) (fun j acc =>
    let px := Int.tmod j partx
    let py := Int.tdiv j party
    (central2d_xrun_tile u (alloc j) nx ny ng nfield flux speed dt dx dy partx party j).map
      (fun pu =>
        copy_subgrid_allfield acc (nx_all * (ng + py * sy) + (ng + px * sx))
          pu (ng * sx_all + ng) sx sy c pc nx_all sx_all nfield)) u

/-- Variables of the run loop: the global buffer, `t`, `nstep`, `done`, and two records that
are not C variables: the number of passes through the loop body taken so far and the time
steps `dt` that these passes used, most recent first. -/
structure RunState where
  u : Buf
  t : ℚ
  nstep : Int
  done : Bool
  iters : Nat
  dts : List ℚ

/-- The time step that the CFL condition gives for the global buffer `u`:
`cfl / fmaxf(cxy[0]/dx, cxy[1]/dy)` after the wave-speed reduction over the whole padded
buffer, started from `{1.0e-15f, 1.0e-15f}`. -/
def central2d_xrun_cfl (u : Buf) (nx ny ng : Int) (speed : speed_t) (dx dy cfl : ℚ) : ℚ :=
  let nx_all := nx + 2 * ng
  let ny_all := ny + 2 * ng
  let cxy : ℚ × ℚ := (1 / 10 ^ 15, 1 / 10 ^ 15)
  let cxy := speed cxy u 0 (nx_all * ny_all) (nx_all * ny_all)
  cfl / max (cxy.1 / dx) (cxy.2 / dy)

/-- The time step that one pass of the run loop uses, and whether the pass is the last. -/
def central2d_xrun_dt (u : Buf) (t : ℚ) (nx ny ng : Int) (speed : speed_t)
    (tfinal dx dy cfl : ℚ) : ℚ × Bool :=
  let dt := central2d_xrun_cfl u nx ny ng speed dx dy cfl
  if t + 2 * dt ≥ tfinal then ((tfinal - t) / 2, true) else (dt, false)

/-- One pass through the body of `while (!done)` in `central2d_xrun`.  `alloc n j` is the
initial content of the block that thread `j` allocates in pass `n`. -/
def central2d_xrun_body (alloc : Nat → Int → Buf) (nx ny ng nfield : Int) (flux : flux_t)
    (speed : speed_t) (tfinal dx dy cfl : ℚ) (st : RunState) : Option RunState :=
  let partx : Int := 2
  let party : Int := 2
  let dtd := central2d_xrun_dt st.u st.t nx ny ng speed tfinal dx dy cfl
  let dt := dtd.1
  (central2d_xrun_sweep st.u (alloc st.iters) nx ny ng nfield flux speed dt dx dy
    partx party).map (fun u =>
    RunState.mk u (st.t + 2 * dt) (st.nstep + 2) dtd.2 (st.iters + 1) (dt :: st.dts))

/-- The state after `n` passes through the loop body, whatever `done` says. -/
def central2d_xrun_passes (alloc : Nat → Int → Buf) (nx ny ng nfield : Int) (flux : flux_t)
    (speed : speed_t) (tfinal dx dy cfl : ℚ) : Nat → RunState → Option RunState
  | 0, st => some st
  | n + 1, st =>
    (central2d_xrun_passes alloc nx ny ng nfield flux speed tfinal dx dy cfl n st).bind
      (central2d_xrun_body alloc nx ny ng nfield flux speed tfinal dx dy cfl)

/-- The loop `while (!done)` with at most `fuel` passes; `none` when an assertion failed or
the loop is still running after `fuel` passes. -/
def central2d_xrun_loop (alloc : Nat → Int → Buf) (nx ny ng nfield : Int) (flux : flux_t)
    (speed : speed_t) (tfinal dx dy cfl : ℚ) : Nat → RunState → Option RunState
  | 0, st => if st.done then some st else none
  | fuel + 1, st =>
    if st.done then some st
    else (central2d_xrun_body alloc nx ny ng nfield flux speed tfinal dx dy cfl st).bind
      (central2d_xrun_loop alloc nx ny ng nfield flux speed tfinal dx dy cfl fuel)

/-- The function `central2d_xrun(u, v, scratch, f, g, nx, ny, ng, nfield, flux, speed, tfinal, dx, dy,
cfl)`: the C return value is the field `nstep` of the result, the final `u` its field `u`. -/
def central2d_xrun (fuel : Nat) (alloc : Nat → Int → Buf) (u _v _scratch _f _g : Buf)
    (nx ny ng nfield : Int) (flux : flux_t) (speed : speed_t)
    (tfinal dx dy cfl : ℚ) : Option RunState :=
  central2d_xrun_loop alloc nx ny ng nfield flux speed tfinal dx dy cfl fuel
    (RunState.mk u 0 0 false 0 [])

/-- The function `central2d_run(sim, tfinal)`. -/
def central2d_run (fuel : Nat) (alloc : Nat → Int → Buf) (sim : central2d_t) (tfinal : ℚ) :
    Option RunState :=
  central2d_xrun fuel alloc sim.u sim.v sim.scratch sim.f sim.g sim.nx sim.ny sim.ng
    sim.nfield sim.flux sim.speed tfinal sim.dx sim.dy sim.cfl

/-- The state of `central2d_run(sim, tfinal)` after `n` passes through the loop body. -/
def central2d_run_passes (n : Nat) (alloc : Nat → Int → Buf) (sim : central2d_t) (tfinal : ℚ) :
    Option RunState :=
  central2d_xrun_passes alloc sim.nx sim.ny sim.ng sim.nfield sim.flux sim.speed tfinal
    sim.dx sim.dy sim.cfl n (RunState.mk sim.u 0 0 false 0 [])

/-- The exit test of the run loop on the state `s` before a pass: the CFL time step `dt` of
the state satisfies `t + 2*dt >= tfinal`. -/
def central2d_run_exit_test (sim : central2d_t) (tfinal : ℚ) (s : RunState) : Prop :=
  s.t + 2 * central2d_xrun_cfl s.u sim.nx sim.ny sim.ng sim.speed sim.dx sim.dy sim.cfl ≥ tfinal

/-! ## Addresses that a sub-step touches

The kernels of `stepper.c` once more, keeping only the array offsets of their reads and writes,
in program order.  An assertion is not an access: the traces run through. -/

/-- The arrays that `central2d_step` is given: `u`, `v`, `f`, `g` and the scratch block. -/
inductive Arr where
  | u
  | v
  | f
  | g
  | scratch

/-- One read or write: the array, the field `k` of the loop that makes the access (of no use
for the scratch block), and the offset from the start of the array. -/
structure Access where
  arr : Arr
  k : Int
  idx : Int

/-- Accesses of `limited_deriv1(du, u, ncell)` with `du = scratch + d0` and `u = uA + u0`. -/
def limited_deriv1_trace (d0 : Int) (uA : Arr) (k u0 ncell : Int) (tr : List Access) :
    List Access :=
  forRange 0 ncell (fun i tr =>
    tr ++ [Access.mk uA k (u0 + (i - 1)), Access.mk uA k (u0 + i),
      Access.mk uA k (u0 + (i + 1)), Access.mk Arr.scratch k (d0 + i)]) tr

/-- Accesses of `limited_derivk(du, u, ncell, stride)` with `du = scratch + d0` and
`u = uA + u0`. -/
def limited_derivk_trace (d0 : Int) (uA : Arr) (k u0 ncell stride : Int) (tr : List Access) :
    List Access :=
  forRange 0 ncell (fun i tr =>
    tr ++ [Access.mk uA k (u0 + (i - stride)), Access.mk uA k (u0 + i),
      Access.mk uA k (u0 + (i + stride)), Access.mk Arr.scratch k (d0 + i)]) tr

/-- Accesses of a cell-wise flux callback `flux(FU, GU, U, ncell, field_stride)` on `nfield`
fields, with `FU = f + f0`, `GU = g + g0` and `U = uA + u0`: the cells `0 .. ncell-1` of every
field of the three arrays, as `shallow2d_flux` touches them for its three fields. -/
def flux_trace (uA : Arr) (f0 g0 u0 ncell field_stride nfield : Int) (tr : List Access) :
    List Access :=
  forRange 0 nfield (fun k tr =>
    forRange 0 ncell (fun i tr =>
      tr ++ [Access.mk uA k (u0 + k * field_stride + i),
        Access.mk Arr.f k (f0 + k * field_stride + i),
        Access.mk Arr.g k (g0 + k * field_stride + i)]) tr) tr

/-- Accesses of `central2d_predict(v, scratch, u, f, g, dtcdx2, dtcdy2, nx, ny, nfield)`. -/
def central2d_predict_trace (nx ny nfield : Int) (tr : List Access) : List Access :=
  let fx : Int := 0
  let gy : Int := nx
  forRange 0 nfield (fun k tr =>
    forRange 1 (ny - 1) (fun iy tr =>
      let offset := (k * ny + iy) * nx + 1
      let tr := limited_deriv1_trace (fx + 1) Arr.f k offset (nx - 2) tr
      let tr := limited_derivk_trace (gy + 1) Arr.g k offset (nx - 2) nx tr
      forRange 1 (nx - 1) (fun ix tr =>
        let offset := (k * ny + iy) * nx + ix
        tr ++ [Access.mk Arr.u k offset, Access.mk Arr.scratch k (fx + ix),
          Access.mk Arr.scratch k (gy + ix), Access.mk Arr.v k offset]) tr) tr) tr

/-- Accesses of `central2d_correct_sd(s, d, ux, uy, u, f, g, dtcdx2, dtcdy2, xlo, xhi)`: `s`, `d`,
`ux`, `uy` are offsets into the scratch block, `u0`, `f0`, `g0` offsets into `u`, `f`, `g`. -/
def central2d_correct_sd_trace (s d ux uy : Int) (k u0 f0 g0 : Int) (xlo xhi : Int)
    (tr : List Access) : List Access :=
  let tr := forRange xlo xhi (fun ix tr =>
    tr ++ [Access.mk Arr.u k (u0 + ix), Access.mk Arr.u k (u0 + (ix + 1)),
      Access.mk Arr.scratch k (ux + ix), Access.mk Arr.scratch k (ux + (ix + 1)),
      Access.mk Arr.f k (f0 + ix), Access.mk Arr.f k (f0 + (ix + 1)),
      Access.mk Arr.scratch k (s + ix)]) tr
  forRange xlo xhi (fun ix tr =>
    tr ++ [Access.mk Arr.scratch k (uy + ix), Access.mk Arr.scratch k (uy + (ix + 1)),
      Access.mk Arr.g k (g0 + ix), Access.mk Arr.g k (g0 + (ix + 1)),
      Access.mk Arr.scratch k (d + ix)]) tr

/-- Local state of the trace of `central2d_correct`: the accesses so far and the four row
pointers. -/
structure CorrectTrace where
  tr : List Access
  s0 : Int
  d0 : Int
  s1 : Int
  d1 : Int

/-- Accesses of `central2d_correct(v, scratch, u, f, g, dtcdx2, dtcdy2, xlo, xhi, ylo, yhi, nx, ny,
nfield)` with `v` at offset `v0` of the array `v`. -/
def central2d_correct_trace (v0 xlo xhi ylo yhi nx ny nfield : Int) (tr : List Access) :
    List Access :=
  let ux : Int := 0
  let uy : Int := nx
  (forRange 0 nfield (fun k st =>
    let vk := v0 + k * ny * nx
    let uk := k * ny * nx
    let fk := k * ny * nx
    let gk := k * ny * nx
    let tr := limited_deriv1_trace (ux + 1) Arr.u k (uk + ylo * nx + 1) (nx - 2) st.tr
    let tr := limited_derivk_trace (uy + 1) Arr.u k (uk + ylo * nx + 1) (nx - 2) nx tr
    let tr := central2d_correct_sd_trace st.s1 st.d1 ux uy k (uk + ylo * nx) (fk + ylo * nx)
      (gk + ylo * nx) xlo xhi tr
    forRange ylo yhi (fun iy st =>
      let s0 := st.s1
      let s1 := st.s0
      let d0 := st.d1
      let d1 := st.d0
      let tr := limited_deriv1_trace (ux + 1) Arr.u k (uk + (iy + 1) * nx + 1) (nx - 2) st.tr
      let tr := limited_derivk_trace (uy + 1) Arr.u k (uk + (iy + 1) * nx + 1) (nx - 2) nx tr
      let tr := central2d_correct_sd_trace s1 d1 ux uy k (uk + (iy + 1) * nx)
        (fk + (iy + 1) * nx) (gk + (iy + 1) * nx) xlo xhi tr
      let tr := forRange xlo xhi (fun ix tr =>
        tr ++ [Access.mk Arr.scratch k (s1 + ix), Access.mk Arr.scratch k (s0 + ix),
          Access.mk Arr.scratch k (d1 + ix), Access.mk Arr.scratch k (d0 + ix),
          Access.mk Arr.v k (vk + (iy * nx + ix))]) tr
      CorrectTrace.mk tr s0 d0 s1 d1)
      (CorrectTrace.mk tr st.s0 st.d0 st.s1 st.d1))
    (CorrectTrace.mk tr (2 * nx) (3 * nx) (4 * nx) (5 * nx))).tr

/-- Accesses of `central2d_step(u, v, scratch, f, g, io, nx, ny, ng, nfield, flux, speed, dt, dx, dy)`
for a cell-wise flux callback. -/
def central2d_step_trace (io nx ny ng nfield : Int) : List Access :=
  let nx_all := nx + 2 * ng
  let ny_all := ny + 2 * ng
  let tr := flux_trace Arr.u 0 0 0 (nx_all * ny_all) (nx_all * ny_all) nfield []
  let tr := central2d_predict_trace nx_all ny_all nfield tr
  let tr := forRange 1 (ny_all - 1) (fun iy tr =>
    let jj := iy * nx_all + 1
    flux_trace Arr.v jj jj jj (nx_all - 2) (nx_all * ny_all) nfield tr) tr
  central2d_correct_trace (io * (nx_all + 1)) (ng - io) (nx + ng - io) (ng - io)
    (ny + ng - io) nx_all ny_all nfield tr

/-- Offsets of the destination array that `copy_subgrid(dst, src, nx, ny, stride1, stride2)`
writes, in program order, with `dst` at offset `d0` of the array. -/
def copy_subgrid_writes (d0 nx ny stride1 : Int) (tr : List Int) : List Int :=
  forRange 0 ny (fun iy tr =>
    forRange 0 nx (fun ix tr => tr ++ [d0 + (iy * stride1 + ix)]) tr) tr

/-- Offsets of the destination array that `copy_subgrid_allfield(dst, src, nx, ny, c1, c2,
stride1, stride2, nfield)` writes, in program order. -/
def copy_subgrid_allfield_writes (d0 nx ny c1 stride1 nfield : Int) (tr : List Int) :
    List Int :=
  forRange 0 nfield (fun k tr => copy_subgrid_writes (d0 + k * c1) nx ny stride1 tr) tr

/-- Offsets of the global buffer `u` that the parallel region of one pass of `central2d_xrun`
writes: the back-copies of the threads `0 .. partx*party - 1`, the only writes to `u`. -/
def central2d_xrun_sweep_writes (nx ny ng nfield partx party : Int) : List Int :=
  let nx_all := nx + 2 * ng
  let ny_all := ny + 2 * ng
  let c := nx_all * ny_all
  let sx := Int.tdiv nx partx
  let sy := Int.tdiv ny party
  forRange 0 (partx * party) (fun j tr =>
    let px := Int.tmod j partx
    let py := Int.tdiv j party
    copy_subgrid_allfield_writes (nx_all * (ng + py * sy) + (ng + px * sx)) sx sy c nx_all
      nfield tr) []

/-- An access is in bounds for buffers of `nfield` fields of `NX` by `NY` cells and a scratch
block of `6 * NX` values: a scratch offset lies in `[0, 6*NX)`; an offset into `u`, `v`, `f`
or `g` lies in `[0, nfield*NX*NY)` and is a cell `(x, y)` of `[0, NX) x [0, NY)` of the field
`k` of the access. -/
def access_in_bounds (nfield NX NY : Int) (a : Access) : Prop :=
  match a.arr with
  | Arr.scratch => 0 ≤ a.idx ∧ a.idx < 6 * NX
  | _ =>
    (0 ≤ a.idx ∧ a.idx < nfield * NX * NY) ∧ (0 ≤ a.k ∧ a.k < nfield) ∧
      ∃ x y, 0 ≤ x ∧ x < NX ∧ 0 ≤ y ∧ y < NY ∧ a.idx = (a.k * NY + y) * NX + x

/-! ## Pointwise form of the scheme

The kernels above act on flat buffers.  The definitions below state, cell by cell in grid
coordinates `(k, x, y)` (field, column, row), the values that the predictor, the corrector and a
whole sub-step are meant to produce; the theorems relate the two. -/

/-- A field family in grid coordinates: field `k`, column `x`, row `y`. -/
abbrev Grid := Int → Int → Int → ℚ

/-- The grid that a flat buffer with `nx` columns and `ny` rows per field holds. -/
def view (b : Buf) (nx ny : Int) : Grid := fun k x y => b ((k * ny + y) * nx + x)

/-- The state of the `nfield` fields at cell `(x, y)`. -/
def cell (nfield : Int) (U : Grid) (x y : Int) : Int → ℚ :=
  fun k => if 0 ≤ k ∧ k < nfield then U k x y else 0

/-- A flux callback is cell-wise, with cell functions `phi` (for `FU`) and `psi` (for `GU`),
when for `0 ≤ ncell ≤ field_stride` it writes at cell `i` of field `k` the value of the cell
function on the state of cell `i`, and writes nothing else. -/
def IsCellwiseFlux (flux : flux_t) (nfield : Int) (phi psi : (Int → ℚ) → Int → ℚ) : Prop :=
  ∀ (FU : Buf) (f0 : Int) (GU : Buf) (g0 : Int) (U : Buf) (u0 ncell stride : Int),
    0 ≤ ncell → ncell ≤ stride →
    (∀ k i, 0 ≤ k → k < nfield → 0 ≤ i → i < ncell →
      (flux FU f0 GU g0 U u0 ncell stride).1 (f0 + k * stride + i) =
          phi (fun k2 => if 0 ≤ k2 ∧ k2 < nfield then U (u0 + k2 * stride + i) else 0) k ∧
      (flux FU f0 GU g0 U u0 ncell stride).2 (g0 + k * stride + i) =
          psi (fun k2 => if 0 ≤ k2 ∧ k2 < nfield then U (u0 + k2 * stride + i) else 0) k) ∧
    (∀ p, (∀ k i, 0 ≤ k → k < nfield → 0 ≤ i → i < ncell → p ≠ f0 + k * stride + i) →
      (flux FU f0 GU g0 U u0 ncell stride).1 p = FU p) ∧
    (∀ p, (∀ k i, 0 ≤ k → k < nfield → 0 ≤ i → i < ncell → p ≠ g0 + k * stride + i) →
      (flux FU f0 GU g0 U u0 ncell stride).2 p = GU p)

/-- The flux grid of a cell function on a state grid. -/
def flux_at (phi : (Int → ℚ) → Int → ℚ) (nfield : Int) (U : Grid) : Grid :=
  fun k x y => phi (cell nfield U x y) k

/-- Predictor value at a cell: `u - dtcdx2 * (limited x-slope of f) - dtcdy2 * (limited
y-slope of g)`. -/
def predict_at (cx cy : ℚ) (U F G : Grid) : Grid := fun k x y =>
  U k x y - cx * limdiff (F k (x - 1) y) (F k x y) (F k (x + 1) y)
    - cy * limdiff (G k x (y - 1)) (G k x y) (G k x (y + 1))

/-- The row term `s` of the corrector at staggered index `(x, y)`. -/
def correct_s (cx : ℚ) (U F : Grid) : Grid := fun k x y =>
  1 / 4 * (U k x y + U k (x + 1) y) +
  1 / 16 * (limdiff (U k (x - 1) y) (U k x y) (U k (x + 1) y) -
    limdiff (U k x y) (U k (x + 1) y) (U k (x + 2) y)) +
  cx * (F k x y - F k (x + 1) y)

/-- The row term `d` of the corrector at staggered index `(x, y)`. -/
def correct_d (cy : ℚ) (U G : Grid) : Grid := fun k x y =>
  1 / 16 * (limdiff (U k x (y - 1)) (U k x y) (U k x (y + 1)) +
    limdiff (U k (x + 1) (y - 1)) (U k (x + 1) y) (U k (x + 1) (y + 1))) +
  cy * (G k x y + G k (x + 1) y)

/-- Corrector value at staggered index `(x, y)`: the direct staggered formula
`(s(x, y+1) + s(x, y)) - (d(x, y+1) - d(x, y))`. -/
def correct_at (cx cy : ℚ) (U F G : Grid) : Grid := fun k x y =>
  (correct_s cx U F k x (y + 1) + correct_s cx U F k x y) -
    (correct_d cy U G k x (y + 1) - correct_d cy U G k x y)

/-- The half-step state: the predictor applied with the fluxes of the state itself. -/
def half_at (phi psi : (Int → ℚ) → Int → ℚ) (nfield : Int) (cx cy : ℚ) (U : Grid) : Grid :=
  predict_at cx cy U (flux_at phi nfield U) (flux_at psi nfield U)

/-- One sub-step at staggered index `(x, y)`: the corrector applied to the state with the
fluxes of the half-step state. -/
def step_at (phi psi : (Int → ℚ) → Int → ℚ) (nfield : Int) (cx cy : ℚ) (U : Grid) : Grid :=
  correct_at cx cy U (flux_at phi nfield (half_at phi psi nfield cx cy U))
    (flux_at psi nfield (half_at phi psi nfield cx cy U))

/-- The periodic extension of the interior of a global buffer (`nx` by `ny` interior cells,
ghost width `ng`) to all grid coordinates: the canonical interior cell of `(X, Y)`. -/
def periodic_ext (u : Buf) (nx ny ng : Int) : Grid := fun k X Y =>
  u ((k * (ny + 2 * ng) + (ng + Y % ny)) * (nx + 2 * ng) + (ng + X % nx))

/-- A grid read at coordinates moved by `(a, b)`. -/
def shift_grid (a b : Int) (U : Grid) : Grid := fun k x y => U k (x + a) (y + b)

/-- One pass of the run loop in pointwise form: two sub-steps on the periodic extension of the
global interior, the second read one cell down and to the left (the parity shift). -/
def pass_at (phi psi : (Int → ℚ) → Int → ℚ) (nfield : Int) (cx cy : ℚ)
    (u : Buf) (nx ny ng : Int) : Grid := fun k gx gy =>
  step_at phi psi nfield cx cy
    (step_at phi psi nfield cx cy (periodic_ext u nx ny ng)) k (gx - 1) (gy - 1)

/-! ## A concrete configuration -/

/-- An 8 by 8 shallow-water simulation as `central2d_init(8, 8, 8, 8, 3, shallow2d_flux, speed,
cfl = 1)` lays it out (`ng = 4`, `dx = dy = 1`), every buffer cell holding its own flat index,
with a wave-speed callback that leaves the accumulator as it is. -/
def sample_sim : central2d_t :=
  central2d_t.mk 3 8 8 4 1 1 1 shallow2d_flux (fun cxy _ _ _ _ => cxy)
    (fun p => (p : ℚ)) (fun p => (p : ℚ)) (fun p => (p : ℚ)) (fun p => (p : ℚ))
    (fun p => (p : ℚ))

/-- A buffer that alternates `1, 0, 1, 0, ...` along the flat index: with an even row length
it repeats with period 2 along both axes. -/
def sample_stripes : Buf := fun p => if p % 2 = 0 then 1 else 0

/-- The same 8 by 8 configuration at rest: `h = 1` in the whole first field and `hu = hv = 0`
(each field takes 16 * 16 = 256 cells of the padded buffer). -/
def sample_flat : central2d_t :=
  central2d_t.mk 3 8 8 4 1 1 1 shallow2d_flux (fun cxy _ _ _ _ => cxy)
    (fun p => if p < 256 then 1 else 0) (fun _ => 0) (fun _ => 0) (fun _ => 0) (fun _ => 0)

/-- A rational stand-in for the library function `sqrtf` in the samples: four Heron steps
from 1. -/
def sample_sqrtf (x : ℚ) : ℚ := Nat.iterate (fun y => (y + x / y) / 2) 4 1

/-- The 8 by 8 configuration at rest with the shallow-water wave speed as its callback, run by
a team of four threads that share the cells round-robin. -/
def sample_wave : central2d_t :=
  central2d_t.mk 3 8 8 4 1 1 1 shallow2d_flux
    (shallow2d_speed sample_sqrtf 4 (fun i => i % 4))
    (fun p => if p < 256 then 1 else 0) (fun _ => 0) (fun _ => 0) (fun _ => 0) (fun _ => 0)

/-- The configuration `sample_wave` with one ghost cell changed: the `hu` entry of the padded
cell `(0, 0)`, flat index 256, holds 1000 instead of 0.  Every interior cell is as in
`sample_wave`. -/
def sample_wave_ghost : central2d_t :=
  central2d_t.mk 3 8 8 4 1 1 1 shallow2d_flux
    (shallow2d_speed sample_sqrtf 4 (fun i => i % 4))
    (fun p => if p = 256 then 1000 else if p < 256 then 1 else 0)
    (fun _ => 0) (fun _ => 0) (fun _ => 0) (fun _ => 0)
/-! ## Loop rules -/

theorem loopN_ind {σ : Type} (body : Nat → σ → σ) (Inv : Nat → σ → Prop) (n : Nat) (s : σ)
    (h0 : Inv 0 s) (hstep : ∀ i s, i < n → Inv i s → Inv (i + 1) (body i s)) :
    Inv n (loopN body n s) := by
  induction n with
  | zero => exact h0
  | succ m ih =>
    exact hstep m _ (Nat.lt_succ_self m) (ih (fun i s hi h => hstep i s (Nat.lt_succ_of_lt hi) h))

theorem forRange_empty {σ : Type} (lo hi : Int) (body : Int → σ → σ) (s : σ) (h : hi ≤ lo) :
    forRange lo hi body s = s := by
  have h0 : (hi - lo).toNat = 0 := by omega
  simp [forRange, h0, loopN]

theorem forRange_ind {σ : Type} (lo hi : Int) (body : Int → σ → σ) (Inv : Int → σ → Prop)
    (s : σ) (hle : lo ≤ hi) (h0 : Inv lo s)
    (hstep : ∀ i s, lo ≤ i → i < hi → Inv i s → Inv (i + 1) (body i s)) :
    Inv hi (forRange lo hi body s) := by
  have key := loopN_ind (fun i => body (lo + (i : Int))) (fun i s => Inv (lo + (i : Int)) s)
    (hi - lo).toNat s (by simpa using h0)
    (fun i s hi' h => by
      have h1 := hstep (lo + (i : Int)) s (by omega) (by omega) h
      have h2 : lo + ((i + 1 : Nat) : Int) = lo + (i : Int) + 1 := by push_cast; ring
      show Inv (lo + ((i + 1 : Nat) : Int)) _
      rw [h2]; exact h1)
  have h3 : lo + (((hi - lo).toNat : Nat) : Int) = hi := by omega
  have key2 : Inv (lo + (((hi - lo).toNat : Nat) : Int)) (forRange lo hi body s) := key
  rw [h3] at key2
  exact key2

theorem loopNM_ind {σ : Type} (body : Nat → σ → Option σ) (Inv : Nat → σ → Prop) (n : Nat)
    (s : σ) (h0 : Inv 0 s)
    (hstep : ∀ i s, i < n → Inv i s → ∃ s', body i s = some s' ∧ Inv (i + 1) s') :
    ∃ s', loopNM body n s = some s' ∧ Inv n s' := by
  induction n with
  | zero => exact ⟨s, rfl, h0⟩
  | succ m ih =>
    obtain ⟨s1, hs1, hinv⟩ := ih (fun i s hi h => hstep i s (Nat.lt_succ_of_lt hi) h)
    obtain ⟨s2, hs2, hinv2⟩ := hstep m s1 (Nat.lt_succ_self m) hinv
    exact ⟨s2, by simp [loopNM, hs1, hs2], hinv2⟩

theorem forRangeM_empty {σ : Type} (lo hi : Int) (body : Int → σ → Option σ) (s : σ)
    (h : hi ≤ lo) : forRangeM lo hi body s = some s := by
  have h0 : (hi - lo).toNat = 0 := by omega
  simp [forRangeM, h0, loopNM]

theorem forRangeM_ind {σ : Type} (lo hi : Int) (body : Int → σ → Option σ)
    (Inv : Int → σ → Prop) (s : σ) (hle : lo ≤ hi) (h0 : Inv lo s)
    (hstep : ∀ i s, lo ≤ i → i < hi → Inv i s → ∃ s', body i s = some s' ∧ Inv (i + 1) s') :
    ∃ s', forRangeM lo hi body s = some s' ∧ Inv hi s' := by
  have key := loopNM_ind (fun i => body (lo + (i : Int))) (fun i s => Inv (lo + (i : Int)) s)
    (hi - lo).toNat s (by simpa using h0)
    (fun i s hi' h => by
      obtain ⟨s', hs', h1⟩ := hstep (lo + (i : Int)) s (by omega) (by omega) h
      have h2 : lo + ((i + 1 : Nat) : Int) = lo + (i : Int) + 1 := by push_cast; ring
      exact ⟨s', hs', by show Inv (lo + ((i + 1 : Nat) : Int)) _; rw [h2]; exact h1⟩)
  have h3 : lo + (((hi - lo).toNat : Nat) : Int) = hi := by omega
  have key2 : ∃ s', forRangeM lo hi body s = some s' ∧
      Inv (lo + (((hi - lo).toNat : Nat) : Int)) s' := key
  rw [h3] at key2
  exact key2

theorem store_eq (b : Buf) (i : Int) (x : ℚ) : store b i x i = x := by simp [store]

theorem store_ne (b : Buf) (i j : Int) (x : ℚ) (h : j ≠ i) : store b i x j = b j := by
  simp [store, h]

/-- A loop that stores `val i` at `base + i` for `lo ≤ i < hi`. -/
theorem forRange_store (lo hi : Int) (a : Int → Int) (base : Int) (val : Int → ℚ) (b : Buf)
    (ha : ∀ i, a i = base + i) (p : Int) :
    forRange lo hi (fun i b => store b (a i) (val i)) b p =
      if lo ≤ p - base ∧ p - base < hi then val (p - base) else b p := by
  rcases le_or_lt lo hi with hle | hlt
  · have key := forRange_ind lo hi (fun i b => store b (a i) (val i))
      (fun i b' => ∀ p, b' p = if lo ≤ p - base ∧ p - base < i then val (p - base) else b p)
      b hle (by intro p; rw [if_neg (by omega)])
      (by
        intro i s h1 h2 hinv p
        beta_reduce
        by_cases hp : p = a i
        · subst hp
          rw [store_eq, ha i, if_pos (by omega)]
          congr 1; omega
        · rw [store_ne _ _ _ _ hp, hinv p]
          have : p - base ≠ i := by
            intro h; apply hp; rw [ha i]; omega
          by_cases hc : lo ≤ p - base ∧ p - base < i
          · rw [if_pos hc, if_pos (by omega)]
          · rw [if_neg hc, if_neg (by omega)])
    exact key p
  · rw [forRange_empty _ _ _ _ hlt.le, if_neg (by omega)]


/-! ## Flat indices -/

/-- Row and column of a flat index are determined when the column is within the stride. -/
theorem flat_index_inj (s a b x y : Int) (hx : 0 ≤ x) (hx' : x < s) (hy : 0 ≤ y) (hy' : y < s)
    (h : a * s + x = b * s + y) : a = b ∧ x = y := by
  have hab : a = b := by
    rcases lt_trichotomy a b with hlt | heq | hgt
    · exfalso; nlinarith
    · exact heq
    · exfalso; nlinarith
  subst hab
  exact ⟨rfl, by omega⟩

/-- A column window of a row of another row block never meets the flat index `R * s + i`. -/
theorem flat_window_iff (s c0 w D x : Int) (hc0 : 0 ≤ c0) (hw : c0 + w ≤ s)
    (hx0 : 0 ≤ x) (hx1 : x < s) :
    (0 ≤ D * s + (x - c0) ∧ D * s + (x - c0) < w) ↔ (D = 0 ∧ c0 ≤ x ∧ x < c0 + w) := by
  constructor
  · rintro ⟨h1, h2⟩
    have hD : D = 0 := by
      rcases lt_trichotomy D 0 with hlt | heq | hgt
      · exfalso
        have : D * s ≤ -1 * s := mul_le_mul_of_nonneg_right (by omega) (by omega)
        omega
      · exact heq
      · exfalso
        have : 1 * s ≤ D * s := mul_le_mul_of_nonneg_right (by omega) (by omega)
        omega
    subst hD
    omega
  · rintro ⟨hD, h1, h2⟩
    subst hD
    omega

/-- Value of the result of `copy_subgrid` at row `R`, column `i` of the destination, for a
destination window of `w` columns from column `c0` and `h` rows from row `r0`. -/
theorem copy_subgrid_get (dst src : Buf) (d0 s0 w h s s2 c0 r0 : Int)
    (hd0 : d0 = r0 * s + c0) (hc0 : 0 ≤ c0) (hw : c0 + w ≤ s)
    (R i : Int) (hi0 : 0 ≤ i) (hi1 : i < s) :
    copy_subgrid dst d0 src s0 w h s s2 (R * s + i) =
      if c0 ≤ i ∧ i < c0 + w ∧ r0 ≤ R ∧ R < r0 + h
      then src (s0 + ((R - r0) * s2 + (i - c0))) else dst (R * s + i) := by
  rcases le_or_lt 0 h with hh | hh
  · have key := forRange_ind 0 h
      (fun iy dst => forRange 0 w (fun ix dst =>
        store dst (d0 + (iy * s + ix)) (src (s0 + (iy * s2 + ix)))) dst)
      (fun iy b => ∀ R i, 0 ≤ i → i < s → b (R * s + i) =
        if c0 ≤ i ∧ i < c0 + w ∧ r0 ≤ R ∧ R < r0 + iy
        then src (s0 + ((R - r0) * s2 + (i - c0))) else dst (R * s + i))
      dst hh (by intro R i _ _; rw [if_neg (by omega)])
      (by
        intro iy b h1 h2 hinv R i hi0 hi1
        beta_reduce
        rw [forRange_store 0 w (fun ix => d0 + (iy * s + ix)) (d0 + iy * s)
          (fun ix => src (s0 + (iy * s2 + ix))) b (by intro ix; ring)]
        have e1 : R * s + i - (d0 + iy * s) = (R - r0 - iy) * s + (i - c0) := by
          rw [hd0]; ring
        rw [e1]
        have hiff := flat_window_iff s c0 w (R - r0 - iy) i hc0 hw hi0 hi1
        by_cases hc : 0 ≤ (R - r0 - iy) * s + (i - c0) ∧ (R - r0 - iy) * s + (i - c0) < w
        · obtain ⟨hD, h3, h4⟩ := hiff.mp hc
          rw [if_pos hc, if_pos (by omega)]
          have hR : R - r0 = iy := by omega
          rw [hD, hR]; simp
        · rw [if_neg hc, hinv R i hi0 hi1]
          have hn : ¬ (R - r0 - iy = 0 ∧ c0 ≤ i ∧ i < c0 + w) := fun h => hc (hiff.mpr h)
          by_cases hc2 : c0 ≤ i ∧ i < c0 + w ∧ r0 ≤ R ∧ R < r0 + iy
          · rw [if_pos hc2, if_pos (by omega)]
          · rw [if_neg hc2, if_neg (by omega)])
    exact key R i hi0 hi1
  · unfold copy_subgrid
    rw [forRange_empty _ _ _ _ hh.le, if_neg (by omega)]


theorem copy_subgrid_get_in (dst src : Buf) (d0 s0 w h s s2 c0 r0 : Int)
    (hd0 : d0 = r0 * s + c0) (hc0 : 0 ≤ c0) (hw : c0 + w ≤ s)
    (R i : Int) (hi0 : 0 ≤ i) (hi1 : i < s)
    (hin : c0 ≤ i ∧ i < c0 + w ∧ r0 ≤ R ∧ R < r0 + h) :
    copy_subgrid dst d0 src s0 w h s s2 (R * s + i) =
      src (s0 + ((R - r0) * s2 + (i - c0))) := by
  rw [copy_subgrid_get dst src d0 s0 w h s s2 c0 r0 hd0 hc0 hw R i hi0 hi1, if_pos hin]

theorem copy_subgrid_get_out (dst src : Buf) (d0 s0 w h s s2 c0 r0 : Int)
    (hd0 : d0 = r0 * s + c0) (hc0 : 0 ≤ c0) (hw : c0 + w ≤ s)
    (R i : Int) (hi0 : 0 ≤ i) (hi1 : i < s)
    (hout : ¬ (c0 ≤ i ∧ i < c0 + w ∧ r0 ≤ R ∧ R < r0 + h)) :
    copy_subgrid dst d0 src s0 w h s s2 (R * s + i) = dst (R * s + i) := by
  rw [copy_subgrid_get dst src d0 s0 w h s s2 c0 r0 hd0 hc0 hw R i hi0 hi1, if_neg hout]

/-- Loop rule without a bound on the range: the invariant holds at `max lo hi`. -/
theorem forRange_ind_max {σ : Type} (lo hi : Int) (body : Int → σ → σ) (Inv : Int → σ → Prop)
    (s : σ) (h0 : Inv lo s)
    (hstep : ∀ i s, lo ≤ i → i < hi → Inv i s → Inv (i + 1) (body i s)) :
    Inv (max lo hi) (forRange lo hi body s) := by
  rcases le_or_lt lo hi with h | h
  · rw [max_eq_right h]
    exact forRange_ind lo hi body Inv s h h0 hstep
  · rw [max_eq_left h.le, forRange_empty lo hi body s h.le]
    exact h0

/-- Loop rule for a failing body without a bound on the range. -/
theorem forRangeM_ind_max {σ : Type} (lo hi : Int) (body : Int → σ → Option σ)
    (Inv : Int → σ → Prop) (s : σ) (h0 : Inv lo s)
    (hstep : ∀ i s, lo ≤ i → i < hi → Inv i s → ∃ s', body i s = some s' ∧ Inv (i + 1) s') :
    ∃ s', forRangeM lo hi body s = some s' ∧ Inv (max lo hi) s' := by
  rcases le_or_lt lo hi with h | h
  · rw [max_eq_right h]
    exact forRangeM_ind lo hi body Inv s h h0 hstep
  · rw [max_eq_left h.le, forRangeM_empty lo hi body s h.le]
    exact ⟨s, rfl, h0⟩

/-- Loop rule for a failing body, with a postcondition. -/
theorem forRangeM_post {σ : Type} (lo hi : Int) (body : Int → σ → Option σ)
    (Inv : Int → σ → Prop) (Q : σ → Prop) (s : σ) (h0 : Inv lo s)
    (hstep : ∀ i s, lo ≤ i → i < hi → Inv i s → ∃ s', body i s = some s' ∧ Inv (i + 1) s')
    (hpost : ∀ s', Inv (max lo hi) s' → Q s') :
    ∃ s', forRangeM lo hi body s = some s' ∧ Q s' := by
  obtain ⟨s', h1, h2⟩ := forRangeM_ind_max lo hi body Inv s h0 hstep
  exact ⟨s', h1, hpost s' h2⟩

/-! ## The limiter -/

theorem fabsf_eq_abs (x : ℚ) : fabsf x = |x| := by
  unfold fabsf
  split_ifs with h
  · exact (abs_of_neg h).symm
  · exact (abs_of_nonneg (not_lt.mp h)).symm

theorem xmin2s_nonneg_nonneg (s a b : ℚ) (hs : 0 ≤ s) (ha : 0 ≤ a) (hb : 0 ≤ b) :
    xmin2s s a b = 2 * s * min a b := by
  have h1 : ¬ a < 0 := not_lt.mpr ha
  have h2 : ¬ b < 0 := not_lt.mpr hb
  have h3 : ¬ s < 0 := not_lt.mpr hs
  simp only [xmin2s, copysignf, fabsf, h1, h2, h3, if_false]
  rcases lt_or_le a b with h | h
  · rw [if_pos h, min_eq_left h.le]; ring
  · rw [if_neg (not_lt.mpr h), min_eq_right h]; ring

theorem xmin2s_neg_neg (s a b : ℚ) (hs : 0 ≤ s) (ha : a < 0) (hb : b < 0) :
    xmin2s s a b = -(2 * s * min (-a) (-b)) := by
  have h3 : ¬ s < 0 := not_lt.mpr hs
  simp only [xmin2s, copysignf, fabsf, ha, hb, h3, if_true, if_false]
  rcases lt_or_le (-a) (-b) with h | h
  · rw [if_pos h, min_eq_left h.le]; ring
  · rw [if_neg (not_lt.mpr h), min_eq_right h]; ring

theorem xmin2s_nonneg_neg (s a b : ℚ) (ha : 0 ≤ a) (hb : b < 0) :
    xmin2s s a b = 0 := by
  have h1 : ¬ a < 0 := not_lt.mpr ha
  simp only [xmin2s, copysignf, h1, hb, if_true, if_false]
  ring

theorem xmin2s_neg_nonneg (s a b : ℚ) (ha : a < 0) (hb : 0 ≤ b) :
    xmin2s s a b = 0 := by
  have h1 : ¬ b < 0 := not_lt.mpr hb
  simp only [xmin2s, copysignf, h1, ha, if_true, if_false]
  ring

theorem xmin2s_zero_left (s b : ℚ) : xmin2s s 0 b = 0 := by
  have h0 : fabsf 0 = 0 := by simp [fabsf]
  simp only [xmin2s, h0]
  split_ifs with h
  · simp
  · have hb : fabsf b = 0 :=
      le_antisymm (not_lt.mp h) (by rw [fabsf_eq_abs]; exact abs_nonneg b)
    rw [hb]; simp

/-- Closed form of `limdiff` on non-decreasing data. -/
theorem limdiff_nonneg_nonneg (um u0 up : ℚ) (h1 : 0 ≤ u0 - um) (h2 : 0 ≤ up - u0) :
    limdiff um u0 up = min (2 * (u0 - um)) (min (2 * (up - u0)) ((up - um) / 2)) := by
  unfold limdiff
  simp only []
  rw [xmin2s_nonneg_nonneg 2 _ _ (by norm_num) h1 h2]
  have hm : 0 ≤ min (u0 - um) (up - u0) := le_min h1 h2
  rw [xmin2s_nonneg_nonneg (1 / 4) _ _ (by norm_num) (by positivity) (by linarith)]
  simp only [min_def]
  split_ifs <;> linarith

/-- Closed form of `limdiff` on decreasing data. -/
theorem limdiff_neg_neg (um u0 up : ℚ) (h1 : u0 - um < 0) (h2 : up - u0 < 0) :
    limdiff um u0 up = -min (2 * (um - u0)) (min (2 * (u0 - up)) ((um - up) / 2)) := by
  unfold limdiff
  simp only []
  rw [xmin2s_neg_neg 2 _ _ (by norm_num) h1 h2]
  have hm : 0 < min (-(u0 - um)) (-(up - u0)) := lt_min (by linarith) (by linarith)
  rw [xmin2s_neg_neg (1 / 4) _ _ (by norm_num) (by linarith) (by linarith)]
  simp only [min_def]
  split_ifs <;> linarith

theorem limdiff_nonneg_neg (um u0 up : ℚ) (h1 : 0 ≤ u0 - um) (h2 : up - u0 < 0) :
    limdiff um u0 up = 0 := by
  unfold limdiff
  simp only []
  rw [xmin2s_nonneg_neg 2 _ _ h1 h2, xmin2s_zero_left]

theorem limdiff_neg_nonneg (um u0 up : ℚ) (h1 : u0 - um < 0) (h2 : 0 ≤ up - u0) :
    limdiff um u0 up = 0 := by
  unfold limdiff
  simp only []
  rw [xmin2s_neg_nonneg 2 _ _ h1 h2, xmin2s_zero_left]

theorem limdiff_const (a : ℚ) : limdiff a a a = 0 := by
  rw [limdiff_nonneg_nonneg a a a (by simp) (by simp)]; simp

/-- C2, as stated, fails: on the linear data `(0, 1, 2)` both one-sided differences are `1`,
`limdiff` returns `1`, and the stated magnitude `min(|2*1|, |2*1|, |0.25*2|)` is `1/2`. -/
theorem limdiff_quarter_center_counterexample :
    (0 : ℚ) < 1 - 0 ∧ (0 : ℚ) < 2 - 1 ∧
      |limdiff 0 1 2| ≠ min |2 * ((1 : ℚ) - 0)| (min |2 * ((2 : ℚ) - 1)| |1 / 4 * ((2 : ℚ) - 0)|) := by
  refine ⟨by norm_num, by norm_num, ?_⟩
  rw [limdiff_nonneg_nonneg 0 1 2 (by norm_num) (by norm_num)]
  have e1 : |2 * ((1 : ℚ) - 0)| = 2 := by rw [abs_of_pos] <;> norm_num
  have e2 : |2 * ((2 : ℚ) - 1)| = 2 := by rw [abs_of_pos] <;> norm_num
  have e3 : |1 / 4 * ((2 : ℚ) - 0)| = 1 / 2 := by rw [abs_of_pos] <;> norm_num
  rw [e1, e2, e3]
  norm_num

/-- C2 (amended): when the one-sided differences `u0 - um` and `up - u0` agree in sign,
`limdiff um u0 up` has magnitude `min(|2 * (u0 - um)|, |2 * (up - u0)|, |0.5 * (up - um)|)`
and carries the common sign of the differences. -/
theorem limdiff_same_sign (um u0 up : ℚ)
    (h : (0 < u0 - um ∧ 0 < up - u0) ∨ (u0 - um < 0 ∧ up - u0 < 0)) :
    |limdiff um u0 up| =
        min |2 * (u0 - um)| (min |2 * (up - u0)| |1 / 2 * (up - um)|) ∧
      (0 < u0 - um → 0 < limdiff um u0 up) ∧ (u0 - um < 0 → limdiff um u0 up < 0) := by
  rcases h with ⟨h1, h2⟩ | ⟨h1, h2⟩
  · have hpos : 0 < limdiff um u0 up := by
      rw [limdiff_nonneg_nonneg um u0 up h1.le h2.le]
      exact lt_min (by linarith) (lt_min (by linarith) (by linarith))
    refine ⟨?_, fun _ => hpos, fun h => absurd h1 (not_lt.mpr h.le)⟩
    rw [abs_of_pos hpos, limdiff_nonneg_nonneg um u0 up h1.le h2.le,
      abs_of_pos (by linarith : 0 < 2 * (u0 - um)), abs_of_pos (by linarith : 0 < 2 * (up - u0)),
      abs_of_pos (by linarith : 0 < 1 / 2 * (up - um))]
    congr 2; ring
  · have hneg : limdiff um u0 up < 0 := by
      rw [limdiff_neg_neg um u0 up h1 h2, neg_lt_zero]
      exact lt_min (by linarith) (lt_min (by linarith) (by linarith))
    refine ⟨?_, fun h => absurd h1 (not_lt.mpr h.le), fun _ => hneg⟩
    rw [abs_of_neg hneg, limdiff_neg_neg um u0 up h1 h2, neg_neg,
      abs_of_neg (by linarith : 2 * (u0 - um) < 0), abs_of_neg (by linarith : 2 * (up - u0) < 0),
      abs_of_neg (by linarith : 1 / 2 * (up - um) < 0)]
    congr 1
    · ring
    · congr 1 <;> ring

theorem limdiff_same_sign_witness :
    (((0 : ℚ) < 3 - 1 ∧ (0 : ℚ) < 4 - 3) ∨ ((3 : ℚ) - 1 < 0 ∧ (4 : ℚ) - 3 < 0)) ∧
      (|limdiff 1 3 4| = min |2 * ((3 : ℚ) - 1)| (min |2 * ((4 : ℚ) - 3)| |1 / 2 * ((4 : ℚ) - 1)|) ∧
        ((0 : ℚ) < 3 - 1 → 0 < limdiff 1 3 4) ∧ ((3 : ℚ) - 1 < 0 → limdiff 1 3 4 < 0)) :=
  ⟨Or.inl ⟨by norm_num, by norm_num⟩,
    limdiff_same_sign 1 3 4 (Or.inl ⟨by norm_num, by norm_num⟩)⟩

/-- C3, as stated, fails: on `(0, 1, 4)` the one-sided differences are `1` and `3`,
`limdiff` returns `2`, which exceeds the smaller one-sided difference `1`. -/
theorem limdiff_exceeds_smaller_difference_counterexample :
    ¬ (|limdiff 0 1 4| ≤ min |(4 : ℚ) - 1| |(1 : ℚ) - 0|) := by
  rw [limdiff_nonneg_nonneg 0 1 4 (by norm_num) (by norm_num)]
  have e1 : |(4 : ℚ) - 1| = 3 := by rw [abs_of_pos] <;> norm_num
  have e2 : |(1 : ℚ) - 0| = 1 := by rw [abs_of_pos] <;> norm_num
  rw [e1, e2]
  norm_num

/-- C3 (amended): for every triple, `|limdiff um u0 up|` is at most `theta = 2` times the
smaller one-sided difference, `2 * min(|up - u0|, |u0 - um|)`. -/
theorem limdiff_abs_le (um u0 up : ℚ) :
    |limdiff um u0 up| ≤ 2 * min |up - u0| |u0 - um| := by
  rcases le_or_lt 0 (u0 - um) with h1 | h1 <;> rcases le_or_lt 0 (up - u0) with h2 | h2
  · rw [limdiff_nonneg_nonneg um u0 up h1 h2, abs_of_nonneg h1, abs_of_nonneg h2]
    have hnn : 0 ≤ min (2 * (u0 - um)) (min (2 * (up - u0)) ((up - um) / 2)) :=
      le_min (by linarith) (le_min (by linarith) (by linarith))
    rw [abs_of_nonneg hnn]
    simp only [min_def]
    split_ifs <;> linarith
  · rw [limdiff_nonneg_neg um u0 up h1 h2, abs_zero]
    exact mul_nonneg (by norm_num) (le_min (abs_nonneg _) (abs_nonneg _))
  · rw [limdiff_neg_nonneg um u0 up h1 h2, abs_zero]
    exact mul_nonneg (by norm_num) (le_min (abs_nonneg _) (abs_nonneg _))
  · rw [limdiff_neg_neg um u0 up h1 h2, abs_of_neg h1, abs_of_neg h2, abs_neg]
    have hnn : 0 ≤ min (2 * (um - u0)) (min (2 * (u0 - up)) ((um - up) / 2)) :=
      le_min (by linarith) (le_min (by linarith) (by linarith))
    rw [abs_of_nonneg hnn]
    simp only [min_def]
    split_ifs <;> linarith

/-- C4: when `up - u0` and `u0 - um` have opposite signs (one strictly positive, the other
strictly negative), `limdiff um u0 up = 0`. -/
theorem limdiff_opposite_signs (um u0 up : ℚ)
    (h : (0 < up - u0 ∧ u0 - um < 0) ∨ (up - u0 < 0 ∧ 0 < u0 - um)) :
    limdiff um u0 up = 0 := by
  rcases h with ⟨h2, h1⟩ | ⟨h2, h1⟩
  · exact limdiff_neg_nonneg um u0 up h1 h2.le
  · exact limdiff_nonneg_neg um u0 up h1.le h2

theorem limdiff_opposite_signs_witness :
    (((0 : ℚ) < 5 - 1 ∧ (1 : ℚ) - 2 < 0) ∨ ((5 : ℚ) - 1 < 0 ∧ (0 : ℚ) < 1 - 2)) ∧
      limdiff 2 1 5 = 0 :=
  ⟨Or.inl ⟨by norm_num, by norm_num⟩,
    limdiff_opposite_signs 2 1 5 (Or.inl ⟨by norm_num, by norm_num⟩)⟩

/-! ## Tile halo exchange -/

/-- Reduction modulo `N` on the three periods around `[0, N)`. -/
theorem emod_wrap (N x : Int) (_hN : 0 < N) :
    (0 ≤ x → x < N → x % N = x) ∧ (-N ≤ x → x < 0 → x % N = x + N) ∧
      (N ≤ x → x < 2 * N → x % N = x - N) := by
  refine ⟨fun h1 h2 => Int.emod_eq_of_lt h1 h2, fun h1 h2 => ?_, fun h1 h2 => ?_⟩
  · have : x % N = (x + N) % N := by simp
    rw [this]; exact Int.emod_eq_of_lt (by omega) (by omega)
  · have : x % N = (x - N) % N := by simp
    rw [this]; exact Int.emod_eq_of_lt (by omega) (by omega)

/-- Source offset, along one axis, of tile cell `i` in `central2d_periodic`: the three blocks
(low ghost, interior, high ghost) with the neighbour choices `modl`, `modr` of the code. -/
theorem periodic_axis (n ng part p i : Int) (hng : 0 ≤ ng) (hn : ng ≤ n)
    (hp0 : 0 ≤ p) (hp1 : p < part) (hi0 : 0 ≤ i) (hi1 : i < n + 2 * ng) :
    (if i < ng then (if p = 0 then part else p) * n + i
      else if i < ng + n then ng + p * n + (i - ng)
      else ng + (if p = part - 1 then 0 else p + 1) * n + (i - (ng + n))) =
      ng + (p * n + i - ng) % (part * n) := by
  have hn0 : 0 < n := by omega
  have hN : 0 < part * n := mul_pos (by omega) hn0
  have h1 : p * n + n ≤ part * n := by
    have : (p + 1) * n ≤ part * n := mul_le_mul_of_nonneg_right (by omega) (by omega)
    linarith
  have h2 : 0 ≤ p * n := mul_nonneg hp0 (by omega)
  obtain ⟨w1, w2, w3⟩ := emod_wrap (part * n) (p * n + i - ng) hN
  by_cases c1 : i < ng
  · rw [if_pos c1]
    by_cases c2 : p = 0
    · rw [if_pos c2]
      subst c2
      rw [w2 (by omega) (by omega)]; ring
    · rw [if_neg c2]
      have h3 : 1 * n ≤ p * n := mul_le_mul_of_nonneg_right (by omega) (by omega)
      rw [w1 (by omega) (by omega)]; ring
  · rw [if_neg c1]
    by_cases c3 : i < ng + n
    · rw [if_pos c3, w1 (by omega) (by omega)]; ring
    · rw [if_neg c3]
      by_cases c4 : p = part - 1
      · rw [if_pos c4]
        have h4 : p * n + n = part * n := by rw [c4]; ring
        rw [w3 (by omega) (by omega)]; omega
      · rw [if_neg c4]
        have h5 : (p + 2) * n ≤ part * n := mul_le_mul_of_nonneg_right (by omega) (by omega)
        have h6 : (p + 2) * n = p * n + 2 * n := by ring
        have h7 : (p + 1) * n = p * n + n := by ring
        rw [w1 (by omega) (by omega), h7]; omega

/-- Value of one field of the tile after the nine copies of `central2d_periodic`. -/
theorem central2d_periodic_field_get (src u : Buf) (nx ny ng partx party px py k : Int)
    (hng : 0 ≤ ng) (hnx : 0 ≤ nx) (hny : 0 ≤ ny)
    (j i : Int) (hj0 : 0 ≤ j) (hj1 : j < ny + 2 * ng) (hi0 : 0 ≤ i) (hi1 : i < nx + 2 * ng) :
    central2d_periodic_field src nx ny ng partx party px py k u
        ((k * (ny + 2 * ng) + j) * (nx + 2 * ng) + i) =
      src (k * ((ny * party + 2 * ng) * (nx * partx + 2 * ng)) +
        (if j < ng then (if py = 0 then party else py) * ny + j
          else if j < ng + ny then ng + py * ny + (j - ng)
          else ng + (if py = party - 1 then 0 else py + 1) * ny + (j - (ng + ny))) *
          (nx * partx + 2 * ng) +
        (if i < ng then (if px = 0 then partx else px) * nx + i
          else if i < ng + nx then ng + px * nx + (i - ng)
          else ng + (if px = partx - 1 then 0 else px + 1) * nx + (i - (ng + nx)))) := by
  unfold central2d_periodic_field
  by_cases c1 : i < ng <;> by_cases c2 : i < ng + nx <;>
    by_cases c3 : j < ng <;> by_cases c4 : j < ng + ny <;>
    simp only [c1, c2, c3, c4, if_true, if_false]
  all_goals (
    try (first
      | rw [copy_subgrid_get_in _ src _ _ _ _ _ _ (ng + nx) (k * (ny + 2 * ng) + (ng + ny))
          (by ring) (by omega) (by omega) _ i hi0 hi1 (by omega)]
      | rw [copy_subgrid_get_out _ src _ _ _ _ _ _ (ng + nx) (k * (ny + 2 * ng) + (ng + ny))
          (by ring) (by omega) (by omega) _ i hi0 hi1 (by omega)])
    try (first
      | rw [copy_subgrid_get_in _ src _ _ _ _ _ _ (ng + nx) (k * (ny + 2 * ng) + ng)
          (by ring) (by omega) (by omega) _ i hi0 hi1 (by omega)]
      | rw [copy_subgrid_get_out _ src _ _ _ _ _ _ (ng + nx) (k * (ny + 2 * ng) + ng)
          (by ring) (by omega) (by omega) _ i hi0 hi1 (by omega)])
    try (first
      | rw [copy_subgrid_get_in _ src _ _ _ _ _ _ (ng + nx) (k * (ny + 2 * ng))
          (by ring) (by omega) (by omega) _ i hi0 hi1 (by omega)]
      | rw [copy_subgrid_get_out _ src _ _ _ _ _ _ (ng + nx) (k * (ny + 2 * ng))
          (by ring) (by omega) (by omega) _ i hi0 hi1 (by omega)])
    try (first
      | rw [copy_subgrid_get_in _ src _ _ _ _ _ _ (ng) (k * (ny + 2 * ng) + (ng + ny))
          (by ring) (by omega) (by omega) _ i hi0 hi1 (by omega)]
      | rw [copy_subgrid_get_out _ src _ _ _ _ _ _ (ng) (k * (ny + 2 * ng) + (ng + ny))
          (by ring) (by omega) (by omega) _ i hi0 hi1 (by omega)])
    try (first
      | rw [copy_subgrid_get_in _ src _ _ _ _ _ _ (ng) (k * (ny + 2 * ng) + ng)
          (by ring) (by omega) (by omega) _ i hi0 hi1 (by omega)]
      | rw [copy_subgrid_get_out _ src _ _ _ _ _ _ (ng) (k * (ny + 2 * ng) + ng)
          (by ring) (by omega) (by omega) _ i hi0 hi1 (by omega)])
    try (first
      | rw [copy_subgrid_get_in _ src _ _ _ _ _ _ (ng) (k * (ny + 2 * ng))
          (by ring) (by omega) (by omega) _ i hi0 hi1 (by omega)]
      | rw [copy_subgrid_get_out _ src _ _ _ _ _ _ (ng) (k * (ny + 2 * ng))
          (by ring) (by omega) (by omega) _ i hi0 hi1 (by omega)])
    try (first
      | rw [copy_subgrid_get_in _ src _ _ _ _ _ _ (0) (k * (ny + 2 * ng) + (ng + ny))
          (by ring) (by omega) (by omega) _ i hi0 hi1 (by omega)]
      | rw [copy_subgrid_get_out _ src _ _ _ _ _ _ (0) (k * (ny + 2 * ng) + (ng + ny))
          (by ring) (by omega) (by omega) _ i hi0 hi1 (by omega)])
    try (first
      | rw [copy_subgrid_get_in _ src _ _ _ _ _ _ (0) (k * (ny + 2 * ng) + ng)
          (by ring) (by omega) (by omega) _ i hi0 hi1 (by omega)]
      | rw [copy_subgrid_get_out _ src _ _ _ _ _ _ (0) (k * (ny + 2 * ng) + ng)
          (by ring) (by omega) (by omega) _ i hi0 hi1 (by omega)])
    try rw [copy_subgrid_get_in _ src _ _ _ _ _ _ (0) (k * (ny + 2 * ng))
      (by ring) (by omega) (by omega) _ i hi0 hi1 (by omega)]
    first | (exfalso; omega) | (congr 1; ring1))

/-- The nine copies for field `k` leave the rows of every other field as they were. -/
theorem central2d_periodic_field_frame (src u : Buf) (nx ny ng partx party px py k : Int)
    (hng : 0 ≤ ng) (hnx : 0 ≤ nx) (hny : 0 ≤ ny)
    (R i : Int) (hR : R < k * (ny + 2 * ng) ∨ k * (ny + 2 * ng) + (ny + 2 * ng) ≤ R)
    (hi0 : 0 ≤ i) (hi1 : i < nx + 2 * ng) :
    central2d_periodic_field src nx ny ng partx party px py k u (R * (nx + 2 * ng) + i) =
      u (R * (nx + 2 * ng) + i) := by
  unfold central2d_periodic_field
  rw [copy_subgrid_get_out _ src _ _ _ _ _ _ (ng + nx) (k * (ny + 2 * ng) + (ng + ny))
      (by ring) (by omega) (by omega) R i hi0 hi1 (by omega),
    copy_subgrid_get_out _ src _ _ _ _ _ _ (ng + nx) (k * (ny + 2 * ng) + ng)
      (by ring) (by omega) (by omega) R i hi0 hi1 (by omega),
    copy_subgrid_get_out _ src _ _ _ _ _ _ (ng + nx) (k * (ny + 2 * ng))
      (by ring) (by omega) (by omega) R i hi0 hi1 (by omega),
    copy_subgrid_get_out _ src _ _ _ _ _ _ (ng) (k * (ny + 2 * ng) + (ng + ny))
      (by ring) (by omega) (by omega) R i hi0 hi1 (by omega),
    copy_subgrid_get_out _ src _ _ _ _ _ _ (ng) (k * (ny + 2 * ng) + ng)
      (by ring) (by omega) (by omega) R i hi0 hi1 (by omega),
    copy_subgrid_get_out _ src _ _ _ _ _ _ (ng) (k * (ny + 2 * ng))
      (by ring) (by omega) (by omega) R i hi0 hi1 (by omega),
    copy_subgrid_get_out _ src _ _ _ _ _ _ (0) (k * (ny + 2 * ng) + (ng + ny))
      (by ring) (by omega) (by omega) R i hi0 hi1 (by omega),
    copy_subgrid_get_out _ src _ _ _ _ _ _ (0) (k * (ny + 2 * ng) + ng)
      (by ring) (by omega) (by omega) R i hi0 hi1 (by omega),
    copy_subgrid_get_out _ src _ _ _ _ _ _ (0) (k * (ny + 2 * ng))
      (by ring) (by omega) (by omega) R i hi0 hi1 (by omega)]

/-- Value of every cell of the padded tile after `central2d_periodic`, with the source offsets
as the code computes them. -/
theorem central2d_periodic_get (u src : Buf) (nx ny ng partx party px py nfield : Int)
    (hng : 0 ≤ ng) (hnx : 0 ≤ nx) (hny : 0 ≤ ny)
    (k j i : Int) (hk0 : 0 ≤ k) (hk1 : k < nfield)
    (hj0 : 0 ≤ j) (hj1 : j < ny + 2 * ng) (hi0 : 0 ≤ i) (hi1 : i < nx + 2 * ng) :
    central2d_periodic u src nx ny ng partx party px py nfield
        ((k * (ny + 2 * ng) + j) * (nx + 2 * ng) + i) =
      src (k * ((ny * party + 2 * ng) * (nx * partx + 2 * ng)) +
        (if j < ng then (if py = 0 then party else py) * ny + j
          else if j < ng + ny then ng + py * ny + (j - ng)
          else ng + (if py = party - 1 then 0 else py + 1) * ny + (j - (ng + ny))) *
          (nx * partx + 2 * ng) +
        (if i < ng then (if px = 0 then partx else px) * nx + i
          else if i < ng + nx then ng + px * nx + (i - ng)
          else ng + (if px = partx - 1 then 0 else px + 1) * nx + (i - (ng + nx)))) := by
  have key := forRange_ind 0 nfield (central2d_periodic_field src nx ny ng partx party px py)
    (fun m b => ∀ k j i, 0 ≤ k → k < m → 0 ≤ j → j < ny + 2 * ng → 0 ≤ i → i < nx + 2 * ng →
      b ((k * (ny + 2 * ng) + j) * (nx + 2 * ng) + i) =
      src (k * ((ny * party + 2 * ng) * (nx * partx + 2 * ng)) +
        (if j < ng then (if py = 0 then party else py) * ny + j
          else if j < ng + ny then ng + py * ny + (j - ng)
          else ng + (if py = party - 1 then 0 else py + 1) * ny + (j - (ng + ny))) *
          (nx * partx + 2 * ng) +
        (if i < ng then (if px = 0 then partx else px) * nx + i
          else if i < ng + nx then ng + px * nx + (i - ng)
          else ng + (if px = partx - 1 then 0 else px + 1) * nx + (i - (ng + nx)))))
    u (by omega) (by intro k j i h1 h2; omega)
    (by
      intro m b hm0 hm1 hinv k j i hk0 hk1 hj0 hj1 hi0 hi1
      by_cases hkm : k = m
      · subst hkm
        exact central2d_periodic_field_get src b nx ny ng partx party px py k hng hnx hny
          j i hj0 hj1 hi0 hi1
      · have hlt : k < m := by omega
        have h1 : (k + 1) * (ny + 2 * ng) ≤ m * (ny + 2 * ng) :=
          mul_le_mul_of_nonneg_right (by omega) (by omega)
        have h2 : (k + 1) * (ny + 2 * ng) = k * (ny + 2 * ng) + (ny + 2 * ng) := by ring
        rw [central2d_periodic_field_frame src b nx ny ng partx party px py m hng hnx hny
          (k * (ny + 2 * ng) + j) i (by omega) hi0 hi1]
        exact hinv k j i hk0 hlt hj0 hj1 hi0 hi1)
  exact key k j i hk0 hk1 hj0 hj1 hi0 hi1

/-- Value of every cell of the padded tile after `central2d_periodic`: the periodic image of
the tile cell in the interior of the global buffer. -/
theorem central2d_periodic_get_mod (u src : Buf) (nx ny ng partx party px py nfield : Int)
    (hng : 0 ≤ ng) (hnx : ng ≤ nx) (hny : ng ≤ ny)
    (hpx0 : 0 ≤ px) (hpx1 : px < partx) (hpy0 : 0 ≤ py) (hpy1 : py < party)
    (k j i : Int) (hk0 : 0 ≤ k) (hk1 : k < nfield)
    (hj0 : 0 ≤ j) (hj1 : j < ny + 2 * ng) (hi0 : 0 ≤ i) (hi1 : i < nx + 2 * ng) :
    central2d_periodic u src nx ny ng partx party px py nfield
        ((k * (ny + 2 * ng) + j) * (nx + 2 * ng) + i) =
      src ((k * (party * ny + 2 * ng) + (ng + (py * ny + j - ng) % (party * ny))) *
        (partx * nx + 2 * ng) + (ng + (px * nx + i - ng) % (partx * nx))) := by
  rw [central2d_periodic_get u src nx ny ng partx party px py nfield hng (by omega) (by omega)
    k j i hk0 hk1 hj0 hj1 hi0 hi1,
    periodic_axis ny ng party py j hng hny hpy0 hpy1 hj0 hj1,
    periodic_axis nx ng partx px i hng hnx hpx0 hpx1 hi0 hi1]
  congr 1
  ring

/-- The periodic image of a coordinate lies in the interior range. -/
theorem emod_interior (n part x : Int) (hn : 0 < n) (hp : 0 < part) :
    0 ≤ x % (part * n) ∧ x % (part * n) < part * n := by
  have hN : 0 < part * n := mul_pos hp hn
  exact ⟨Int.emod_nonneg _ (by omega), Int.emod_lt_of_pos _ hN⟩

/-- C7: after `central2d_periodic`, every cell `(i, j)` of every field of the padded buffer of
tile `(px, py)` holds the value of the global interior cell
`((px*nx + i - ng) mod (partx*nx), (py*ny + j - ng) mod (party*ny))`; the cell read is an
interior cell of the global buffer, so the whole tile (own interior, four edges, four corners)
is determined by the global interior alone, whatever the tile and the global ghost cells held. -/
theorem central2d_periodic_fills_tile (u src : Buf) (glob : central2d_t)
    (nx ny partx party px py nfield : Int)
    (hgx : glob.nx = partx * nx) (hgy : glob.ny = party * ny)
    (hng : 0 ≤ glob.ng) (hnx : glob.ng ≤ nx) (hny : glob.ng ≤ ny)
    (hpx : 0 ≤ px ∧ px < partx) (hpy : 0 ≤ py ∧ py < party)
    (k i j : Int) (hk : 0 ≤ k ∧ k < nfield)
    (hi : 0 ≤ i ∧ i < nx + 2 * glob.ng) (hj : 0 ≤ j ∧ j < ny + 2 * glob.ng) :
    central2d_periodic u src nx ny glob.ng partx party px py nfield
        ((k * (ny + 2 * glob.ng) + j) * (nx + 2 * glob.ng) + i) =
      src (central2d_offset glob k ((px * nx + i - glob.ng) % (partx * nx))
        ((py * ny + j - glob.ng) % (party * ny))) ∧
    (0 ≤ (px * nx + i - glob.ng) % (partx * nx) ∧
      (px * nx + i - glob.ng) % (partx * nx) < glob.nx) ∧
    (0 ≤ (py * ny + j - glob.ng) % (party * ny) ∧
      (py * ny + j - glob.ng) % (party * ny) < glob.ny) ∧
    (∀ u2 src2 : Buf,
      (∀ gx gy, 0 ≤ gx → gx < glob.nx → 0 ≤ gy → gy < glob.ny →
        src2 (central2d_offset glob k gx gy) = src (central2d_offset glob k gx gy)) →
      central2d_periodic u2 src2 nx ny glob.ng partx party px py nfield
          ((k * (ny + 2 * glob.ng) + j) * (nx + 2 * glob.ng) + i) =
        central2d_periodic u src nx ny glob.ng partx party px py nfield
          ((k * (ny + 2 * glob.ng) + j) * (nx + 2 * glob.ng) + i)) := by
  have hnx0 : 0 < nx := by omega
  have hny0 : 0 < ny := by omega
  have hX := emod_interior nx partx (px * nx + i - glob.ng) hnx0 (by omega)
  have hY := emod_interior ny party (py * ny + j - glob.ng) hny0 (by omega)
  have hval : ∀ u1 src1 : Buf,
      central2d_periodic u1 src1 nx ny glob.ng partx party px py nfield
        ((k * (ny + 2 * glob.ng) + j) * (nx + 2 * glob.ng) + i) =
      src1 (central2d_offset glob k ((px * nx + i - glob.ng) % (partx * nx))
        ((py * ny + j - glob.ng) % (party * ny))) := by
    intro u1 src1
    rw [central2d_periodic_get_mod u1 src1 nx ny glob.ng partx party px py nfield hng hnx hny
      hpx.1 hpx.2 hpy.1 hpy.2 k j i hk.1 hk.2 hj.1 hj.2 hi.1 hi.2]
    simp only [central2d_offset, hgx, hgy]
  refine ⟨hval u src, by rw [hgx]; exact hX, by rw [hgy]; exact hY, ?_⟩
  intro u2 src2 hagree
  rw [hval u2 src2, hval u src]
  exact hagree _ _ hX.1 (by rw [hgx]; exact hX.2) hY.1 (by rw [hgy]; exact hY.2)

theorem central2d_periodic_fills_tile_witness :
    (sample_sim.nx = 2 * 4 ∧ sample_sim.ny = 2 * 4 ∧ 0 ≤ sample_sim.ng ∧ sample_sim.ng ≤ 4) ∧
      central2d_periodic (fun _ => 0) sample_sim.u 4 4 sample_sim.ng 2 2 0 1 3
          ((2 * (4 + 2 * sample_sim.ng) + 11) * (4 + 2 * sample_sim.ng) + 1) =
        sample_sim.u (central2d_offset sample_sim 2 ((0 * 4 + 1 - sample_sim.ng) % (2 * 4))
          ((1 * 4 + 11 - sample_sim.ng) % (2 * 4))) :=
  ⟨⟨rfl, rfl, by decide, by decide⟩,
    (central2d_periodic_fills_tile (fun _ => 0) sample_sim.u sample_sim 4 4 2 2 0 1 3 rfl rfl
      (by decide) (by decide) (by decide) ⟨by decide, by decide⟩ ⟨by decide, by decide⟩
      2 1 11 ⟨by decide, by decide⟩ ⟨by decide, by decide⟩ ⟨by decide, by decide⟩).1⟩

/-! ## Full-domain periodic wrap -/

theorem forRange_one {σ : Type} (lo : Int) (body : Int → σ → σ) (s : σ) :
    forRange lo (lo + 1) body s = body lo s := by
  have h : (lo + 1 - lo).toNat = 1 := by omega
  simp [forRange, h, loopN]

/-- C8 at the failing input `nx = 4`, `ny = 5`, `ng = 4`, `nfield = 1`, with every cell
holding its own flat index (row stride 12, 13 rows).  The top ghost block is written at row
offset `(nx+ng)*s`, that is rows 8..11, instead of rows 9..12: the interior cell
`(ix, iy) = (0, 4)` at flat index 100 is overwritten with the value of cell `(0, 0)` (flat
index 52), and the ghost cell `(0, 8)` at flat index 148 is never written and keeps its old
value instead of receiving the value of its canonical cell `(0, 3)` (flat index 88). -/
theorem central2d_periodic_full_top_rows :
    central2d_periodic_full (fun p => (p : ℚ)) 4 5 4 1 100 = 52 ∧
      central2d_periodic_full (fun p => (p : ℚ)) 4 5 4 1 148 = 148 := by
  have e : central2d_periodic_full (fun p => (p : ℚ)) 4 5 4 1 =
      central2d_periodic_full_field 4 5 4 0 (fun p => (p : ℚ)) := forRange_one 0 _ _
  rw [e]
  unfold central2d_periodic_full_field
  have e100 : (100 : Int) = 8 * (4 + 2 * 4) + 4 := by norm_num
  have e148 : (148 : Int) = 12 * (4 + 2 * 4) + 4 := by norm_num
  constructor
  · rw [e100,
      copy_subgrid_get_out _ _ _ _ _ _ _ _ 0 0 (by norm_num) (by norm_num) (by norm_num) 8 4
        (by norm_num) (by norm_num) (by norm_num),
      copy_subgrid_get_in _ _ _ _ _ _ _ _ 0 8 (by norm_num) (by norm_num) (by norm_num) 8 4
        (by norm_num) (by norm_num) (by norm_num),
      show (0 * ((5 + 2 * 4) * (4 + 2 * 4)) + 4 * (4 + 2 * 4) + ((8 - 8) * (4 + 2 * 4) + (4 - 0)) :
        Int) = 4 * (4 + 2 * 4) + 4 by norm_num,
      copy_subgrid_get_out _ _ _ _ _ _ _ _ 8 0 (by norm_num) (by norm_num) (by norm_num) 4 4
        (by norm_num) (by norm_num) (by norm_num),
      copy_subgrid_get_out _ _ _ _ _ _ _ _ 0 0 (by norm_num) (by norm_num) (by norm_num) 4 4
        (by norm_num) (by norm_num) (by norm_num)]
    norm_num
  · rw [e148,
      copy_subgrid_get_out _ _ _ _ _ _ _ _ 0 0 (by norm_num) (by norm_num) (by norm_num) 12 4
        (by norm_num) (by norm_num) (by norm_num),
      copy_subgrid_get_out _ _ _ _ _ _ _ _ 0 8 (by norm_num) (by norm_num) (by norm_num) 12 4
        (by norm_num) (by norm_num) (by norm_num),
      copy_subgrid_get_out _ _ _ _ _ _ _ _ 8 0 (by norm_num) (by norm_num) (by norm_num) 12 4
        (by norm_num) (by norm_num) (by norm_num),
      copy_subgrid_get_out _ _ _ _ _ _ _ _ 0 0 (by norm_num) (by norm_num) (by norm_num) 12 4
        (by norm_num) (by norm_num) (by norm_num)]
    norm_num

/-! ## Limited derivatives and predictor -/

theorem limited_deriv1_eq (du : Buf) (d0 : Int) (u : Buf) (u0 ncell : Int) :
    limited_deriv1 du d0 u u0 ncell = fun p =>
      if 0 ≤ p - d0 ∧ p - d0 < ncell
      then limdiff (u (u0 + (p - d0 - 1))) (u (u0 + (p - d0))) (u (u0 + (p - d0 + 1)))
      else du p := by
  funext p
  unfold limited_deriv1
  rw [forRange_store 0 ncell (fun i => d0 + i) d0
    (fun i => limdiff (u (u0 + (i - 1))) (u (u0 + i)) (u (u0 + (i + 1)))) du (fun _ => rfl) p]

theorem limited_derivk_eq (du : Buf) (d0 : Int) (u : Buf) (u0 ncell stride : Int)
    (h : 0 < stride) :
    limited_derivk du d0 u u0 ncell stride = some (fun p =>
      if 0 ≤ p - d0 ∧ p - d0 < ncell
      then limdiff (u (u0 + (p - d0 - stride))) (u (u0 + (p - d0))) (u (u0 + (p - d0 + stride)))
      else du p) := by
  unfold limited_derivk
  rw [if_pos h]
  congr 1
  funext p
  rw [forRange_store 0 ncell (fun i => d0 + i) d0
    (fun i => limdiff (u (u0 + (i - stride))) (u (u0 + i)) (u (u0 + (i + stride)))) du
    (fun _ => rfl) p]

/-- A loop that stores `val x` at column `x` of row `R0` of a buffer with row stride `s` that
starts at offset `o`. -/
theorem forRange_store_row (b : Buf) (lo hi s R0 o : Int) (a : Int → Int) (val : Int → ℚ)
    (ha : ∀ i, a i = o + (R0 * s + i)) (hlo : 0 ≤ lo) (hhi : hi ≤ s)
    (p R x : Int) (hp : p = o + (R * s + x)) (hx0 : 0 ≤ x) (hx1 : x < s) :
    forRange lo hi (fun i b => store b (a i) (val i)) b p =
      if R = R0 ∧ lo ≤ x ∧ x < hi then val x else b p := by
  rw [forRange_store lo hi a (o + R0 * s) val b (by intro i; rw [ha i]; ring)]
  have e : p - (o + R0 * s) = (R - R0) * s + (x - 0) := by rw [hp]; ring
  rw [e]
  have hiff := flat_window_iff s 0 s (R - R0) x (le_refl 0) (by omega) hx0 hx1
  by_cases hR : R = R0
  · subst hR
    simp
  · have hn : ¬ (0 ≤ (R - R0) * s + (x - 0) ∧ (R - R0) * s + (x - 0) < s) := by
      intro h
      have := (hiff.mp h).1
      omega
    have hc : ¬ (lo ≤ (R - R0) * s + (x - 0) ∧ (R - R0) * s + (x - 0) < hi) := by
      intro h; apply hn; omega
    rw [if_neg hc, if_neg (by intro h; exact hR h.1)]

/-- A loop that stores at `base + i` a value that may read the buffer outside the window it
writes. -/
theorem forRange_store_dep (lo hi : Int) (a : Int → Int) (base : Int) (val : Buf → Int → ℚ)
    (b : Buf) (ha : ∀ i, a i = base + i)
    (hval : ∀ (b2 : Buf) i, lo ≤ i → i < hi →
      (∀ p, ¬ (lo ≤ p - base ∧ p - base < hi) → b2 p = b p) → val b2 i = val b i)
    (p : Int) :
    forRange lo hi (fun i b => store b (a i) (val b i)) b p =
      if lo ≤ p - base ∧ p - base < hi then val b (p - base) else b p := by
  rcases le_or_lt lo hi with hle | hlt
  · have key := forRange_ind lo hi (fun i b => store b (a i) (val b i))
      (fun i b2 => ∀ p, b2 p = if lo ≤ p - base ∧ p - base < i then val b (p - base) else b p)
      b hle (by intro p; rw [if_neg (by omega)])
      (by
        intro i s h1 h2 hinv p
        beta_reduce
        have hv : val s i = val b i := hval s i h1 h2 (by
          intro q hq
          rw [hinv q, if_neg (by omega)])
        by_cases hp : p = a i
        · subst hp
          rw [store_eq, ha i, if_pos (by omega), hv]
          congr 1; omega
        · rw [store_ne _ _ _ _ hp, hinv p]
          have : p - base ≠ i := by
            intro h; apply hp; rw [ha i]; omega
          by_cases hc : lo ≤ p - base ∧ p - base < i
          · rw [if_pos hc, if_pos (by omega)]
          · rw [if_neg hc, if_neg (by omega)])
    exact key p
  · rw [forRange_empty _ _ _ _ hlt.le, if_neg (by omega)]

/-- Values that `central2d_predict` leaves in `v`: the predictor formula on every cell that is
not on the outermost ring. -/
theorem central2d_predict_spec (v scratch u f g : Buf) (cx cy : ℚ) (nx ny nfield : Int)
    (hnx : 0 < nx) :
    ∃ r, central2d_predict v scratch u f g cx cy nx ny nfield = some r ∧
      ∀ k x y, 0 ≤ k → k < nfield → 1 ≤ x → x < nx - 1 → 1 ≤ y → y < ny - 1 →
        r.1 ((k * ny + y) * nx + x) =
          predict_at cx cy (view u nx ny) (view f nx ny) (view g nx ny) k x y := by
  unfold central2d_predict
  refine forRangeM_post _ _ _
    (fun m (st : Buf × Buf) => ∀ k x y, 0 ≤ k → k < m → 1 ≤ x → x < nx - 1 → 1 ≤ y →
      y < ny - 1 → st.1 ((k * ny + y) * nx + x) =
        predict_at cx cy (view u nx ny) (view f nx ny) (view g nx ny) k x y) _ _ ?_ ?_ ?_
  · intro k x y h1 h2; omega
  · intro k st hk0 hk1 hinv
    beta_reduce
    refine forRangeM_post _ _ _
      (fun m (st : Buf × Buf) =>
        (∀ k2 x y, 0 ≤ k2 → k2 < k → 1 ≤ x → x < nx - 1 → 1 ≤ y → y < ny - 1 →
          st.1 ((k2 * ny + y) * nx + x) =
            predict_at cx cy (view u nx ny) (view f nx ny) (view g nx ny) k2 x y) ∧
        (∀ x y, 1 ≤ x → x < nx - 1 → 1 ≤ y → y < m → y < ny - 1 →
          st.1 ((k * ny + y) * nx + x) =
            predict_at cx cy (view u nx ny) (view f nx ny) (view g nx ny) k x y)) _ _ ?_ ?_ ?_
    · exact ⟨hinv, by intro x y h1 h2 h3 h4; omega⟩
    · intro iy st2 hy0 hy1 hinv2
      beta_reduce
      simp only [limited_deriv1_eq, limited_derivk_eq _ _ _ _ _ _ hnx, Option.some_bind]
      refine ⟨_, rfl, ?_, ?_⟩
      · intro k2 x y hk20 hk21 hx0 hx1 hy0' hy1'
        simp only []
        rw [forRange_store_row st2.1 1 (nx - 1) nx (k * ny + iy) 0 _ _ (fun _ => by ring)
          (by omega) (by omega) _ (k2 * ny + y) x (by ring) (by omega) (by omega)]
        have hne : ¬ (k2 * ny + y = k * ny + iy ∧ 1 ≤ x ∧ x < nx - 1) := by
          intro h
          have := (flat_index_inj ny k2 k y iy (by omega) (by omega) (by omega) (by omega)
            h.1).1
          omega
        rw [if_neg hne]
        exact hinv2.1 k2 x y hk20 hk21 hx0 hx1 hy0' hy1'
      · intro x y hx0 hx1 hy0' hy1' hy2'
        simp only []
        rw [forRange_store_row st2.1 1 (nx - 1) nx (k * ny + iy) 0 _ _ (fun _ => by ring)
          (by omega) (by omega) _ (k * ny + y) x (by ring) (by omega) (by omega)]
        by_cases hy : y = iy
        · subst hy
          rw [if_pos ⟨rfl, hx0, hx1⟩]
          have c1 : ¬ (0 ≤ 0 + x - (nx + 1) ∧ 0 + x - (nx + 1) < nx - 2) := by omega
          have c2 : (0 ≤ 0 + x - (0 + 1) ∧ 0 + x - (0 + 1) < nx - 2) := by omega
          have c3 : (0 ≤ nx + x - (nx + 1) ∧ nx + x - (nx + 1) < nx - 2) := by omega
          rw [if_neg c1, if_pos c2, if_pos c3]
          simp only [predict_at, view]
          ring_nf
        · have hne : ¬ (k * ny + y = k * ny + iy ∧ 1 ≤ x ∧ x < nx - 1) := by
            intro h; omega
          rw [if_neg hne]
          exact hinv2.2 x y hx0 hx1 hy0' (by omega) hy2'
    · intro r hinv2
      intro k2 x y hk20 hk21 hx0 hx1 hy0 hy1
      by_cases hk : k2 = k
      · subst hk
        exact hinv2.2 x y hx0 hx1 hy0 (by omega) hy1
      · exact hinv2.1 k2 x y hk20 (by omega) hx0 hx1 hy0 hy1
  · intro r hinv k x y hk0 hk1 hx0 hx1 hy0 hy1
    exact hinv k x y hk0 (by omega) hx0 hx1 hy0 hy1

/-! ## Corrector -/

/-- The two loops of `central2d_correct_sd`, for row pointers that do not overlap. -/
theorem central2d_correct_sd_spec (sc : Buf) (S D ux uy : Int)
    (u : Buf) (u0 : Int) (f : Buf) (f0 : Int) (g : Buf) (g0 : Int) (cx cy : ℚ)
    (xlo xhi : Int)
    (h1 : ∀ i j, xlo ≤ i → i ≤ xhi → xlo ≤ j → j < xhi → ux + i ≠ S + j)
    (h2 : ∀ i j, xlo ≤ i → i ≤ xhi → xlo ≤ j → j < xhi → uy + i ≠ S + j)
    (h3 : ∀ i j, xlo ≤ i → i ≤ xhi → xlo ≤ j → j < xhi → uy + i ≠ D + j)
    (h4 : ∀ i j, xlo ≤ i → i < xhi → xlo ≤ j → j < xhi → S + i ≠ D + j) :
    (∀ ix, xlo ≤ ix → ix < xhi →
      central2d_correct_sd sc S D ux uy u u0 f f0 g g0 cx cy xlo xhi (S + ix) =
        1 / 4 * (u (u0 + ix) + u (u0 + (ix + 1))) +
        1 / 16 * (sc (ux + ix) - sc (ux + (ix + 1))) +
        cx * (f (f0 + ix) - f (f0 + (ix + 1)))) ∧
    (∀ ix, xlo ≤ ix → ix < xhi →
      central2d_correct_sd sc S D ux uy u u0 f f0 g g0 cx cy xlo xhi (D + ix) =
        1 / 16 * (sc (uy + ix) + sc (uy + (ix + 1))) +
        cy * (g (g0 + ix) + g (g0 + (ix + 1)))) ∧
    (∀ p, ¬ (xlo ≤ p - S ∧ p - S < xhi) → ¬ (xlo ≤ p - D ∧ p - D < xhi) →
      central2d_correct_sd sc S D ux uy u u0 f f0 g g0 cx cy xlo xhi p = sc p) := by
  have e1 : ∀ p, forRange xlo xhi (fun ix sc =>
      store sc (S + ix)
        (1 / 4 * (u (u0 + ix) + u (u0 + (ix + 1))) +
         1 / 16 * (sc (ux + ix) - sc (ux + (ix + 1))) +
         cx * (f (f0 + ix) - f (f0 + (ix + 1))))) sc p =
      if xlo ≤ p - S ∧ p - S < xhi then
        1 / 4 * (u (u0 + (p - S)) + u (u0 + (p - S + 1))) +
         1 / 16 * (sc (ux + (p - S)) - sc (ux + (p - S + 1))) +
         cx * (f (f0 + (p - S)) - f (f0 + (p - S + 1)))
      else sc p := by
    intro p
    rw [forRange_store_dep xlo xhi (fun ix => S + ix) S
      (fun sc ix => 1 / 4 * (u (u0 + ix) + u (u0 + (ix + 1))) +
         1 / 16 * (sc (ux + ix) - sc (ux + (ix + 1))) +
         cx * (f (f0 + ix) - f (f0 + (ix + 1)))) sc (fun _ => rfl)
      (by
        intro b2 i hi0 hi1 hb2
        beta_reduce
        rw [hb2 (ux + i) (by
            intro hc
            exact h1 i (ux + i - S) hi0 (by omega) hc.1 hc.2 (by ring)),
          hb2 (ux + (i + 1)) (by
            intro hc
            exact h1 (i + 1) (ux + (i + 1) - S) (by omega) (by omega) hc.1 hc.2 (by ring))])]
  have e2 : ∀ (sc1 : Buf) p, forRange xlo xhi (fun ix sc =>
      store sc (D + ix)
        (1 / 16 * (sc (uy + ix) + sc (uy + (ix + 1))) +
         cy * (g (g0 + ix) + g (g0 + (ix + 1))))) sc1 p =
      if xlo ≤ p - D ∧ p - D < xhi then
        1 / 16 * (sc1 (uy + (p - D)) + sc1 (uy + (p - D + 1))) +
         cy * (g (g0 + (p - D)) + g (g0 + (p - D + 1)))
      else sc1 p := by
    intro sc1 p
    rw [forRange_store_dep xlo xhi (fun ix => D + ix) D
      (fun sc ix => 1 / 16 * (sc (uy + ix) + sc (uy + (ix + 1))) +
         cy * (g (g0 + ix) + g (g0 + (ix + 1)))) sc1 (fun _ => rfl)
      (by
        intro b2 i hi0 hi1 hb2
        beta_reduce
        rw [hb2 (uy + i) (by
            intro hc
            exact h3 i (uy + i - D) hi0 (by omega) hc.1 hc.2 (by ring)),
          hb2 (uy + (i + 1)) (by
            intro hc
            exact h3 (i + 1) (uy + (i + 1) - D) (by omega) (by omega) hc.1 hc.2 (by ring))])]
  unfold central2d_correct_sd
  refine ⟨?_, ?_, ?_⟩
  · intro ix hx0 hx1
    rw [e2, if_neg (by
        intro hc
        exact h4 ix (S + ix - D) hx0 hx1 hc.1 hc.2 (by ring)),
      e1, if_pos (by omega)]
    have e : S + ix - S = ix := by ring
    rw [e]
  · intro ix hx0 hx1
    rw [e2, if_pos (by omega)]
    have e : D + ix - D = ix := by ring
    rw [e, e1, e1, if_neg (by
        intro hc
        exact h2 ix (uy + ix - S) hx0 (by omega) hc.1 hc.2 (by ring)),
      if_neg (by
        intro hc
        exact h2 (ix + 1) (uy + (ix + 1) - S) (by omega) (by omega) hc.1 hc.2 (by ring))]
  · intro p hS hD
    rw [e2, if_neg hD, e1, if_neg hS]

/-- One row of the corrector: the limited derivatives of row `r` of field `k` followed by
`central2d_correct_sd` leave the row terms `s` and `d` of that row at the row pointers `S`
and `D`, and do not touch the rest of the scratch block beyond the two derivative rows. -/
theorem correct_row_phase (sc u f g : Buf) (cx cy : ℚ) (nx ny k r S D xlo xhi ub : Int)
    (hub : ub = (k * ny + r) * nx) (hnx : 0 < nx) (hxlo : 1 ≤ xlo) (hxhi : xhi ≤ nx - 2)
    (hS : 2 * nx ≤ S) (hD : 2 * nx ≤ D) (hSD : S + nx ≤ D ∨ D + nx ≤ S) :
    ∃ sc2, limited_derivk (limited_deriv1 sc (0 + 1) u (ub + 1) (nx - 2)) (nx + 1) u (ub + 1)
        (nx - 2) nx = some sc2 ∧
      (∀ ix, xlo ≤ ix → ix < xhi →
        central2d_correct_sd sc2 S D 0 nx u ub f ub g ub cx cy xlo xhi (S + ix) =
          correct_s cx (view u nx ny) (view f nx ny) k ix r) ∧
      (∀ ix, xlo ≤ ix → ix < xhi →
        central2d_correct_sd sc2 S D 0 nx u ub f ub g ub cx cy xlo xhi (D + ix) =
          correct_d cy (view u nx ny) (view g nx ny) k ix r) ∧
      (∀ p, 2 * nx ≤ p → ¬ (xlo ≤ p - S ∧ p - S < xhi) → ¬ (xlo ≤ p - D ∧ p - D < xhi) →
        central2d_correct_sd sc2 S D 0 nx u ub f ub g ub cx cy xlo xhi p = sc p) := by
  subst hub
  rw [limited_deriv1_eq, limited_derivk_eq _ _ _ _ _ _ hnx]
  refine ⟨_, rfl, ?_⟩
  obtain ⟨hs, hd, hfr⟩ := central2d_correct_sd_spec
    (fun p => if 0 ≤ p - (nx + 1) ∧ p - (nx + 1) < nx - 2
      then limdiff (u ((k * ny + r) * nx + 1 + (p - (nx + 1) - nx)))
        (u ((k * ny + r) * nx + 1 + (p - (nx + 1))))
        (u ((k * ny + r) * nx + 1 + (p - (nx + 1) + nx)))
      else (fun p => if 0 ≤ p - (0 + 1) ∧ p - (0 + 1) < nx - 2
        then limdiff (u ((k * ny + r) * nx + 1 + (p - (0 + 1) - 1)))
          (u ((k * ny + r) * nx + 1 + (p - (0 + 1))))
          (u ((k * ny + r) * nx + 1 + (p - (0 + 1) + 1)))
        else sc p) p)
    S D 0 nx u ((k * ny + r) * nx) f ((k * ny + r) * nx) g ((k * ny + r) * nx) cx cy xlo xhi
    (by intro i j _ _ _ _; omega) (by intro i j _ _ _ _; omega)
    (by intro i j _ _ _ _; omega) (by intro i j _ _ _ _; omega)
  refine ⟨?_, ?_, ?_⟩
  · intro ix hx0 hx1
    rw [hs ix hx0 hx1]
    beta_reduce
    rw [if_neg (by omega), if_pos (by omega), if_neg (by omega), if_pos (by omega)]
    simp only [correct_s, view]
    ring_nf
  · intro ix hx0 hx1
    rw [hd ix hx0 hx1]
    beta_reduce
    rw [if_pos (by omega), if_pos (by omega)]
    simp only [correct_d, view]
    ring_nf
  · intro p hp hS' hD'
    rw [hfr p hS' hD']
    beta_reduce
    rw [if_neg (by omega), if_neg (by omega)]

/-- Values that `central2d_correct` leaves in `v`: the direct staggered formula on the window
`[xlo, xhi) x [ylo, yhi)` of every field, when the window columns lie within the columns
`1 .. nx-2` on which the limited derivatives are computed. -/
theorem central2d_correct_spec (v : Buf) (v0 : Int) (sc u f g : Buf) (cx cy : ℚ)
    (xlo xhi ylo yhi nx ny nfield : Int)
    (hx : 1 ≤ xlo ∧ xlo < xhi ∧ xhi ≤ nx - 2) (hy : 0 ≤ ylo ∧ ylo < yhi ∧ yhi ≤ ny) :
    ∃ r, central2d_correct v v0 sc u f g cx cy xlo xhi ylo yhi nx ny nfield = some r ∧
      ∀ k x y, 0 ≤ k → k < nfield → xlo ≤ x → x < xhi → ylo ≤ y → y < yhi →
        r.1 (v0 + ((k * ny + y) * nx + x)) =
          correct_at cx cy (view u nx ny) (view f nx ny) (view g nx ny) k x y := by
  have hnx : 0 < nx := by omega
  unfold central2d_correct
  rw [if_pos ⟨by omega, hx.2.1, by omega⟩, if_pos hy]
  obtain ⟨st, hst, hQ⟩ : ∃ st, forRangeM 0 nfield
      (central2d_correct_field v0 u f g cx cy xlo xhi ylo yhi nx ny)
      (CorrectState.mk v sc (2 * nx) (3 * nx) (4 * nx) (5 * nx)) = some st ∧
      ∀ k x y, 0 ≤ k → k < nfield → xlo ≤ x → x < xhi → ylo ≤ y → y < yhi →
        st.v (v0 + ((k * ny + y) * nx + x)) =
          correct_at cx cy (view u nx ny) (view f nx ny) (view g nx ny) k x y := by
    refine forRangeM_post _ _ _
      (fun m (st : CorrectState) =>
        ((st.s0 = 2 * nx ∧ st.d0 = 3 * nx ∧ st.s1 = 4 * nx ∧ st.d1 = 5 * nx) ∨
          (st.s0 = 4 * nx ∧ st.d0 = 5 * nx ∧ st.s1 = 2 * nx ∧ st.d1 = 3 * nx)) ∧
        ∀ k x y, 0 ≤ k → k < m → xlo ≤ x → x < xhi → ylo ≤ y → y < yhi →
          st.v (v0 + ((k * ny + y) * nx + x)) =
            correct_at cx cy (view u nx ny) (view f nx ny) (view g nx ny) k x y) _ _ ?_ ?_ ?_
    · exact ⟨Or.inl ⟨rfl, rfl, rfl, rfl⟩, by intro k x y h1 h2; omega⟩
    · intro k st hk0 hk1 hinv
      obtain ⟨hptr, hdone⟩ := hinv
      simp only [central2d_correct_field]
      obtain ⟨sc2, hsc2, hs, hd, hfr⟩ := correct_row_phase st.scratch u f g cx cy nx ny k ylo
        st.s1 st.d1 xlo xhi (k * ny * nx + ylo * nx) (by ring) hnx hx.1 hx.2.2
        (by omega) (by omega) (by omega)
      rw [hsc2, Option.some_bind]
      refine forRangeM_post _ _ _
        (fun m (st2 : CorrectState) =>
          ((st2.s0 = 2 * nx ∧ st2.d0 = 3 * nx ∧ st2.s1 = 4 * nx ∧ st2.d1 = 5 * nx) ∨
            (st2.s0 = 4 * nx ∧ st2.d0 = 5 * nx ∧ st2.s1 = 2 * nx ∧ st2.d1 = 3 * nx)) ∧
          (∀ k2 x y, 0 ≤ k2 → k2 < k → xlo ≤ x → x < xhi → ylo ≤ y → y < yhi →
            st2.v (v0 + ((k2 * ny + y) * nx + x)) =
              correct_at cx cy (view u nx ny) (view f nx ny) (view g nx ny) k2 x y) ∧
          (∀ x y, xlo ≤ x → x < xhi → ylo ≤ y → y < m → y < yhi →
            st2.v (v0 + ((k * ny + y) * nx + x)) =
              correct_at cx cy (view u nx ny) (view f nx ny) (view g nx ny) k x y) ∧
          (∀ ix, xlo ≤ ix → ix < xhi →
            st2.scratch (st2.s1 + ix) = correct_s cx (view u nx ny) (view f nx ny) k ix m ∧
            st2.scratch (st2.d1 + ix) = correct_d cy (view u nx ny) (view g nx ny) k ix m))
        _ _ ?_ ?_ ?_
      · refine ⟨hptr, hdone, by intro x y h1 h2 h3 h4; omega, ?_⟩
        intro ix hx0 hx1
        exact ⟨hs ix hx0 hx1, hd ix hx0 hx1⟩
      · intro iy st2 hy0 hy1 hinv2
        obtain ⟨hptr2, hprev, hrows, hcur⟩ := hinv2
        simp only [central2d_correct_row]
        obtain ⟨sc3, hsc3, hs3, hd3, hfr3⟩ := correct_row_phase st2.scratch u f g cx cy nx ny k
          (iy + 1) st2.s0 st2.d0 xlo xhi (k * ny * nx + (iy + 1) * nx) (by ring) hnx hx.1
          hx.2.2 (by omega) (by omega) (by omega)
        rw [hsc3, Option.some_bind]
        refine ⟨_, rfl, ?_, ?_, ?_, ?_⟩
        · rcases hptr2 with ⟨a1, a2, a3, a4⟩ | ⟨a1, a2, a3, a4⟩
          · exact Or.inr ⟨a3, a4, a1, a2⟩
          · exact Or.inl ⟨a3, a4, a1, a2⟩
        · intro k2 x y hk20 hk21 hx0 hx1 hy0' hy1'
          dsimp only
          rw [forRange_store_row st2.v xlo xhi nx (k * ny + iy) v0 _ _ (fun _ => by ring)
            (by omega) (by omega) _ (k2 * ny + y) x rfl (by omega) (by omega)]
          have hne : ¬ (k2 * ny + y = k * ny + iy ∧ xlo ≤ x ∧ x < xhi) := by
            intro h
            have := (flat_index_inj ny k2 k y iy (by omega) (by omega) (by omega) (by omega)
              h.1).1
            omega
          rw [if_neg hne]
          exact hprev k2 x y hk20 hk21 hx0 hx1 hy0' hy1'
        · intro x y hx0 hx1 hy0' hy1' hy2'
          dsimp only
          rw [forRange_store_row st2.v xlo xhi nx (k * ny + iy) v0 _ _ (fun _ => by ring)
            (by omega) (by omega) _ (k * ny + y) x rfl (by omega) (by omega)]
          by_cases hyy : y = iy
          · subst hyy
            rw [if_pos ⟨rfl, hx0, hx1⟩, hs3 x hx0 hx1, hd3 x hx0 hx1,
              hfr3 (st2.s1 + x) (by omega) (by omega) (by omega),
              hfr3 (st2.d1 + x) (by omega) (by omega) (by omega),
              (hcur x hx0 hx1).1, (hcur x hx0 hx1).2]
            rfl
          · have hne : ¬ (k * ny + y = k * ny + iy ∧ xlo ≤ x ∧ x < xhi) := by
              intro h; omega
            rw [if_neg hne]
            exact hrows x y hx0 hx1 hy0' (by omega) hy2'
        · intro ix hx0 hx1
          exact ⟨hs3 ix hx0 hx1, hd3 ix hx0 hx1⟩
      · intro st2 hinv2
        obtain ⟨hptr2, hprev, hrows, _⟩ := hinv2
        refine ⟨hptr2, ?_⟩
        intro k2 x y hk20 hk21 hx0 hx1 hy0 hy1
        by_cases hk : k2 = k
        · subst hk
          exact hrows x y hx0 hx1 hy0 (by omega) hy1
        · exact hprev k2 x y hk20 (by omega) hx0 hx1 hy0 hy1
    · intro st hinv k x y hk0 hk1 hx0 hx1 hy0 hy1
      exact hinv.2 k x y hk0 (by omega) hx0 hx1 hy0 hy1
  rw [hst]
  exact ⟨_, rfl, hQ⟩

/-! ## Conservation of the corrector -/

/-- A sum over an integer interval as a sum over a range of naturals. -/
theorem sum_Ico_eq_sum_range (F : Int → ℚ) (a b : Int) :
    ∑ i ∈ Finset.Ico a b, F i = ∑ j ∈ Finset.range (b - a).toNat, F (a + (j : Int)) := by
  rw [Int.Ico_eq_finset_map, Finset.sum_map]
  apply Finset.sum_congr rfl
  intro j _
  simp [add_comm]

/-- Telescoping sum over an integer interval. -/
theorem sum_Ico_telescope (F : Int → ℚ) (a b : Int) (hab : a ≤ b) :
    ∑ i ∈ Finset.Ico a b, (F (i + 1) - F i) = F b - F a := by
  rw [sum_Ico_eq_sum_range]
  have h := Finset.sum_range_sub (fun j : Nat => F (a + (j : Int))) (b - a).toNat
  have e1 : ∀ j : Nat, F (a + (j : Int) + 1) = F (a + ((j + 1 : Nat) : Int)) := by
    intro j; congr 1; push_cast; ring
  simp only [e1]
  rw [h]
  have e2 : a + (((b - a).toNat : Nat) : Int) = b := by omega
  rw [e2]
  simp

/-- The direct staggered formula preserves the window sum of `U` as soon as the data repeat
from the low to the high side of the window along both axes. -/
theorem correct_at_sum (cx cy : ℚ) (U F G : Grid) (k xlo xhi ylo yhi : Int)
    (hx : xlo ≤ xhi) (hy : ylo ≤ yhi)
    (hUx : ∀ x x2 y, xlo - 1 ≤ x → x ≤ xlo + 1 → x2 = x + (xhi - xlo) → ylo ≤ y → y < yhi →
      U k x2 y = U k x y)
    (hFx : ∀ y, ylo ≤ y → y < yhi → F k xhi y = F k xlo y)
    (hUy : ∀ x y y2, xlo - 1 ≤ x → x ≤ xhi + 1 → ylo - 1 ≤ y → y ≤ ylo + 1 →
      y2 = y + (yhi - ylo) → U k x y2 = U k x y)
    (hFy : ∀ x, xlo ≤ x → x ≤ xhi → F k x yhi = F k x ylo)
    (hGy : ∀ x, xlo ≤ x → x ≤ xhi → G k x yhi = G k x ylo) :
    ∑ x ∈ Finset.Ico xlo xhi, ∑ y ∈ Finset.Ico ylo yhi, correct_at cx cy U F G k x y =
      ∑ x ∈ Finset.Ico xlo xhi, ∑ y ∈ Finset.Ico ylo yhi, U k x y := by
  have hSy : ∀ x, xlo ≤ x → x < xhi →
      correct_s cx U F k x yhi = correct_s cx U F k x ylo := by
    intro x h1 h2
    simp only [correct_s]
    rw [hUy (x - 1) ylo yhi (by omega) (by omega) (by omega) (by omega) (by ring),
      hUy x ylo yhi (by omega) (by omega) (by omega) (by omega) (by ring),
      hUy (x + 1) ylo yhi (by omega) (by omega) (by omega) (by omega) (by ring),
      hUy (x + 2) ylo yhi (by omega) (by omega) (by omega) (by omega) (by ring),
      hFy x (by omega) (by omega), hFy (x + 1) (by omega) (by omega)]
  have hDy : ∀ x, xlo ≤ x → x < xhi →
      correct_d cy U G k x yhi = correct_d cy U G k x ylo := by
    intro x h1 h2
    simp only [correct_d]
    rw [hUy x (ylo - 1) (yhi - 1) (by omega) (by omega) (by omega) (by omega) (by ring),
      hUy x ylo yhi (by omega) (by omega) (by omega) (by omega) (by ring),
      hUy x (ylo + 1) (yhi + 1) (by omega) (by omega) (by omega) (by omega) (by ring),
      hUy (x + 1) (ylo - 1) (yhi - 1) (by omega) (by omega) (by omega) (by omega) (by ring),
      hUy (x + 1) ylo yhi (by omega) (by omega) (by omega) (by omega) (by ring),
      hUy (x + 1) (ylo + 1) (yhi + 1) (by omega) (by omega) (by omega) (by omega) (by ring),
      hGy x (by omega) (by omega), hGy (x + 1) (by omega) (by omega)]
  have h1 : ∀ x ∈ Finset.Ico xlo xhi,
      ∑ y ∈ Finset.Ico ylo yhi, correct_at cx cy U F G k x y =
        2 * ∑ y ∈ Finset.Ico ylo yhi, correct_s cx U F k x y := by
    intro x hxm
    rw [Finset.mem_Ico] at hxm
    have e : ∀ y, correct_at cx cy U F G k x y =
        (correct_s cx U F k x (y + 1) - correct_s cx U F k x y) +
          2 * correct_s cx U F k x y -
          (correct_d cy U G k x (y + 1) - correct_d cy U G k x y) := by
      intro y; simp only [correct_at]; ring
    simp only [e]
    rw [Finset.sum_sub_distrib, Finset.sum_add_distrib,
      sum_Ico_telescope (fun y => correct_s cx U F k x y) ylo yhi hy,
      sum_Ico_telescope (fun y => correct_d cy U G k x y) ylo yhi hy,
      hSy x hxm.1 hxm.2, hDy x hxm.1 hxm.2, ← Finset.mul_sum]
    ring
  have h2 : ∀ y ∈ Finset.Ico ylo yhi,
      ∑ x ∈ Finset.Ico xlo xhi, correct_s cx U F k x y =
        1 / 2 * ∑ x ∈ Finset.Ico xlo xhi, U k x y := by
    intro y hym
    rw [Finset.mem_Ico] at hym
    obtain ⟨T, hT⟩ : ∃ T : Int → ℚ, ∀ x, T x = 1 / 4 * U k x y -
        1 / 16 * limdiff (U k (x - 1) y) (U k x y) (U k (x + 1) y) - cx * F k x y :=
      ⟨_, fun _ => rfl⟩
    have e : ∀ x, correct_s cx U F k x y = 1 / 2 * U k x y + (T (x + 1) - T x) := by
      intro x
      have e1 : x + 1 - 1 = x := by ring
      have e2 : x + 1 + 1 = x + 2 := by ring
      rw [hT, hT]
      simp only [correct_s, e1, e2]
      ring
    simp only [e]
    rw [Finset.sum_add_distrib, sum_Ico_telescope T xlo xhi hx, ← Finset.mul_sum, hT, hT,
      hUx xlo xhi y (by omega) (by omega) (by ring) hym.1 hym.2,
      hUx (xlo - 1) (xhi - 1) y (by omega) (by omega) (by ring) hym.1 hym.2,
      hUx (xlo + 1) (xhi + 1) y (by omega) (by omega) (by ring) hym.1 hym.2,
      hFx y hym.1 hym.2]
    ring
  rw [Finset.sum_congr rfl h1, ← Finset.mul_sum, Finset.sum_comm, Finset.sum_congr rfl h2,
    ← Finset.mul_sum, Finset.sum_comm]
  ring

/-- C1: in exact arithmetic `central2d_correct` is conservative under periodic data.  For a
window `[xlo, xhi) x [ylo, yhi)` with `1 ≤ xlo < xhi ≤ nx-2` and `1 ≤ ylo < yhi ≤ ny-2` and a
field `k`, if `u`, `f`, `g` repeat with period `xhi - xlo` along x and `yhi - ylo` along y on
the cells the stencil reads (columns `xlo-1 .. xhi+1`, rows `ylo-1 .. yhi+1`), the corrector
returns and the sum over the window of the values it writes to `v` equals the sum over the
window of `u`. -/
theorem central2d_correct_conserves (v : Buf) (v0 : Int) (sc u f g : Buf) (cx cy : ℚ)
    (xlo xhi ylo yhi nx ny nfield k : Int)
    (hx : 1 ≤ xlo ∧ xlo < xhi ∧ xhi ≤ nx - 2) (hy : 1 ≤ ylo ∧ ylo < yhi ∧ yhi ≤ ny - 2)
    (hk : 0 ≤ k ∧ k < nfield)
    (hperx : ∀ x y, xlo - 1 ≤ x → x + (xhi - xlo) ≤ xhi + 1 → ylo - 1 ≤ y → y ≤ yhi + 1 →
      view u nx ny k (x + (xhi - xlo)) y = view u nx ny k x y ∧
      view f nx ny k (x + (xhi - xlo)) y = view f nx ny k x y ∧
      view g nx ny k (x + (xhi - xlo)) y = view g nx ny k x y)
    (hpery : ∀ x y, xlo - 1 ≤ x → x ≤ xhi + 1 → ylo - 1 ≤ y → y + (yhi - ylo) ≤ yhi + 1 →
      view u nx ny k x (y + (yhi - ylo)) = view u nx ny k x y ∧
      view f nx ny k x (y + (yhi - ylo)) = view f nx ny k x y ∧
      view g nx ny k x (y + (yhi - ylo)) = view g nx ny k x y) :
    ∃ r, central2d_correct v v0 sc u f g cx cy xlo xhi ylo yhi nx ny nfield = some r ∧
      ∑ x ∈ Finset.Ico xlo xhi, ∑ y ∈ Finset.Ico ylo yhi, r.1 (v0 + ((k * ny + y) * nx + x)) =
        ∑ x ∈ Finset.Ico xlo xhi, ∑ y ∈ Finset.Ico ylo yhi, u ((k * ny + y) * nx + x) := by
  obtain ⟨r, hr, hval⟩ := central2d_correct_spec v v0 sc u f g cx cy xlo xhi ylo yhi nx ny
    nfield hx ⟨by omega, hy.2.1, by omega⟩
  refine ⟨r, hr, ?_⟩
  have e1 : ∀ x ∈ Finset.Ico xlo xhi, ∑ y ∈ Finset.Ico ylo yhi,
      r.1 (v0 + ((k * ny + y) * nx + x)) = ∑ y ∈ Finset.Ico ylo yhi,
      correct_at cx cy (view u nx ny) (view f nx ny) (view g nx ny) k x y := by
    intro x hxm
    rw [Finset.mem_Ico] at hxm
    apply Finset.sum_congr rfl
    intro y hym
    rw [Finset.mem_Ico] at hym
    exact hval k x y hk.1 hk.2 hxm.1 hxm.2 hym.1 hym.2
  rw [Finset.sum_congr rfl e1]
  exact correct_at_sum cx cy (view u nx ny) (view f nx ny) (view g nx ny) k xlo xhi ylo yhi
    (by omega) (by omega)
    (by
      intro x x2 y h1 h2 h3 h4 h5
      subst h3
      exact (hperx x y h1 (by omega) (by omega) (by omega)).1)
    (by
      intro y h1 h2
      have := (hperx xlo y (by omega) (by omega) (by omega) (by omega)).2.1
      have e : xlo + (xhi - xlo) = xhi := by ring
      rw [e] at this
      exact this)
    (by
      intro x y y2 h1 h2 h3 h4 h5
      subst h5
      exact (hpery x y h1 h2 h3 (by omega)).1)
    (by
      intro x h1 h2
      have := (hpery x ylo (by omega) (by omega) (by omega) (by omega)).2.1
      have e : ylo + (yhi - ylo) = yhi := by ring
      rw [e] at this
      exact this)
    (by
      intro x h1 h2
      have := (hpery x ylo (by omega) (by omega) (by omega) (by omega)).2.2
      have e : ylo + (yhi - ylo) = yhi := by ring
      rw [e] at this
      exact this)

theorem central2d_correct_conserves_witness :
    ∃ r, central2d_correct (fun _ => 0) 0 (fun _ => 0) sample_stripes sample_stripes
        sample_stripes (1 / 2) (1 / 3) 1 3 1 3 6 6 1 = some r ∧
      ∑ x ∈ Finset.Ico (1 : Int) 3, ∑ y ∈ Finset.Ico (1 : Int) 3,
          r.1 (0 + ((0 * 6 + y) * 6 + x)) =
        ∑ x ∈ Finset.Ico (1 : Int) 3, ∑ y ∈ Finset.Ico (1 : Int) 3,
          sample_stripes ((0 * 6 + y) * 6 + x) :=
  central2d_correct_conserves (fun _ => 0) 0 (fun _ => 0) sample_stripes sample_stripes
    sample_stripes (1 / 2) (1 / 3) 1 3 1 3 6 6 1 0
    ⟨by decide, by decide, by decide⟩ ⟨by decide, by decide, by decide⟩
    ⟨by decide, by decide⟩
    (by
      intro x y _ _ _ _
      have e : ((0 * 6 + y) * 6 + (x + (3 - 1))) % 2 = ((0 * 6 + y) * 6 + x) % 2 := by omega
      simp only [view, sample_stripes, e, and_self])
    (by
      intro x y _ _ _ _
      have e : ((0 * 6 + (y + (3 - 1))) * 6 + x) % 2 = ((0 * 6 + y) * 6 + x) % 2 := by omega
      simp only [view, sample_stripes, e, and_self])

/-! ## Locality of the pointwise scheme -/

theorem cell_congr (nfield : Int) (U V : Grid) (x y : Int)
    (h : ∀ k, 0 ≤ k → k < nfield → U k x y = V k x y) : cell nfield U x y = cell nfield V x y := by
  funext k
  simp only [cell]
  by_cases hk : 0 ≤ k ∧ k < nfield
  · rw [if_pos hk, if_pos hk, h k hk.1 hk.2]
  · rw [if_neg hk, if_neg hk]

theorem flux_at_congr (phi : (Int → ℚ) → Int → ℚ) (nfield : Int) (U V : Grid) (k x y : Int)
    (h : ∀ k, 0 ≤ k → k < nfield → U k x y = V k x y) :
    flux_at phi nfield U k x y = flux_at phi nfield V k x y := by
  simp only [flux_at, cell_congr nfield U V x y h]

theorem predict_at_congr (cx cy : ℚ) (U F G U2 F2 G2 : Grid) (k x y : Int)
    (hU : U k x y = U2 k x y)
    (hF : ∀ x2, x - 1 ≤ x2 → x2 ≤ x + 1 → F k x2 y = F2 k x2 y)
    (hG : ∀ y2, y - 1 ≤ y2 → y2 ≤ y + 1 → G k x y2 = G2 k x y2) :
    predict_at cx cy U F G k x y = predict_at cx cy U2 F2 G2 k x y := by
  simp only [predict_at]
  rw [hU, hF (x - 1) (by omega) (by omega), hF x (by omega) (by omega),
    hF (x + 1) (by omega) (by omega), hG (y - 1) (by omega) (by omega),
    hG y (by omega) (by omega), hG (y + 1) (by omega) (by omega)]

theorem correct_at_congr (cx cy : ℚ) (U F G U2 F2 G2 : Grid) (k x y : Int)
    (hU : ∀ x2 y2, x - 1 ≤ x2 → x2 ≤ x + 2 → y - 1 ≤ y2 → y2 ≤ y + 2 →
      U k x2 y2 = U2 k x2 y2)
    (hF : ∀ x2 y2, x ≤ x2 → x2 ≤ x + 1 → y ≤ y2 → y2 ≤ y + 1 → F k x2 y2 = F2 k x2 y2)
    (hG : ∀ x2 y2, x ≤ x2 → x2 ≤ x + 1 → y ≤ y2 → y2 ≤ y + 1 → G k x2 y2 = G2 k x2 y2) :
    correct_at cx cy U F G k x y = correct_at cx cy U2 F2 G2 k x y := by
  have e1 : y + 1 - 1 = y := by ring
  have e2 : y + 1 + 1 = y + 2 := by ring
  simp only [correct_at, correct_s, correct_d, e1, e2]
  rw [hU (x - 1) y (by omega) (by omega) (by omega) (by omega),
    hU x y (by omega) (by omega) (by omega) (by omega),
    hU (x + 1) y (by omega) (by omega) (by omega) (by omega),
    hU (x + 2) y (by omega) (by omega) (by omega) (by omega),
    hU (x - 1) (y + 1) (by omega) (by omega) (by omega) (by omega),
    hU x (y + 1) (by omega) (by omega) (by omega) (by omega),
    hU (x + 1) (y + 1) (by omega) (by omega) (by omega) (by omega),
    hU (x + 2) (y + 1) (by omega) (by omega) (by omega) (by omega),
    hU x (y - 1) (by omega) (by omega) (by omega) (by omega),
    hU (x + 1) (y - 1) (by omega) (by omega) (by omega) (by omega),
    hU x (y + 2) (by omega) (by omega) (by omega) (by omega),
    hU (x + 1) (y + 2) (by omega) (by omega) (by omega) (by omega),
    hF x y (by omega) (by omega) (by omega) (by omega),
    hF (x + 1) y (by omega) (by omega) (by omega) (by omega),
    hF x (y + 1) (by omega) (by omega) (by omega) (by omega),
    hF (x + 1) (y + 1) (by omega) (by omega) (by omega) (by omega),
    hG x y (by omega) (by omega) (by omega) (by omega),
    hG (x + 1) y (by omega) (by omega) (by omega) (by omega),
    hG x (y + 1) (by omega) (by omega) (by omega) (by omega),
    hG (x + 1) (y + 1) (by omega) (by omega) (by omega) (by omega)]

theorem half_at_congr (phi psi : (Int → ℚ) → Int → ℚ) (nfield : Int) (cx cy : ℚ)
    (U V : Grid) (k x y : Int) (hk0 : 0 ≤ k) (hk1 : k < nfield)
    (h : ∀ k2 x2 y2, 0 ≤ k2 → k2 < nfield → x - 1 ≤ x2 → x2 ≤ x + 1 → y - 1 ≤ y2 →
      y2 ≤ y + 1 → U k2 x2 y2 = V k2 x2 y2) :
    half_at phi psi nfield cx cy U k x y = half_at phi psi nfield cx cy V k x y := by
  simp only [half_at]
  apply predict_at_congr
  · exact h k x y hk0 hk1 (by omega) (by omega) (by omega) (by omega)
  · intro x2 h1 h2
    exact flux_at_congr phi nfield U V k x2 y
      (fun k2 a b => h k2 x2 y a b h1 h2 (by omega) (by omega))
  · intro y2 h1 h2
    exact flux_at_congr psi nfield U V k x y2
      (fun k2 a b => h k2 x y2 a b (by omega) (by omega) h1 h2)

/-- A sub-step value at `(x, y)` depends on the state only on the 4 by 4 block of cells
`[x-1, x+2] x [y-1, y+2]`. -/
theorem step_at_congr (phi psi : (Int → ℚ) → Int → ℚ) (nfield : Int) (cx cy : ℚ)
    (U V : Grid) (k x y : Int) (hk0 : 0 ≤ k) (hk1 : k < nfield)
    (h : ∀ k2 x2 y2, 0 ≤ k2 → k2 < nfield → x - 1 ≤ x2 → x2 ≤ x + 2 → y - 1 ≤ y2 →
      y2 ≤ y + 2 → U k2 x2 y2 = V k2 x2 y2) :
    step_at phi psi nfield cx cy U k x y = step_at phi psi nfield cx cy V k x y := by
  simp only [step_at]
  apply correct_at_congr
  · intro x2 y2 h1 h2 h3 h4
    exact h k x2 y2 hk0 hk1 h1 h2 h3 h4
  · intro x2 y2 h1 h2 h3 h4
    apply flux_at_congr
    intro k2 a b
    exact half_at_congr phi psi nfield cx cy U V k2 x2 y2 a b
      (fun k3 x3 y3 c d e1 e2 e3 e4 => h k3 x3 y3 c d (by omega) (by omega) (by omega) (by omega))
  · intro x2 y2 h1 h2 h3 h4
    apply flux_at_congr
    intro k2 a b
    exact half_at_congr phi psi nfield cx cy U V k2 x2 y2 a b
      (fun k3 x3 y3 c d e1 e2 e3 e4 => h k3 x3 y3 c d (by omega) (by omega) (by omega) (by omega))

/-! ## One sub-step -/

/-- The cell state that a cell-wise flux reads at flat cell `(y * NX + x)` is the cell of the
grid view. -/
theorem cell_view (u : Buf) (NX NY nfield u0 i x y : Int) (hi : u0 + i = y * NX + x) :
    (fun k2 => if 0 ≤ k2 ∧ k2 < nfield then u (u0 + k2 * (NX * NY) + i) else 0) =
      cell nfield (view u NX NY) x y := by
  funext k2
  simp only [cell, view]
  have e : u0 + k2 * (NX * NY) + i = (k2 * NY + y) * NX + x := by
    have : u0 + k2 * (NX * NY) + i = k2 * (NX * NY) + (u0 + i) := by ring
    rw [this, hi]; ring
  rw [e]

/-- The flux of the whole padded buffer, in grid coordinates. -/
theorem flux_full_view (flux : flux_t) (nfield : Int) (phi psi : (Int → ℚ) → Int → ℚ)
    (hflux : IsCellwiseFlux flux nfield phi psi) (f g u : Buf) (NX NY : Int)
    (k x y : Int) (hk0 : 0 ≤ k) (hk1 : k < nfield) (hx0 : 0 ≤ x) (hx1 : x < NX)
    (hy0 : 0 ≤ y) (hy1 : y < NY) :
    view (flux f 0 g 0 u 0 (NX * NY) (NX * NY)).1 NX NY k x y =
        flux_at phi nfield (view u NX NY) k x y ∧
      view (flux f 0 g 0 u 0 (NX * NY) (NX * NY)).2 NX NY k x y =
        flux_at psi nfield (view u NX NY) k x y := by
  have hN : 0 ≤ NX * NY := mul_nonneg (by omega) (by omega)
  have hi1 : y * NX + x < NX * NY := by
    have : (y + 1) * NX ≤ NY * NX := mul_le_mul_of_nonneg_right (by omega) (by omega)
    nlinarith
  have hi0 : 0 ≤ y * NX + x := by
    have : 0 ≤ y * NX := mul_nonneg hy0 (by omega)
    omega
  obtain ⟨h1, h2⟩ := (hflux f 0 g 0 u 0 (NX * NY) (NX * NY) hN (le_refl _)).1 k (y * NX + x)
    hk0 hk1 hi0 hi1
  have e : (k * NY + y) * NX + x = 0 + k * (NX * NY) + (y * NX + x) := by ring
  simp only [view, flux_at]
  rw [e, h1, h2, cell_view u NX NY nfield 0 (y * NX + x) x y (by ring)]
  exact ⟨rfl, rfl⟩

/-- The flux of the half-step state, computed row by row on the cells that are not on the
outermost ring, in grid coordinates. -/
theorem flux_rows_view (flux : flux_t) (nfield : Int) (phi psi : (Int → ℚ) → Int → ℚ)
    (hflux : IsCellwiseFlux flux nfield phi psi) (fg : Buf × Buf) (v : Buf) (NX NY : Int)
    (k x y : Int) (hk0 : 0 ≤ k) (hk1 : k < nfield) (hx0 : 1 ≤ x) (hx1 : x < NX - 1)
    (hy0 : 1 ≤ y) (hy1 : y < NY - 1) :
    view (forRange 1 (NY - 1) (fun iy fg =>
        flux fg.1 (iy * NX + 1) fg.2 (iy * NX + 1) v (iy * NX + 1) (NX - 2) (NX * NY)) fg).1
        NX NY k x y = flux_at phi nfield (view v NX NY) k x y ∧
      view (forRange 1 (NY - 1) (fun iy fg =>
        flux fg.1 (iy * NX + 1) fg.2 (iy * NX + 1) v (iy * NX + 1) (NX - 2) (NX * NY)) fg).2
        NX NY k x y = flux_at psi nfield (view v NX NY) k x y := by
  have hcell : 0 ≤ NX - 2 ∧ NX - 2 ≤ NX * NY := by
    constructor
    · omega
    · have : NX * 1 ≤ NX * NY := mul_le_mul_of_nonneg_left (by omega) (by omega)
      omega
  have key := forRange_ind 1 (NY - 1) (fun iy (fg : Buf × Buf) =>
      flux fg.1 (iy * NX + 1) fg.2 (iy * NX + 1) v (iy * NX + 1) (NX - 2) (NX * NY))
    (fun m (fg : Buf × Buf) => ∀ k x y, 0 ≤ k → k < nfield → 1 ≤ x → x < NX - 1 → 1 ≤ y →
      y < m → view fg.1 NX NY k x y = flux_at phi nfield (view v NX NY) k x y ∧
        view fg.2 NX NY k x y = flux_at psi nfield (view v NX NY) k x y)
    fg (by omega) (by intro k x y _ _ _ _ h1 h2; omega)
    (by
      intro iy fg2 hiy0 hiy1 hinv k x y hk0 hk1 hx0 hx1 hy0 hy1
      beta_reduce
      obtain ⟨hval, hfr1, hfr2⟩ := hflux fg2.1 (iy * NX + 1) fg2.2 (iy * NX + 1) v
        (iy * NX + 1) (NX - 2) (NX * NY) hcell.1 hcell.2
      by_cases hy : y = iy
      · subst hy
        obtain ⟨h1, h2⟩ := hval k (x - 1) hk0 hk1 (by omega) (by omega)
        have e : (k * NY + y) * NX + x = y * NX + 1 + k * (NX * NY) + (x - 1) := by ring
        simp only [view, flux_at]
        rw [e, h1, h2, cell_view v NX NY nfield (y * NX + 1) (x - 1) x y (by ring)]
        exact ⟨rfl, rfl⟩
      · have hne : ∀ k2 i, 0 ≤ k2 → k2 < nfield → 0 ≤ i → i < NX - 2 →
            (k * NY + y) * NX + x ≠ iy * NX + 1 + k2 * (NX * NY) + i := by
          intro k2 i _ _ hi0 hi1 heq
          have e : iy * NX + 1 + k2 * (NX * NY) + i = (k2 * NY + iy) * NX + (i + 1) := by ring
          rw [e] at heq
          have h3 := (flat_index_inj NX _ _ x (i + 1) (by omega) (by omega) (by omega) (by omega)
            heq).1
          have h4 := (flat_index_inj NY k k2 y iy (by omega) (by omega) (by omega) (by omega)
            h3).2
          exact hy h4
        simp only [view]
        rw [hfr1 _ hne, hfr2 _ hne]
        exact hinv k x y hk0 hk1 hx0 hx1 hy0 (by omega))
  exact key k x y hk0 hk1 hx0 hx1 hy0 hy1

/-- Values that `central2d_step` leaves in `v`: for either parity the value of the pointwise
sub-step at staggered index `(x, y)` is stored in cell `(x + io, y + io)`, for every staggered
index of the window `[ng - io, n + ng - io)` along both axes. -/
theorem central2d_step_spec (flux : flux_t) (nfield : Int) (phi psi : (Int → ℚ) → Int → ℚ)
    (hflux : IsCellwiseFlux flux nfield phi psi) (u v sc f g : Buf) (io nx ny ng : Int)
    (speed : speed_t) (dt dx dy : ℚ) (hio : io = 0 ∨ io = 1) (hng : 2 ≤ ng)
    (hnx : 1 ≤ nx) (hny : 1 ≤ ny) :
    ∃ r, central2d_step u v sc f g io nx ny ng nfield flux speed dt dx dy = some r ∧
      ∀ k x y, 0 ≤ k → k < nfield → ng - io ≤ x → x < nx + ng - io → ng - io ≤ y →
        y < ny + ng - io →
        r.v ((k * (ny + 2 * ng) + (y + io)) * (nx + 2 * ng) + (x + io)) =
          step_at phi psi nfield (1 / 2 * dt / dx) (1 / 2 * dt / dy)
            (view u (nx + 2 * ng) (ny + 2 * ng)) k x y := by
  simp only [central2d_step]
  obtain ⟨vs, hvs, hpred⟩ := central2d_predict_spec v sc u
    (flux f 0 g 0 u 0 ((nx + 2 * ng) * (ny + 2 * ng)) ((nx + 2 * ng) * (ny + 2 * ng))).1
    (flux f 0 g 0 u 0 ((nx + 2 * ng) * (ny + 2 * ng)) ((nx + 2 * ng) * (ny + 2 * ng))).2
    (1 / 2 * dt / dx) (1 / 2 * dt / dy) (nx + 2 * ng) (ny + 2 * ng) nfield (by omega)
  rw [hvs, Option.some_bind]
  obtain ⟨r, hr, hcorr⟩ := central2d_correct_spec vs.1 (io * (nx + 2 * ng + 1)) vs.2 u
    (forRange 1 (ny + 2 * ng - 1) (fun iy fg =>
      flux fg.1 (iy * (nx + 2 * ng) + 1) fg.2 (iy * (nx + 2 * ng) + 1) vs.1
        (iy * (nx + 2 * ng) + 1) (nx + 2 * ng - 2) ((nx + 2 * ng) * (ny + 2 * ng)))
      (flux f 0 g 0 u 0 ((nx + 2 * ng) * (ny + 2 * ng)) ((nx + 2 * ng) * (ny + 2 * ng)))).1
    (forRange 1 (ny + 2 * ng - 1) (fun iy fg =>
      flux fg.1 (iy * (nx + 2 * ng) + 1) fg.2 (iy * (nx + 2 * ng) + 1) vs.1
        (iy * (nx + 2 * ng) + 1) (nx + 2 * ng - 2) ((nx + 2 * ng) * (ny + 2 * ng)))
      (flux f 0 g 0 u 0 ((nx + 2 * ng) * (ny + 2 * ng)) ((nx + 2 * ng) * (ny + 2 * ng)))).2
    (1 / 2 * dt / dx) (1 / 2 * dt / dy) (ng - io) (nx + ng - io) (ng - io) (ny + ng - io)
    (nx + 2 * ng) (ny + 2 * ng) nfield
    ⟨by omega, by omega, by omega⟩ ⟨by omega, by omega, by omega⟩
  rw [hr, Option.map_some']
  refine ⟨_, rfl, ?_⟩
  intro k x y hk0 hk1 hx0 hx1 hy0 hy1
  dsimp only
  have e : (k * (ny + 2 * ng) + (y + io)) * (nx + 2 * ng) + (x + io) =
      io * (nx + 2 * ng + 1) + ((k * (ny + 2 * ng) + y) * (nx + 2 * ng) + x) := by ring
  rw [e, hcorr k x y hk0 hk1 hx0 hx1 hy0 hy1]
  simp only [step_at]
  have hhalf : ∀ k2 x2 y2, 0 ≤ k2 → k2 < nfield → 1 ≤ x2 → x2 < nx + 2 * ng - 1 → 1 ≤ y2 →
      y2 < ny + 2 * ng - 1 → view vs.1 (nx + 2 * ng) (ny + 2 * ng) k2 x2 y2 =
        half_at phi psi nfield (1 / 2 * dt / dx) (1 / 2 * dt / dy)
          (view u (nx + 2 * ng) (ny + 2 * ng)) k2 x2 y2 := by
    intro k2 x2 y2 a b c d e1 e2
    have := hpred k2 x2 y2 a b c d e1 e2
    simp only [view] at this ⊢
    rw [this]
    simp only [half_at]
    apply predict_at_congr
    · rfl
    · intro x3 h1 h2
      exact (flux_full_view flux nfield phi psi hflux f g u (nx + 2 * ng) (ny + 2 * ng)
        k2 x3 y2 a b (by omega) (by omega) (by omega) (by omega)).1
    · intro y3 h1 h2
      exact (flux_full_view flux nfield phi psi hflux f g u (nx + 2 * ng) (ny + 2 * ng)
        k2 x2 y3 a b (by omega) (by omega) (by omega) (by omega)).2
  apply correct_at_congr
  · intro x2 y2 _ _ _ _
    rfl
  · intro x2 y2 h1 h2 h3 h4
    rw [(flux_rows_view flux nfield phi psi hflux _ vs.1 (nx + 2 * ng) (ny + 2 * ng)
      k x2 y2 hk0 hk1 (by omega) (by omega) (by omega) (by omega)).1]
    apply flux_at_congr
    intro k2 a b
    exact hhalf k2 x2 y2 a b (by omega) (by omega) (by omega) (by omega)
  · intro x2 y2 h1 h2 h3 h4
    rw [(flux_rows_view flux nfield phi psi hflux _ vs.1 (nx + 2 * ng) (ny + 2 * ng)
      k x2 y2 hk0 hk1 (by omega) (by omega) (by omega) (by omega)).2]
    apply flux_at_congr
    intro k2 a b
    exact hhalf k2 x2 y2 a b (by omega) (by omega) (by omega) (by omega)

/-! ## Translation invariance of the pointwise scheme -/

theorem flux_at_shift (phi : (Int → ℚ) → Int → ℚ) (nfield a b : Int) (U : Grid) :
    flux_at phi nfield (shift_grid a b U) = shift_grid a b (flux_at phi nfield U) := rfl

theorem predict_at_shift (cx cy : ℚ) (a b : Int) (U F G : Grid) :
    predict_at cx cy (shift_grid a b U) (shift_grid a b F) (shift_grid a b G) =
      shift_grid a b (predict_at cx cy U F G) := by
  funext k x y
  have e1 : x - 1 + a = x + a - 1 := by ring
  have e2 : x + 1 + a = x + a + 1 := by ring
  have e3 : y - 1 + b = y + b - 1 := by ring
  have e4 : y + 1 + b = y + b + 1 := by ring
  simp only [predict_at, shift_grid, e1, e2, e3, e4]

theorem correct_at_shift (cx cy : ℚ) (a b : Int) (U F G : Grid) :
    correct_at cx cy (shift_grid a b U) (shift_grid a b F) (shift_grid a b G) =
      shift_grid a b (correct_at cx cy U F G) := by
  funext k x y
  have e1 : x - 1 + a = x + a - 1 := by ring
  have e2 : x + 1 + a = x + a + 1 := by ring
  have e3 : x + 2 + a = x + a + 2 := by ring
  have e4 : y + 1 - 1 + b = y + b + 1 - 1 := by ring
  have e5 : y + 1 + b = y + b + 1 := by ring
  have e6 : y + 1 + 1 + b = y + b + 1 + 1 := by ring
  have e7 : y - 1 + b = y + b - 1 := by ring
  simp only [correct_at, correct_s, correct_d, shift_grid, e1, e2, e3, e4, e5, e6, e7]

/-- A sub-step commutes with a translation of the grid. -/
theorem step_at_shift (phi psi : (Int → ℚ) → Int → ℚ) (nfield : Int) (cx cy : ℚ)
    (a b : Int) (U : Grid) :
    step_at phi psi nfield cx cy (shift_grid a b U) =
      shift_grid a b (step_at phi psi nfield cx cy U) := by
  have h : half_at phi psi nfield cx cy (shift_grid a b U) =
      shift_grid a b (half_at phi psi nfield cx cy U) := by
    simp only [half_at, flux_at_shift, predict_at_shift]
  simp only [step_at, h, flux_at_shift, correct_at_shift]

/-! ## One tile of the parallel region -/

/-- The tile buffer after the halo fill is the periodic extension of the global interior, read
from the tile origin. -/
theorem central2d_periodic_view (u0 u : Buf) (nx ny ng partx party px py nfield sx sy : Int)
    (hnx : partx * sx = nx) (hny : party * sy = ny) (hng : 0 ≤ ng) (hsx : ng ≤ sx)
    (hsy : ng ≤ sy) (hpx0 : 0 ≤ px) (hpx1 : px < partx) (hpy0 : 0 ≤ py) (hpy1 : py < party)
    (k i j : Int) (hk0 : 0 ≤ k) (hk1 : k < nfield) (hi0 : 0 ≤ i) (hi1 : i < sx + 2 * ng)
    (hj0 : 0 ≤ j) (hj1 : j < sy + 2 * ng) :
    view (central2d_periodic u0 u sx sy ng partx party px py nfield) (sx + 2 * ng)
        (sy + 2 * ng) k i j =
      shift_grid (px * sx - ng) (py * sy - ng) (periodic_ext u nx ny ng) k i j := by
  simp only [view, shift_grid, periodic_ext]
  rw [central2d_periodic_get_mod u0 u sx sy ng partx party px py nfield hng hsx hsy
    hpx0 hpx1 hpy0 hpy1 k j i hk0 hk1 hj0 hj1 hi0 hi1, hnx, hny]
  have e1 : px * sx + i - ng = i + (px * sx - ng) := by ring
  have e2 : py * sy + j - ng = j + (py * sy - ng) := by ring
  rw [e1, e2]

/-- Values of the tile interior after the two sub-steps of a pass: the pointwise pass on the
periodic extension of the global interior, at the global coordinates of the tile cell. -/
theorem central2d_xrun_tile_spec (flux : flux_t) (nfield : Int)
    (phi psi : (Int → ℚ) → Int → ℚ) (hflux : IsCellwiseFlux flux nfield phi psi)
    (u block : Buf) (nx ny ng : Int) (speed : speed_t) (dt dx dy : ℚ)
    (partx party j sx sy px py : Int)
    (hsx : Int.tdiv nx partx = sx) (hsy : Int.tdiv ny party = sy)
    (hpx : Int.tmod j partx = px) (hpy : Int.tdiv j party = py)
    (hnx : partx * sx = nx) (hny : party * sy = ny) (hng : 4 ≤ ng)
    (hsxg : ng ≤ sx) (hsyg : ng ≤ sy)
    (hpx0 : 0 ≤ px) (hpx1 : px < partx) (hpy0 : 0 ≤ py) (hpy1 : py < party) :
    ∃ pu, central2d_xrun_tile u block nx ny ng nfield flux speed dt dx dy partx party j =
        some pu ∧
      ∀ k i jj, 0 ≤ k → k < nfield → ng ≤ i → i < sx + ng → ng ≤ jj → jj < sy + ng →
        pu ((k * (sy + 2 * ng) + jj) * (sx + 2 * ng) + i) =
          pass_at phi psi nfield (1 / 2 * dt / dx) (1 / 2 * dt / dy) u nx ny ng k
            (px * sx + i - ng) (py * sy + jj - ng) := by
  simp only [central2d_xrun_tile, hsx, hsy, hpx, hpy]
  have hpu0 := central2d_periodic_view (fun i => block i) u nx ny ng partx party px py nfield
    sx sy hnx hny (by omega) hsxg hsyg hpx0 hpx1 hpy0 hpy1
  obtain ⟨r1, h1, hv1⟩ := central2d_step_spec flux nfield phi psi hflux
    (central2d_periodic (fun i => block i) u sx sy ng partx party px py nfield)
    (fun i => block (nfield * ((sx + 2 * ng) * (sy + 2 * ng)) + i))
    (fun i => block (4 * (nfield * ((sx + 2 * ng) * (sy + 2 * ng))) + i))
    (fun i => block (2 * (nfield * ((sx + 2 * ng) * (sy + 2 * ng))) + i))
    (fun i => block (3 * (nfield * ((sx + 2 * ng) * (sy + 2 * ng))) + i))
    0 (sx + 4) (sy + 4) (ng - 2) speed dt dx dy (Or.inl rfl) (by omega) (by omega) (by omega)
  have eX : sx + 4 + 2 * (ng - 2) = sx + 2 * ng := by ring
  have eY : sy + 4 + 2 * (ng - 2) = sy + 2 * ng := by ring
  rw [eX, eY] at hv1
  simp only [add_zero, sub_zero] at hv1
  rw [h1, Option.some_bind]
  obtain ⟨r2, h2, hv2⟩ := central2d_step_spec flux nfield phi psi hflux r1.v
    (central2d_periodic (fun i => block i) u sx sy ng partx party px py nfield)
    r1.scratch r1.f r1.g 1 sx sy ng speed dt dx dy (Or.inr rfl) (by omega) (by omega)
    (by omega)
  rw [h2, Option.map_some']
  refine ⟨_, rfl, ?_⟩
  intro k i jj hk0 hk1 hi0 hi1 hj0 hj1
  have h3 := hv2 k (i - 1) (jj - 1) hk0 hk1 (by omega) (by omega) (by omega) (by omega)
  have e1 : i - 1 + 1 = i := by ring
  have e2 : jj - 1 + 1 = jj := by ring
  rw [e1, e2] at h3
  rw [h3]
  have h4 : step_at phi psi nfield (1 / 2 * dt / dx) (1 / 2 * dt / dy)
      (view r1.v (sx + 2 * ng) (sy + 2 * ng)) k (i - 1) (jj - 1) =
      step_at phi psi nfield (1 / 2 * dt / dx) (1 / 2 * dt / dy)
        (step_at phi psi nfield (1 / 2 * dt / dx) (1 / 2 * dt / dy)
          (shift_grid (px * sx - ng) (py * sy - ng) (periodic_ext u nx ny ng)))
        k (i - 1) (jj - 1) := by
    apply step_at_congr _ _ _ _ _ _ _ _ _ _ hk0 hk1
    intro k2 x2 y2 a b c d e3 e4
    have h5 := hv1 k2 x2 y2 a b (by omega) (by omega) (by omega) (by omega)
    simp only [view]
    rw [h5]
    apply step_at_congr _ _ _ _ _ _ _ _ _ _ a b
    intro k3 x3 y3 a3 b3 c3 d3 e5 e6
    exact hpu0 k3 x3 y3 a3 b3 (by omega) (by omega) (by omega) (by omega)
  rw [h4, step_at_shift, step_at_shift]
  simp only [shift_grid, pass_at]
  have e3 : i - 1 + (px * sx - ng) = px * sx + i - ng - 1 := by ring
  have e4 : jj - 1 + (py * sy - ng) = py * sy + jj - ng - 1 := by ring
  rw [e3, e4]

/-! ## The parallel region of a pass -/

/-- Value of the result of `copy_subgrid_allfield` at field `k`, row `R`, column `i` of a
destination with `H` rows of `s` columns per field, for a window of `w` columns from column
`c0` and `h` rows from row `r0` in every field. -/
theorem copy_subgrid_allfield_get (dst src : Buf) (d0 s0 w h c1 c2 s s2 nfield H c0 r0 : Int)
    (hd0 : d0 = r0 * s + c0) (hc1 : c1 = H * s) (hc0 : 0 ≤ c0) (hw : c0 + w ≤ s)
    (hr0 : 0 ≤ r0) (hh : r0 + h ≤ H)
    (k R i : Int) (hR0 : 0 ≤ R) (hR1 : R < H) (hi0 : 0 ≤ i) (hi1 : i < s) :
    copy_subgrid_allfield dst d0 src s0 w h c1 c2 s s2 nfield ((k * H + R) * s + i) =
      if 0 ≤ k ∧ k < nfield ∧ c0 ≤ i ∧ i < c0 + w ∧ r0 ≤ R ∧ R < r0 + h
      then src (s0 + k * c2 + ((R - r0) * s2 + (i - c0))) else dst ((k * H + R) * s + i) := by
  have key := forRange_ind_max 0 nfield (fun k dst =>
      copy_subgrid dst (d0 + k * c1) src (s0 + k * c2) w h s s2)
    (fun m b => ∀ k R i, 0 ≤ R → R < H → 0 ≤ i → i < s → b ((k * H + R) * s + i) =
      if 0 ≤ k ∧ k < m ∧ c0 ≤ i ∧ i < c0 + w ∧ r0 ≤ R ∧ R < r0 + h
      then src (s0 + k * c2 + ((R - r0) * s2 + (i - c0))) else dst ((k * H + R) * s + i))
    dst (by intro k R i _ _ _ _; rw [if_neg (by omega)])
    (by
      intro m b hm0 hm1 hinv k R i hR0 hR1 hi0 hi1
      beta_reduce
      rw [copy_subgrid_get b src (d0 + m * c1) (s0 + m * c2) w h s s2 c0 (m * H + r0)
        (by rw [hd0, hc1]; ring) hc0 hw (k * H + R) i hi0 hi1, hinv k R i hR0 hR1 hi0 hi1]
      by_cases hkm : k = m
      · subst hkm
        by_cases hc : c0 ≤ i ∧ i < c0 + w ∧ r0 ≤ R ∧ R < r0 + h
        · rw [if_pos (by omega), if_pos (by omega)]
          congr 1
          ring
        · rw [if_neg (by omega), if_neg (by omega), if_neg (by omega)]
      · have hne : ¬ (c0 ≤ i ∧ i < c0 + w ∧ m * H + r0 ≤ k * H + R ∧
            k * H + R < m * H + r0 + h) := by
          intro hc
          rcases lt_or_gt_of_ne hkm with hlt | hgt
          · have : (k + 1) * H ≤ m * H := mul_le_mul_of_nonneg_right (by omega) (by omega)
            have e : (k + 1) * H = k * H + H := by ring
            omega
          · have : (m + 1) * H ≤ k * H := mul_le_mul_of_nonneg_right (by omega) (by omega)
            have e : (m + 1) * H = m * H + H := by ring
            omega
        rw [if_neg hne]
        by_cases hc : 0 ≤ k ∧ k < m ∧ c0 ≤ i ∧ i < c0 + w ∧ r0 ≤ R ∧ R < r0 + h
        · rw [if_pos hc, if_pos (by omega)]
        · rw [if_neg hc, if_neg (by omega)])
  have hres := key k R i hR0 hR1 hi0 hi1
  unfold copy_subgrid_allfield
  rw [hres]
  by_cases hc : 0 ≤ k ∧ k < nfield ∧ c0 ≤ i ∧ i < c0 + w ∧ r0 ≤ R ∧ R < r0 + h
  · rw [if_pos hc, if_pos (by omega)]
  · rw [if_neg hc, if_neg (by omega)]

/-- Values that the parallel region leaves in the interior of the global buffer, for the 1 by 1
and the 2 by 2 tiling of a grid whose sizes the tiling divides: the pointwise pass on the
periodic extension of the global interior before the region. -/
theorem central2d_xrun_sweep_spec (flux : flux_t) (nfield : Int)
    (phi psi : (Int → ℚ) → Int → ℚ) (hflux : IsCellwiseFlux flux nfield phi psi)
    (u : Buf) (alloc : Int → Buf) (nx ny ng : Int) (speed : speed_t) (dt dx dy : ℚ)
    (P sx sy : Int) (hP : P = 1 ∨ P = 2) (hnx : P * sx = nx) (hny : P * sy = ny)
    (hng : 4 ≤ ng) (hsx : ng ≤ sx) (hsy : ng ≤ sy) :
    ∃ u2, central2d_xrun_sweep u alloc nx ny ng nfield flux speed dt dx dy P P = some u2 ∧
      ∀ k gx gy, 0 ≤ k → k < nfield → 0 ≤ gx → gx < nx → 0 ≤ gy → gy < ny →
        u2 ((k * (ny + 2 * ng) + (ng + gy)) * (nx + 2 * ng) + (ng + gx)) =
          pass_at phi psi nfield (1 / 2 * dt / dx) (1 / 2 * dt / dy) u nx ny ng k gx gy := by
  have hP0 : 0 < P := by omega
  have hnx0 : 0 ≤ nx := by rcases hP with rfl | rfl <;> omega
  have hny0 : 0 ≤ ny := by rcases hP with rfl | rfl <;> omega
  have hdx : Int.tdiv nx P = sx := by
    rw [Int.tdiv_eq_ediv hnx0 hP0.le, ← hnx]
    exact Int.mul_ediv_cancel_left sx (by omega)
  have hdy : Int.tdiv ny P = sy := by
    rw [Int.tdiv_eq_ediv hny0 hP0.le, ← hny]
    exact Int.mul_ediv_cancel_left sy (by omega)
  simp only [central2d_xrun_sweep, hdx, hdy]
  refine forRangeM_post _ _ _
    (fun m (acc : Buf) => ∀ k gx gy px py, 0 ≤ k → k < nfield → 0 ≤ px → px < P → 0 ≤ py →
      py < P → py * P + px < m → px * sx ≤ gx → gx < px * sx + sx → py * sy ≤ gy →
      gy < py * sy + sy →
      acc ((k * (ny + 2 * ng) + (ng + gy)) * (nx + 2 * ng) + (ng + gx)) =
        pass_at phi psi nfield (1 / 2 * dt / dx) (1 / 2 * dt / dy) u nx ny ng k gx gy)
    _ _ ?_ ?_ ?_
  · intro k gx gy px py _ _ hpx0 _ hpy0 _ hlt
    have : 0 ≤ py * P := mul_nonneg hpy0 hP0.le
    omega
  · intro j acc hj0 hj1 hinv
    beta_reduce
    have hjx : Int.tmod j P = j % P := Int.tmod_eq_emod hj0 hP0.le
    have hjy : Int.tdiv j P = j / P := Int.tdiv_eq_ediv hj0 hP0.le
    have hpxr : 0 ≤ j % P ∧ j % P < P := ⟨Int.emod_nonneg _ (by omega), Int.emod_lt_of_pos _ hP0⟩
    have hpyr : 0 ≤ j / P ∧ j / P < P := by
      rcases hP with rfl | rfl <;> omega
    have hjdecomp : j / P * P + j % P = j := by
      rcases hP with rfl | rfl <;> omega
    obtain ⟨pu, hpu, hval⟩ := central2d_xrun_tile_spec flux nfield phi psi hflux u (alloc j)
      nx ny ng speed dt dx dy P P j sx sy (j % P) (j / P) hdx hdy hjx hjy hnx hny hng hsx hsy
      hpxr.1 hpxr.2 hpyr.1 hpyr.2
    rw [hpu, Option.map_some']
    refine ⟨_, rfl, ?_⟩
    intro k gx gy px py hk0 hk1 hpx0 hpx1 hpy0 hpy1 hlt hgx0 hgx1 hgy0 hgy1
    rw [hjx, hjy]
    have hsxn : sx ≤ nx := by rcases hP with rfl | rfl <;> omega
    have hsyn : sy ≤ ny := by rcases hP with rfl | rfl <;> omega
    have hpxs : 0 ≤ j % P * sx ∧ j % P * sx + sx ≤ nx := by
      rcases hP with rfl | rfl
      · have : j % 1 = 0 := by omega
        rw [this]; omega
      · have : j % 2 = 0 ∨ j % 2 = 1 := by omega
        rcases this with h | h <;> rw [h] <;> omega
    have hpys : 0 ≤ j / P * sy ∧ j / P * sy + sy ≤ ny := by
      rcases hP with rfl | rfl
      · have : j / 1 = 0 := by omega
        rw [this]; omega
      · have : j / 2 = 0 ∨ j / 2 = 1 := by omega
        rcases this with h | h <;> rw [h] <;> omega
    rw [copy_subgrid_allfield_get acc pu _ _ sx sy _ _ (nx + 2 * ng) (sx + 2 * ng) nfield
      (ny + 2 * ng) (ng + j % P * sx) (ng + j / P * sy) (by ring) (by ring) (by omega)
      (by omega) (by omega) (by omega) k (ng + gy) (ng + gx) (by
        have : 0 ≤ py * sy := mul_nonneg hpy0 (by omega)
        omega) (by
        have : py * sy + sy ≤ ny := by
          rcases hP with rfl | rfl
          · have : py = 0 := by omega
            rw [this]; omega
          · have : py = 0 ∨ py = 1 := by omega
            rcases this with h | h <;> rw [h] <;> omega
        omega) (by
        have : 0 ≤ px * sx := mul_nonneg hpx0 (by omega)
        omega) (by
        have : px * sx + sx ≤ nx := by
          rcases hP with rfl | rfl
          · have : px = 0 := by omega
            rw [this]; omega
          · have : px = 0 ∨ px = 1 := by omega
            rcases this with h | h <;> rw [h] <;> omega
        omega)]
    by_cases hj : py * P + px = j
    · have hpx : j % P = px := by
        rcases hP with rfl | rfl <;> omega
      have hpy : j / P = py := by
        rcases hP with rfl | rfl <;> omega
      rw [hpx, hpy, if_pos (by omega)]
      have e : ng * (sx + 2 * ng) + ng + k * ((sx + 2 * ng) * (sy + 2 * ng)) +
          ((ng + gy - (ng + py * sy)) * (sx + 2 * ng) + (ng + gx - (ng + px * sx))) =
          (k * (sy + 2 * ng) + (ng + gy - py * sy)) * (sx + 2 * ng) + (ng + gx - px * sx) := by
        ring
      rw [e, hval k (ng + gx - px * sx) (ng + gy - py * sy) hk0 hk1 (by omega) (by omega)
        (by omega) (by omega), hpx, hpy]
      congr 1 <;> ring
    · have hne : ¬ (0 ≤ k ∧ k < nfield ∧ ng + j % P * sx ≤ ng + gx ∧
          ng + gx < ng + j % P * sx + sx ∧ ng + j / P * sy ≤ ng + gy ∧
          ng + gy < ng + j / P * sy + sy) := by
        intro hc
        apply hj
        rcases hP with rfl | rfl
        · omega
        · have h1 : j % 2 = 0 ∨ j % 2 = 1 := by omega
          have h2 : j / 2 = 0 ∨ j / 2 = 1 := by omega
          have h3 : px = 0 ∨ px = 1 := by omega
          have h4 : py = 0 ∨ py = 1 := by omega
          rcases h1 with h1 | h1 <;> rcases h2 with h2 | h2 <;> rcases h3 with h3 | h3 <;>
            rcases h4 with h4 | h4 <;> rw [h1, h2] at hc <;> rw [h3] at hgx0 hgx1 ⊢ <;>
            rw [h4] at hgy0 hgy1 ⊢ <;> omega
      rw [if_neg hne]
      exact hinv k gx gy px py hk0 hk1 hpx0 hpx1 hpy0 hpy1 (by omega) hgx0 hgx1 hgy0 hgy1
  · intro u2 hinv k gx gy hk0 hk1 hgx0 hgx1 hgy0 hgy1
    rcases hP with rfl | rfl
    · exact hinv k gx gy 0 0 hk0 hk1 (by omega) (by omega) (by omega) (by omega) (by omega)
        (by omega) (by omega) (by omega) (by omega)
    · by_cases hx : gx < sx <;> by_cases hy : gy < sy
      · exact hinv k gx gy 0 0 hk0 hk1 (by omega) (by omega) (by omega) (by omega) (by omega)
          (by omega) (by omega) (by omega) (by omega)
      · exact hinv k gx gy 0 1 hk0 hk1 (by omega) (by omega) (by omega) (by omega) (by omega)
          (by omega) (by omega) (by omega) (by omega)
      · exact hinv k gx gy 1 0 hk0 hk1 (by omega) (by omega) (by omega) (by omega) (by omega)
          (by omega) (by omega) (by omega) (by omega)
      · exact hinv k gx gy 1 1 hk0 hk1 (by omega) (by omega) (by omega) (by omega) (by omega)
          (by omega) (by omega) (by omega) (by omega)

/-! ## The shallow-water flux is cell-wise -/

/-- A loop that stores two values per pass in each of two buffers, at `a + i`, `b + i` of the
first and `c + i`, `d + i` of the second, the two windows of a buffer being disjoint. -/
theorem forRange_store_pair (ncell a b c d : Int) (A B C D : Int → ℚ) (F0 G0 : Buf)
    (hab : ∀ i j, 0 ≤ i → i < ncell → 0 ≤ j → j < ncell → a + i ≠ b + j)
    (hcd : ∀ i j, 0 ≤ i → i < ncell → 0 ≤ j → j < ncell → c + i ≠ d + j) :
    (∀ p, (forRange 0 ncell (fun i (FG : Buf × Buf) =>
        (store (store FG.1 (a + i) (A i)) (b + i) (B i),
          store (store FG.2 (c + i) (C i)) (d + i) (D i))) (F0, G0)).1 p =
      if 0 ≤ p - a ∧ p - a < ncell then A (p - a)
      else if 0 ≤ p - b ∧ p - b < ncell then B (p - b) else F0 p) ∧
    (∀ p, (forRange 0 ncell (fun i (FG : Buf × Buf) =>
        (store (store FG.1 (a + i) (A i)) (b + i) (B i),
          store (store FG.2 (c + i) (C i)) (d + i) (D i))) (F0, G0)).2 p =
      if 0 ≤ p - c ∧ p - c < ncell then C (p - c)
      else if 0 ≤ p - d ∧ p - d < ncell then D (p - d) else G0 p) := by
  have hstore : ∀ (x y m : Int) (X Y : Int → ℚ) (H0 H : Buf),
      (∀ i j, 0 ≤ i → i < ncell → 0 ≤ j → j < ncell → x + i ≠ y + j) → 0 ≤ m → m < ncell →
      (∀ p, H p = if 0 ≤ p - x ∧ p - x < m then X (p - x)
        else if 0 ≤ p - y ∧ p - y < m then Y (p - y) else H0 p) →
      ∀ p, store (store H (x + m) (X m)) (y + m) (Y m) p =
        if 0 ≤ p - x ∧ p - x < m + 1 then X (p - x)
        else if 0 ≤ p - y ∧ p - y < m + 1 then Y (p - y) else H0 p := by
    intro x y m X Y H0 H hxy hm0 hm1 hH p
    by_cases h1 : p = y + m
    · have hnx : ¬ (0 ≤ p - x ∧ p - x < m + 1) := by
        intro hc
        exact hxy (p - x) m hc.1 (by omega) hm0 hm1 (by rw [h1]; ring)
      rw [h1, store_eq, ← h1, if_neg hnx, if_pos (by omega)]
      congr 1; omega
    · rw [store_ne _ _ _ _ h1]
      by_cases h2 : p = x + m
      · rw [h2, store_eq, if_pos (by omega)]
        congr 1; ring
      · rw [store_ne _ _ _ _ h2, hH p]
        have e1 : (0 ≤ p - x ∧ p - x < m + 1) ↔ (0 ≤ p - x ∧ p - x < m) := by omega
        have e2 : (0 ≤ p - y ∧ p - y < m + 1) ↔ (0 ≤ p - y ∧ p - y < m) := by omega
        simp only [e1, e2]
  rcases le_or_lt 0 ncell with hn | hn
  · have key := forRange_ind 0 ncell (fun i (FG : Buf × Buf) =>
        (store (store FG.1 (a + i) (A i)) (b + i) (B i),
          store (store FG.2 (c + i) (C i)) (d + i) (D i)))
      (fun m (FG : Buf × Buf) =>
        (∀ p, FG.1 p = if 0 ≤ p - a ∧ p - a < m then A (p - a)
          else if 0 ≤ p - b ∧ p - b < m then B (p - b) else F0 p) ∧
        (∀ p, FG.2 p = if 0 ≤ p - c ∧ p - c < m then C (p - c)
          else if 0 ≤ p - d ∧ p - d < m then D (p - d) else G0 p))
      (F0, G0) hn
      ⟨by intro p; rw [if_neg (by omega), if_neg (by omega)],
        by intro p; rw [if_neg (by omega), if_neg (by omega)]⟩
      (by
        intro m FG hm0 hm1 hinv
        exact ⟨hstore a b m A B F0 FG.1 hab hm0 hm1 hinv.1,
          hstore c d m C D G0 FG.2 hcd hm0 hm1 hinv.2⟩)
    exact key
  · rw [forRange_empty _ _ _ _ hn.le]
    exact ⟨by intro p; rw [if_neg (by omega), if_neg (by omega)],
      by intro p; rw [if_neg (by omega), if_neg (by omega)]⟩

/-- The function `shallow2d_flux` is a cell-wise flux on three fields, with the cell functions
`shallow2d_phi` and `shallow2d_psi`. -/
theorem shallow2d_flux_cellwise : IsCellwiseFlux shallow2d_flux 3 shallow2d_phi shallow2d_psi := by
  intro FU f0 GU g0 U u0 ncell stride hn0 hn1
  simp only [shallow2d_flux, shallow2dv_flux]
  obtain ⟨hF, hG⟩ := forRange_store_pair ncell (f0 + stride) (f0 + 2 * stride) (g0 + stride)
    (g0 + 2 * stride)
    (fun i => U (u0 + stride + i) * U (u0 + stride + i) * (1 / U (u0 + i)) +
      1 / 2 * shallow2d_g * U (u0 + i) * U (u0 + i))
    (fun i => U (u0 + stride + i) * U (u0 + 2 * stride + i) * (1 / U (u0 + i)))
    (fun i => U (u0 + stride + i) * U (u0 + 2 * stride + i) * (1 / U (u0 + i)))
    (fun i => U (u0 + 2 * stride + i) * U (u0 + 2 * stride + i) * (1 / U (u0 + i)) +
      1 / 2 * shallow2d_g * U (u0 + i) * U (u0 + i))
    (forRange 0 ncell (fun i FU => store FU (f0 + i) (U (u0 + stride + i))) FU)
    (forRange 0 ncell (fun i GU => store GU (g0 + i) (U (u0 + 2 * stride + i))) GU)
    (by intro i j _ _ _ _; omega) (by intro i j _ _ _ _; omega)
  have hF0 := forRange_store 0 ncell (fun i => f0 + i) f0 (fun i => U (u0 + stride + i)) FU
    (fun _ => rfl)
  have hG0 := forRange_store 0 ncell (fun i => g0 + i) g0 (fun i => U (u0 + 2 * stride + i)) GU
    (fun _ => rfl)
  refine ⟨?_, ?_, ?_⟩
  · intro k i hk0 hk1 hi0 hi1
    have hk : k = 0 ∨ k = 1 ∨ k = 2 := by omega
    rcases hk with rfl | rfl | rfl
    · constructor
      · rw [hF, if_neg (by omega), if_neg (by omega), hF0, if_pos (by omega)]
        simp only [shallow2d_phi]
        norm_num
      · rw [hG, if_neg (by omega), if_neg (by omega), hG0, if_pos (by omega)]
        simp only [shallow2d_psi]
        norm_num
    · constructor
      · rw [hF, if_pos (by omega)]
        simp only [shallow2d_phi]
        norm_num
      · rw [hG, if_pos (by omega)]
        simp only [shallow2d_psi]
        norm_num
    · constructor
      · rw [hF, if_neg (by omega), if_pos (by omega)]
        simp only [shallow2d_phi]
        norm_num
      · rw [hG, if_neg (by omega), if_pos (by omega)]
        simp only [shallow2d_psi]
        norm_num
  · intro p hp
    rw [hF, if_neg (by
        intro hc
        exact hp 1 (p - (f0 + stride)) (by omega) (by omega) hc.1 hc.2 (by ring)),
      if_neg (by
        intro hc
        exact hp 2 (p - (f0 + 2 * stride)) (by omega) (by omega) hc.1 hc.2 (by ring)),
      hF0, if_neg (by
        intro hc
        exact hp 0 (p - f0) (by omega) (by omega) hc.1 hc.2 (by ring))]
  · intro p hp
    rw [hG, if_neg (by
        intro hc
        exact hp 1 (p - (g0 + stride)) (by omega) (by omega) hc.1 hc.2 (by ring)),
      if_neg (by
        intro hc
        exact hp 2 (p - (g0 + 2 * stride)) (by omega) (by omega) hc.1 hc.2 (by ring)),
      hG0, if_neg (by
        intro hc
        exact hp 0 (p - g0) (by omega) (by omega) hc.1 hc.2 (by ring))]

/-! ## A pass of the run loop -/

/-- A sub-step leaves a state that is uniform around `(x, y)` as it is, for any cell
functions: all limited slopes vanish and the flux differences cancel. -/
theorem step_at_const (phi psi : (Int → ℚ) → Int → ℚ) (nfield : Int) (cx cy : ℚ)
    (U : Grid) (c : Int → ℚ) (k x y : Int) (hk0 : 0 ≤ k) (hk1 : k < nfield)
    (hU : ∀ k2 x2 y2, 0 ≤ k2 → k2 < nfield → x - 1 ≤ x2 → x2 ≤ x + 2 → y - 1 ≤ y2 →
      y2 ≤ y + 2 → U k2 x2 y2 = c k2) :
    step_at phi psi nfield cx cy U k x y = c k := by
  rw [step_at_congr phi psi nfield cx cy U (fun k _ _ => c k) k x y hk0 hk1 hU]
  have hc : ∀ x y : Int, cell nfield (fun k _ _ => c k) x y =
      (fun k => if 0 ≤ k ∧ k < nfield then c k else 0) := fun _ _ => rfl
  have hhalf : half_at phi psi nfield cx cy (fun k _ _ => c k) = (fun k _ _ => c k) := by
    funext k2 x2 y2
    simp only [half_at, predict_at, flux_at, hc, limdiff_const]
    ring
  simp only [step_at, hhalf, correct_at, correct_s, correct_d, flux_at, hc, limdiff_const]
  ring

/-- The periodic extension of a buffer whose interior is uniform in every field is uniform. -/
theorem periodic_ext_const (u : Buf) (nx ny ng nfield : Int) (c : Int → ℚ)
    (hnx : 0 < nx) (hny : 0 < ny)
    (hu : ∀ k gx gy, 0 ≤ k → k < nfield → 0 ≤ gx → gx < nx → 0 ≤ gy → gy < ny →
      u ((k * (ny + 2 * ng) + (ng + gy)) * (nx + 2 * ng) + (ng + gx)) = c k)
    (k X Y : Int) (hk0 : 0 ≤ k) (hk1 : k < nfield) :
    periodic_ext u nx ny ng k X Y = c k := by
  simp only [periodic_ext]
  exact hu k (X % nx) (Y % ny) hk0 hk1 (Int.emod_nonneg _ (by omega))
    (Int.emod_lt_of_pos _ hnx) (Int.emod_nonneg _ (by omega)) (Int.emod_lt_of_pos _ hny)

/-- A pass leaves a uniform interior as it is. -/
theorem pass_at_const (phi psi : (Int → ℚ) → Int → ℚ) (nfield : Int) (cx cy : ℚ)
    (u : Buf) (nx ny ng : Int) (c : Int → ℚ) (hnx : 0 < nx) (hny : 0 < ny)
    (hu : ∀ k gx gy, 0 ≤ k → k < nfield → 0 ≤ gx → gx < nx → 0 ≤ gy → gy < ny →
      u ((k * (ny + 2 * ng) + (ng + gy)) * (nx + 2 * ng) + (ng + gx)) = c k)
    (k gx gy : Int) (hk0 : 0 ≤ k) (hk1 : k < nfield) :
    pass_at phi psi nfield cx cy u nx ny ng k gx gy = c k := by
  simp only [pass_at]
  apply step_at_const phi psi nfield cx cy _ c k _ _ hk0 hk1
  intro k2 x2 y2 a b _ _ _ _
  apply step_at_const phi psi nfield cx cy _ c k2 _ _ a b
  intro k3 x3 y3 a3 b3 _ _ _ _
  exact periodic_ext_const u nx ny ng nfield c hnx hny hu k3 x3 y3 a3 b3

/-- The fields of the state after a pass, when the pass does not abort. -/
theorem central2d_xrun_body_fields (alloc : Nat → Int → Buf) (nx ny ng nfield : Int)
    (flux : flux_t) (speed : speed_t) (tfinal dx dy cfl : ℚ) (st st2 : RunState)
    (h : central2d_xrun_body alloc nx ny ng nfield flux speed tfinal dx dy cfl st = some st2) :
    st2.t = st.t + 2 * (central2d_xrun_dt st.u st.t nx ny ng speed tfinal dx dy cfl).1 ∧
      st2.nstep = st.nstep + 2 ∧
      st2.done = (central2d_xrun_dt st.u st.t nx ny ng speed tfinal dx dy cfl).2 ∧
      st2.iters = st.iters + 1 ∧
      st2.dts = (central2d_xrun_dt st.u st.t nx ny ng speed tfinal dx dy cfl).1 :: st.dts ∧
      central2d_xrun_sweep st.u (alloc st.iters) nx ny ng nfield flux speed
        (central2d_xrun_dt st.u st.t nx ny ng speed tfinal dx dy cfl).1 dx dy 2 2 =
        some st2.u := by
  simp only [central2d_xrun_body] at h
  rcases hs : central2d_xrun_sweep st.u (alloc st.iters) nx ny ng nfield flux speed
      (central2d_xrun_dt st.u st.t nx ny ng speed tfinal dx dy cfl).1 dx dy 2 2 with _ | u2
  · rw [hs] at h
    simp at h
  · rw [hs] at h
    simp only [Option.map_some', Option.some.injEq] at h
    subst h
    exact ⟨rfl, rfl, rfl, rfl, rfl, rfl⟩

/-- A pass of the run loop on a grid of even sizes with tiles of at least `ng ≥ 4` cells, for
a cell-wise flux: the pass does not abort and leaves in the interior of the global buffer the
pointwise pass with the time step the pass uses. -/
theorem central2d_xrun_body_spec (flux : flux_t) (nfield : Int)
    (phi psi : (Int → ℚ) → Int → ℚ) (hflux : IsCellwiseFlux flux nfield phi psi)
    (alloc : Nat → Int → Buf) (nx ny ng : Int) (speed : speed_t) (tfinal dx dy cfl : ℚ)
    (st : RunState) (hnx : nx % 2 = 0) (hny : ny % 2 = 0) (hng : 4 ≤ ng)
    (hsx : ng ≤ nx / 2) (hsy : ng ≤ ny / 2) :
    ∃ st2, central2d_xrun_body alloc nx ny ng nfield flux speed tfinal dx dy cfl st =
        some st2 ∧
      ∀ k gx gy, 0 ≤ k → k < nfield → 0 ≤ gx → gx < nx → 0 ≤ gy → gy < ny →
        st2.u ((k * (ny + 2 * ng) + (ng + gy)) * (nx + 2 * ng) + (ng + gx)) =
          pass_at phi psi nfield
            (1 / 2 * (central2d_xrun_dt st.u st.t nx ny ng speed tfinal dx dy cfl).1 / dx)
            (1 / 2 * (central2d_xrun_dt st.u st.t nx ny ng speed tfinal dx dy cfl).1 / dy)
            st.u nx ny ng k gx gy := by
  obtain ⟨u2, hu2, hval⟩ := central2d_xrun_sweep_spec flux nfield phi psi hflux st.u
    (alloc st.iters) nx ny ng speed
    (central2d_xrun_dt st.u st.t nx ny ng speed tfinal dx dy cfl).1 dx dy 2 (nx / 2) (ny / 2)
    (Or.inr rfl) (by omega) (by omega) hng hsx hsy
  simp only [central2d_xrun_body]
  rw [hu2, Option.map_some']
  exact ⟨_, rfl, hval⟩

/-- C6: partition equivalence.  For even `nx`, `ny` with `nx/2 ≥ 4`, `ny/2 ≥ 4` (ghost width
4), a cell-wise flux and a given `dt`, the parallel region of one pass on the 2 by 2 tiling
(halo fill of each tile, sub-step of parity 0 on `(sx+4, sy+4, ng-2)`, sub-step of parity 1 on
`(sx, sy, ng)`, back-copy of the tile interior) and the same region on the whole domain as one
periodically wrapped tile (1 by 1 tiling) both run to the end and leave the same value in
every interior cell of every field of the global buffer, whatever the freshly allocated tile
blocks contain. -/
theorem central2d_xrun_partition_equivalence (sim : central2d_t)
    (phi psi : (Int → ℚ) → Int → ℚ) (hflux : IsCellwiseFlux sim.flux sim.nfield phi psi)
    (alloc2 alloc1 : Int → Buf) (dt : ℚ)
    (hnx : sim.nx % 2 = 0) (hny : sim.ny % 2 = 0) (hng : sim.ng = 4)
    (hsx : 4 ≤ sim.nx / 2) (hsy : 4 ≤ sim.ny / 2) :
    ∃ u2 u1,
      central2d_xrun_sweep sim.u alloc2 sim.nx sim.ny sim.ng sim.nfield sim.flux sim.speed
        dt sim.dx sim.dy 2 2 = some u2 ∧
      central2d_xrun_sweep sim.u alloc1 sim.nx sim.ny sim.ng sim.nfield sim.flux sim.speed
        dt sim.dx sim.dy 1 1 = some u1 ∧
      ∀ k ix iy, 0 ≤ k → k < sim.nfield → 0 ≤ ix → ix < sim.nx → 0 ≤ iy → iy < sim.ny →
        u2 (central2d_offset sim k ix iy) = u1 (central2d_offset sim k ix iy) := by
  obtain ⟨u2, hu2, hval2⟩ := central2d_xrun_sweep_spec sim.flux sim.nfield phi psi hflux sim.u
    alloc2 sim.nx sim.ny sim.ng sim.speed dt sim.dx sim.dy 2 (sim.nx / 2) (sim.ny / 2)
    (Or.inr rfl) (by omega) (by omega) (by omega) (by omega) (by omega)
  obtain ⟨u1, hu1, hval1⟩ := central2d_xrun_sweep_spec sim.flux sim.nfield phi psi hflux sim.u
    alloc1 sim.nx sim.ny sim.ng sim.speed dt sim.dx sim.dy 1 sim.nx sim.ny
    (Or.inl rfl) (by omega) (by omega) (by omega) (by omega) (by omega)
  refine ⟨u2, u1, hu2, hu1, ?_⟩
  intro k ix iy hk0 hk1 hx0 hx1 hy0 hy1
  simp only [central2d_offset]
  rw [hval2 k ix iy hk0 hk1 hx0 hx1 hy0 hy1, hval1 k ix iy hk0 hk1 hx0 hx1 hy0 hy1]

theorem central2d_xrun_partition_equivalence_witness :
    (sample_sim.nx % 2 = 0 ∧ sample_sim.ny % 2 = 0 ∧ sample_sim.ng = 4 ∧
      4 ≤ sample_sim.nx / 2 ∧ 4 ≤ sample_sim.ny / 2) ∧
    ∃ u2 u1,
      central2d_xrun_sweep sample_sim.u (fun _ _ => 7) sample_sim.nx sample_sim.ny
        sample_sim.ng sample_sim.nfield sample_sim.flux sample_sim.speed (1 / 10)
        sample_sim.dx sample_sim.dy 2 2 = some u2 ∧
      central2d_xrun_sweep sample_sim.u (fun _ _ => 0) sample_sim.nx sample_sim.ny
        sample_sim.ng sample_sim.nfield sample_sim.flux sample_sim.speed (1 / 10)
        sample_sim.dx sample_sim.dy 1 1 = some u1 ∧
      ∀ k ix iy, 0 ≤ k → k < sample_sim.nfield → 0 ≤ ix → ix < sample_sim.nx → 0 ≤ iy →
        iy < sample_sim.ny →
        u2 (central2d_offset sample_sim k ix iy) = u1 (central2d_offset sample_sim k ix iy) :=
  ⟨⟨by decide, by decide, rfl, by decide, by decide⟩,
    central2d_xrun_partition_equivalence sample_sim shallow2d_phi shallow2d_psi
      shallow2d_flux_cellwise (fun _ _ => 7) (fun _ _ => 0) (1 / 10)
      (by decide) (by decide) rfl (by decide) (by decide)⟩

/-! ## Assertions of a pass -/

/-- The corrector `central2d_correct` returns as soon as its two assertions hold. -/
theorem central2d_correct_some (v : Buf) (v0 : Int) (sc u f g : Buf) (cx cy : ℚ)
    (xlo xhi ylo yhi nx ny nfield : Int)
    (hx : 0 ≤ xlo ∧ xlo < xhi ∧ xhi ≤ nx) (hy : 0 ≤ ylo ∧ ylo < yhi ∧ yhi ≤ ny) :
    ∃ r, central2d_correct v v0 sc u f g cx cy xlo xhi ylo yhi nx ny nfield = some r := by
  have hnx : 0 < nx := by omega
  unfold central2d_correct
  rw [if_pos hx, if_pos hy]
  obtain ⟨st, hst, _⟩ : ∃ st, forRangeM 0 nfield
      (central2d_correct_field v0 u f g cx cy xlo xhi ylo yhi nx ny)
      (CorrectState.mk v sc (2 * nx) (3 * nx) (4 * nx) (5 * nx)) = some st ∧ True := by
    refine forRangeM_post _ _ _ (fun _ _ => True) _ _ trivial ?_ (fun _ _ => trivial)
    intro k st _ _ _
    simp only [central2d_correct_field, limited_derivk_eq _ _ _ _ _ _ hnx, Option.some_bind]
    obtain ⟨st2, hst2, _⟩ : ∃ st2, forRangeM ylo yhi
        (central2d_correct_row v0 u f g cx cy xlo xhi nx ny k)
        (CorrectState.mk st.v
          (central2d_correct_sd
            (fun p => if 0 ≤ p - (nx + 1) ∧ p - (nx + 1) < nx - 2
              then limdiff (u (k * ny * nx + ylo * nx + 1 + (p - (nx + 1) - nx)))
                (u (k * ny * nx + ylo * nx + 1 + (p - (nx + 1))))
                (u (k * ny * nx + ylo * nx + 1 + (p - (nx + 1) + nx)))
              else limited_deriv1 st.scratch (0 + 1) u (k * ny * nx + ylo * nx + 1) (nx - 2) p)
            st.s1 st.d1 0 nx u (k * ny * nx + ylo * nx) f (k * ny * nx + ylo * nx) g
            (k * ny * nx + ylo * nx) cx cy xlo xhi)
          st.s0 st.d0 st.s1 st.d1) = some st2 ∧ True := by
      refine forRangeM_post _ _ _ (fun _ _ => True) _ _ trivial ?_ (fun _ _ => trivial)
      intro iy st3 _ _ _
      simp only [central2d_correct_row, limited_derivk_eq _ _ _ _ _ _ hnx, Option.some_bind]
      exact ⟨_, rfl, trivial⟩
    exact ⟨st2, hst2, trivial⟩
  rw [hst]
  exact ⟨_, rfl⟩

/-- The sub-step `central2d_step` returns for every flux callback as soon as the window of the corrector
is not empty and the ghost width is at least the parity. -/
theorem central2d_step_some (u v sc f g : Buf) (io nx ny ng nfield : Int) (flux : flux_t)
    (speed : speed_t) (dt dx dy : ℚ) (hio : 0 ≤ io) (hng : io ≤ ng) (hnx : 1 ≤ nx)
    (hny : 1 ≤ ny) :
    ∃ r, central2d_step u v sc f g io nx ny ng nfield flux speed dt dx dy = some r := by
  simp only [central2d_step]
  obtain ⟨vs, hvs, _⟩ := central2d_predict_spec v sc u
    (flux f 0 g 0 u 0 ((nx + 2 * ng) * (ny + 2 * ng)) ((nx + 2 * ng) * (ny + 2 * ng))).1
    (flux f 0 g 0 u 0 ((nx + 2 * ng) * (ny + 2 * ng)) ((nx + 2 * ng) * (ny + 2 * ng))).2
    (1 / 2 * dt / dx) (1 / 2 * dt / dy) (nx + 2 * ng) (ny + 2 * ng) nfield (by omega)
  rw [hvs, Option.some_bind]
  obtain ⟨r, hr⟩ := central2d_correct_some vs.1 (io * (nx + 2 * ng + 1)) vs.2 u
    (forRange 1 (ny + 2 * ng - 1) (fun iy fg =>
      flux fg.1 (iy * (nx + 2 * ng) + 1) fg.2 (iy * (nx + 2 * ng) + 1) vs.1
        (iy * (nx + 2 * ng) + 1) (nx + 2 * ng - 2) ((nx + 2 * ng) * (ny + 2 * ng)))
      (flux f 0 g 0 u 0 ((nx + 2 * ng) * (ny + 2 * ng)) ((nx + 2 * ng) * (ny + 2 * ng)))).1
    (forRange 1 (ny + 2 * ng - 1) (fun iy fg =>
      flux fg.1 (iy * (nx + 2 * ng) + 1) fg.2 (iy * (nx + 2 * ng) + 1) vs.1
        (iy * (nx + 2 * ng) + 1) (nx + 2 * ng - 2) ((nx + 2 * ng) * (ny + 2 * ng)))
      (flux f 0 g 0 u 0 ((nx + 2 * ng) * (ny + 2 * ng)) ((nx + 2 * ng) * (ny + 2 * ng)))).2
    (1 / 2 * dt / dx) (1 / 2 * dt / dy) (ng - io) (nx + ng - io) (ng - io) (ny + ng - io)
    (nx + 2 * ng) (ny + 2 * ng) nfield
    ⟨by omega, by omega, by omega⟩ ⟨by omega, by omega, by omega⟩
  rw [hr, Option.map_some']
  exact ⟨_, rfl⟩

/-- A pass of the run loop returns for every flux and wave-speed callback when the grid has at
least two cells along each axis and the ghost width is at least 2: no assertion fails. -/
theorem central2d_xrun_body_some (alloc : Nat → Int → Buf) (nx ny ng nfield : Int)
    (flux : flux_t) (speed : speed_t) (tfinal dx dy cfl : ℚ) (st : RunState)
    (hnx : 2 ≤ nx) (hny : 2 ≤ ny) (hng : 2 ≤ ng) :
    ∃ st2, central2d_xrun_body alloc nx ny ng nfield flux speed tfinal dx dy cfl st =
      some st2 := by
  have hsx : 1 ≤ Int.tdiv nx 2 := by
    rw [Int.tdiv_eq_ediv (by omega) (by omega)]; omega
  have hsy : 1 ≤ Int.tdiv ny 2 := by
    rw [Int.tdiv_eq_ediv (by omega) (by omega)]; omega
  simp only [central2d_xrun_body, central2d_xrun_sweep]
  obtain ⟨u2, hu2, _⟩ : ∃ u2, forRangeM 0 (2 * 2) (fun j acc =>
      Option.map (fun pu => copy_subgrid_allfield acc
          ((nx + 2 * ng) * (ng + Int.tdiv j 2 * Int.tdiv ny 2) + (ng + Int.tmod j 2 * Int.tdiv nx 2))
          pu (ng * (Int.tdiv nx 2 + 2 * ng) + ng) (Int.tdiv nx 2) (Int.tdiv ny 2)
          ((nx + 2 * ng) * (ny + 2 * ng))
          ((Int.tdiv nx 2 + 2 * ng) * (Int.tdiv ny 2 + 2 * ng)) (nx + 2 * ng)
          (Int.tdiv nx 2 + 2 * ng) nfield)
        (central2d_xrun_tile st.u (alloc st.iters j) nx ny ng nfield flux speed
          (central2d_xrun_dt st.u st.t nx ny ng speed tfinal dx dy cfl).1 dx dy 2 2 j))
      st.u = some u2 ∧ True := by
    refine forRangeM_post _ _ _ (fun _ _ => True) _ _ trivial ?_ (fun _ _ => trivial)
    intro j acc _ _ _
    simp only [central2d_xrun_tile]
    obtain ⟨r1, h1⟩ := central2d_step_some
      (central2d_periodic (fun i => alloc st.iters j i) st.u (Int.tdiv nx 2) (Int.tdiv ny 2)
        ng 2 2 (Int.tmod j 2) (Int.tdiv j 2) nfield)
      (fun i => alloc st.iters j
        (nfield * ((Int.tdiv nx 2 + 2 * ng) * (Int.tdiv ny 2 + 2 * ng)) + i))
      (fun i => alloc st.iters j
        (4 * (nfield * ((Int.tdiv nx 2 + 2 * ng) * (Int.tdiv ny 2 + 2 * ng))) + i))
      (fun i => alloc st.iters j
        (2 * (nfield * ((Int.tdiv nx 2 + 2 * ng) * (Int.tdiv ny 2 + 2 * ng))) + i))
      (fun i => alloc st.iters j
        (3 * (nfield * ((Int.tdiv nx 2 + 2 * ng) * (Int.tdiv ny 2 + 2 * ng))) + i))
      0 (Int.tdiv nx 2 + 4) (Int.tdiv ny 2 + 4) (ng - 2) nfield flux speed
      (central2d_xrun_dt st.u st.t nx ny ng speed tfinal dx dy cfl).1 dx dy
      (by omega) (by omega) (by omega) (by omega)
    rw [h1, Option.some_bind]
    obtain ⟨r2, h2⟩ := central2d_step_some r1.v
      (central2d_periodic (fun i => alloc st.iters j i) st.u (Int.tdiv nx 2) (Int.tdiv ny 2)
        ng 2 2 (Int.tmod j 2) (Int.tdiv j 2) nfield)
      r1.scratch r1.f r1.g 1 (Int.tdiv nx 2) (Int.tdiv ny 2) ng nfield flux speed
      (central2d_xrun_dt st.u st.t nx ny ng speed tfinal dx dy cfl).1 dx dy
      (by omega) (by omega) hsx hsy
    rw [h2, Option.map_some', Option.map_some']
    exact ⟨_, rfl, trivial⟩
  rw [hu2, Option.map_some']
  exact ⟨_, rfl⟩

/-! ## The run loop -/

/-- The state after `n + 1` passes is the state `n` passes after the first pass. -/
theorem central2d_xrun_passes_succ (alloc : Nat → Int → Buf) (nx ny ng nfield : Int)
    (flux : flux_t) (speed : speed_t) (tfinal dx dy cfl : ℚ) (n : Nat) (st : RunState) :
    central2d_xrun_passes alloc nx ny ng nfield flux speed tfinal dx dy cfl (n + 1) st =
      (central2d_xrun_body alloc nx ny ng nfield flux speed tfinal dx dy cfl st).bind
        (central2d_xrun_passes alloc nx ny ng nfield flux speed tfinal dx dy cfl n) := by
  induction n with
  | zero =>
    simp only [central2d_xrun_passes, Option.some_bind]
    cases central2d_xrun_body alloc nx ny ng nfield flux speed tfinal dx dy cfl st <;> rfl
  | succ m ih =>
    rw [central2d_xrun_passes, ih]
    cases central2d_xrun_body alloc nx ny ng nfield flux speed tfinal dx dy cfl st with
    | none => rfl
    | some s => simp only [Option.some_bind, central2d_xrun_passes]

/-- A run that returns has taken some number `n ≤ fuel` of passes, the last of which set
`done` and none before. -/
theorem central2d_xrun_loop_passes (alloc : Nat → Int → Buf) (nx ny ng nfield : Int)
    (flux : flux_t) (speed : speed_t) (tfinal dx dy cfl : ℚ) (fuel : Nat) :
    ∀ (st r : RunState),
      central2d_xrun_loop alloc nx ny ng nfield flux speed tfinal dx dy cfl fuel st =
        some r →
      ∃ n, n ≤ fuel ∧
        central2d_xrun_passes alloc nx ny ng nfield flux speed tfinal dx dy cfl n st =
          some r ∧
        r.done = true ∧
        ∀ m s, m < n →
          central2d_xrun_passes alloc nx ny ng nfield flux speed tfinal dx dy cfl m st =
            some s → s.done = false := by
  induction fuel with
  | zero =>
    intro st r h
    simp only [central2d_xrun_loop] at h
    by_cases hd : st.done = true
    · rw [if_pos hd] at h
      simp only [Option.some.injEq] at h
      subst h
      exact ⟨0, le_refl 0, rfl, hd, fun m s hm => absurd hm (Nat.not_lt_zero m)⟩
    · rw [if_neg hd] at h
      simp at h
  | succ f ih =>
    intro st r h
    simp only [central2d_xrun_loop] at h
    by_cases hd : st.done = true
    · rw [if_pos hd] at h
      simp only [Option.some.injEq] at h
      subst h
      exact ⟨0, Nat.zero_le _, rfl, hd, fun m s hm => absurd hm (Nat.not_lt_zero m)⟩
    · rw [if_neg hd] at h
      rcases hb : central2d_xrun_body alloc nx ny ng nfield flux speed tfinal dx dy cfl st
        with _ | st1
      · rw [hb] at h
        simp at h
      · rw [hb, Option.some_bind] at h
        obtain ⟨n, hn, hp, hdone, hbefore⟩ := ih st1 r h
        refine ⟨n + 1, Nat.succ_le_succ hn, ?_, hdone, ?_⟩
        · rw [central2d_xrun_passes_succ, hb, Option.some_bind]
          exact hp
        · intro m s hm hs
          cases m with
          | zero =>
            simp only [central2d_xrun_passes, Option.some.injEq] at hs
            subst hs
            simpa using hd
          | succ m2 =>
            rw [central2d_xrun_passes_succ, hb, Option.some_bind] at hs
            exact hbefore m2 s (Nat.lt_of_succ_lt_succ hm) hs

/-- When pass `n` is the first that sets `done`, the run returns the state after pass `n` for
every fuel of at least `n`. -/
theorem central2d_xrun_loop_of_passes (alloc : Nat → Int → Buf) (nx ny ng nfield : Int)
    (flux : flux_t) (speed : speed_t) (tfinal dx dy cfl : ℚ) (n : Nat) :
    ∀ (st r : RunState) (fuel : Nat), n ≤ fuel →
      central2d_xrun_passes alloc nx ny ng nfield flux speed tfinal dx dy cfl n st = some r →
      r.done = true →
      (∀ m s, m < n →
        central2d_xrun_passes alloc nx ny ng nfield flux speed tfinal dx dy cfl m st =
          some s → s.done = false) →
      central2d_xrun_loop alloc nx ny ng nfield flux speed tfinal dx dy cfl fuel st =
        some r := by
  induction n with
  | zero =>
    intro st r fuel _ hp hd _
    simp only [central2d_xrun_passes, Option.some.injEq] at hp
    subst hp
    cases fuel <;> simp [central2d_xrun_loop, hd]
  | succ k ih =>
    intro st r fuel hf hp hd hbefore
    have hst : st.done = false := hbefore 0 st (Nat.succ_pos k) rfl
    cases fuel with
    | zero => exact absurd hf (Nat.not_succ_le_zero k)
    | succ f =>
      rw [central2d_xrun_passes_succ] at hp
      rcases hb : central2d_xrun_body alloc nx ny ng nfield flux speed tfinal dx dy cfl st
        with _ | st1
      · rw [hb] at hp
        simp at hp
      · rw [hb, Option.some_bind] at hp
        simp only [central2d_xrun_loop, hst, Bool.false_eq_true, if_false, hb, Option.some_bind]
        apply ih st1 r f (Nat.le_of_succ_le_succ hf) hp hd
        intro m s hm hs
        apply hbefore (m + 1) s (Nat.succ_lt_succ hm)
        rw [central2d_xrun_passes_succ, hb, Option.some_bind]
        exact hs

/-- What the run loop maintains between passes: `t` is twice the sum of the time steps used,
`nstep` is twice the number of passes, and once `done` is set `t` is `tfinal` and at least one
pass was taken. -/
theorem central2d_xrun_passes_inv (alloc : Nat → Int → Buf) (nx ny ng nfield : Int)
    (flux : flux_t) (speed : speed_t) (tfinal dx dy cfl : ℚ) (n : Nat) :
    ∀ (st s : RunState),
      central2d_xrun_passes alloc nx ny ng nfield flux speed tfinal dx dy cfl n st = some s →
      (st.t = 2 * st.dts.sum ∧ st.nstep = 2 * (st.iters : Int) ∧
        (st.done = true → st.t = tfinal ∧ 1 ≤ st.iters)) →
      (s.t = 2 * s.dts.sum ∧ s.nstep = 2 * (s.iters : Int) ∧
        (s.done = true → s.t = tfinal ∧ 1 ≤ s.iters)) ∧ s.iters = st.iters + n := by
  induction n with
  | zero =>
    intro st s h hst
    simp only [central2d_xrun_passes, Option.some.injEq] at h
    subst h
    exact ⟨hst, rfl⟩
  | succ k ih =>
    intro st s h hst
    simp only [central2d_xrun_passes] at h
    rcases hp : central2d_xrun_passes alloc nx ny ng nfield flux speed tfinal dx dy cfl k st
      with _ | s1
    · rw [hp] at h
      simp at h
    · rw [hp, Option.some_bind] at h
      obtain ⟨⟨i1, i2, _⟩, i4⟩ := ih st s1 hp hst
      obtain ⟨f1, f2, f3, f4, f5, _⟩ := central2d_xrun_body_fields alloc nx ny ng nfield flux
        speed tfinal dx dy cfl s1 s h
      refine ⟨⟨?_, ?_, ?_⟩, by omega⟩
      · rw [f1, f5, List.sum_cons, i1]; ring
      · rw [f2, f4, i2]; push_cast; ring
      · intro hd
        rw [f3] at hd
        refine ⟨?_, by omega⟩
        rw [f1]
        simp only [central2d_xrun_dt] at hd ⊢
        by_cases hc : s1.t + 2 * central2d_xrun_cfl s1.u nx ny ng speed dx dy cfl ≥ tfinal
        · rw [if_pos hc]
          ring
        · rw [if_neg hc] at hd
          simp at hd

/-! ## Step count, terminal clamp, steady state -/

theorem central2d_xrun_passes_earlier (alloc : Nat → Int → Buf) (nx ny ng nfield : Int)
    (flux : flux_t) (speed : speed_t) (tfinal dx dy cfl : ℚ) (n : Nat) :
    ∀ (st r : RunState),
      central2d_xrun_passes alloc nx ny ng nfield flux speed tfinal dx dy cfl n st = some r →
      ∀ m, m ≤ n → ∃ s,
        central2d_xrun_passes alloc nx ny ng nfield flux speed tfinal dx dy cfl m st =
          some s := by
  induction n with
  | zero =>
    intro st r _ m hm
    have : m = 0 := Nat.le_zero.mp hm
    subst this
    exact ⟨st, rfl⟩
  | succ k ih =>
    intro st r h m hm
    rcases Nat.lt_or_ge m (k + 1) with hlt | hge
    · simp only [central2d_xrun_passes] at h
      rcases hp : central2d_xrun_passes alloc nx ny ng nfield flux speed tfinal dx dy cfl k st
        with _ | s1
      · rw [hp] at h
        simp at h
      · exact ih st s1 hp m (Nat.le_of_lt_succ hlt)
    · have : m = k + 1 := Nat.le_antisymm hm hge
      subst this
      exact ⟨r, h⟩

/-- The passes of the run loop never abort when the grid has at least two cells along each
axis and the ghost width is at least 2. -/
theorem central2d_xrun_passes_some (alloc : Nat → Int → Buf) (nx ny ng nfield : Int)
    (flux : flux_t) (speed : speed_t) (tfinal dx dy cfl : ℚ)
    (hnx : 2 ≤ nx) (hny : 2 ≤ ny) (hng : 2 ≤ ng) (n : Nat) (st : RunState) :
    ∃ s, central2d_xrun_passes alloc nx ny ng nfield flux speed tfinal dx dy cfl n st =
      some s := by
  induction n with
  | zero => exact ⟨st, rfl⟩
  | succ k ih =>
    obtain ⟨s1, h1⟩ := ih
    obtain ⟨s2, h2⟩ := central2d_xrun_body_some alloc nx ny ng nfield flux speed tfinal dx dy
      cfl s1 hnx hny hng
    exact ⟨s2, by simp only [central2d_xrun_passes, h1, Option.some_bind, h2]⟩

/-- C9: `central2d_run` takes at least one pass (macro-iteration) through its loop and its
return value `nstep` is twice the number of passes taken, hence even and at least 2, for every
`tfinal`.  The run returns exactly when some pass sets `done`: with no pass allowed there is no
result; on a grid of at least 2 by 2 cells with ghost width at least 2 no pass aborts; when
pass `n` is the first to set `done`, every fuel of at least `n` gives the result; and when
`tfinal ≤ 0` and the CFL time step is not negative the first pass is the last and the run
returns 2. -/
theorem central2d_run_step_count (alloc : Nat → Int → Buf) (sim : central2d_t) (tfinal : ℚ) :
    central2d_run 0 alloc sim tfinal = none ∧
    (∀ fuel r, central2d_run fuel alloc sim tfinal = some r →
      1 ≤ r.iters ∧ r.nstep = 2 * (r.iters : Int) ∧ Even r.nstep ∧ 2 ≤ r.nstep) ∧
    (2 ≤ sim.nx → 2 ≤ sim.ny → 2 ≤ sim.ng →
      ∀ n, ∃ s, central2d_run_passes n alloc sim tfinal = some s) ∧
    (∀ n r, central2d_run_passes n alloc sim tfinal = some r → r.done = true →
      (∀ m s, m < n → central2d_run_passes m alloc sim tfinal = some s → s.done = false) →
      ∀ fuel, n ≤ fuel → central2d_run fuel alloc sim tfinal = some r) ∧
    (2 ≤ sim.nx → 2 ≤ sim.ny → 2 ≤ sim.ng → tfinal ≤ 0 →
      0 ≤ central2d_xrun_cfl sim.u sim.nx sim.ny sim.ng sim.speed sim.dx sim.dy sim.cfl →
      ∃ r, central2d_run 1 alloc sim tfinal = some r ∧ r.nstep = 2 ∧ r.iters = 1) := by
  refine ⟨rfl, ?_, ?_, ?_, ?_⟩
  · intro fuel r h
    obtain ⟨n, _, hp, hd, _⟩ := central2d_xrun_loop_passes alloc sim.nx sim.ny sim.ng
      sim.nfield sim.flux sim.speed tfinal sim.dx sim.dy sim.cfl fuel _ r h
    obtain ⟨⟨_, i2, i3⟩, _⟩ := central2d_xrun_passes_inv alloc sim.nx sim.ny sim.ng
      sim.nfield sim.flux sim.speed tfinal sim.dx sim.dy sim.cfl n _ r hp
      ⟨by simp, by simp, by simp⟩
    have h1 := (i3 hd).2
    refine ⟨h1, i2, ?_, ?_⟩
    · rw [i2]; exact even_two_mul _
    · rw [i2]; omega
  · intro hnx hny hng n
    exact central2d_xrun_passes_some alloc sim.nx sim.ny sim.ng sim.nfield sim.flux sim.speed
      tfinal sim.dx sim.dy sim.cfl hnx hny hng n _
  · intro n r hp hd hbefore fuel hf
    exact central2d_xrun_loop_of_passes alloc sim.nx sim.ny sim.ng sim.nfield sim.flux
      sim.speed tfinal sim.dx sim.dy sim.cfl n _ r fuel hf hp hd hbefore
  · intro hnx hny hng ht hdt
    obtain ⟨r, hr⟩ := central2d_xrun_body_some alloc sim.nx sim.ny sim.ng sim.nfield sim.flux
      sim.speed tfinal sim.dx sim.dy sim.cfl (RunState.mk sim.u 0 0 false 0 []) hnx hny hng
    obtain ⟨_, f2, f3, f4, _, _⟩ := central2d_xrun_body_fields alloc sim.nx sim.ny sim.ng
      sim.nfield sim.flux sim.speed tfinal sim.dx sim.dy sim.cfl _ r hr
    have hd : r.done = true := by
      rw [f3]
      simp only [central2d_xrun_dt]
      rw [if_pos (by
        show (0 : ℚ) + 2 * central2d_xrun_cfl sim.u sim.nx sim.ny sim.ng sim.speed sim.dx
          sim.dy sim.cfl ≥ tfinal
        linarith)]
    refine ⟨r, ?_, by rw [f2]; rfl, by rw [f4]⟩
    simp only [central2d_run, central2d_xrun, central2d_xrun_loop, Bool.false_eq_true,
      if_false, hr, Option.some_bind, hd, if_true]

theorem central2d_run_step_count_witness :
    ∃ r, central2d_run 1 (fun _ _ _ => 0) sample_sim 0 = some r ∧ r.nstep = 2 ∧ r.iters = 1 :=
  (central2d_run_step_count (fun _ _ _ => 0) sample_sim 0).2.2.2.2 (by decide) (by decide)
    (by decide) (le_refl 0) (by
      simp only [central2d_xrun_cfl, sample_sim]
      norm_num)

/-- C10: terminal clamp.  In exact arithmetic, whenever `central2d_run` returns, the time `t`
accumulated from 0 (twice the sum of the time steps of all passes taken) equals `tfinal`
exactly; the last pass is the first one whose state satisfies the exit test
`t + 2*dt >= tfinal` for the CFL step `dt`, and it uses `dt = (tfinal - t)/2` instead of the
CFL step. -/
theorem central2d_run_terminal_clamp (alloc : Nat → Int → Buf) (sim : central2d_t)
    (tfinal : ℚ) (fuel : Nat) (r : RunState)
    (h : central2d_run fuel alloc sim tfinal = some r) :
    r.t = tfinal ∧ r.t = (r.dts.map (fun dt => 2 * dt)).sum ∧
    (∃ s, central2d_run_passes (r.iters - 1) alloc sim tfinal = some s ∧
      central2d_run_exit_test sim tfinal s ∧ r.dts.head? = some ((tfinal - s.t) / 2)) ∧
    (∀ m s, m + 1 < r.iters → central2d_run_passes m alloc sim tfinal = some s →
      ¬ central2d_run_exit_test sim tfinal s) := by
  obtain ⟨n, _, hp, hd, hbefore⟩ := central2d_xrun_loop_passes alloc sim.nx sim.ny sim.ng
    sim.nfield sim.flux sim.speed tfinal sim.dx sim.dy sim.cfl fuel _ r h
  obtain ⟨⟨i1, _, i3⟩, i4⟩ := central2d_xrun_passes_inv alloc sim.nx sim.ny sim.ng
    sim.nfield sim.flux sim.speed tfinal sim.dx sim.dy sim.cfl n _ r hp
    ⟨by simp, by simp, by simp⟩
  have hn : r.iters = n := by simpa using i4
  have hn1 : 1 ≤ n := by rw [← hn]; exact (i3 hd).2
  have hsum : ∀ l : List ℚ, (l.map (fun dt => 2 * dt)).sum = 2 * l.sum := by
    intro l
    induction l with
    | nil => simp
    | cons a l ih => simp only [List.map_cons, List.sum_cons, ih]; ring
  have htest : ∀ m s s2,
      central2d_xrun_passes alloc sim.nx sim.ny sim.ng sim.nfield sim.flux sim.speed tfinal
        sim.dx sim.dy sim.cfl m (RunState.mk sim.u 0 0 false 0 []) = some s →
      central2d_xrun_passes alloc sim.nx sim.ny sim.ng sim.nfield sim.flux sim.speed tfinal
        sim.dx sim.dy sim.cfl (m + 1) (RunState.mk sim.u 0 0 false 0 []) = some s2 →
      (s2.done = true ↔ central2d_run_exit_test sim tfinal s) ∧
      (s2.done = true → s2.dts.head? = some ((tfinal - s.t) / 2)) := by
    intro m s s2 hs hs2
    simp only [central2d_xrun_passes, hs, Option.some_bind] at hs2
    obtain ⟨_, _, f3, _, f5, _⟩ := central2d_xrun_body_fields alloc sim.nx sim.ny sim.ng
      sim.nfield sim.flux sim.speed tfinal sim.dx sim.dy sim.cfl s s2 hs2
    rw [f3, f5]
    simp only [central2d_xrun_dt, central2d_run_exit_test]
    by_cases hc : s.t + 2 * central2d_xrun_cfl s.u sim.nx sim.ny sim.ng sim.speed sim.dx
        sim.dy sim.cfl ≥ tfinal
    · rw [if_pos hc]
      simp [hc]
    · rw [if_neg hc]
      simp [hc]
  refine ⟨(i3 hd).1, by rw [hsum]; exact i1, ?_, ?_⟩
  · obtain ⟨s, hs⟩ := central2d_xrun_passes_earlier alloc sim.nx sim.ny sim.ng sim.nfield
      sim.flux sim.speed tfinal sim.dx sim.dy sim.cfl n _ r hp (n - 1) (Nat.sub_le n 1)
    have hp2 : central2d_xrun_passes alloc sim.nx sim.ny sim.ng sim.nfield sim.flux sim.speed
        tfinal sim.dx sim.dy sim.cfl (n - 1 + 1) (RunState.mk sim.u 0 0 false 0 []) =
        some r := by
      rw [Nat.sub_add_cancel hn1]; exact hp
    obtain ⟨t1, t2⟩ := htest (n - 1) s r hs hp2
    refine ⟨s, ?_, t1.mp hd, t2 hd⟩
    rw [hn]
    exact hs
  · intro m s hm hs
    rw [hn] at hm
    obtain ⟨s2, hs2⟩ := central2d_xrun_passes_earlier alloc sim.nx sim.ny sim.ng sim.nfield
      sim.flux sim.speed tfinal sim.dx sim.dy sim.cfl n _ r hp (m + 1) (Nat.le_of_lt hm)
    obtain ⟨t1, _⟩ := htest m s s2 hs hs2
    intro hex
    have := hbefore (m + 1) s2 hm hs2
    rw [t1.mpr hex] at this
    exact Bool.noConfusion this

theorem central2d_run_terminal_clamp_witness :
    ∃ r, central2d_run 2 (fun _ _ _ => 0) sample_sim (3 * 10 ^ 15) = some r ∧
      r.t = 3 * 10 ^ 15 ∧ r.iters = 2 := by
  have hcfl : ∀ u : Buf, central2d_xrun_cfl u sample_sim.nx sample_sim.ny sample_sim.ng
      sample_sim.speed sample_sim.dx sample_sim.dy sample_sim.cfl = 10 ^ 15 := by
    intro u
    simp only [central2d_xrun_cfl, sample_sim]
    norm_num
  obtain ⟨s1, h1⟩ := central2d_xrun_body_some (fun _ _ _ => 0) sample_sim.nx sample_sim.ny
    sample_sim.ng sample_sim.nfield sample_sim.flux sample_sim.speed (3 * 10 ^ 15)
    sample_sim.dx sample_sim.dy sample_sim.cfl
    (RunState.mk sample_sim.u 0 0 false 0 []) (by decide) (by decide) (by decide)
  obtain ⟨a1, _, a3, a4, _, _⟩ := central2d_xrun_body_fields _ _ _ _ _ _ _ _ _ _ _ _ s1 h1
  obtain ⟨s2, h2⟩ := central2d_xrun_body_some (fun _ _ _ => 0) sample_sim.nx sample_sim.ny
    sample_sim.ng sample_sim.nfield sample_sim.flux sample_sim.speed (3 * 10 ^ 15)
    sample_sim.dx sample_sim.dy sample_sim.cfl s1 (by decide) (by decide) (by decide)
  obtain ⟨_, _, b3, b4, _, _⟩ := central2d_xrun_body_fields _ _ _ _ _ _ _ _ _ _ _ _ s2 h2
  simp only [central2d_xrun_dt, hcfl] at a1 a3 b3
  have c1 : ¬ ((0 : ℚ) + 2 * 10 ^ 15 ≥ 3 * 10 ^ 15) := by norm_num
  rw [if_neg c1] at a1 a3
  have hd1 : s1.done = false := a3
  have ht1 : s1.t = 2 * 10 ^ 15 := by rw [a1]; norm_num
  rw [ht1, if_pos (by norm_num)] at b3
  have hd2 : s2.done = true := b3
  have hrun : central2d_run 2 (fun _ _ _ => 0) sample_sim (3 * 10 ^ 15) = some s2 := by
    simp only [central2d_run, central2d_xrun, central2d_xrun_loop, Bool.false_eq_true,
      if_false, h1, Option.some_bind, hd1, h2, hd2, if_true]
  exact ⟨s2, hrun, (central2d_run_terminal_clamp _ sample_sim _ 2 s2 hrun).1,
    by rw [b4, a4]⟩

/-- A state whose interior is uniform in every field stays so through any number of passes,
for every cell-wise flux and every choice of time steps. -/
theorem central2d_xrun_passes_uniform (flux : flux_t) (nfield : Int)
    (phi psi : (Int → ℚ) → Int → ℚ) (hflux : IsCellwiseFlux flux nfield phi psi)
    (alloc : Nat → Int → Buf) (nx ny ng : Int) (speed : speed_t) (tfinal dx dy cfl : ℚ)
    (c : Int → ℚ) (hnx : nx % 2 = 0) (hny : ny % 2 = 0) (hng : 4 ≤ ng)
    (hsx : ng ≤ nx / 2) (hsy : ng ≤ ny / 2) (n : Nat) (st : RunState)
    (hu : ∀ k gx gy, 0 ≤ k → k < nfield → 0 ≤ gx → gx < nx → 0 ≤ gy → gy < ny →
      st.u ((k * (ny + 2 * ng) + (ng + gy)) * (nx + 2 * ng) + (ng + gx)) = c k) :
    ∃ s, central2d_xrun_passes alloc nx ny ng nfield flux speed tfinal dx dy cfl n st =
        some s ∧
      ∀ k gx gy, 0 ≤ k → k < nfield → 0 ≤ gx → gx < nx → 0 ≤ gy → gy < ny →
        s.u ((k * (ny + 2 * ng) + (ng + gy)) * (nx + 2 * ng) + (ng + gx)) = c k := by
  induction n with
  | zero => exact ⟨st, rfl, hu⟩
  | succ m ih =>
    obtain ⟨s1, h1, hu1⟩ := ih
    obtain ⟨s2, h2, hv2⟩ := central2d_xrun_body_spec flux nfield phi psi hflux alloc nx ny ng
      speed tfinal dx dy cfl s1 hnx hny hng hsx hsy
    refine ⟨s2, by simp only [central2d_xrun_passes, h1, Option.some_bind, h2], ?_⟩
    intro k gx gy hk0 hk1 hx0 hx1 hy0 hy1
    rw [hv2 k gx gy hk0 hk1 hx0 hx1 hy0 hy1]
    exact pass_at_const phi psi nfield _ _ s1.u nx ny ng c (by omega) (by omega) hu1 k gx gy
      hk0 hk1

/-- C5: steady-state preservation.  For the shallow-water flux on its three fields with ghost
width 4, even `nx`, `ny` with `nx/2 ≥ 4` and `ny/2 ≥ 4`: if every interior cell of the global
state has `h = 1` and `hu = hv = 0`, then after any number `n` of passes (macro-iterations) of
the loop of `central2d_run`, whatever time step each pass chooses (any wave-speed callback,
`cfl`, `dx`, `dy`, `tfinal`), no pass has aborted and every interior cell still has `h = 1` and
`hu = hv = 0` exactly; the same holds for the state that a run returns. -/
theorem central2d_run_steady_state (alloc : Nat → Int → Buf) (sim : central2d_t) (tfinal : ℚ)
    (hflux : sim.flux = shallow2d_flux) (hnf : sim.nfield = 3) (hng : sim.ng = 4)
    (hnx : sim.nx % 2 = 0) (hny : sim.ny % 2 = 0) (hsx : 4 ≤ sim.nx / 2) (hsy : 4 ≤ sim.ny / 2)
    (hu : ∀ ix iy, 0 ≤ ix → ix < sim.nx → 0 ≤ iy → iy < sim.ny →
      sim.u (central2d_offset sim 0 ix iy) = 1 ∧ sim.u (central2d_offset sim 1 ix iy) = 0 ∧
        sim.u (central2d_offset sim 2 ix iy) = 0) :
    (∀ n : Nat, ∃ s, central2d_run_passes n alloc sim tfinal = some s ∧
      ∀ ix iy, 0 ≤ ix → ix < sim.nx → 0 ≤ iy → iy < sim.ny →
        s.u (central2d_offset sim 0 ix iy) = 1 ∧ s.u (central2d_offset sim 1 ix iy) = 0 ∧
          s.u (central2d_offset sim 2 ix iy) = 0) ∧
    (∀ fuel r, central2d_run fuel alloc sim tfinal = some r →
      ∀ ix iy, 0 ≤ ix → ix < sim.nx → 0 ≤ iy → iy < sim.ny →
        r.u (central2d_offset sim 0 ix iy) = 1 ∧ r.u (central2d_offset sim 1 ix iy) = 0 ∧
          r.u (central2d_offset sim 2 ix iy) = 0) := by
  have hcell : IsCellwiseFlux sim.flux sim.nfield shallow2d_phi shallow2d_psi := by
    rw [hflux, hnf]; exact shallow2d_flux_cellwise
  have hu0 : ∀ k gx gy, 0 ≤ k → k < sim.nfield → 0 ≤ gx → gx < sim.nx → 0 ≤ gy →
      gy < sim.ny →
      (RunState.mk sim.u 0 0 false 0 []).u
        ((k * (sim.ny + 2 * sim.ng) + (sim.ng + gy)) * (sim.nx + 2 * sim.ng) + (sim.ng + gx)) =
        (fun k : Int => if k = 0 then (1 : ℚ) else 0) k := by
    intro k gx gy hk0 hk1 hx0 hx1 hy0 hy1
    obtain ⟨a0, a1, a2⟩ := hu gx gy hx0 hx1 hy0 hy1
    simp only [central2d_offset] at a0 a1 a2
    have hk : k = 0 ∨ k = 1 ∨ k = 2 := by omega
    rcases hk with rfl | rfl | rfl
    · simpa using a0
    · simpa using a1
    · simpa using a2
  have hpass : ∀ n : Nat, ∃ s, central2d_run_passes n alloc sim tfinal = some s ∧
      ∀ ix iy, 0 ≤ ix → ix < sim.nx → 0 ≤ iy → iy < sim.ny →
        s.u (central2d_offset sim 0 ix iy) = 1 ∧ s.u (central2d_offset sim 1 ix iy) = 0 ∧
          s.u (central2d_offset sim 2 ix iy) = 0 := by
    intro n
    obtain ⟨s, hs, hv⟩ := central2d_xrun_passes_uniform sim.flux sim.nfield shallow2d_phi
      shallow2d_psi hcell alloc sim.nx sim.ny sim.ng sim.speed tfinal sim.dx sim.dy sim.cfl
      (fun k : Int => if k = 0 then (1 : ℚ) else 0) hnx hny (by omega) (by omega) (by omega)
      n (RunState.mk sim.u 0 0 false 0 []) hu0
    refine ⟨s, hs, ?_⟩
    intro ix iy hx0 hx1 hy0 hy1
    have b0 := hv 0 ix iy (by omega) (by omega) hx0 hx1 hy0 hy1
    have b1 := hv 1 ix iy (by omega) (by omega) hx0 hx1 hy0 hy1
    have b2 := hv 2 ix iy (by omega) (by omega) hx0 hx1 hy0 hy1
    simp only [central2d_offset]
    exact ⟨by simpa using b0, by simpa using b1, by simpa using b2⟩
  refine ⟨hpass, ?_⟩
  intro fuel r h
  obtain ⟨n, _, hp, _, _⟩ := central2d_xrun_loop_passes alloc sim.nx sim.ny sim.ng
    sim.nfield sim.flux sim.speed tfinal sim.dx sim.dy sim.cfl fuel _ r h
  obtain ⟨s, hs, hv⟩ := hpass n
  have : s = r := by
    have h2 : central2d_run_passes n alloc sim tfinal = some r := hp
    rw [hs] at h2
    exact Option.some.inj h2
  rw [← this]
  exact hv

theorem central2d_run_steady_state_witness :
    (sample_flat.flux = shallow2d_flux ∧ sample_flat.nfield = 3 ∧ sample_flat.ng = 4 ∧
      sample_flat.nx % 2 = 0 ∧ 4 ≤ sample_flat.nx / 2) ∧
    ∃ s, central2d_run_passes 5 (fun _ _ _ => 9) sample_flat (1 / 2) = some s ∧
      ∀ ix iy, 0 ≤ ix → ix < sample_flat.nx → 0 ≤ iy → iy < sample_flat.ny →
        s.u (central2d_offset sample_flat 0 ix iy) = 1 ∧
          s.u (central2d_offset sample_flat 1 ix iy) = 0 ∧
          s.u (central2d_offset sample_flat 2 ix iy) = 0 :=
  ⟨⟨rfl, rfl, rfl, by decide, by decide⟩,
    (central2d_run_steady_state (fun _ _ _ => 9) sample_flat (1 / 2) rfl rfl rfl (by decide)
      (by decide) (by decide) (by decide) (by
        intro ix iy hx0 hx1 hy0 hy1
        have e : sample_flat.nx = 8 ∧ sample_flat.ny = 8 := ⟨rfl, rfl⟩
        rw [e.1] at hx1
        rw [e.2] at hy1
        simp only [central2d_offset, sample_flat]
        refine ⟨?_, ?_, ?_⟩
        · rw [if_pos (by omega)]
        · rw [if_neg (by omega)]
        · rw [if_neg (by omega)])).1 5⟩

/-! ## Grid layout -/

/-- A cell `(x, y)` of field `k` of a buffer with `NX` columns and `NY` rows per field has its
flat index within the extent of field `k`. -/
theorem cell_in_field (NX NY k x y : Int) (hx0 : 0 ≤ x) (hx1 : x < NX) (hy0 : 0 ≤ y)
    (hy1 : y < NY) :
    k * (NX * NY) ≤ (k * NY + y) * NX + x ∧ (k * NY + y) * NX + x < (k + 1) * (NX * NY) := by
  have hNX : 0 < NX := by omega
  have h1 : 0 ≤ y * NX := mul_nonneg hy0 hNX.le
  have h2 : (y + 1) * NX ≤ NY * NX := mul_le_mul_of_nonneg_right (by omega) hNX.le
  constructor
  · nlinarith
  · nlinarith

/-- The extent of field `k`, for `0 ≤ k < nfield`, lies within the `nfield` fields of the
buffer. -/
theorem field_in_buffer (NX NY nfield k : Int) (hk0 : 0 ≤ k) (hk1 : k < nfield)
    (hN : 0 ≤ NX * NY) :
    0 ≤ k * (NX * NY) ∧ (k + 1) * (NX * NY) ≤ nfield * (NX * NY) :=
  ⟨mul_nonneg hk0 hN, mul_le_mul_of_nonneg_right (by omega) hN⟩

/-- C13: for every field `k` in `[0, nfield)`, `ix` in `[-ng, nx+ng)` and `iy` in
`[-ng, ny+ng)`, `central2d_offset(sim, k, ix, iy)` is
`(k*(ny+2ng) + (ng+iy))*(nx+2ng) + (ng+ix)`, lies in `[0, nfield*(nx+2ng)*(ny+2ng))`, and two
in-range coordinate triples with the same offset are the same triple. -/
theorem central2d_offset_range_injective (sim : central2d_t) (k ix iy k2 ix2 iy2 : Int)
    (hk : 0 ≤ k ∧ k < sim.nfield) (hix : -sim.ng ≤ ix ∧ ix < sim.nx + sim.ng)
    (hiy : -sim.ng ≤ iy ∧ iy < sim.ny + sim.ng)
    (_hk2 : 0 ≤ k2 ∧ k2 < sim.nfield) (hix2 : -sim.ng ≤ ix2 ∧ ix2 < sim.nx + sim.ng)
    (hiy2 : -sim.ng ≤ iy2 ∧ iy2 < sim.ny + sim.ng) :
    central2d_offset sim k ix iy =
        (k * (sim.ny + 2 * sim.ng) + (sim.ng + iy)) * (sim.nx + 2 * sim.ng) + (sim.ng + ix) ∧
      0 ≤ central2d_offset sim k ix iy ∧
      central2d_offset sim k ix iy <
        sim.nfield * (sim.nx + 2 * sim.ng) * (sim.ny + 2 * sim.ng) ∧
      (central2d_offset sim k ix iy = central2d_offset sim k2 ix2 iy2 →
        k = k2 ∧ ix = ix2 ∧ iy = iy2) := by
  simp only [central2d_offset]
  have hc := cell_in_field (sim.nx + 2 * sim.ng) (sim.ny + 2 * sim.ng) k (sim.ng + ix)
    (sim.ng + iy) (by omega) (by omega) (by omega) (by omega)
  have hN : 0 ≤ (sim.nx + 2 * sim.ng) * (sim.ny + 2 * sim.ng) :=
    mul_nonneg (by omega) (by omega)
  have hf := field_in_buffer (sim.nx + 2 * sim.ng) (sim.ny + 2 * sim.ng) sim.nfield k
    hk.1 hk.2 hN
  refine ⟨trivial, by omega, ?_, ?_⟩
  · have e : sim.nfield * (sim.nx + 2 * sim.ng) * (sim.ny + 2 * sim.ng) =
        sim.nfield * ((sim.nx + 2 * sim.ng) * (sim.ny + 2 * sim.ng)) := by ring
    rw [e]
    omega
  · intro h
    obtain ⟨h1, h2⟩ := flat_index_inj (sim.nx + 2 * sim.ng) _ _ _ _ (by omega) (by omega)
      (by omega) (by omega) h
    obtain ⟨h3, h4⟩ := flat_index_inj (sim.ny + 2 * sim.ng) _ _ _ _ (by omega) (by omega)
      (by omega) (by omega) h1
    exact ⟨h3, by omega, by omega⟩

/-- C13 at the 8 by 8 sample grid: the offsets of the corner ghost cell `(-4, -4)` of field 0
and of the last ghost cell `(11, 11)` of field 2 are in range. -/
theorem central2d_offset_range_injective_witness :
    central2d_offset sample_sim 2 11 11 =
        (2 * (sample_sim.ny + 2 * sample_sim.ng) + (sample_sim.ng + 11)) *
          (sample_sim.nx + 2 * sample_sim.ng) + (sample_sim.ng + 11) ∧
      0 ≤ central2d_offset sample_sim 2 11 11 ∧
      central2d_offset sample_sim 2 11 11 <
        sample_sim.nfield * (sample_sim.nx + 2 * sample_sim.ng) *
          (sample_sim.ny + 2 * sample_sim.ng) ∧
      (central2d_offset sample_sim 2 11 11 = central2d_offset sample_sim 0 (-4) (-4) →
        (2 : Int) = 0 ∧ (11 : Int) = -4 ∧ (11 : Int) = -4) :=
  central2d_offset_range_injective sample_sim 2 11 11 0 (-4) (-4) (by decide) (by decide)
    (by decide) (by decide) (by decide) (by decide)

/-! ## Diagnostics -/

/-- The value `hmin` that the loops of `solution_check` leave is a lower bound of the leading
field over the interior cells and is the value of one of them. -/
theorem solution_check_scan_hmin (sim : central2d_t) (hnx : 1 ≤ sim.nx) (hny : 1 ≤ sim.ny) :
    (∀ i j, 0 ≤ i → i < sim.nx → 0 ≤ j → j < sim.ny →
      (solution_check_scan sim).hmin ≤ sim.u (central2d_offset sim 0 i j)) ∧
    ∃ i j, 0 ≤ i ∧ i < sim.nx ∧ 0 ≤ j ∧ j < sim.ny ∧
      (solution_check_scan sim).hmin = sim.u (central2d_offset sim 0 i j) := by
  have key := forRange_ind_max 0 sim.ny
    (fun j st =>
      forRange 0 sim.nx (fun i (st : CheckState) =>
        CheckState.mk (st.h_sum + sim.u (central2d_offset sim 0 i j))
          (st.hu_sum + sim.u (central2d_offset sim 1 i j))
          (st.hv_sum + sim.u (central2d_offset sim 2 i j))
          (fminf (sim.u (central2d_offset sim 0 i j)) st.hmin)
          (fmaxf (sim.u (central2d_offset sim 0 i j)) st.hmax)) st)
    (fun j (st : CheckState) =>
      (∀ i j2, 0 ≤ i → i < sim.nx → 0 ≤ j2 → j2 < j →
        st.hmin ≤ sim.u (central2d_offset sim 0 i j2)) ∧
      ∃ i j2, 0 ≤ i ∧ i < sim.nx ∧ 0 ≤ j2 ∧ j2 < sim.ny ∧
        st.hmin = sim.u (central2d_offset sim 0 i j2))
    (CheckState.mk 0 0 0 (sim.u (central2d_offset sim 0 0 0))
      (sim.u (central2d_offset sim 0 0 0)))
    ⟨by intro i j2 _ _ h1 h2; omega, 0, 0, le_refl _, by omega, le_refl _, by omega, rfl⟩
    (by
      intro j st hj0 hj1 hinv
      have inner := forRange_ind_max 0 sim.nx
        (fun i (st : CheckState) =>
          CheckState.mk (st.h_sum + sim.u (central2d_offset sim 0 i j))
            (st.hu_sum + sim.u (central2d_offset sim 1 i j))
            (st.hv_sum + sim.u (central2d_offset sim 2 i j))
            (fminf (sim.u (central2d_offset sim 0 i j)) st.hmin)
            (fmaxf (sim.u (central2d_offset sim 0 i j)) st.hmax))
        (fun i (st : CheckState) =>
          (∀ i2 j2, 0 ≤ i2 → i2 < sim.nx → 0 ≤ j2 → j2 < j →
            st.hmin ≤ sim.u (central2d_offset sim 0 i2 j2)) ∧
          (∀ i2, 0 ≤ i2 → i2 < i → st.hmin ≤ sim.u (central2d_offset sim 0 i2 j)) ∧
          ∃ i2 j2, 0 ≤ i2 ∧ i2 < sim.nx ∧ 0 ≤ j2 ∧ j2 < sim.ny ∧
            st.hmin = sim.u (central2d_offset sim 0 i2 j2))
        st ⟨hinv.1, by intro i2 h1 h2; omega, hinv.2⟩
        (by
          intro i st2 hi0 hi1 hinv2
          obtain ⟨hprev, hrow, i3, j3, a1, a2, a3, a4, hmem⟩ := hinv2
          refine ⟨?_, ?_, ?_⟩
          · intro i2 j2 b1 b2 b3 b4
            exact le_trans (min_le_right _ _) (hprev i2 j2 b1 b2 b3 b4)
          · intro i2 b1 b2
            by_cases hii : i2 = i
            · subst hii
              exact min_le_left _ _
            · exact le_trans (min_le_right _ _) (hrow i2 b1 (by omega))
          · rcases min_choice (sim.u (central2d_offset sim 0 i j)) st2.hmin with hm | hm
            · exact ⟨i, j, hi0, hi1, hj0, hj1, hm⟩
            · exact ⟨i3, j3, a1, a2, a3, a4, hm.trans hmem⟩)
      have hmax : max 0 sim.nx = sim.nx := max_eq_right (by omega)
      rw [hmax] at inner
      obtain ⟨hprev, hrow, hmem⟩ := inner
      refine ⟨?_, hmem⟩
      intro i j2 b1 b2 b3 b4
      by_cases hjj : j2 = j
      · subst hjj
        exact hrow i b1 b2
      · exact hprev i j2 b1 b2 b3 (by omega))
  have hmax : max 0 sim.ny = sim.ny := max_eq_right (by omega)
  rw [hmax] at key
  exact ⟨fun i j a1 a2 a3 a4 => key.1 i j a1 a2 a3 a4, key.2⟩

/-- C12: for `nx, ny ≥ 1` the assertion `hmin > 0` of `solution_check` passes if and only if
every interior cell of the leading field is strictly positive, and fails if and only if some
interior cell is not; `hmin` is the minimum of the leading field over the interior cells. -/
theorem solution_check_passes_iff_positive (sim : central2d_t) (hnx : 1 ≤ sim.nx)
    (hny : 1 ≤ sim.ny) :
    ((∃ r, solution_check sim = some r) ↔
      ∀ i j, 0 ≤ i → i < sim.nx → 0 ≤ j → j < sim.ny →
        0 < sim.u (central2d_offset sim 0 i j)) ∧
    (solution_check sim = none ↔
      ∃ i j, 0 ≤ i ∧ i < sim.nx ∧ 0 ≤ j ∧ j < sim.ny ∧
        sim.u (central2d_offset sim 0 i j) ≤ 0) ∧
    (∀ r, solution_check sim = some r → r.hmin = (solution_check_scan sim).hmin) ∧
    (∀ i j, 0 ≤ i → i < sim.nx → 0 ≤ j → j < sim.ny →
      (solution_check_scan sim).hmin ≤ sim.u (central2d_offset sim 0 i j)) ∧
    (∃ i j, 0 ≤ i ∧ i < sim.nx ∧ 0 ≤ j ∧ j < sim.ny ∧
      (solution_check_scan sim).hmin = sim.u (central2d_offset sim 0 i j)) := by
  obtain ⟨hlb, i0, j0, a1, a2, a3, a4, hmem⟩ := solution_check_scan_hmin sim hnx hny
  refine ⟨?_, ?_, ?_, hlb, ⟨i0, j0, a1, a2, a3, a4, hmem⟩⟩
  · constructor
    · rintro ⟨r, hr⟩ i j b1 b2 b3 b4
      simp only [solution_check] at hr
      by_cases hpos : (solution_check_scan sim).hmin > 0
      · exact lt_of_lt_of_le hpos (hlb i j b1 b2 b3 b4)
      · rw [if_neg hpos] at hr
        exact absurd hr (by simp)
    · intro hall
      have hpos : (solution_check_scan sim).hmin > 0 := by
        rw [hmem]
        exact hall i0 j0 a1 a2 a3 a4
      simp only [solution_check]
      rw [if_pos hpos]
      exact ⟨_, rfl⟩
  · constructor
    · intro hnone
      simp only [solution_check] at hnone
      by_cases hpos : (solution_check_scan sim).hmin > 0
      · rw [if_pos hpos] at hnone
        exact absurd hnone (by simp)
      · refine ⟨i0, j0, a1, a2, a3, a4, ?_⟩
        rw [← hmem]
        exact not_lt.mp hpos
    · rintro ⟨i, j, b1, b2, b3, b4, hle⟩
      have hpos : ¬ (solution_check_scan sim).hmin > 0 := by
        intro hpos
        exact absurd (lt_of_lt_of_le hpos (hlb i j b1 b2 b3 b4)) (not_lt.mpr hle)
      simp only [solution_check]
      rw [if_neg hpos]
  · intro r hr
    simp only [solution_check] at hr
    by_cases hpos : (solution_check_scan sim).hmin > 0
    · rw [if_pos hpos] at hr
      cases hr
      rfl
    · rw [if_neg hpos] at hr
      exact absurd hr (by simp)

/-- C12 on the 8 by 8 sample at rest, where the height is 1 in every interior cell: the check
passes. -/
theorem solution_check_passes_iff_positive_witness :
    (1 ≤ sample_flat.nx ∧ 1 ≤ sample_flat.ny) ∧ ∃ r, solution_check sample_flat = some r :=
  ⟨⟨by decide, by decide⟩,
    (solution_check_passes_iff_positive sample_flat (by decide) (by decide)).1.2 (by
      intro i j hi0 hi1 hj0 hj1
      have hi : i < 8 := hi1
      have hj : j < 8 := hj1
      show (0 : ℚ) < if (0 * (8 + 2 * 4) + (4 + j)) * (8 + 2 * 4) + (4 + i) < 256 then 1 else 0
      rw [if_pos (by omega)]
      norm_num)⟩

/-! ## Wave-speed reduction -/

/-- Two loop bodies that agree on the range of the loop give the same loop. -/
theorem forRange_congr {σ : Type} (lo hi : Int) (body body2 : Int → σ → σ) (s : σ)
    (h : ∀ i s, lo ≤ i → i < hi → body i s = body2 i s) :
    forRange lo hi body s = forRange lo hi body2 s := by
  have key := forRange_ind_max lo hi body
    (fun m st => st = forRange lo m body2 s) s
    (by simp only [forRange, sub_self, Int.toNat_zero, loopN])
    (by
      intro i st hi0 hi1 hinv
      have hn : (i + 1 - lo).toNat = (i - lo).toNat + 1 := by omega
      have hc : lo + (((i - lo).toNat : Nat) : Int) = i := by omega
      simp only [forRange, hn, loopN, hc]
      rw [hinv, h i _ hi0 hi1]
      rfl)
  by_cases hle : lo ≤ hi
  · rw [max_eq_right hle] at key
    exact key
  · rw [max_eq_left (by omega)] at key
    rw [key]
    simp only [forRange, sub_self, Int.toNat_zero, loopN]
    have hn : (hi - lo).toNat = 0 := by omega
    rw [hn]
    rfl

/-- A loop that folds `fmaxf` over the kept iterations into a pair of accumulators leaves in
each the maximum of its start value and of the values folded in. -/
theorem forRange_max_pair (lo hi : Int) (keep : Int → Prop) [DecidablePred keep]
    (A B : Int → ℚ) (c0 : ℚ × ℚ) :
    ∃ r, forRange lo hi
        (fun i (c : ℚ × ℚ) => if keep i then (fmaxf c.1 (A i), fmaxf c.2 (B i)) else c) c0 = r ∧
      (c0.1 ≤ r.1 ∧ (∀ i, lo ≤ i → i < hi → keep i → A i ≤ r.1) ∧
        (r.1 = c0.1 ∨ ∃ i, lo ≤ i ∧ i < hi ∧ keep i ∧ r.1 = A i)) ∧
      (c0.2 ≤ r.2 ∧ (∀ i, lo ≤ i → i < hi → keep i → B i ≤ r.2) ∧
        (r.2 = c0.2 ∨ ∃ i, lo ≤ i ∧ i < hi ∧ keep i ∧ r.2 = B i)) := by
  refine ⟨_, rfl, ?_⟩
  have key := forRange_ind_max lo hi
    (fun i (c : ℚ × ℚ) => if keep i then (fmaxf c.1 (A i), fmaxf c.2 (B i)) else c)
    (fun m (r : ℚ × ℚ) =>
      (c0.1 ≤ r.1 ∧ (∀ i, lo ≤ i → i < m → keep i → A i ≤ r.1) ∧
        (r.1 = c0.1 ∨ ∃ i, lo ≤ i ∧ i < hi ∧ keep i ∧ r.1 = A i)) ∧
      (c0.2 ≤ r.2 ∧ (∀ i, lo ≤ i → i < m → keep i → B i ≤ r.2) ∧
        (r.2 = c0.2 ∨ ∃ i, lo ≤ i ∧ i < hi ∧ keep i ∧ r.2 = B i))) c0
    ⟨⟨le_refl _, by intro i h1 h2; omega, Or.inl rfl⟩,
      ⟨le_refl _, by intro i h1 h2; omega, Or.inl rfl⟩⟩
    (by
      intro i c hi0 hi1 hinv
      obtain ⟨⟨a1, a2, a3⟩, ⟨b1, b2, b3⟩⟩ := hinv
      by_cases hk : keep i
      · simp only [if_pos hk, fmaxf]
        refine ⟨⟨le_trans a1 (le_max_left _ _), ?_, ?_⟩,
          ⟨le_trans b1 (le_max_left _ _), ?_, ?_⟩⟩
        · intro i2 h1 h2 h3
          by_cases hii : i2 = i
          · subst hii
            exact le_max_right _ _
          · exact le_trans (a2 i2 h1 (by omega) h3) (le_max_left _ _)
        · rcases max_choice c.1 (A i) with hm | hm
          · rw [hm]
            exact a3
          · exact Or.inr ⟨i, hi0, hi1, hk, hm⟩
        · intro i2 h1 h2 h3
          by_cases hii : i2 = i
          · subst hii
            exact le_max_right _ _
          · exact le_trans (b2 i2 h1 (by omega) h3) (le_max_left _ _)
        · rcases max_choice c.2 (B i) with hm | hm
          · rw [hm]
            exact b3
          · exact Or.inr ⟨i, hi0, hi1, hk, hm⟩
      · simp only [if_neg hk]
        refine ⟨⟨a1, ?_, a3⟩, ⟨b1, ?_, b3⟩⟩
        · intro i2 h1 h2 h3
          by_cases hii : i2 = i
          · subst hii
            exact absurd h3 hk
          · exact a2 i2 h1 (by omega) h3
        · intro i2 h1 h2 h3
          by_cases hii : i2 = i
          · subst hii
            exact absurd h3 hk
          · exact b2 i2 h1 (by omega) h3)
  obtain ⟨⟨a1, a2, a3⟩, ⟨b1, b2, b3⟩⟩ := key
  refine ⟨⟨a1, ?_, a3⟩, ⟨b1, ?_, b3⟩⟩
  · intro i h1 h2 h3
    exact a2 i h1 (lt_of_lt_of_le h2 (le_max_right _ _)) h3
  · intro i h1 h2 h3
    exact b2 i h1 (lt_of_lt_of_le h2 (le_max_right _ _)) h3

/-- The private copies of one thread as a `fmaxf` fold over the iterations that the thread
owns and that pass the test on the height. -/
theorem shallow2dv_speed_thread_eq (sqrtf : ℚ → ℚ) (owner : Int → Int) (t : Int) (U : Buf)
    (h hu hv : Int) (g : ℚ) (ncell : Int) :
    shallow2dv_speed_thread sqrtf owner t U h hu hv g ncell =
      forRange 0 ncell (fun i (c : ℚ × ℚ) =>
        if owner i = t ∧ 1 / 100000 ≤ |U (h + i)| then
          (fmaxf c.1 (|U (hu + i) / U (h + i)| + sqrtf (g * U (h + i))),
            fmaxf c.2 (|U (hv + i) / U (h + i)| + sqrtf (g * U (h + i))))
        else c) (INT_MIN, INT_MIN) := by
  unfold shallow2dv_speed_thread
  apply forRange_congr
  intro i c _ _
  simp only [fabsf_eq_abs, mul_one_div]
  by_cases ho : owner i = t
  · by_cases hh : |U (h + i)| < 1 / 100000
    · rw [if_pos ho, if_pos hh, if_neg (by intro hc; exact absurd hh (not_lt.mpr hc.2))]
    · rw [if_pos ho, if_neg hh, if_pos ⟨ho, not_lt.mp hh⟩]
  · rw [if_neg ho, if_neg (by intro hc; exact ho hc.1)]

/-- The wave-speed reduction never lowers a component of the accumulator, for any team and
any schedule. -/
theorem shallow2d_speed_ge (sqrtf : ℚ → ℚ) (nthreads : Int) (owner : Int → Int)
    (cxy : ℚ × ℚ) (U : Buf) (u0 ncell stride : Int) :
    cxy.1 ≤ (shallow2d_speed sqrtf nthreads owner cxy U u0 ncell stride).1 ∧
      cxy.2 ≤ (shallow2d_speed sqrtf nthreads owner cxy U u0 ncell stride).2 := by
  obtain ⟨r, hr, ⟨a1, _, _⟩, ⟨b1, _, _⟩⟩ := forRange_max_pair 0 nthreads (fun _ => True)
    (fun t => (shallow2dv_speed_thread sqrtf owner t U u0 (u0 + stride) (u0 + 2 * stride)
      shallow2d_g ncell).1)
    (fun t => (shallow2dv_speed_thread sqrtf owner t U u0 (u0 + stride) (u0 + 2 * stride)
      shallow2d_g ncell).2) (cxy.1, cxy.2)
  simp only [if_true] at hr
  simp only [shallow2d_speed, shallow2dv_speed]
  rw [hr]
  exact ⟨a1, b1⟩

/-- C20, as stated, fails for an accumulator below `INT_MIN`: on two cells of height 0, which
the loop skips, the reduction started from `(-3000000000, -3000000000)` returns
`(-2147483648, -2147483648)`, the initial value of the private copies, where the claim gives
the input back. -/
theorem shallow2d_speed_below_INT_MIN_counterexample :
    shallow2d_speed (fun x => x) 1 (fun _ => 0) (-3000000000, -3000000000) (fun _ => 0) 0 2 2 =
        (-2147483648, -2147483648) ∧
      (shallow2d_speed (fun x => x) 1 (fun _ => 0) (-3000000000, -3000000000) (fun _ => 0)
        0 2 2).1 ≠ -3000000000 := by
  have e : shallow2d_speed (fun x => x) 1 (fun _ => 0) (-3000000000, -3000000000)
      (fun _ => 0) 0 2 2 = (-2147483648, -2147483648) := by
    norm_num [shallow2d_speed, shallow2dv_speed, shallow2dv_speed_thread, forRange, loopN,
      fabsf, fmaxf, INT_MIN]
  rw [e]
  exact ⟨rfl, by norm_num⟩

/-- C20, amended: for a team of at least one thread and a schedule that gives every iteration
to a thread of the team, `shallow2d_speed` returns in each component the maximum of the input
value, of `INT_MIN = -2147483648` and of the speeds `|hu_i/h_i| + sqrtf(g*h_i)` (resp.
`|hv_i/h_i| + sqrtf(g*h_i)`) of the cells with `|h_i| ≥ 1e-5`, with `g = 9.8`: the result is
an upper bound of all of these and is one of them.  Cells with `|h_i| < 1e-5` have no
influence, and no component is smaller than its input value. -/
theorem shallow2d_speed_reduction (sqrtf : ℚ → ℚ) (nthreads : Int) (owner : Int → Int)
    (cxy : ℚ × ℚ) (U : Buf) (u0 ncell stride : Int) (hT : 1 ≤ nthreads)
    (hown : ∀ i, 0 ≤ i → i < ncell → 0 ≤ owner i ∧ owner i < nthreads) :
    ∃ r, shallow2d_speed sqrtf nthreads owner cxy U u0 ncell stride = r ∧
      (cxy.1 ≤ r.1 ∧ -2147483648 ≤ r.1 ∧
        (∀ i, 0 ≤ i → i < ncell → 1 / 100000 ≤ |U (u0 + i)| →
          |U (u0 + stride + i) / U (u0 + i)| + sqrtf (98 / 10 * U (u0 + i)) ≤ r.1) ∧
        (r.1 = cxy.1 ∨ r.1 = -2147483648 ∨
          ∃ i, 0 ≤ i ∧ i < ncell ∧ 1 / 100000 ≤ |U (u0 + i)| ∧
            r.1 = |U (u0 + stride + i) / U (u0 + i)| + sqrtf (98 / 10 * U (u0 + i)))) ∧
      (cxy.2 ≤ r.2 ∧ -2147483648 ≤ r.2 ∧
        (∀ i, 0 ≤ i → i < ncell → 1 / 100000 ≤ |U (u0 + i)| →
          |U (u0 + 2 * stride + i) / U (u0 + i)| + sqrtf (98 / 10 * U (u0 + i)) ≤ r.2) ∧
        (r.2 = cxy.2 ∨ r.2 = -2147483648 ∨
          ∃ i, 0 ≤ i ∧ i < ncell ∧ 1 / 100000 ≤ |U (u0 + i)| ∧
            r.2 = |U (u0 + 2 * stride + i) / U (u0 + i)| + sqrtf (98 / 10 * U (u0 + i)))) ∧
      (∀ U2 : Buf,
        (∀ i, 0 ≤ i → i < ncell →
          (|U (u0 + i)| < 1 / 100000 ∧ |U2 (u0 + i)| < 1 / 100000) ∨
          (U2 (u0 + i) = U (u0 + i) ∧ U2 (u0 + stride + i) = U (u0 + stride + i) ∧
            U2 (u0 + 2 * stride + i) = U (u0 + 2 * stride + i))) →
        shallow2d_speed sqrtf nthreads owner cxy U2 u0 ncell stride = r) := by
  refine ⟨_, rfl, ?_, ?_, ?_⟩
  · obtain ⟨r, hr, ⟨a1, a2, a3⟩, _⟩ := forRange_max_pair 0 nthreads (fun _ => True)
      (fun t => (shallow2dv_speed_thread sqrtf owner t U u0 (u0 + stride) (u0 + 2 * stride)
        shallow2d_g ncell).1)
      (fun t => (shallow2dv_speed_thread sqrtf owner t U u0 (u0 + stride) (u0 + 2 * stride)
        shallow2d_g ncell).2) (cxy.1, cxy.2)
    simp only [if_true] at hr
    simp only [shallow2d_speed, shallow2dv_speed]
    rw [hr]
    have hthread : ∀ t, ∃ p, shallow2dv_speed_thread sqrtf owner t U u0 (u0 + stride)
        (u0 + 2 * stride) shallow2d_g ncell = p ∧
        (-2147483648 ≤ p.1 ∧
          (∀ i, 0 ≤ i → i < ncell → owner i = t ∧ 1 / 100000 ≤ |U (u0 + i)| →
            |U (u0 + stride + i) / U (u0 + i)| + sqrtf (98 / 10 * U (u0 + i)) ≤ p.1) ∧
          (p.1 = -2147483648 ∨ ∃ i, 0 ≤ i ∧ i < ncell ∧
            (owner i = t ∧ 1 / 100000 ≤ |U (u0 + i)|) ∧
            p.1 = |U (u0 + stride + i) / U (u0 + i)| + sqrtf (98 / 10 * U (u0 + i)))) := by
      intro t
      rw [shallow2dv_speed_thread_eq]
      obtain ⟨p, hp, hp1, _⟩ := forRange_max_pair 0 ncell
        (fun i => owner i = t ∧ 1 / 100000 ≤ |U (u0 + i)|)
        (fun i => |U (u0 + stride + i) / U (u0 + i)| + sqrtf (shallow2d_g * U (u0 + i)))
        (fun i => |U (u0 + 2 * stride + i) / U (u0 + i)| + sqrtf (shallow2d_g * U (u0 + i)))
        (INT_MIN, INT_MIN)
      rw [hp]
      simp only [shallow2d_g, INT_MIN] at hp1
      exact ⟨_, rfl, hp1⟩
    refine ⟨a1, ?_, ?_, ?_⟩
    · obtain ⟨p, hp, b1, _, _⟩ := hthread 0
      have := a2 0 (le_refl _) (by omega) trivial
      simp only [hp] at this
      exact le_trans b1 this
    · intro i hi0 hi1 hq
      obtain ⟨p, hp, _, b2, _⟩ := hthread (owner i)
      have := a2 (owner i) (hown i hi0 hi1).1 (hown i hi0 hi1).2 trivial
      simp only [hp] at this
      exact le_trans (b2 i hi0 hi1 ⟨rfl, hq⟩) this
    · rcases a3 with a3 | ⟨t, _, _, _, a3⟩
      · exact Or.inl a3
      · obtain ⟨p, hp, _, _, b3⟩ := hthread t
        simp only [hp] at a3
        rcases b3 with b3 | ⟨i, hi0, hi1, hq, b3⟩
        · exact Or.inr (Or.inl (a3.trans b3))
        · exact Or.inr (Or.inr ⟨i, hi0, hi1, hq.2, a3.trans b3⟩)
  · obtain ⟨r, hr, _, ⟨a1, a2, a3⟩⟩ := forRange_max_pair 0 nthreads (fun _ => True)
      (fun t => (shallow2dv_speed_thread sqrtf owner t U u0 (u0 + stride) (u0 + 2 * stride)
        shallow2d_g ncell).1)
      (fun t => (shallow2dv_speed_thread sqrtf owner t U u0 (u0 + stride) (u0 + 2 * stride)
        shallow2d_g ncell).2) (cxy.1, cxy.2)
    simp only [if_true] at hr
    simp only [shallow2d_speed, shallow2dv_speed]
    rw [hr]
    have hthread : ∀ t, ∃ p, shallow2dv_speed_thread sqrtf owner t U u0 (u0 + stride)
        (u0 + 2 * stride) shallow2d_g ncell = p ∧
        (-2147483648 ≤ p.2 ∧
          (∀ i, 0 ≤ i → i < ncell → owner i = t ∧ 1 / 100000 ≤ |U (u0 + i)| →
            |U (u0 + 2 * stride + i) / U (u0 + i)| + sqrtf (98 / 10 * U (u0 + i)) ≤ p.2) ∧
          (p.2 = -2147483648 ∨ ∃ i, 0 ≤ i ∧ i < ncell ∧
            (owner i = t ∧ 1 / 100000 ≤ |U (u0 + i)|) ∧
            p.2 = |U (u0 + 2 * stride + i) / U (u0 + i)| + sqrtf (98 / 10 * U (u0 + i)))) := by
      intro t
      rw [shallow2dv_speed_thread_eq]
      obtain ⟨p, hp, _, hp2⟩ := forRange_max_pair 0 ncell
        (fun i => owner i = t ∧ 1 / 100000 ≤ |U (u0 + i)|)
        (fun i => |U (u0 + stride + i) / U (u0 + i)| + sqrtf (shallow2d_g * U (u0 + i)))
        (fun i => |U (u0 + 2 * stride + i) / U (u0 + i)| + sqrtf (shallow2d_g * U (u0 + i)))
        (INT_MIN, INT_MIN)
      rw [hp]
      simp only [shallow2d_g, INT_MIN] at hp2
      exact ⟨_, rfl, hp2⟩
    refine ⟨a1, ?_, ?_, ?_⟩
    · obtain ⟨p, hp, b1, _, _⟩ := hthread 0
      have := a2 0 (le_refl _) (by omega) trivial
      simp only [hp] at this
      exact le_trans b1 this
    · intro i hi0 hi1 hq
      obtain ⟨p, hp, _, b2, _⟩ := hthread (owner i)
      have := a2 (owner i) (hown i hi0 hi1).1 (hown i hi0 hi1).2 trivial
      simp only [hp] at this
      exact le_trans (b2 i hi0 hi1 ⟨rfl, hq⟩) this
    · rcases a3 with a3 | ⟨t, _, _, _, a3⟩
      · exact Or.inl a3
      · obtain ⟨p, hp, _, _, b3⟩ := hthread t
        simp only [hp] at a3
        rcases b3 with b3 | ⟨i, hi0, hi1, hq, b3⟩
        · exact Or.inr (Or.inl (a3.trans b3))
        · exact Or.inr (Or.inr ⟨i, hi0, hi1, hq.2, a3.trans b3⟩)
  · intro U2 hU2
    simp only [shallow2d_speed, shallow2dv_speed]
    apply forRange_congr
    intro t c _ _
    have hth : shallow2dv_speed_thread sqrtf owner t U2 u0 (u0 + stride) (u0 + 2 * stride)
        shallow2d_g ncell =
        shallow2dv_speed_thread sqrtf owner t U u0 (u0 + stride) (u0 + 2 * stride)
          shallow2d_g ncell := by
      rw [shallow2dv_speed_thread_eq, shallow2dv_speed_thread_eq]
      apply forRange_congr
      intro i c2 hi0 hi1
      rcases hU2 i hi0 hi1 with ⟨h1, h2⟩ | ⟨h1, h2, h3⟩
      · rw [if_neg (by intro hc; exact absurd h2 (not_lt.mpr hc.2)),
          if_neg (by intro hc; exact absurd h1 (not_lt.mpr hc.2))]
      · rw [h1, h2, h3]
    rw [hth]

/-- C20 (amended) on the sample at rest, for a team of two threads that take the cells in
turn: the reduction returns at least the seed and at least the speed of cell 0, whose height
is 1. -/
theorem shallow2d_speed_reduction_witness :
    ((1 : Int) ≤ 2 ∧ ∀ i : Int, 0 ≤ i → i < 256 → 0 ≤ i % 2 ∧ i % 2 < 2) ∧
      ∃ r, shallow2d_speed sample_sqrtf 2 (fun i => i % 2) (1 / 10 ^ 15, 1 / 10 ^ 15)
          sample_flat.u 0 256 256 = r ∧
        (1 : ℚ) / 10 ^ 15 ≤ r.1 ∧
        |sample_flat.u (0 + 256 + 0) / sample_flat.u (0 + 0)| +
          sample_sqrtf (98 / 10 * sample_flat.u (0 + 0)) ≤ r.1 := by
  refine ⟨⟨by decide, fun i _ _ => by omega⟩, ?_⟩
  obtain ⟨r, hr, ⟨a1, _, a3, _⟩, _⟩ := shallow2d_speed_reduction sample_sqrtf 2
    (fun i => i % 2) (1 / 10 ^ 15, 1 / 10 ^ 15) sample_flat.u 0 256 256 (by decide)
    (fun i _ _ => by
      show 0 ≤ i % 2 ∧ i % 2 < 2
      omega)
  refine ⟨r, hr, a1, a3 0 (le_refl _) (by decide) ?_⟩
  norm_num [sample_flat]

/-! ## The time step of a pass -/

/-- While the run loop has not set `done`, the time `t` is below `tfinal`. -/
theorem central2d_run_passes_time (alloc : Nat → Int → Buf) (sim : central2d_t) (tfinal : ℚ)
    (htf : 0 < tfinal) (n : Nat) (s : RunState)
    (hs : central2d_run_passes n alloc sim tfinal = some s) (hd : s.done = false) :
    s.t < tfinal := by
  cases n with
  | zero =>
    simp only [central2d_run_passes, central2d_xrun_passes, Option.some.injEq] at hs
    rw [← hs]
    exact htf
  | succ n =>
    simp only [central2d_run_passes, central2d_xrun_passes] at hs
    cases hprev : central2d_xrun_passes alloc sim.nx sim.ny sim.ng sim.nfield sim.flux
        sim.speed tfinal sim.dx sim.dy sim.cfl n (RunState.mk sim.u 0 0 false 0 []) with
    | none =>
      rw [hprev] at hs
      exact absurd hs (by simp)
    | some sp =>
      rw [hprev, Option.some_bind] at hs
      obtain ⟨ht, _, hdone, _⟩ := central2d_xrun_body_fields alloc sim.nx sim.ny sim.ng
        sim.nfield sim.flux sim.speed tfinal sim.dx sim.dy sim.cfl sp s hs
      rw [hdone] at hd
      rw [ht]
      simp only [central2d_xrun_dt] at hd ⊢
      by_cases htest : sp.t + 2 * central2d_xrun_cfl sp.u sim.nx sim.ny sim.ng sim.speed
          sim.dx sim.dy sim.cfl ≥ tfinal
      · rw [if_pos htest] at hd
        exact absurd hd (by simp)
      · rw [if_neg htest]
        exact not_le.mp htest

/-- C14: for `cfl > 0`, `dx, dy > 0`, `tfinal > 0` and a wave-speed callback that never lowers
the accumulator, in every pass that the run loop takes the divisor `max(cx/dx, cy/dy)` is
strictly positive, a pass that is not the last uses exactly `dt = cfl / max(cx/dx, cy/dy)`,
and every pass uses a `dt` with `0 < dt ≤ cfl / max(cx/dx, cy/dy)`, so `dt*cx/dx ≤ cfl` and
`dt*cy/dy ≤ cfl`.  Here `s` is the state before the pass, `s2` the state after it, and
`(cx, cy)` the accumulator after the reduction seeded with `1e-15`. -/
theorem central2d_run_cfl_bound (alloc : Nat → Int → Buf) (sim : central2d_t) (tfinal : ℚ)
    (hcfl : 0 < sim.cfl) (hdx : 0 < sim.dx) (hdy : 0 < sim.dy) (htf : 0 < tfinal)
    (hspeed : ∀ (cxy : ℚ × ℚ) (U : Buf) (u0 ncell stride : Int),
      cxy.1 ≤ (sim.speed cxy U u0 ncell stride).1 ∧
        cxy.2 ≤ (sim.speed cxy U u0 ncell stride).2)
    (n : Nat) (s s2 : RunState)
    (hs : central2d_run_passes n alloc sim tfinal = some s) (hnd : s.done = false)
    (hs2 : central2d_run_passes (n + 1) alloc sim tfinal = some s2) :
    ∃ cxy dt,
      cxy = sim.speed (1 / 10 ^ 15, 1 / 10 ^ 15) s.u 0
        ((sim.nx + 2 * sim.ng) * (sim.ny + 2 * sim.ng))
        ((sim.nx + 2 * sim.ng) * (sim.ny + 2 * sim.ng)) ∧
      s2.dts = dt :: s.dts ∧ s2.t = s.t + 2 * dt ∧
      central2d_xrun_sweep s.u (alloc s.iters) sim.nx sim.ny sim.ng sim.nfield sim.flux
        sim.speed dt sim.dx sim.dy 2 2 = some s2.u ∧
      1 / 10 ^ 15 ≤ cxy.1 ∧ 1 / 10 ^ 15 ≤ cxy.2 ∧
      0 < cxy.1 / sim.dx ∧ 0 < cxy.2 / sim.dy ∧
      0 < max (cxy.1 / sim.dx) (cxy.2 / sim.dy) ∧
      (s2.done = false → dt = sim.cfl / max (cxy.1 / sim.dx) (cxy.2 / sim.dy)) ∧
      (s2.done = true → dt = (tfinal - s.t) / 2) ∧
      0 < dt ∧ dt ≤ sim.cfl / max (cxy.1 / sim.dx) (cxy.2 / sim.dy) ∧
      dt * cxy.1 / sim.dx ≤ sim.cfl ∧ dt * cxy.2 / sim.dy ≤ sim.cfl := by
  have ht := central2d_run_passes_time alloc sim tfinal htf n s hs hnd
  have hbody : central2d_xrun_body alloc sim.nx sim.ny sim.ng sim.nfield sim.flux sim.speed
      tfinal sim.dx sim.dy sim.cfl s = some s2 := by
    simp only [central2d_run_passes, central2d_xrun_passes] at hs hs2
    rw [hs, Option.some_bind] at hs2
    exact hs2
  obtain ⟨b1, _, b3, _, b5, b6⟩ := central2d_xrun_body_fields alloc sim.nx sim.ny sim.ng
    sim.nfield sim.flux sim.speed tfinal sim.dx sim.dy sim.cfl s s2 hbody
  obtain ⟨c1, c2⟩ := hspeed (1 / 10 ^ 15, 1 / 10 ^ 15) s.u 0
    ((sim.nx + 2 * sim.ng) * (sim.ny + 2 * sim.ng))
    ((sim.nx + 2 * sim.ng) * (sim.ny + 2 * sim.ng))
  obtain ⟨cxy, hcxy⟩ : ∃ cxy, cxy = sim.speed (1 / 10 ^ 15, 1 / 10 ^ 15) s.u 0
    ((sim.nx + 2 * sim.ng) * (sim.ny + 2 * sim.ng))
    ((sim.nx + 2 * sim.ng) * (sim.ny + 2 * sim.ng)) := ⟨_, rfl⟩
  rw [← hcxy] at c1 c2
  have hcfl_eq : central2d_xrun_cfl s.u sim.nx sim.ny sim.ng sim.speed sim.dx sim.dy sim.cfl =
      sim.cfl / max (cxy.1 / sim.dx) (cxy.2 / sim.dy) := by
    rw [hcxy]
    rfl
  have hx : 0 < cxy.1 := lt_of_lt_of_le (by norm_num) c1
  have hy : 0 < cxy.2 := lt_of_lt_of_le (by norm_num) c2
  have hM : 0 < max (cxy.1 / sim.dx) (cxy.2 / sim.dy) :=
    lt_max_of_lt_left (div_pos hx hdx)
  have hD : 0 < sim.cfl / max (cxy.1 / sim.dx) (cxy.2 / sim.dy) := div_pos hcfl hM
  obtain ⟨dt, hdt⟩ : ∃ dt, dt = (central2d_xrun_dt s.u s.t sim.nx sim.ny sim.ng sim.speed
    tfinal sim.dx sim.dy sim.cfl).1 := ⟨_, rfl⟩
  rw [← hdt] at b1 b5 b6
  have hcase : (s2.done = false ∧ dt = sim.cfl / max (cxy.1 / sim.dx) (cxy.2 / sim.dy)) ∨
      (s2.done = true ∧ dt = (tfinal - s.t) / 2 ∧
        dt ≤ sim.cfl / max (cxy.1 / sim.dx) (cxy.2 / sim.dy)) := by
    rw [b3, hdt]
    simp only [central2d_xrun_dt, hcfl_eq]
    by_cases htest : s.t + 2 * (sim.cfl / max (cxy.1 / sim.dx) (cxy.2 / sim.dy)) ≥ tfinal
    · rw [if_pos htest]
      refine Or.inr ⟨rfl, rfl, ?_⟩
      have : tfinal ≤ s.t + 2 * (sim.cfl / max (cxy.1 / sim.dx) (cxy.2 / sim.dy)) := htest
      linarith
    · rw [if_neg htest]
      exact Or.inl ⟨rfl, rfl⟩
  have hpos : 0 < dt := by
    rcases hcase with ⟨_, h2⟩ | ⟨_, h2, _⟩
    · rw [h2]
      exact hD
    · rw [h2]
      linarith
  have hle : dt ≤ sim.cfl / max (cxy.1 / sim.dx) (cxy.2 / sim.dy) := by
    rcases hcase with ⟨_, h2⟩ | ⟨_, _, h3⟩
    · exact le_of_eq h2
    · exact h3
  have hdM : dt * max (cxy.1 / sim.dx) (cxy.2 / sim.dy) ≤ sim.cfl :=
    (le_div_iff₀ hM).mp hle
  refine ⟨cxy, dt, hcxy, b5, b1, b6, c1, c2, div_pos hx hdx, div_pos hy hdy, hM, ?_, ?_, hpos,
    hle, ?_, ?_⟩
  · intro hf
    rcases hcase with ⟨_, h2⟩ | ⟨h1, _, _⟩
    · exact h2
    · rw [hf] at h1
      exact absurd h1 (by simp)
  · intro hf
    rcases hcase with ⟨h1, _⟩ | ⟨_, h2, _⟩
    · rw [hf] at h1
      exact absurd h1 (by simp)
    · exact h2
  · have e : dt * cxy.1 / sim.dx = dt * (cxy.1 / sim.dx) := by ring
    rw [e]
    exact le_trans (mul_le_mul_of_nonneg_left (le_max_left _ _) hpos.le) hdM
  · have e : dt * cxy.2 / sim.dy = dt * (cxy.2 / sim.dy) := by ring
    rw [e]
    exact le_trans (mul_le_mul_of_nonneg_left (le_max_right _ _) hpos.le) hdM

/-- C14 on the 8 by 8 sample at rest with the shallow-water wave speed, `tfinal = 1`: the
first pass of the run loop uses a positive `dt` within the CFL bound. -/
theorem central2d_run_cfl_bound_witness :
    (0 < sample_wave.cfl ∧ 0 < sample_wave.dx ∧ 0 < sample_wave.dy ∧ (0 : ℚ) < 1) ∧
      ∃ (s s2 : RunState) (cxy : ℚ × ℚ) (dt : ℚ),
        central2d_run_passes 0 (fun _ _ _ => 0) sample_wave 1 = some s ∧
        s.done = false ∧
        central2d_run_passes (0 + 1) (fun _ _ _ => 0) sample_wave 1 = some s2 ∧
        s2.dts = dt :: s.dts ∧ 0 < max (cxy.1 / sample_wave.dx) (cxy.2 / sample_wave.dy) ∧
        0 < dt ∧ dt ≤ sample_wave.cfl / max (cxy.1 / sample_wave.dx) (cxy.2 / sample_wave.dy) ∧
        dt * cxy.1 / sample_wave.dx ≤ sample_wave.cfl ∧
        dt * cxy.2 / sample_wave.dy ≤ sample_wave.cfl := by
  refine ⟨⟨by norm_num [sample_wave], by norm_num [sample_wave], by norm_num [sample_wave],
    by norm_num⟩, ?_⟩
  obtain ⟨s2, hs2⟩ := central2d_xrun_passes_some (fun _ _ _ => 0) sample_wave.nx
    sample_wave.ny sample_wave.ng sample_wave.nfield sample_wave.flux sample_wave.speed 1
    sample_wave.dx sample_wave.dy sample_wave.cfl (by decide) (by decide) (by decide) (0 + 1)
    (RunState.mk sample_wave.u 0 0 false 0 [])
  obtain ⟨cxy, dt, _, a2, _, _, _, _, _, _, a7, _, _, a10, a11, a12, a13⟩ :=
    central2d_run_cfl_bound (fun _ _ _ => 0) sample_wave 1 (by norm_num [sample_wave])
      (by norm_num [sample_wave]) (by norm_num [sample_wave]) (by norm_num)
      (fun cxy U u0 ncell stride =>
        shallow2d_speed_ge sample_sqrtf 4 (fun i => i % 4) cxy U u0 ncell stride)
      0 (RunState.mk sample_wave.u 0 0 false 0 []) s2 rfl rfl hs2
  exact ⟨_, s2, cxy, dt, rfl, rfl, hs2, a2, a7, a10, a11, a12, a13⟩

/-! ## Grids that the tiling does not divide -/

/-- The parallel region of a pass on a grid of at least 2 by 2 cells returns and leaves every
cell outside the four tile interiors `[ng, ng + 2*(nx/2)) x [ng, ng + 2*(ny/2))` as it was. -/
theorem central2d_xrun_sweep_frame (u : Buf) (alloc : Int → Buf) (nx ny ng nfield : Int)
    (flux : flux_t) (speed : speed_t) (dt dx dy : ℚ)
    (hnx : 2 ≤ nx) (hny : 2 ≤ ny) (hng : 2 ≤ ng) :
    ∃ u2, central2d_xrun_sweep u alloc nx ny ng nfield flux speed dt dx dy 2 2 = some u2 ∧
      ∀ k R i, 0 ≤ R → R < ny + 2 * ng → 0 ≤ i → i < nx + 2 * ng →
        (i < ng ∨ ng + 2 * (nx / 2) ≤ i ∨ R < ng ∨ ng + 2 * (ny / 2) ≤ R) →
        u2 ((k * (ny + 2 * ng) + R) * (nx + 2 * ng) + i) =
          u ((k * (ny + 2 * ng) + R) * (nx + 2 * ng) + i) := by
  have hdx : Int.tdiv nx 2 = nx / 2 := Int.tdiv_eq_ediv (by omega) (by omega)
  have hdy : Int.tdiv ny 2 = ny / 2 := Int.tdiv_eq_ediv (by omega) (by omega)
  simp only [central2d_xrun_sweep, hdx, hdy]
  refine forRangeM_post _ _ _
    (fun _ (acc : Buf) => ∀ k R i, 0 ≤ R → R < ny + 2 * ng → 0 ≤ i → i < nx + 2 * ng →
      (i < ng ∨ ng + 2 * (nx / 2) ≤ i ∨ R < ng ∨ ng + 2 * (ny / 2) ≤ R) →
      acc ((k * (ny + 2 * ng) + R) * (nx + 2 * ng) + i) =
        u ((k * (ny + 2 * ng) + R) * (nx + 2 * ng) + i)) _ _ ?_ ?_ ?_
  · intro k R i _ _ _ _ _
    rfl
  · intro j acc hj0 hj1 hinv
    beta_reduce
    have hjx : Int.tmod j 2 = j % 2 := Int.tmod_eq_emod hj0 (by omega)
    have hjy : Int.tdiv j 2 = j / 2 := Int.tdiv_eq_ediv hj0 (by omega)
    obtain ⟨pu, hpu⟩ : ∃ pu, central2d_xrun_tile u (alloc j) nx ny ng nfield flux speed dt dx
        dy 2 2 j = some pu := by
      simp only [central2d_xrun_tile]
      obtain ⟨r1, h1⟩ := central2d_step_some
        (central2d_periodic (fun i => alloc j i) u (Int.tdiv nx 2) (Int.tdiv ny 2)
          ng 2 2 (Int.tmod j 2) (Int.tdiv j 2) nfield)
        (fun i => alloc j
          (nfield * ((Int.tdiv nx 2 + 2 * ng) * (Int.tdiv ny 2 + 2 * ng)) + i))
        (fun i => alloc j
          (4 * (nfield * ((Int.tdiv nx 2 + 2 * ng) * (Int.tdiv ny 2 + 2 * ng))) + i))
        (fun i => alloc j
          (2 * (nfield * ((Int.tdiv nx 2 + 2 * ng) * (Int.tdiv ny 2 + 2 * ng))) + i))
        (fun i => alloc j
          (3 * (nfield * ((Int.tdiv nx 2 + 2 * ng) * (Int.tdiv ny 2 + 2 * ng))) + i))
        0 (Int.tdiv nx 2 + 4) (Int.tdiv ny 2 + 4) (ng - 2) nfield flux speed dt dx dy
        (by omega) (by omega) (by omega) (by omega)
      rw [h1, Option.some_bind]
      obtain ⟨r2, h2⟩ := central2d_step_some r1.v
        (central2d_periodic (fun i => alloc j i) u (Int.tdiv nx 2) (Int.tdiv ny 2)
          ng 2 2 (Int.tmod j 2) (Int.tdiv j 2) nfield)
        r1.scratch r1.f r1.g 1 (Int.tdiv nx 2) (Int.tdiv ny 2) ng nfield flux speed dt dx dy
        (by omega) (by omega) (by omega) (by omega)
      rw [h2, Option.map_some']
      exact ⟨_, rfl⟩
    rw [hpu, Option.map_some']
    refine ⟨_, rfl, ?_⟩
    intro k R i hR0 hR1 hi0 hi1 hout
    rw [hjx, hjy]
    have hpx : j % 2 = 0 ∨ j % 2 = 1 := by omega
    have hpy : j / 2 = 0 ∨ j / 2 = 1 := by omega
    have hpxs : 0 ≤ j % 2 * (nx / 2) ∧ j % 2 * (nx / 2) + nx / 2 ≤ 2 * (nx / 2) := by
      rcases hpx with h | h <;> rw [h] <;> omega
    have hpys : 0 ≤ j / 2 * (ny / 2) ∧ j / 2 * (ny / 2) + ny / 2 ≤ 2 * (ny / 2) := by
      rcases hpy with h | h <;> rw [h] <;> omega
    rw [copy_subgrid_allfield_get acc pu _ _ (nx / 2) (ny / 2) _ _ (nx + 2 * ng)
      (nx / 2 + 2 * ng) nfield (ny + 2 * ng) (ng + j % 2 * (nx / 2)) (ng + j / 2 * (ny / 2))
      (by ring) (by ring) (by omega) (by omega) (by omega) (by omega) k R i hR0 hR1 hi0 hi1]
    rw [if_neg (by omega)]
    exact hinv k R i hR0 hR1 hi0 hi1 hout
  · intro u2 hinv
    exact hinv

/-- After any number of passes of the run loop on a grid of at least 2 by 2 cells, the cells
outside the four tile interiors hold what they held at the start. -/
theorem central2d_xrun_passes_frame (alloc : Nat → Int → Buf) (nx ny ng nfield : Int)
    (flux : flux_t) (speed : speed_t) (tfinal dx dy cfl : ℚ)
    (hnx : 2 ≤ nx) (hny : 2 ≤ ny) (hng : 2 ≤ ng) (n : Nat) (st : RunState) :
    ∃ s, central2d_xrun_passes alloc nx ny ng nfield flux speed tfinal dx dy cfl n st =
        some s ∧
      ∀ k R i, 0 ≤ R → R < ny + 2 * ng → 0 ≤ i → i < nx + 2 * ng →
        (i < ng ∨ ng + 2 * (nx / 2) ≤ i ∨ R < ng ∨ ng + 2 * (ny / 2) ≤ R) →
        s.u ((k * (ny + 2 * ng) + R) * (nx + 2 * ng) + i) =
          st.u ((k * (ny + 2 * ng) + R) * (nx + 2 * ng) + i) := by
  induction n with
  | zero => exact ⟨st, rfl, fun _ _ _ _ _ _ _ _ => rfl⟩
  | succ n ih =>
    obtain ⟨s1, h1, hfr1⟩ := ih
    obtain ⟨s2, h2⟩ := central2d_xrun_body_some alloc nx ny ng nfield flux speed tfinal dx dy
      cfl s1 hnx hny hng
    obtain ⟨_, _, _, _, _, hsw⟩ := central2d_xrun_body_fields alloc nx ny ng nfield flux speed
      tfinal dx dy cfl s1 s2 h2
    obtain ⟨u2, hu2, hfr2⟩ := central2d_xrun_sweep_frame s1.u (alloc s1.iters) nx ny ng nfield
      flux speed (central2d_xrun_dt s1.u s1.t nx ny ng speed tfinal dx dy cfl).1 dx dy
      hnx hny hng
    rw [hsw, Option.some.injEq] at hu2
    refine ⟨s2, by simp only [central2d_xrun_passes, h1, Option.some_bind, h2], ?_⟩
    intro k R i a1 a2 a3 a4 a5
    rw [hu2, hfr2 k R i a1 a2 a3 a4 a5, hfr1 k R i a1 a2 a3 a4 a5]

/-- When the exit test holds at the start, the first pass of the run loop is the last: the run
returns after two sub-steps, at time `tfinal`. -/
theorem central2d_run_single_pass (alloc : Nat → Int → Buf) (sim : central2d_t) (tfinal : ℚ)
    (hnx : 2 ≤ sim.nx) (hny : 2 ≤ sim.ny) (hng : 2 ≤ sim.ng)
    (htest : tfinal ≤ 0 + 2 * central2d_xrun_cfl sim.u sim.nx sim.ny sim.ng sim.speed sim.dx
      sim.dy sim.cfl) :
    ∃ r, central2d_run 1 alloc sim tfinal = some r ∧ r.nstep = 2 ∧ r.iters = 1 ∧
      r.t = tfinal := by
  obtain ⟨r, hr⟩ := central2d_xrun_body_some alloc sim.nx sim.ny sim.ng sim.nfield sim.flux
    sim.speed tfinal sim.dx sim.dy sim.cfl (RunState.mk sim.u 0 0 false 0 []) hnx hny hng
  obtain ⟨f1, f2, f3, f4, _, _⟩ := central2d_xrun_body_fields alloc sim.nx sim.ny sim.ng
    sim.nfield sim.flux sim.speed tfinal sim.dx sim.dy sim.cfl _ r hr
  have hdt : central2d_xrun_dt sim.u 0 sim.nx sim.ny sim.ng sim.speed tfinal sim.dx sim.dy
      sim.cfl = ((tfinal - 0) / 2, true) := by
    simp only [central2d_xrun_dt]
    rw [if_pos (by
      show (0 : ℚ) + 2 * central2d_xrun_cfl sim.u sim.nx sim.ny sim.ng sim.speed sim.dx
        sim.dy sim.cfl ≥ tfinal
      exact htest)]
  have hd : r.done = true := by
    rw [f3]
    exact congrArg Prod.snd hdt
  refine ⟨r, ?_, by rw [f2]; rfl, by rw [f4], ?_⟩
  · simp only [central2d_run, central2d_xrun, central2d_xrun_loop, Bool.false_eq_true,
      if_false, hr, Option.some_bind, hd, if_true]
  · rw [f1]
    have : (central2d_xrun_dt sim.u 0 sim.nx sim.ny sim.ng sim.speed tfinal sim.dx sim.dy
        sim.cfl).1 = (tfinal - 0) / 2 := congrArg Prod.fst hdt
    show (0 : ℚ) + 2 * (central2d_xrun_dt sim.u 0 sim.nx sim.ny sim.ng sim.speed tfinal sim.dx
      sim.dy sim.cfl).1 = tfinal
    rw [this]
    ring

/-- C11, as stated, fails: on the 9 by 9 grid that `central2d_init` sets up (9 is odd, the
tiling is 2 by 2) `central2d_run` is not rejected; it returns after two sub-steps. -/
theorem central2d_run_odd_grid_counterexample :
    ∃ r, central2d_run 1 (fun _ _ _ => 0)
        (central2d_init (fun _ => 1) 9 9 9 9 3 shallow2d_flux (fun cxy _ _ _ _ => cxy) 1) 1 =
          some r ∧ r.nstep = 2 ∧ r.t = 1 := by
  obtain ⟨r, h1, h2, _, h4⟩ := central2d_run_single_pass (fun _ _ _ => 0)
    (central2d_init (fun _ => 1) 9 9 9 9 3 shallow2d_flux (fun cxy _ _ _ _ => cxy) 1) 1
    (by decide) (by decide) (by decide) (by
      simp only [central2d_xrun_cfl, central2d_init]
      norm_num)
  exact ⟨r, h1, h2, h4⟩

/-- C11, amended: a grid whose cell counts the tile counts do not divide is not rejected.  For
`nx, ny ≥ 2` with `nx` or `ny` odd, `central2d_init` returns a descriptor with these `nx` and
`ny` and `ng = 4`, and on it every pass of the loop of `central2d_run` performs its two
sub-steps (the state after `n` passes exists and has `nstep = 2*n`), with tiles of `nx/2` by
`ny/2` cells, rounded down; the run returns as soon as a pass sets `done`.  For odd `nx` the
last interior column `nx-1`, and for odd `ny` the last interior row `ny-1`, belongs to no tile
and keeps its initial values. -/
theorem central2d_run_odd_grid_not_rejected (block : Buf) (alloc : Nat → Int → Buf) (w h : ℚ)
    (nx ny nfield : Int) (flux : flux_t) (speed : speed_t) (cfl tfinal : ℚ)
    (hodd : nx % 2 = 1 ∨ ny % 2 = 1) (hnx : 2 ≤ nx) (hny : 2 ≤ ny) :
    ∃ sim, central2d_init block w h nx ny nfield flux speed cfl = sim ∧
      sim.nx = nx ∧ sim.ny = ny ∧ sim.ng = 4 ∧
      (2 * Int.tdiv nx 2 < nx ∨ 2 * Int.tdiv ny 2 < ny) ∧
      (∀ n : Nat, ∃ s, central2d_run_passes n alloc sim tfinal = some s ∧
        s.nstep = 2 * (n : Int) ∧
        (nx % 2 = 1 → ∀ k iy, -4 ≤ iy → iy < ny + 4 →
          s.u (central2d_offset sim k (nx - 1) iy) =
            sim.u (central2d_offset sim k (nx - 1) iy)) ∧
        (ny % 2 = 1 → ∀ k ix, -4 ≤ ix → ix < nx + 4 →
          s.u (central2d_offset sim k ix (ny - 1)) =
            sim.u (central2d_offset sim k ix (ny - 1)))) ∧
      (∀ (n : Nat) (r : RunState), central2d_run_passes n alloc sim tfinal = some r →
        r.done = true →
        (∀ m s, m < n → central2d_run_passes m alloc sim tfinal = some s → s.done = false) →
        ∀ fuel, n ≤ fuel → central2d_run fuel alloc sim tfinal = some r) := by
  refine ⟨_, rfl, rfl, rfl, rfl, ?_, ?_, ?_⟩
  · rw [Int.tdiv_eq_ediv (by omega) (by omega), Int.tdiv_eq_ediv (by omega) (by omega)]
    omega
  · intro n
    obtain ⟨s, hs, hfr⟩ := central2d_xrun_passes_frame alloc nx ny 4 nfield flux speed tfinal
      (w / (nx : ℚ)) (h / (ny : ℚ)) cfl hnx hny (by omega) n
      (RunState.mk (fun i => block i) 0 0 false 0 [])
    obtain ⟨⟨_, i2, _⟩, i4⟩ := central2d_xrun_passes_inv alloc nx ny 4 nfield flux speed tfinal
      (w / (nx : ℚ)) (h / (ny : ℚ)) cfl n _ s hs ⟨by simp, by simp, by simp⟩
    refine ⟨s, hs, ?_, ?_, ?_⟩
    · rw [i2, i4]
      simp
    · intro hx k iy hy0 hy1
      exact hfr k (4 + iy) (4 + (nx - 1)) (by omega) (by omega) (by omega) (by omega)
        (Or.inr (Or.inl (by omega)))
    · intro hy k ix hx0 hx1
      exact hfr k (4 + (ny - 1)) (4 + ix) (by omega) (by omega) (by omega) (by omega)
        (Or.inr (Or.inr (Or.inr (by omega))))
  · intro n r hp hd hbefore fuel hf
    exact central2d_xrun_loop_of_passes alloc nx ny 4 nfield flux speed tfinal
      (w / (nx : ℚ)) (h / (ny : ℚ)) cfl n _ r fuel hf hp hd hbefore

/-- C11 (amended) on a 9 by 9 grid: three passes of the run loop give six sub-steps. -/
theorem central2d_run_odd_grid_not_rejected_witness :
    (((9 : Int) % 2 = 1 ∨ (9 : Int) % 2 = 1) ∧ (2 : Int) ≤ 9) ∧
      ∃ s, central2d_run_passes 3 (fun _ _ _ => 0)
          (central2d_init (fun _ => 1) 9 9 9 9 3 shallow2d_flux (fun cxy _ _ _ _ => cxy) 1)
          1 = some s ∧ s.nstep = 6 := by
  refine ⟨⟨Or.inl (by decide), by decide⟩, ?_⟩
  obtain ⟨sim, hsim, _, _, _, _, hpass, _⟩ := central2d_run_odd_grid_not_rejected (fun _ => 1)
    (fun _ _ _ => 0) 9 9 9 9 3 shallow2d_flux (fun cxy _ _ _ _ => cxy) 1 1
    (Or.inl (by decide)) (by decide) (by decide)
  obtain ⟨s, hs, hn, _⟩ := hpass 3
  rw [← hsim] at hs
  exact ⟨s, hs, by rw [hn]; norm_num⟩

/-! ## The predictor and the window of the corrector -/

/-- The predictor `central2d_predict` writes `v` only at the cells `1 ≤ x < nx-1`,
`1 ≤ y < ny-1` of the fields `0 ≤ k < nfield`. -/
theorem central2d_predict_frame (v scratch u f g : Buf) (cx cy : ℚ) (nx ny nfield : Int)
    (hnx : 0 < nx) :
    ∃ r, central2d_predict v scratch u f g cx cy nx ny nfield = some r ∧
      ∀ p, (∀ k x y, 0 ≤ k → k < nfield → 1 ≤ x → x < nx - 1 → 1 ≤ y → y < ny - 1 →
        p ≠ (k * ny + y) * nx + x) → r.1 p = v p := by
  unfold central2d_predict
  refine forRangeM_post _ _ _
    (fun _ (st : Buf × Buf) =>
      ∀ p, (∀ k x y, 0 ≤ k → k < nfield → 1 ≤ x → x < nx - 1 → 1 ≤ y → y < ny - 1 →
        p ≠ (k * ny + y) * nx + x) → st.1 p = v p) _ _ ?_ ?_ ?_
  · intro p _
    rfl
  · intro k st hk0 hk1 hinv
    beta_reduce
    refine forRangeM_post _ _ _
      (fun _ (st : Buf × Buf) =>
        ∀ p, (∀ k x y, 0 ≤ k → k < nfield → 1 ≤ x → x < nx - 1 → 1 ≤ y → y < ny - 1 →
          p ≠ (k * ny + y) * nx + x) → st.1 p = v p) _ _ ?_ ?_ ?_
    · exact hinv
    · intro iy st2 hy0 hy1 hinv2
      beta_reduce
      simp only [limited_deriv1_eq, limited_derivk_eq _ _ _ _ _ _ hnx, Option.some_bind]
      refine ⟨_, rfl, ?_⟩
      intro p hp
      dsimp only
      rw [forRange_store 1 (nx - 1) _ ((k * ny + iy) * nx) _ st2.1 (fun _ => rfl) p]
      have hne : ¬ (1 ≤ p - (k * ny + iy) * nx ∧ p - (k * ny + iy) * nx < nx - 1) := by
        intro hc
        exact hp k (p - (k * ny + iy) * nx) iy hk0 hk1 hc.1 hc.2 hy0 hy1 (by ring)
      rw [if_neg hne]
      exact hinv2 p hp
    · intro r hinv2
      exact hinv2
  · intro r hinv
    exact hinv

/-- C15: for a padded buffer of `nx` by `ny` cells per field, `central2d_predict` returns and
sets, for every field `k` and every cell `1 ≤ ix < nx-1`, `1 ≤ iy < ny-1`,
`v(k,ix,iy) = u(k,ix,iy) - dtcdx2*limdiff(f(k,ix-1,iy), f(k,ix,iy), f(k,ix+1,iy))
- dtcdy2*limdiff(g(k,ix,iy-1), g(k,ix,iy), g(k,ix,iy+1))`; the cells of `v` on the outermost
ring, and every other offset of `v`, are left unchanged; and `central2d_step` calls it with
`dtcdx2 = dt/(2dx)` and `dtcdy2 = dt/(2dy)` on the fluxes of `u`. -/
theorem central2d_predict_interior (v scratch u f g : Buf) (dtcdx2 dtcdy2 : ℚ)
    (nx ny nfield : Int) (hnx : 0 < nx) :
    (∃ r, central2d_predict v scratch u f g dtcdx2 dtcdy2 nx ny nfield = some r ∧
      (∀ k ix iy, 0 ≤ k → k < nfield → 1 ≤ ix → ix < nx - 1 → 1 ≤ iy → iy < ny - 1 →
        r.1 ((k * ny + iy) * nx + ix) =
          u ((k * ny + iy) * nx + ix) -
            dtcdx2 * limdiff (f ((k * ny + iy) * nx + (ix - 1))) (f ((k * ny + iy) * nx + ix))
              (f ((k * ny + iy) * nx + (ix + 1))) -
            dtcdy2 * limdiff (g ((k * ny + (iy - 1)) * nx + ix)) (g ((k * ny + iy) * nx + ix))
              (g ((k * ny + (iy + 1)) * nx + ix))) ∧
      (∀ k ix iy, 0 ≤ k → k < nfield → 0 ≤ ix → ix < nx → 0 ≤ iy → iy < ny →
        (ix = 0 ∨ ix = nx - 1 ∨ iy = 0 ∨ iy = ny - 1) →
        r.1 ((k * ny + iy) * nx + ix) = v ((k * ny + iy) * nx + ix)) ∧
      (∀ p, (∀ k x y, 0 ≤ k → k < nfield → 1 ≤ x → x < nx - 1 → 1 ≤ y → y < ny - 1 →
        p ≠ (k * ny + y) * nx + x) → r.1 p = v p)) ∧
    (∀ (io nx0 ny0 ng : Int) (flux : flux_t) (speed : speed_t) (dt dx dy : ℚ),
      central2d_step u v scratch f g io nx0 ny0 ng nfield flux speed dt dx dy =
        (central2d_predict v scratch u
          (flux f 0 g 0 u 0 ((nx0 + 2 * ng) * (ny0 + 2 * ng))
            ((nx0 + 2 * ng) * (ny0 + 2 * ng))).1
          (flux f 0 g 0 u 0 ((nx0 + 2 * ng) * (ny0 + 2 * ng))
            ((nx0 + 2 * ng) * (ny0 + 2 * ng))).2
          (dt / (2 * dx)) (dt / (2 * dy)) (nx0 + 2 * ng) (ny0 + 2 * ng) nfield).bind
          (fun vs =>
            (central2d_correct vs.1 (io * (nx0 + 2 * ng + 1)) vs.2 u
              (forRange 1 (ny0 + 2 * ng - 1) (fun iy fg =>
                flux fg.1 (iy * (nx0 + 2 * ng) + 1) fg.2 (iy * (nx0 + 2 * ng) + 1) vs.1
                  (iy * (nx0 + 2 * ng) + 1) (nx0 + 2 * ng - 2)
                  ((nx0 + 2 * ng) * (ny0 + 2 * ng)))
                (flux f 0 g 0 u 0 ((nx0 + 2 * ng) * (ny0 + 2 * ng))
                  ((nx0 + 2 * ng) * (ny0 + 2 * ng)))).1
              (forRange 1 (ny0 + 2 * ng - 1) (fun iy fg =>
                flux fg.1 (iy * (nx0 + 2 * ng) + 1) fg.2 (iy * (nx0 + 2 * ng) + 1) vs.1
                  (iy * (nx0 + 2 * ng) + 1) (nx0 + 2 * ng - 2)
                  ((nx0 + 2 * ng) * (ny0 + 2 * ng)))
                (flux f 0 g 0 u 0 ((nx0 + 2 * ng) * (ny0 + 2 * ng))
                  ((nx0 + 2 * ng) * (ny0 + 2 * ng)))).2
              (dt / (2 * dx)) (dt / (2 * dy)) (ng - io) (nx0 + ng - io) (ng - io)
              (ny0 + ng - io) (nx0 + 2 * ng) (ny0 + 2 * ng) nfield).map
              (fun r => StepResult.mk r.1 r.2
                (forRange 1 (ny0 + 2 * ng - 1) (fun iy fg =>
                  flux fg.1 (iy * (nx0 + 2 * ng) + 1) fg.2 (iy * (nx0 + 2 * ng) + 1) vs.1
                    (iy * (nx0 + 2 * ng) + 1) (nx0 + 2 * ng - 2)
                    ((nx0 + 2 * ng) * (ny0 + 2 * ng)))
                  (flux f 0 g 0 u 0 ((nx0 + 2 * ng) * (ny0 + 2 * ng))
                    ((nx0 + 2 * ng) * (ny0 + 2 * ng)))).1
                (forRange 1 (ny0 + 2 * ng - 1) (fun iy fg =>
                  flux fg.1 (iy * (nx0 + 2 * ng) + 1) fg.2 (iy * (nx0 + 2 * ng) + 1) vs.1
                    (iy * (nx0 + 2 * ng) + 1) (nx0 + 2 * ng - 2)
                    ((nx0 + 2 * ng) * (ny0 + 2 * ng)))
                  (flux f 0 g 0 u 0 ((nx0 + 2 * ng) * (ny0 + 2 * ng))
                    ((nx0 + 2 * ng) * (ny0 + 2 * ng)))).2))) := by
  constructor
  · obtain ⟨r, hr, hval⟩ := central2d_predict_spec v scratch u f g dtcdx2 dtcdy2 nx ny nfield
      hnx
    obtain ⟨r2, hr2, hfr⟩ := central2d_predict_frame v scratch u f g dtcdx2 dtcdy2 nx ny
      nfield hnx
    rw [hr, Option.some.injEq] at hr2
    subst hr2
    refine ⟨r, hr, ?_, ?_, hfr⟩
    · intro k ix iy hk0 hk1 hx0 hx1 hy0 hy1
      rw [hval k ix iy hk0 hk1 hx0 hx1 hy0 hy1]
      rfl
    · intro k ix iy hk0 hk1 hx0 hx1 hy0 hy1 hring
      apply hfr
      intro k2 x y _ _ a1 a2 a3 a4 heq
      obtain ⟨e1, e2⟩ := flat_index_inj nx _ _ _ _ hx0 hx1 (by omega) (by omega) heq
      obtain ⟨_, e4⟩ := flat_index_inj ny _ _ _ _ hy0 hy1 (by omega) (by omega) e1
      omega
  · intro io nx0 ny0 ng flux speed dt dx dy
    have e1 : 1 / 2 * dt / dx = dt / (2 * dx) := by ring
    have e2 : 1 / 2 * dt / dy = dt / (2 * dy) := by ring
    simp only [central2d_step, e1, e2]

/-- C15 on a 6 by 6 buffer of stripes: the predictor returns, and the ring cell `(0, 3)` of
`v` keeps its value. -/
theorem central2d_predict_interior_witness :
    (0 : Int) < 6 ∧
      ∃ r, central2d_predict (fun _ => 7) (fun _ => 0) sample_stripes sample_stripes
          sample_stripes (1 / 2) (1 / 3) 6 6 1 = some r ∧
        r.1 ((0 * 6 + 3) * 6 + 0) = 7 := by
  obtain ⟨r, hr, _, hring, _⟩ := (central2d_predict_interior (fun _ => 7) (fun _ => 0)
    sample_stripes sample_stripes sample_stripes (1 / 2) (1 / 3) 6 6 1 (by decide)).1
  exact ⟨by decide, r, hr, hring 0 0 3 (by decide) (by decide) (by decide) (by decide)
    (by decide) (by decide) (Or.inl rfl)⟩

/-! ## The rolling corrector -/

/-- The field loop of `central2d_correct`, started with the row pointers in either of their
two arrangements and with any scratch content: it returns, the window of `v` holds the direct
staggered formula, and `v` is unchanged elsewhere. -/
theorem central2d_correct_loop_spec (v : Buf) (v0 : Int) (sc u f g : Buf) (cx cy : ℚ)
    (xlo xhi ylo yhi nx ny nfield : Int) (s0 d0 s1 d1 : Int)
    (hx : 1 ≤ xlo ∧ xlo < xhi ∧ xhi ≤ nx - 2) (hy : 0 ≤ ylo ∧ ylo < yhi ∧ yhi ≤ ny)
    (hptr0 : (s0 = 2 * nx ∧ d0 = 3 * nx ∧ s1 = 4 * nx ∧ d1 = 5 * nx) ∨
      (s0 = 4 * nx ∧ d0 = 5 * nx ∧ s1 = 2 * nx ∧ d1 = 3 * nx)) :
    ∃ st, forRangeM 0 nfield
        (central2d_correct_field v0 u f g cx cy xlo xhi ylo yhi nx ny)
        (CorrectState.mk v sc s0 d0 s1 d1) = some st ∧
      (∀ k x y, 0 ≤ k → k < nfield → xlo ≤ x → x < xhi → ylo ≤ y → y < yhi →
        st.v (v0 + ((k * ny + y) * nx + x)) =
          correct_at cx cy (view u nx ny) (view f nx ny) (view g nx ny) k x y) ∧
      (∀ p, (∀ k x y, 0 ≤ k → k < nfield → xlo ≤ x → x < xhi → ylo ≤ y → y < yhi →
        p ≠ v0 + ((k * ny + y) * nx + x)) → st.v p = v p) := by
  have hnx : 0 < nx := by omega
  refine forRangeM_post _ _ _
    (fun m (st : CorrectState) =>
      ((st.s0 = 2 * nx ∧ st.d0 = 3 * nx ∧ st.s1 = 4 * nx ∧ st.d1 = 5 * nx) ∨
        (st.s0 = 4 * nx ∧ st.d0 = 5 * nx ∧ st.s1 = 2 * nx ∧ st.d1 = 3 * nx)) ∧
      (∀ k x y, 0 ≤ k → k < m → xlo ≤ x → x < xhi → ylo ≤ y → y < yhi →
        st.v (v0 + ((k * ny + y) * nx + x)) =
          correct_at cx cy (view u nx ny) (view f nx ny) (view g nx ny) k x y) ∧
      (∀ p, (∀ k x y, 0 ≤ k → k < nfield → xlo ≤ x → x < xhi → ylo ≤ y → y < yhi →
        p ≠ v0 + ((k * ny + y) * nx + x)) → st.v p = v p)) _ _ ?_ ?_ ?_
  · exact ⟨hptr0, by intro k x y h1 h2; omega, fun _ _ => rfl⟩
  · intro k st hk0 hk1 hinv
    obtain ⟨hptr, hdone, hframe⟩ := hinv
    simp only [central2d_correct_field]
    obtain ⟨sc2, hsc2, hs, hd, hfr⟩ := correct_row_phase st.scratch u f g cx cy nx ny k ylo
      st.s1 st.d1 xlo xhi (k * ny * nx + ylo * nx) (by ring) hnx hx.1 hx.2.2
      (by omega) (by omega) (by omega)
    rw [hsc2, Option.some_bind]
    refine forRangeM_post _ _ _
      (fun m (st2 : CorrectState) =>
        ((st2.s0 = 2 * nx ∧ st2.d0 = 3 * nx ∧ st2.s1 = 4 * nx ∧ st2.d1 = 5 * nx) ∨
          (st2.s0 = 4 * nx ∧ st2.d0 = 5 * nx ∧ st2.s1 = 2 * nx ∧ st2.d1 = 3 * nx)) ∧
        (∀ k2 x y, 0 ≤ k2 → k2 < k → xlo ≤ x → x < xhi → ylo ≤ y → y < yhi →
          st2.v (v0 + ((k2 * ny + y) * nx + x)) =
            correct_at cx cy (view u nx ny) (view f nx ny) (view g nx ny) k2 x y) ∧
        (∀ x y, xlo ≤ x → x < xhi → ylo ≤ y → y < m → y < yhi →
          st2.v (v0 + ((k * ny + y) * nx + x)) =
            correct_at cx cy (view u nx ny) (view f nx ny) (view g nx ny) k x y) ∧
        (∀ ix, xlo ≤ ix → ix < xhi →
          st2.scratch (st2.s1 + ix) = correct_s cx (view u nx ny) (view f nx ny) k ix m ∧
          st2.scratch (st2.d1 + ix) = correct_d cy (view u nx ny) (view g nx ny) k ix m) ∧
        (∀ p, (∀ k x y, 0 ≤ k → k < nfield → xlo ≤ x → x < xhi → ylo ≤ y → y < yhi →
          p ≠ v0 + ((k * ny + y) * nx + x)) → st2.v p = v p))
      _ _ ?_ ?_ ?_
    · refine ⟨hptr, hdone, by intro x y h1 h2 h3 h4; omega, ?_, hframe⟩
      intro ix hx0 hx1
      exact ⟨hs ix hx0 hx1, hd ix hx0 hx1⟩
    · intro iy st2 hy0 hy1 hinv2
      obtain ⟨hptr2, hprev, hrows, hcur, hframe2⟩ := hinv2
      simp only [central2d_correct_row]
      obtain ⟨sc3, hsc3, hs3, hd3, hfr3⟩ := correct_row_phase st2.scratch u f g cx cy nx ny k
        (iy + 1) st2.s0 st2.d0 xlo xhi (k * ny * nx + (iy + 1) * nx) (by ring) hnx hx.1
        hx.2.2 (by omega) (by omega) (by omega)
      rw [hsc3, Option.some_bind]
      refine ⟨_, rfl, ?_, ?_, ?_, ?_, ?_⟩
      · rcases hptr2 with ⟨a1, a2, a3, a4⟩ | ⟨a1, a2, a3, a4⟩
        · exact Or.inr ⟨a3, a4, a1, a2⟩
        · exact Or.inl ⟨a3, a4, a1, a2⟩
      · intro k2 x y hk20 hk21 hx0 hx1 hy0' hy1'
        dsimp only
        rw [forRange_store_row st2.v xlo xhi nx (k * ny + iy) v0 _ _ (fun _ => by ring)
          (by omega) (by omega) _ (k2 * ny + y) x rfl (by omega) (by omega)]
        have hne : ¬ (k2 * ny + y = k * ny + iy ∧ xlo ≤ x ∧ x < xhi) := by
          intro h
          have := (flat_index_inj ny k2 k y iy (by omega) (by omega) (by omega) (by omega)
            h.1).1
          omega
        rw [if_neg hne]
        exact hprev k2 x y hk20 hk21 hx0 hx1 hy0' hy1'
      · intro x y hx0 hx1 hy0' hy1' hy2'
        dsimp only
        rw [forRange_store_row st2.v xlo xhi nx (k * ny + iy) v0 _ _ (fun _ => by ring)
          (by omega) (by omega) _ (k * ny + y) x rfl (by omega) (by omega)]
        by_cases hyy : y = iy
        · subst hyy
          rw [if_pos ⟨rfl, hx0, hx1⟩, hs3 x hx0 hx1, hd3 x hx0 hx1,
            hfr3 (st2.s1 + x) (by omega) (by omega) (by omega),
            hfr3 (st2.d1 + x) (by omega) (by omega) (by omega),
            (hcur x hx0 hx1).1, (hcur x hx0 hx1).2]
          rfl
        · have hne : ¬ (k * ny + y = k * ny + iy ∧ xlo ≤ x ∧ x < xhi) := by
            intro h; omega
          rw [if_neg hne]
          exact hrows x y hx0 hx1 hy0' (by omega) hy2'
      · intro ix hx0 hx1
        exact ⟨hs3 ix hx0 hx1, hd3 ix hx0 hx1⟩
      · intro p hp
        dsimp only
        rw [forRange_store xlo xhi _ (v0 + k * ny * nx + iy * nx) _ st2.v
          (fun _ => by ring) p]
        have hne : ¬ (xlo ≤ p - (v0 + k * ny * nx + iy * nx) ∧
            p - (v0 + k * ny * nx + iy * nx) < xhi) := by
          intro hc
          exact hp k (p - (v0 + k * ny * nx + iy * nx)) iy hk0 hk1 hc.1 hc.2 hy0 hy1
            (by ring)
        rw [if_neg hne]
        exact hframe2 p hp
    · intro st2 hinv2
      obtain ⟨hptr2, hprev, hrows, _, hframe2⟩ := hinv2
      refine ⟨hptr2, ?_, hframe2⟩
      intro k2 x y hk20 hk21 hx0 hx1 hy0 hy1
      by_cases hk : k2 = k
      · subst hk
        exact hrows x y hx0 hx1 hy0 (by omega) hy1
      · exact hprev k2 x y hk20 (by omega) hx0 hx1 hy0 hy1
  · intro st hinv
    refine ⟨?_, hinv.2.2⟩
    intro k x y hk0 hk1 hx0 hx1 hy0 hy1
    exact hinv.2.1 k x y hk0 (by omega) hx0 hx1 hy0 hy1

/-- The corrector `central2d_correct` returns, its window holds the direct staggered formula,
and it writes `v` nowhere else. -/
theorem central2d_correct_frame (v : Buf) (v0 : Int) (sc u f g : Buf) (cx cy : ℚ)
    (xlo xhi ylo yhi nx ny nfield : Int)
    (hx : 1 ≤ xlo ∧ xlo < xhi ∧ xhi ≤ nx - 2) (hy : 0 ≤ ylo ∧ ylo < yhi ∧ yhi ≤ ny) :
    ∃ r, central2d_correct v v0 sc u f g cx cy xlo xhi ylo yhi nx ny nfield = some r ∧
      (∀ k x y, 0 ≤ k → k < nfield → xlo ≤ x → x < xhi → ylo ≤ y → y < yhi →
        r.1 (v0 + ((k * ny + y) * nx + x)) =
          correct_at cx cy (view u nx ny) (view f nx ny) (view g nx ny) k x y) ∧
      (∀ p, (∀ k x y, 0 ≤ k → k < nfield → xlo ≤ x → x < xhi → ylo ≤ y → y < yhi →
        p ≠ v0 + ((k * ny + y) * nx + x)) → r.1 p = v p) := by
  obtain ⟨st, hst, hval, hfr⟩ := central2d_correct_loop_spec v v0 sc u f g cx cy xlo xhi ylo
    yhi nx ny nfield (2 * nx) (3 * nx) (4 * nx) (5 * nx) hx hy
    (Or.inl ⟨rfl, rfl, rfl, rfl⟩)
  unfold central2d_correct
  rw [if_pos ⟨by omega, hx.2.1, by omega⟩, if_pos hy, hst]
  exact ⟨_, rfl, hval, hfr⟩

/-- C16: for `1 ≤ xlo < xhi ≤ nx-2` and `1 ≤ ylo < yhi ≤ ny-2`, `central2d_correct` returns
and writes, for every field and every `(ix, iy)` of the window, the direct staggered formula
`v(ix,iy) = (s(ix,iy+1) + s(ix,iy)) - (d(ix,iy+1) - d(ix,iy))` with
`s(ix,r) = 0.25*(u(ix,r)+u(ix+1,r)) + 0.0625*(ux(ix,r)-ux(ix+1,r)) + dtcdx2*(f(ix,r)-f(ix+1,r))`
and `d(ix,r) = 0.0625*(uy(ix,r)+uy(ix+1,r)) + dtcdy2*(g(ix,r)+g(ix+1,r))`, `ux` and `uy` the
limited x- and y-derivatives of `u`; the values do not depend on the initial scratch content
(`sc2`), nor on which of the two row buffers the field loop starts with as previous row. -/
theorem central2d_correct_rolling_equals_direct (v : Buf) (v0 : Int) (sc u f g : Buf)
    (dtcdx2 dtcdy2 : ℚ) (xlo xhi ylo yhi nx ny nfield : Int)
    (hx : 1 ≤ xlo ∧ xlo < xhi ∧ xhi ≤ nx - 2) (hy : 1 ≤ ylo ∧ ylo < yhi ∧ yhi ≤ ny - 2) :
    ∃ (r : Buf × Buf) (ux uy s d : Grid),
      central2d_correct v v0 sc u f g dtcdx2 dtcdy2 xlo xhi ylo yhi nx ny nfield = some r ∧
      (∀ k ix iy, ux k ix iy = limdiff (u ((k * ny + iy) * nx + (ix - 1)))
        (u ((k * ny + iy) * nx + ix)) (u ((k * ny + iy) * nx + (ix + 1)))) ∧
      (∀ k ix iy, uy k ix iy = limdiff (u ((k * ny + (iy - 1)) * nx + ix))
        (u ((k * ny + iy) * nx + ix)) (u ((k * ny + (iy + 1)) * nx + ix))) ∧
      (∀ k ix iy, s k ix iy =
        1 / 4 * (u ((k * ny + iy) * nx + ix) + u ((k * ny + iy) * nx + (ix + 1))) +
        1 / 16 * (ux k ix iy - ux k (ix + 1) iy) +
        dtcdx2 * (f ((k * ny + iy) * nx + ix) - f ((k * ny + iy) * nx + (ix + 1)))) ∧
      (∀ k ix iy, d k ix iy =
        1 / 16 * (uy k ix iy + uy k (ix + 1) iy) +
        dtcdy2 * (g ((k * ny + iy) * nx + ix) + g ((k * ny + iy) * nx + (ix + 1)))) ∧
      (∀ k ix iy, 0 ≤ k → k < nfield → xlo ≤ ix → ix < xhi → ylo ≤ iy → iy < yhi →
        r.1 (v0 + ((k * ny + iy) * nx + ix)) =
          (s k ix (iy + 1) + s k ix iy) - (d k ix (iy + 1) - d k ix iy)) ∧
      (∀ sc2 : Buf, ∃ r2,
        central2d_correct v v0 sc2 u f g dtcdx2 dtcdy2 xlo xhi ylo yhi nx ny nfield =
          some r2 ∧
        ∀ k ix iy, 0 ≤ k → k < nfield → xlo ≤ ix → ix < xhi → ylo ≤ iy → iy < yhi →
          r2.1 (v0 + ((k * ny + iy) * nx + ix)) = r.1 (v0 + ((k * ny + iy) * nx + ix))) ∧
      (∀ sc2 : Buf, ∃ st,
        forRangeM 0 nfield
          (central2d_correct_field v0 u f g dtcdx2 dtcdy2 xlo xhi ylo yhi nx ny)
          (CorrectState.mk v sc2 (4 * nx) (5 * nx) (2 * nx) (3 * nx)) = some st ∧
        ∀ k ix iy, 0 ≤ k → k < nfield → xlo ≤ ix → ix < xhi → ylo ≤ iy → iy < yhi →
          st.v (v0 + ((k * ny + iy) * nx + ix)) = r.1 (v0 + ((k * ny + iy) * nx + ix))) := by
  have hy2 : 0 ≤ ylo ∧ ylo < yhi ∧ yhi ≤ ny := ⟨by omega, hy.2.1, by omega⟩
  obtain ⟨r, hr, hval, _⟩ := central2d_correct_frame v v0 sc u f g dtcdx2 dtcdy2 xlo xhi ylo
    yhi nx ny nfield hx hy2
  refine ⟨r,
    (fun k ix iy => limdiff (view u nx ny k (ix - 1) iy) (view u nx ny k ix iy)
      (view u nx ny k (ix + 1) iy)),
    (fun k ix iy => limdiff (view u nx ny k ix (iy - 1)) (view u nx ny k ix iy)
      (view u nx ny k ix (iy + 1))),
    correct_s dtcdx2 (view u nx ny) (view f nx ny), correct_d dtcdy2 (view u nx ny) (view g nx ny),
    hr, fun _ _ _ => rfl, fun _ _ _ => rfl, ?_, ?_, ?_, ?_, ?_⟩
  · intro k ix iy
    simp only [correct_s, view]
    ring_nf
  · intro k ix iy
    simp only [correct_d, view]
  · intro k ix iy hk0 hk1 hx0 hx1 hy0 hy1
    rw [hval k ix iy hk0 hk1 hx0 hx1 hy0 hy1]
    rfl
  · intro sc2
    obtain ⟨r2, hr2, hval2, _⟩ := central2d_correct_frame v v0 sc2 u f g dtcdx2 dtcdy2 xlo xhi
      ylo yhi nx ny nfield hx hy2
    refine ⟨r2, hr2, ?_⟩
    intro k ix iy hk0 hk1 hx0 hx1 hy0 hy1
    rw [hval k ix iy hk0 hk1 hx0 hx1 hy0 hy1, hval2 k ix iy hk0 hk1 hx0 hx1 hy0 hy1]
  · intro sc2
    obtain ⟨st, hst, hval2, _⟩ := central2d_correct_loop_spec v v0 sc2 u f g dtcdx2 dtcdy2 xlo
      xhi ylo yhi nx ny nfield (4 * nx) (5 * nx) (2 * nx) (3 * nx) hx hy2
      (Or.inr ⟨rfl, rfl, rfl, rfl⟩)
    refine ⟨st, hst, ?_⟩
    intro k ix iy hk0 hk1 hx0 hx1 hy0 hy1
    rw [hval k ix iy hk0 hk1 hx0 hx1 hy0 hy1, hval2 k ix iy hk0 hk1 hx0 hx1 hy0 hy1]

/-- C16 on a 6 by 6 buffer of stripes with the window `[1, 3) x [1, 3)`: the corrector returns
and the value at `(1, 1)` is the same from any scratch content. -/
theorem central2d_correct_rolling_equals_direct_witness :
    ((1 : Int) ≤ 1 ∧ (1 : Int) < 3 ∧ (3 : Int) ≤ 6 - 2) ∧
      ∃ r, central2d_correct (fun _ => 0) 0 (fun _ => 0) sample_stripes sample_stripes
          sample_stripes (1 / 2) (1 / 3) 1 3 1 3 6 6 1 = some r ∧
        ∀ sc2 : Buf, ∃ r2, central2d_correct (fun _ => 0) 0 sc2 sample_stripes sample_stripes
            sample_stripes (1 / 2) (1 / 3) 1 3 1 3 6 6 1 = some r2 ∧
          r2.1 (0 + ((0 * 6 + 1) * 6 + 1)) = r.1 (0 + ((0 * 6 + 1) * 6 + 1)) := by
  obtain ⟨r, _, _, _, _, hr, _, _, _, _, _, hsc, _⟩ :=
    central2d_correct_rolling_equals_direct (fun _ => 0) 0 (fun _ => 0) sample_stripes
      sample_stripes sample_stripes (1 / 2) (1 / 3) 1 3 1 3 6 6 1
      ⟨by decide, by decide, by decide⟩ ⟨by decide, by decide, by decide⟩
  refine ⟨⟨by decide, by decide, by decide⟩, r, hr, ?_⟩
  intro sc2
  obtain ⟨r2, hr2, h2⟩ := hsc sc2
  exact ⟨r2, hr2, h2 0 1 1 (by decide) (by decide) (by decide) (by decide) (by decide)
    (by decide)⟩

/-! ## The parity shift of a sub-step -/

/-- C17: for `io` in `{0, 1}` and `ng ≥ 2` (and `nx, ny ≥ 1`), `central2d_step` returns; its
corrector runs over the staggered indices `[ng-io, nx+ng-io) x [ng-io, ny+ng-io)` and the value
computed at staggered index `(ix, iy)`, the direct staggered formula on `u` and the half-step
fluxes, is stored in padded cell `(ix+io, iy+io)` of the output buffer; so for either parity
the corrected values occupy exactly the padded cells `[ng, nx+ng) x [ng, ny+ng)` of every
field, and every other offset of the output buffer holds what the predictor `pr` left. -/
theorem central2d_step_parity_window (u v sc f g : Buf) (io nx ny ng nfield : Int)
    (flux : flux_t) (speed : speed_t) (dt dx dy : ℚ) (hio : io = 0 ∨ io = 1) (hng : 2 ≤ ng)
    (hnx : 1 ≤ nx) (hny : 1 ≤ ny) :
    ∃ pr r,
      central2d_predict v sc u
        (flux f 0 g 0 u 0 ((nx + 2 * ng) * (ny + 2 * ng)) ((nx + 2 * ng) * (ny + 2 * ng))).1
        (flux f 0 g 0 u 0 ((nx + 2 * ng) * (ny + 2 * ng)) ((nx + 2 * ng) * (ny + 2 * ng))).2
        (1 / 2 * dt / dx) (1 / 2 * dt / dy) (nx + 2 * ng) (ny + 2 * ng) nfield = some pr ∧
      central2d_step u v sc f g io nx ny ng nfield flux speed dt dx dy = some r ∧
      (∀ k ix iy, 0 ≤ k → k < nfield → ng - io ≤ ix → ix < nx + ng - io → ng - io ≤ iy →
        iy < ny + ng - io →
        (ng ≤ ix + io ∧ ix + io < nx + ng ∧ ng ≤ iy + io ∧ iy + io < ny + ng) ∧
        r.v ((k * (ny + 2 * ng) + (iy + io)) * (nx + 2 * ng) + (ix + io)) =
          correct_at (1 / 2 * dt / dx) (1 / 2 * dt / dy) (view u (nx + 2 * ng) (ny + 2 * ng))
            (view r.f (nx + 2 * ng) (ny + 2 * ng)) (view r.g (nx + 2 * ng) (ny + 2 * ng))
            k ix iy) ∧
      (∀ k X Y, 0 ≤ k → k < nfield → ng ≤ X → X < nx + ng → ng ≤ Y → Y < ny + ng →
        ng - io ≤ X - io ∧ X - io < nx + ng - io ∧ ng - io ≤ Y - io ∧ Y - io < ny + ng - io ∧
        r.v ((k * (ny + 2 * ng) + Y) * (nx + 2 * ng) + X) =
          correct_at (1 / 2 * dt / dx) (1 / 2 * dt / dy) (view u (nx + 2 * ng) (ny + 2 * ng))
            (view r.f (nx + 2 * ng) (ny + 2 * ng)) (view r.g (nx + 2 * ng) (ny + 2 * ng))
            k (X - io) (Y - io)) ∧
      (∀ p, (∀ k X Y, 0 ≤ k → k < nfield → ng ≤ X → X < nx + ng → ng ≤ Y → Y < ny + ng →
        p ≠ (k * (ny + 2 * ng) + Y) * (nx + 2 * ng) + X) → r.v p = pr.1 p) := by
  obtain ⟨vs, hvs, _⟩ := central2d_predict_spec v sc u
    (flux f 0 g 0 u 0 ((nx + 2 * ng) * (ny + 2 * ng)) ((nx + 2 * ng) * (ny + 2 * ng))).1
    (flux f 0 g 0 u 0 ((nx + 2 * ng) * (ny + 2 * ng)) ((nx + 2 * ng) * (ny + 2 * ng))).2
    (1 / 2 * dt / dx) (1 / 2 * dt / dy) (nx + 2 * ng) (ny + 2 * ng) nfield (by omega)
  obtain ⟨r, hr, hval, hfr⟩ := central2d_correct_frame vs.1 (io * (nx + 2 * ng + 1)) vs.2 u
    (forRange 1 (ny + 2 * ng - 1) (fun iy fg =>
      flux fg.1 (iy * (nx + 2 * ng) + 1) fg.2 (iy * (nx + 2 * ng) + 1) vs.1
        (iy * (nx + 2 * ng) + 1) (nx + 2 * ng - 2) ((nx + 2 * ng) * (ny + 2 * ng)))
      (flux f 0 g 0 u 0 ((nx + 2 * ng) * (ny + 2 * ng)) ((nx + 2 * ng) * (ny + 2 * ng)))).1
    (forRange 1 (ny + 2 * ng - 1) (fun iy fg =>
      flux fg.1 (iy * (nx + 2 * ng) + 1) fg.2 (iy * (nx + 2 * ng) + 1) vs.1
        (iy * (nx + 2 * ng) + 1) (nx + 2 * ng - 2) ((nx + 2 * ng) * (ny + 2 * ng)))
      (flux f 0 g 0 u 0 ((nx + 2 * ng) * (ny + 2 * ng)) ((nx + 2 * ng) * (ny + 2 * ng)))).2
    (1 / 2 * dt / dx) (1 / 2 * dt / dy) (ng - io) (nx + ng - io) (ng - io) (ny + ng - io)
    (nx + 2 * ng) (ny + 2 * ng) nfield
    ⟨by omega, by omega, by omega⟩ ⟨by omega, by omega, by omega⟩
  have hstep : central2d_step u v sc f g io nx ny ng nfield flux speed dt dx dy =
      some (StepResult.mk r.1 r.2
        (forRange 1 (ny + 2 * ng - 1) (fun iy fg =>
          flux fg.1 (iy * (nx + 2 * ng) + 1) fg.2 (iy * (nx + 2 * ng) + 1) vs.1
            (iy * (nx + 2 * ng) + 1) (nx + 2 * ng - 2) ((nx + 2 * ng) * (ny + 2 * ng)))
          (flux f 0 g 0 u 0 ((nx + 2 * ng) * (ny + 2 * ng))
            ((nx + 2 * ng) * (ny + 2 * ng)))).1
        (forRange 1 (ny + 2 * ng - 1) (fun iy fg =>
          flux fg.1 (iy * (nx + 2 * ng) + 1) fg.2 (iy * (nx + 2 * ng) + 1) vs.1
            (iy * (nx + 2 * ng) + 1) (nx + 2 * ng - 2) ((nx + 2 * ng) * (ny + 2 * ng)))
          (flux f 0 g 0 u 0 ((nx + 2 * ng) * (ny + 2 * ng))
            ((nx + 2 * ng) * (ny + 2 * ng)))).2) := by
    simp only [central2d_step]
    rw [hvs, Option.some_bind, hr, Option.map_some']
  have hcell : ∀ k ix iy, 0 ≤ k → k < nfield → ng - io ≤ ix → ix < nx + ng - io →
      ng - io ≤ iy → iy < ny + ng - io →
      r.1 ((k * (ny + 2 * ng) + (iy + io)) * (nx + 2 * ng) + (ix + io)) =
        correct_at (1 / 2 * dt / dx) (1 / 2 * dt / dy) (view u (nx + 2 * ng) (ny + 2 * ng))
          (view (forRange 1 (ny + 2 * ng - 1) (fun iy fg =>
            flux fg.1 (iy * (nx + 2 * ng) + 1) fg.2 (iy * (nx + 2 * ng) + 1) vs.1
              (iy * (nx + 2 * ng) + 1) (nx + 2 * ng - 2) ((nx + 2 * ng) * (ny + 2 * ng)))
            (flux f 0 g 0 u 0 ((nx + 2 * ng) * (ny + 2 * ng))
              ((nx + 2 * ng) * (ny + 2 * ng)))).1 (nx + 2 * ng) (ny + 2 * ng))
          (view (forRange 1 (ny + 2 * ng - 1) (fun iy fg =>
            flux fg.1 (iy * (nx + 2 * ng) + 1) fg.2 (iy * (nx + 2 * ng) + 1) vs.1
              (iy * (nx + 2 * ng) + 1) (nx + 2 * ng - 2) ((nx + 2 * ng) * (ny + 2 * ng)))
            (flux f 0 g 0 u 0 ((nx + 2 * ng) * (ny + 2 * ng))
              ((nx + 2 * ng) * (ny + 2 * ng)))).2 (nx + 2 * ng) (ny + 2 * ng))
          k ix iy := by
    intro k ix iy hk0 hk1 hx0 hx1 hy0 hy1
    have e : (k * (ny + 2 * ng) + (iy + io)) * (nx + 2 * ng) + (ix + io) =
        io * (nx + 2 * ng + 1) + ((k * (ny + 2 * ng) + iy) * (nx + 2 * ng) + ix) := by ring
    rw [e]
    exact hval k ix iy hk0 hk1 hx0 hx1 hy0 hy1
  refine ⟨vs, _, hvs, hstep, ?_, ?_, ?_⟩
  · intro k ix iy hk0 hk1 hx0 hx1 hy0 hy1
    exact ⟨⟨by omega, by omega, by omega, by omega⟩, hcell k ix iy hk0 hk1 hx0 hx1 hy0 hy1⟩
  · intro k X Y hk0 hk1 hX0 hX1 hY0 hY1
    refine ⟨by omega, by omega, by omega, by omega, ?_⟩
    have h := hcell k (X - io) (Y - io) hk0 hk1 (by omega) (by omega) (by omega) (by omega)
    have e1 : X - io + io = X := by ring
    have e2 : Y - io + io = Y := by ring
    rw [e1, e2] at h
    exact h
  · intro p hp
    apply hfr
    intro k x y hk0 hk1 hx0 hx1 hy0 hy1 heq
    apply hp k (x + io) (y + io) hk0 hk1 (by omega) (by omega) (by omega) (by omega)
    rw [heq]
    ring

/-- C17 on the 8 by 8 sample, odd parity: the sub-step returns, and the padded cell `(4, 4)` of
field 0 holds the value computed at staggered index `(3, 3)`. -/
theorem central2d_step_parity_window_witness :
    (((1 : Int) = 0 ∨ (1 : Int) = 1) ∧ (2 : Int) ≤ 4) ∧
      ∃ r, central2d_step sample_sim.u sample_sim.v sample_sim.scratch sample_sim.f
          sample_sim.g 1 8 8 4 3 shallow2d_flux sample_sim.speed (1 / 10) 1 1 = some r ∧
        r.v ((0 * (8 + 2 * 4) + 4) * (8 + 2 * 4) + 4) =
          correct_at (1 / 2 * (1 / 10) / 1) (1 / 2 * (1 / 10) / 1)
            (view sample_sim.u (8 + 2 * 4) (8 + 2 * 4)) (view r.f (8 + 2 * 4) (8 + 2 * 4))
            (view r.g (8 + 2 * 4) (8 + 2 * 4)) 0 (4 - 1) (4 - 1) := by
  obtain ⟨pr, r, _, hr, _, hcell, _⟩ := central2d_step_parity_window sample_sim.u sample_sim.v
    sample_sim.scratch sample_sim.f sample_sim.g 1 8 8 4 3 shallow2d_flux sample_sim.speed
    (1 / 10) 1 1 (Or.inr rfl) (by decide) (by decide) (by decide)
  exact ⟨⟨Or.inr rfl, by decide⟩, r, hr,
    (hcell 0 4 4 (by decide) (by decide) (by decide) (by decide) (by decide)
      (by decide)).2.2.2.2⟩

/-! ## The two sub-steps of a pass on one tile -/

/-- The two sub-steps that a tile takes in a pass, from any tile buffer `pu`: they return, and
the tile interior holds the pointwise sub-step applied twice to the grid of `pu`, the second
time read one cell down and to the left. -/
theorem central2d_step_pair_spec (flux : flux_t) (nfield : Int)
    (phi psi : (Int → ℚ) → Int → ℚ) (hflux : IsCellwiseFlux flux nfield phi psi)
    (pu pv sc pf pg : Buf) (sx sy ng : Int) (speed : speed_t) (dt dx dy : ℚ)
    (hng : 4 ≤ ng) (hsx : 1 ≤ sx) (hsy : 1 ≤ sy) :
    ∃ r1 r2,
      central2d_step pu pv sc pf pg 0 (sx + 4) (sy + 4) (ng - 2) nfield flux speed dt dx dy =
        some r1 ∧
      central2d_step r1.v pu r1.scratch r1.f r1.g 1 sx sy ng nfield flux speed dt dx dy =
        some r2 ∧
      ∀ k i j, 0 ≤ k → k < nfield → ng ≤ i → i < sx + ng → ng ≤ j → j < sy + ng →
        r2.v ((k * (sy + 2 * ng) + j) * (sx + 2 * ng) + i) =
          step_at phi psi nfield (1 / 2 * dt / dx) (1 / 2 * dt / dy)
            (step_at phi psi nfield (1 / 2 * dt / dx) (1 / 2 * dt / dy)
              (view pu (sx + 2 * ng) (sy + 2 * ng))) k (i - 1) (j - 1) := by
  obtain ⟨r1, h1, hv1⟩ := central2d_step_spec flux nfield phi psi hflux pu pv sc pf pg
    0 (sx + 4) (sy + 4) (ng - 2) speed dt dx dy (Or.inl rfl) (by omega) (by omega) (by omega)
  have eX : sx + 4 + 2 * (ng - 2) = sx + 2 * ng := by ring
  have eY : sy + 4 + 2 * (ng - 2) = sy + 2 * ng := by ring
  rw [eX, eY] at hv1
  simp only [add_zero, sub_zero] at hv1
  obtain ⟨r2, h2, hv2⟩ := central2d_step_spec flux nfield phi psi hflux r1.v pu
    r1.scratch r1.f r1.g 1 sx sy ng speed dt dx dy (Or.inr rfl) (by omega) (by omega)
    (by omega)
  refine ⟨r1, r2, h1, h2, ?_⟩
  intro k i j hk0 hk1 hi0 hi1 hj0 hj1
  have h3 := hv2 k (i - 1) (j - 1) hk0 hk1 (by omega) (by omega) (by omega) (by omega)
  have e1 : i - 1 + 1 = i := by ring
  have e2 : j - 1 + 1 = j := by ring
  rw [e1, e2] at h3
  rw [h3]
  apply step_at_congr _ _ _ _ _ _ _ _ _ _ hk0 hk1
  intro k2 x2 y2 a b c d e3 e4
  have h5 := hv1 k2 x2 y2 a b (by omega) (by omega) (by omega) (by omega)
  simp only [view]
  rw [h5]

/-- C18: for tile sizes `sx, sy ≥ 1`, a ghost width of 4 (or more) and a cell-wise flux, the
two sub-steps of a pass, `central2d_step(pu, pv, io=0, sx+4, sy+4, ng-2)` then
`central2d_step(pv, pu, io=1, sx, sy, ng)`, return, and the value of `pu` at a tile-interior
cell `(i, j)` afterwards is a function only of the initial values of `pu`, in all fields, on
the window `[i-3, i+3] x [j-3, j+3]`: a second run whose `pu2` agrees with `pu` on the window
gives the same value at `(i, j)`, whatever the other cells of `pu2` and the initial contents of
`pv`, `pf`, `pg` and `scratch` of either run are. -/
theorem central2d_step_pair_window (flux : flux_t) (nfield : Int)
    (phi psi : (Int → ℚ) → Int → ℚ) (hflux : IsCellwiseFlux flux nfield phi psi)
    (pu pv sc pf pg pu2 pv2 sc2 pf2 pg2 : Buf) (sx sy ng : Int) (speed : speed_t)
    (dt dx dy : ℚ) (hng : 4 ≤ ng) (hsx : 1 ≤ sx) (hsy : 1 ≤ sy)
    (k i j : Int) (hk : 0 ≤ k ∧ k < nfield) (hi : ng ≤ i ∧ i < sx + ng)
    (hj : ng ≤ j ∧ j < sy + ng)
    (hwin : ∀ k2 x y, 0 ≤ k2 → k2 < nfield → i - 3 ≤ x → x ≤ i + 3 → j - 3 ≤ y → y ≤ j + 3 →
      pu2 ((k2 * (sy + 2 * ng) + y) * (sx + 2 * ng) + x) =
        pu ((k2 * (sy + 2 * ng) + y) * (sx + 2 * ng) + x)) :
    ∃ r1 r2 q1 q2,
      central2d_step pu pv sc pf pg 0 (sx + 4) (sy + 4) (ng - 2) nfield flux speed dt dx dy =
        some r1 ∧
      central2d_step r1.v pu r1.scratch r1.f r1.g 1 sx sy ng nfield flux speed dt dx dy =
        some r2 ∧
      central2d_step pu2 pv2 sc2 pf2 pg2 0 (sx + 4) (sy + 4) (ng - 2) nfield flux speed dt dx
        dy = some q1 ∧
      central2d_step q1.v pu2 q1.scratch q1.f q1.g 1 sx sy ng nfield flux speed dt dx dy =
        some q2 ∧
      q2.v ((k * (sy + 2 * ng) + j) * (sx + 2 * ng) + i) =
        r2.v ((k * (sy + 2 * ng) + j) * (sx + 2 * ng) + i) := by
  obtain ⟨r1, r2, h1, h2, hr⟩ := central2d_step_pair_spec flux nfield phi psi hflux pu pv sc
    pf pg sx sy ng speed dt dx dy hng hsx hsy
  obtain ⟨q1, q2, g1, g2, hq⟩ := central2d_step_pair_spec flux nfield phi psi hflux pu2 pv2
    sc2 pf2 pg2 sx sy ng speed dt dx dy hng hsx hsy
  refine ⟨r1, r2, q1, q2, h1, h2, g1, g2, ?_⟩
  rw [hq k i j hk.1 hk.2 hi.1 hi.2 hj.1 hj.2, hr k i j hk.1 hk.2 hi.1 hi.2 hj.1 hj.2]
  apply step_at_congr _ _ _ _ _ _ _ _ _ _ hk.1 hk.2
  intro k2 x2 y2 a b c d e3 e4
  apply step_at_congr _ _ _ _ _ _ _ _ _ _ a b
  intro k3 x3 y3 a3 b3 c3 d3 e5 e6
  exact hwin k3 x3 y3 a3 b3 (by omega) (by omega) (by omega) (by omega)

/-- C18 on a 4 by 4 tile with the shallow-water flux: two tile buffers that agree on the
window `[1, 7] x [1, 7]` around the interior cell `(4, 4)` and differ at the ghost cell
`(11, 11)` of field 0 (flat index 143) give the same value there after the two sub-steps. -/
theorem central2d_step_pair_window_witness :
    ((4 : Int) ≤ 4 ∧ (1 : Int) ≤ 4) ∧
      ∃ r1 r2 q1 q2,
        central2d_step (fun p => (p : ℚ)) (fun _ => 0) (fun _ => 0) (fun _ => 0) (fun _ => 0)
          0 (4 + 4) (4 + 4) (4 - 2) 3 shallow2d_flux (fun cxy _ _ _ _ => cxy) (1 / 10) 1 1 =
            some r1 ∧
        central2d_step r1.v (fun p => (p : ℚ)) r1.scratch r1.f r1.g 1 4 4 4 3 shallow2d_flux
          (fun cxy _ _ _ _ => cxy) (1 / 10) 1 1 = some r2 ∧
        central2d_step (fun p => if p = 143 then 5 else (p : ℚ)) (fun _ => 1) (fun _ => 2)
          (fun _ => 3) (fun _ => 4) 0 (4 + 4) (4 + 4) (4 - 2) 3 shallow2d_flux
          (fun cxy _ _ _ _ => cxy) (1 / 10) 1 1 = some q1 ∧
        central2d_step q1.v (fun p => if p = 143 then 5 else (p : ℚ)) q1.scratch q1.f q1.g 1
          4 4 4 3 shallow2d_flux (fun cxy _ _ _ _ => cxy) (1 / 10) 1 1 = some q2 ∧
        q2.v ((0 * (4 + 2 * 4) + 4) * (4 + 2 * 4) + 4) =
          r2.v ((0 * (4 + 2 * 4) + 4) * (4 + 2 * 4) + 4) :=
  ⟨⟨by decide, by decide⟩,
    central2d_step_pair_window shallow2d_flux 3 shallow2d_phi shallow2d_psi
      shallow2d_flux_cellwise (fun p => (p : ℚ)) (fun _ => 0) (fun _ => 0) (fun _ => 0)
      (fun _ => 0) (fun p => if p = 143 then 5 else (p : ℚ)) (fun _ => 1) (fun _ => 2)
      (fun _ => 3) (fun _ => 4) 4 4 4 (fun cxy _ _ _ _ => cxy) (1 / 10) 1 1 (by decide)
      (by decide) (by decide) 0 4 4 ⟨by decide, by decide⟩ ⟨by decide, by decide⟩
      ⟨by decide, by decide⟩ (by
        intro k2 x y hk0 hk1 hx0 hx1 hy0 hy1
        have hne : ¬ ((k2 * (4 + 2 * 4) + y) * (4 + 2 * 4) + x = 143) := by omega
        show (if (k2 * (4 + 2 * 4) + y) * (4 + 2 * 4) + x = 143 then 5 else
          (((k2 * (4 + 2 * 4) + y) * (4 + 2 * 4) + x : Int) : ℚ)) = _
        rw [if_neg hne])⟩

/-! ## Index safety of a sub-step -/

/-- A property of all elements of a list survives a loop whose body keeps it. -/
theorem forRange_all {α : Type} (P : α → Prop) (lo hi : Int)
    (body : Int → List α → List α) (tr : List α) (h0 : ∀ a ∈ tr, P a)
    (hstep : ∀ i tr, lo ≤ i → i < hi → (∀ a ∈ tr, P a) → ∀ a ∈ body i tr, P a) :
    ∀ a ∈ forRange lo hi body tr, P a :=
  forRange_ind_max lo hi body (fun _ tr => ∀ a ∈ tr, P a) tr h0 hstep

/-- A property of all elements of two lists holds of their concatenation. -/
theorem all_append {α : Type} (P : α → Prop) (l1 l2 : List α) (h1 : ∀ a ∈ l1, P a)
    (h2 : ∀ a ∈ l2, P a) : ∀ a ∈ l1 ++ l2, P a := by
  intro a ha
  rcases List.mem_append.mp ha with h | h
  · exact h1 a h
  · exact h2 a h

/-- A property of the head and of all elements of the tail holds of all elements. -/
theorem all_cons {α : Type} (P : α → Prop) (b : α) (l : List α) (hb : P b)
    (hl : ∀ a ∈ l, P a) : ∀ a ∈ b :: l, P a := by
  intro a ha
  rcases List.mem_cons.mp ha with h | h
  · rw [h]
    exact hb
  · exact hl a h

/-- Nothing is to prove of the elements of the empty list. -/
theorem all_nil {α : Type} (P : α → Prop) : ∀ a ∈ ([] : List α), P a := by
  intro a ha
  exact absurd ha (List.not_mem_nil a)

/-- A scratch offset in `[0, 6*NX)` is in bounds. -/
theorem scratch_ok (nfield NX NY k idx : Int) (h0 : 0 ≤ idx) (h1 : idx < 6 * NX) :
    access_in_bounds nfield NX NY (Access.mk Arr.scratch k idx) :=
  ⟨h0, h1⟩

/-- The offset of cell `(x, y)` of field `k` is in bounds in each of `u`, `v`, `f`, `g`. -/
theorem field_ok (A : Arr) (hA : A ≠ Arr.scratch) (nfield NX NY k x y idx : Int)
    (hk0 : 0 ≤ k) (hk1 : k < nfield) (hx0 : 0 ≤ x) (hx1 : x < NX) (hy0 : 0 ≤ y)
    (hy1 : y < NY) (hidx : idx = (k * NY + y) * NX + x) :
    access_in_bounds nfield NX NY (Access.mk A k idx) := by
  have hc := cell_in_field NX NY k x y hx0 hx1 hy0 hy1
  have hN : 0 ≤ NX * NY := mul_nonneg (by omega) (by omega)
  have hf := field_in_buffer NX NY nfield k hk0 hk1 hN
  have e : nfield * NX * NY = nfield * (NX * NY) := by ring
  have hall : (0 ≤ idx ∧ idx < nfield * NX * NY) ∧ (0 ≤ k ∧ k < nfield) ∧
      ∃ x y, 0 ≤ x ∧ x < NX ∧ 0 ≤ y ∧ y < NY ∧ idx = (k * NY + y) * NX + x :=
    ⟨⟨by omega, by omega⟩, ⟨hk0, hk1⟩, x, y, hx0, hx1, hy0, hy1, hidx⟩
  cases A with
  | u => exact hall
  | v => exact hall
  | f => exact hall
  | g => exact hall
  | scratch => exact absurd rfl hA

/-- The accesses of `limited_deriv1` on `ncell` cells from column `c` of row `y` of field `k`
are in bounds when the columns `c-1 .. c+ncell` exist. -/
theorem limited_deriv1_trace_ok (nfield NX NY d0 : Int) (uA : Arr) (hA : uA ≠ Arr.scratch)
    (k u0 ncell y c : Int) (tr : List Access)
    (hk0 : 0 ≤ k) (hk1 : k < nfield) (hy0 : 0 ≤ y) (hy1 : y < NY) (hc0 : 1 ≤ c)
    (hc1 : c + ncell ≤ NX - 1) (hd0 : 0 ≤ d0) (hd1 : d0 + ncell ≤ 6 * NX)
    (hu0 : u0 = (k * NY + y) * NX + c)
    (htr : ∀ a ∈ tr, access_in_bounds nfield NX NY a) :
    ∀ a ∈ limited_deriv1_trace d0 uA k u0 ncell tr, access_in_bounds nfield NX NY a := by
  unfold limited_deriv1_trace
  apply forRange_all _ _ _ _ _ htr
  intro i tr2 hi0 hi1 h2
  refine all_append _ _ _ h2 (all_cons _ _ _ ?_ (all_cons _ _ _ ?_ (all_cons _ _ _ ?_
    (all_cons _ _ _ ?_ (all_nil _)))))
  · exact field_ok uA hA nfield NX NY k (c + i - 1) y _ hk0 hk1 (by omega) (by omega) hy0 hy1
      (by rw [hu0]; ring)
  · exact field_ok uA hA nfield NX NY k (c + i) y _ hk0 hk1 (by omega) (by omega) hy0 hy1
      (by rw [hu0]; ring)
  · exact field_ok uA hA nfield NX NY k (c + i + 1) y _ hk0 hk1 (by omega) (by omega) hy0 hy1
      (by rw [hu0]; ring)
  · exact scratch_ok nfield NX NY k _ (by omega) (by omega)

/-- The accesses of `limited_derivk` with the row length as stride are in bounds when the rows
`y-1` and `y+1` exist. -/
theorem limited_derivk_trace_ok (nfield NX NY d0 : Int) (uA : Arr) (hA : uA ≠ Arr.scratch)
    (k u0 ncell y c : Int) (tr : List Access)
    (hk0 : 0 ≤ k) (hk1 : k < nfield) (hy0 : 1 ≤ y) (hy1 : y < NY - 1) (hc0 : 0 ≤ c)
    (hc1 : c + ncell ≤ NX) (hd0 : 0 ≤ d0) (hd1 : d0 + ncell ≤ 6 * NX)
    (hu0 : u0 = (k * NY + y) * NX + c)
    (htr : ∀ a ∈ tr, access_in_bounds nfield NX NY a) :
    ∀ a ∈ limited_derivk_trace d0 uA k u0 ncell NX tr, access_in_bounds nfield NX NY a := by
  unfold limited_derivk_trace
  apply forRange_all _ _ _ _ _ htr
  intro i tr2 hi0 hi1 h2
  refine all_append _ _ _ h2 (all_cons _ _ _ ?_ (all_cons _ _ _ ?_ (all_cons _ _ _ ?_
    (all_cons _ _ _ ?_ (all_nil _)))))
  · exact field_ok uA hA nfield NX NY k (c + i) (y - 1) _ hk0 hk1 (by omega) (by omega)
      (by omega) (by omega) (by rw [hu0]; ring)
  · exact field_ok uA hA nfield NX NY k (c + i) y _ hk0 hk1 (by omega) (by omega)
      (by omega) (by omega) (by rw [hu0]; ring)
  · exact field_ok uA hA nfield NX NY k (c + i) (y + 1) _ hk0 hk1 (by omega) (by omega)
      (by omega) (by omega) (by rw [hu0]; ring)
  · exact scratch_ok nfield NX NY k _ (by omega) (by omega)

/-- The accesses of a flux call on `ncell` cells from column `c` of row `y` are in bounds when
these cells lie within the row. -/
theorem flux_trace_row_ok (nfield NX NY : Int) (uA : Arr) (hA : uA ≠ Arr.scratch)
    (jj ncell y c : Int) (tr : List Access)
    (hy0 : 0 ≤ y) (hy1 : y < NY) (hc0 : 0 ≤ c) (hc1 : c + ncell ≤ NX)
    (hjj : jj = y * NX + c) (htr : ∀ a ∈ tr, access_in_bounds nfield NX NY a) :
    ∀ a ∈ flux_trace uA jj jj jj ncell (NX * NY) nfield tr,
      access_in_bounds nfield NX NY a := by
  unfold flux_trace
  apply forRange_all _ _ _ _ _ htr
  intro k tr2 hk0 hk1 h2
  apply forRange_all _ _ _ _ _ h2
  intro i tr3 hi0 hi1 h3
  refine all_append _ _ _ h3 (all_cons _ _ _ ?_ (all_cons _ _ _ ?_ (all_cons _ _ _ ?_
    (all_nil _))))
  · exact field_ok uA hA nfield NX NY k (c + i) y _ hk0 hk1 (by omega) (by omega) hy0 hy1
      (by rw [hjj]; ring)
  · exact field_ok Arr.f (by intro h; cases h) nfield NX NY k (c + i) y _ hk0 hk1 (by omega)
      (by omega) hy0 hy1 (by rw [hjj]; ring)
  · exact field_ok Arr.g (by intro h; cases h) nfield NX NY k (c + i) y _ hk0 hk1 (by omega)
      (by omega) hy0 hy1 (by rw [hjj]; ring)

/-- The accesses of a flux call on all `NX * NY` cells of every field are in bounds. -/
theorem flux_trace_full_ok (nfield NX NY : Int) (uA : Arr) (hA : uA ≠ Arr.scratch)
    (hNX : 0 < NX) (tr : List Access) (htr : ∀ a ∈ tr, access_in_bounds nfield NX NY a) :
    ∀ a ∈ flux_trace uA 0 0 0 (NX * NY) (NX * NY) nfield tr,
      access_in_bounds nfield NX NY a := by
  unfold flux_trace
  apply forRange_all _ _ _ _ _ htr
  intro k tr2 hk0 hk1 h2
  apply forRange_all _ _ _ _ _ h2
  intro i tr3 hi0 hi1 h3
  have hx0 : 0 ≤ i % NX := Int.emod_nonneg _ (by omega)
  have hx1 : i % NX < NX := Int.emod_lt_of_pos _ hNX
  have hy0 : 0 ≤ i / NX := Int.ediv_nonneg hi0 hNX.le
  have hy1 : i / NX < NY := Int.ediv_lt_of_lt_mul hNX (by rw [mul_comm]; exact hi1)
  have hdm : NX * (i / NX) + i % NX = i := Int.ediv_add_emod i NX
  have hidx : 0 + k * (NX * NY) + i = (k * NY + i / NX) * NX + i % NX := by
    linear_combination -hdm
  refine all_append _ _ _ h3 (all_cons _ _ _ ?_ (all_cons _ _ _ ?_ (all_cons _ _ _ ?_
    (all_nil _))))
  · exact field_ok uA hA nfield NX NY k (i % NX) (i / NX) _ hk0 hk1 hx0 hx1 hy0 hy1 hidx
  · exact field_ok Arr.f (by intro h; cases h) nfield NX NY k (i % NX) (i / NX) _ hk0 hk1
      hx0 hx1 hy0 hy1 hidx
  · exact field_ok Arr.g (by intro h; cases h) nfield NX NY k (i % NX) (i / NX) _ hk0 hk1
      hx0 hx1 hy0 hy1 hidx

/-- The accesses of the predictor on padded buffers of `NX` by `NY` cells are in bounds. -/
theorem central2d_predict_trace_ok (nfield NX NY : Int) (hNX : 0 < NX) (tr : List Access)
    (htr : ∀ a ∈ tr, access_in_bounds nfield NX NY a) :
    ∀ a ∈ central2d_predict_trace NX NY nfield tr, access_in_bounds nfield NX NY a := by
  unfold central2d_predict_trace
  apply forRange_all _ _ _ _ _ htr
  intro k tr2 hk0 hk1 h2
  apply forRange_all _ _ _ _ _ h2
  intro iy tr3 hy0 hy1 h3
  beta_reduce
  have h4 := limited_deriv1_trace_ok nfield NX NY (0 + 1) Arr.f (by intro h; cases h) k
    ((k * NY + iy) * NX + 1) (NX - 2) iy 1 tr3 hk0 hk1 (by omega) (by omega) (by omega)
    (by omega) (by omega) (by omega) rfl h3
  have h5 := limited_derivk_trace_ok nfield NX NY (NX + 1) Arr.g (by intro h; cases h) k
    ((k * NY + iy) * NX + 1) (NX - 2) iy 1 _ hk0 hk1 (by omega) (by omega) (by omega)
    (by omega) (by omega) (by omega) rfl h4
  apply forRange_all _ _ _ _ _ h5
  intro ix tr4 hx0 hx1 h6
  refine all_append _ _ _ h6 (all_cons _ _ _ ?_ (all_cons _ _ _ ?_ (all_cons _ _ _ ?_
    (all_cons _ _ _ ?_ (all_nil _)))))
  · exact field_ok Arr.u (by intro h; cases h) nfield NX NY k ix iy _ hk0 hk1 (by omega)
      (by omega) (by omega) (by omega) rfl
  · exact scratch_ok nfield NX NY k _ (by omega) (by omega)
  · exact scratch_ok nfield NX NY k _ (by omega) (by omega)
  · exact field_ok Arr.v (by intro h; cases h) nfield NX NY k ix iy _ hk0 hk1 (by omega)
      (by omega) (by omega) (by omega) rfl

/-- The accesses of `central2d_correct_sd` on row `y` of field `k`, with `ux` and `uy` the first
two rows of the scratch block, are in bounds when the columns `xlo .. xhi` exist. -/
theorem central2d_correct_sd_trace_ok (nfield NX NY s d k u0 f0 g0 xlo xhi y : Int)
    (tr : List Access) (hk0 : 0 ≤ k) (hk1 : k < nfield) (hy0 : 0 ≤ y) (hy1 : y < NY)
    (hx0 : 0 ≤ xlo) (hx1 : xhi ≤ NX - 1) (hs0 : 0 ≤ s) (hs1 : s + NX ≤ 6 * NX)
    (hd0 : 0 ≤ d) (hd1 : d + NX ≤ 6 * NX)
    (hu0 : u0 = (k * NY + y) * NX) (hf0 : f0 = (k * NY + y) * NX)
    (hg0 : g0 = (k * NY + y) * NX)
    (htr : ∀ a ∈ tr, access_in_bounds nfield NX NY a) :
    ∀ a ∈ central2d_correct_sd_trace s d 0 NX k u0 f0 g0 xlo xhi tr,
      access_in_bounds nfield NX NY a := by
  unfold central2d_correct_sd_trace
  have h1 : ∀ a ∈ forRange xlo xhi (fun ix tr =>
      tr ++ [Access.mk Arr.u k (u0 + ix), Access.mk Arr.u k (u0 + (ix + 1)),
        Access.mk Arr.scratch k (0 + ix), Access.mk Arr.scratch k (0 + (ix + 1)),
        Access.mk Arr.f k (f0 + ix), Access.mk Arr.f k (f0 + (ix + 1)),
        Access.mk Arr.scratch k (s + ix)]) tr, access_in_bounds nfield NX NY a := by
    apply forRange_all _ _ _ _ _ htr
    intro ix tr2 hi0 hi1 h2
    refine all_append _ _ _ h2 (all_cons _ _ _ ?_ (all_cons _ _ _ ?_ (all_cons _ _ _ ?_
      (all_cons _ _ _ ?_ (all_cons _ _ _ ?_ (all_cons _ _ _ ?_ (all_cons _ _ _ ?_
      (all_nil _))))))))
    · exact field_ok Arr.u (by intro h; cases h) nfield NX NY k ix y _ hk0 hk1 (by omega)
        (by omega) hy0 hy1 (by rw [hu0])
    · exact field_ok Arr.u (by intro h; cases h) nfield NX NY k (ix + 1) y _ hk0 hk1
        (by omega) (by omega) hy0 hy1 (by rw [hu0])
    · exact scratch_ok nfield NX NY k _ (by omega) (by omega)
    · exact scratch_ok nfield NX NY k _ (by omega) (by omega)
    · exact field_ok Arr.f (by intro h; cases h) nfield NX NY k ix y _ hk0 hk1 (by omega)
        (by omega) hy0 hy1 (by rw [hf0])
    · exact field_ok Arr.f (by intro h; cases h) nfield NX NY k (ix + 1) y _ hk0 hk1
        (by omega) (by omega) hy0 hy1 (by rw [hf0])
    · exact scratch_ok nfield NX NY k _ (by omega) (by omega)
  apply forRange_all _ _ _ _ _ h1
  intro ix tr2 hi0 hi1 h2
  refine all_append _ _ _ h2 (all_cons _ _ _ ?_ (all_cons _ _ _ ?_ (all_cons _ _ _ ?_
    (all_cons _ _ _ ?_ (all_cons _ _ _ ?_ (all_nil _))))))
  · exact scratch_ok nfield NX NY k _ (by omega) (by omega)
  · exact scratch_ok nfield NX NY k _ (by omega) (by omega)
  · exact field_ok Arr.g (by intro h; cases h) nfield NX NY k ix y _ hk0 hk1 (by omega)
      (by omega) hy0 hy1 (by rw [hg0])
  · exact field_ok Arr.g (by intro h; cases h) nfield NX NY k (ix + 1) y _ hk0 hk1
      (by omega) (by omega) hy0 hy1 (by rw [hg0])
  · exact scratch_ok nfield NX NY k _ (by omega) (by omega)

/-- The accesses of the corrector are in bounds when its window leaves one column free on the
left, two on the right, one row below and two above, and `v` is shifted by `io` cells along
both axes. -/
theorem central2d_correct_trace_ok (nfield NX NY v0 io xlo xhi ylo yhi : Int)
    (tr : List Access) (hNX : 0 < NX) (hio0 : 0 ≤ io) (hio1 : io ≤ 1)
    (hv0 : v0 = io * (NX + 1)) (hx0 : 1 ≤ xlo) (hx1 : xhi ≤ NX - 2) (hy0 : 1 ≤ ylo) (hyy : ylo ≤ yhi)
    (hy1 : yhi ≤ NY - 2) (htr : ∀ a ∈ tr, access_in_bounds nfield NX NY a) :
    ∀ a ∈ central2d_correct_trace v0 xlo xhi ylo yhi NX NY nfield tr,
      access_in_bounds nfield NX NY a := by
  unfold central2d_correct_trace
  have key := forRange_ind_max 0 nfield
    (fun k (st : CorrectTrace) =>
      forRange ylo yhi (fun iy (st : CorrectTrace) =>
        CorrectTrace.mk
          (forRange xlo xhi (fun ix tr =>
            tr ++ [Access.mk Arr.scratch k (st.s0 + ix), Access.mk Arr.scratch k (st.s1 + ix),
              Access.mk Arr.scratch k (st.d0 + ix), Access.mk Arr.scratch k (st.d1 + ix),
              Access.mk Arr.v k (v0 + k * NY * NX + (iy * NX + ix))])
            (central2d_correct_sd_trace st.s0 st.d0 0 NX k (k * NY * NX + (iy + 1) * NX)
              (k * NY * NX + (iy + 1) * NX) (k * NY * NX + (iy + 1) * NX) xlo xhi
              (limited_derivk_trace (NX + 1) Arr.u k (k * NY * NX + (iy + 1) * NX + 1)
                (NX - 2) NX
                (limited_deriv1_trace (0 + 1) Arr.u k (k * NY * NX + (iy + 1) * NX + 1)
                  (NX - 2) st.tr))))
          st.s1 st.d1 st.s0 st.d0)
        (CorrectTrace.mk
          (central2d_correct_sd_trace st.s1 st.d1 0 NX k (k * NY * NX + ylo * NX)
            (k * NY * NX + ylo * NX) (k * NY * NX + ylo * NX) xlo xhi
            (limited_derivk_trace (NX + 1) Arr.u k (k * NY * NX + ylo * NX + 1) (NX - 2) NX
              (limited_deriv1_trace (0 + 1) Arr.u k (k * NY * NX + ylo * NX + 1) (NX - 2)
                st.tr)))
          st.s0 st.d0 st.s1 st.d1))
    (fun _ (st : CorrectTrace) =>
      (∀ a ∈ st.tr, access_in_bounds nfield NX NY a) ∧
      (2 * NX ≤ st.s0 ∧ st.s0 ≤ 5 * NX) ∧ (2 * NX ≤ st.d0 ∧ st.d0 ≤ 5 * NX) ∧
      (2 * NX ≤ st.s1 ∧ st.s1 ≤ 5 * NX) ∧ (2 * NX ≤ st.d1 ∧ st.d1 ≤ 5 * NX))
    (CorrectTrace.mk tr (2 * NX) (3 * NX) (4 * NX) (5 * NX))
    (by refine ⟨htr, ?_, ?_, ?_, ?_⟩ <;> dsimp only <;> omega)
    (by
      intro k st hk0 hk1 hinv
      obtain ⟨h0, p1, p2, p3, p4⟩ := hinv
      have h1 := limited_deriv1_trace_ok nfield NX NY (0 + 1) Arr.u (by intro h; cases h) k
        (k * NY * NX + ylo * NX + 1) (NX - 2) ylo 1 st.tr hk0 hk1 (by omega) (by omega)
        (by omega) (by omega) (by omega) (by omega) (by ring) h0
      have h2 := limited_derivk_trace_ok nfield NX NY (NX + 1) Arr.u (by intro h; cases h) k
        (k * NY * NX + ylo * NX + 1) (NX - 2) ylo 1 _ hk0 hk1 (by omega) (by omega)
        (by omega) (by omega) (by omega) (by omega) (by ring) h1
      have h3 := central2d_correct_sd_trace_ok nfield NX NY st.s1 st.d1 k
        (k * NY * NX + ylo * NX) (k * NY * NX + ylo * NX) (k * NY * NX + ylo * NX) xlo xhi
        ylo _ hk0 hk1 (by omega) (by omega) (by omega) (by omega) (by omega) (by omega)
        (by omega) (by omega) (by ring) (by ring) (by ring) h2
      refine forRange_ind_max ylo yhi _
        (fun _ (st : CorrectTrace) =>
          (∀ a ∈ st.tr, access_in_bounds nfield NX NY a) ∧
          (2 * NX ≤ st.s0 ∧ st.s0 ≤ 5 * NX) ∧ (2 * NX ≤ st.d0 ∧ st.d0 ≤ 5 * NX) ∧
          (2 * NX ≤ st.s1 ∧ st.s1 ≤ 5 * NX) ∧ (2 * NX ≤ st.d1 ∧ st.d1 ≤ 5 * NX))
        _ ⟨h3, p1, p2, p3, p4⟩ ?_
      intro iy st2 hiy0 hiy1 hinv2
      obtain ⟨g0, q1, q2, q3, q4⟩ := hinv2
      have g1 := limited_deriv1_trace_ok nfield NX NY (0 + 1) Arr.u (by intro h; cases h) k
        (k * NY * NX + (iy + 1) * NX + 1) (NX - 2) (iy + 1) 1 st2.tr hk0 hk1 (by omega)
        (by omega) (by omega) (by omega) (by omega) (by omega) (by ring) g0
      have g2 := limited_derivk_trace_ok nfield NX NY (NX + 1) Arr.u (by intro h; cases h) k
        (k * NY * NX + (iy + 1) * NX + 1) (NX - 2) (iy + 1) 1 _ hk0 hk1 (by omega) (by omega)
        (by omega) (by omega) (by omega) (by omega) (by ring) g1
      have g3 := central2d_correct_sd_trace_ok nfield NX NY st2.s0 st2.d0 k
        (k * NY * NX + (iy + 1) * NX) (k * NY * NX + (iy + 1) * NX)
        (k * NY * NX + (iy + 1) * NX) xlo xhi (iy + 1) _ hk0 hk1 (by omega) (by omega)
        (by omega) (by omega) (by omega) (by omega) (by omega) (by omega) (by ring) (by ring)
        (by ring) g2
      refine ⟨?_, q3, q4, q1, q2⟩
      dsimp only
      apply forRange_all _ _ _ _ _ g3
      intro ix tr4 hix0 hix1 g4
      refine all_append _ _ _ g4 (all_cons _ _ _ ?_ (all_cons _ _ _ ?_ (all_cons _ _ _ ?_
        (all_cons _ _ _ ?_ (all_cons _ _ _ ?_ (all_nil _))))))
      · exact scratch_ok nfield NX NY k _ (by omega) (by omega)
      · exact scratch_ok nfield NX NY k _ (by omega) (by omega)
      · exact scratch_ok nfield NX NY k _ (by omega) (by omega)
      · exact scratch_ok nfield NX NY k _ (by omega) (by omega)
      · exact field_ok Arr.v (by intro h; cases h) nfield NX NY k (ix + io) (iy + io) _
          hk0 hk1 (by omega) (by omega) (by omega) (by omega) (by rw [hv0]; ring))
  exact key.1

/-- C19: for `nx, ny ≥ 1`, `ng ≥ 2` and `io` in `{0, 1}` (and every `nfield`), every read and
write that `central2d_step` performs (initial flux, predictor, half-step flux, limited
derivatives, corrector) addresses `u`, `v`, `f`, `g` inside `[0, nfield*(nx+2ng)*(ny+2ng))` and
within the `[0, nx+2ng) x [0, ny+2ng)` extent of the field it is meant for, and addresses the
scratch block inside `[0, 6*(nx+2ng))`; the two assertions of the corrector on
`(xlo, xhi, ylo, yhi)` and the assertion of `limited_derivk` on the stride hold, so that the
sub-step returns. -/
theorem central2d_step_index_safety (io nx ny ng nfield : Int) (hnx : 1 ≤ nx) (hny : 1 ≤ ny)
    (hng : 2 ≤ ng) (hio : io = 0 ∨ io = 1) :
    (∀ a ∈ central2d_step_trace io nx ny ng nfield,
      access_in_bounds nfield (nx + 2 * ng) (ny + 2 * ng) a) ∧
    (0 ≤ ng - io ∧ ng - io < nx + ng - io ∧ nx + ng - io ≤ nx + 2 * ng) ∧
    (0 ≤ ng - io ∧ ng - io < ny + ng - io ∧ ny + ng - io ≤ ny + 2 * ng) ∧
    0 < nx + 2 * ng ∧
    (∀ (u v sc f g : Buf) (flux : flux_t) (speed : speed_t) (dt dx dy : ℚ),
      ∃ r, central2d_step u v sc f g io nx ny ng nfield flux speed dt dx dy = some r) := by
  refine ⟨?_, ⟨by omega, by omega, by omega⟩, ⟨by omega, by omega, by omega⟩, by omega, ?_⟩
  · unfold central2d_step_trace
    have h1 := flux_trace_full_ok nfield (nx + 2 * ng) (ny + 2 * ng) Arr.u
      (by intro h; cases h) (by omega) [] (all_nil _)
    have h2 := central2d_predict_trace_ok nfield (nx + 2 * ng) (ny + 2 * ng) (by omega) _ h1
    have h3 : ∀ a ∈ forRange 1 (ny + 2 * ng - 1) (fun iy tr =>
        flux_trace Arr.v (iy * (nx + 2 * ng) + 1) (iy * (nx + 2 * ng) + 1)
          (iy * (nx + 2 * ng) + 1) (nx + 2 * ng - 2) ((nx + 2 * ng) * (ny + 2 * ng)) nfield tr)
        (central2d_predict_trace (nx + 2 * ng) (ny + 2 * ng) nfield
          (flux_trace Arr.u 0 0 0 ((nx + 2 * ng) * (ny + 2 * ng))
            ((nx + 2 * ng) * (ny + 2 * ng)) nfield [])),
        access_in_bounds nfield (nx + 2 * ng) (ny + 2 * ng) a := by
      apply forRange_all _ _ _ _ _ h2
      intro iy tr hy0 hy1 h
      exact flux_trace_row_ok nfield (nx + 2 * ng) (ny + 2 * ng) Arr.v (by intro h; cases h)
        (iy * (nx + 2 * ng) + 1) (nx + 2 * ng - 2) iy 1 tr (by omega) (by omega) (by omega)
        (by omega) rfl h
    exact central2d_correct_trace_ok nfield (nx + 2 * ng) (ny + 2 * ng)
      (io * (nx + 2 * ng + 1)) io (ng - io) (nx + ng - io) (ng - io) (ny + ng - io) _
      (by omega) (by omega) (by omega) rfl (by omega) (by omega) (by omega) (by omega) (by omega) h3
  · intro u v sc f g flux speed dt dx dy
    exact central2d_step_some u v sc f g io nx ny ng nfield flux speed dt dx dy (by omega)
      (by omega) hnx hny

set_option maxRecDepth 100000 in
/-- C19 on a single cell with two ghost cells, odd parity: the sub-step makes 287 accesses, and
all of them are in bounds. -/
theorem central2d_step_index_safety_witness :
    ((1 : Int) ≤ 1 ∧ (2 : Int) ≤ 2 ∧ ((1 : Int) = 0 ∨ (1 : Int) = 1)) ∧
      (central2d_step_trace 1 1 1 2 1).length = 287 ∧
      ∀ a ∈ central2d_step_trace 1 1 1 2 1, access_in_bounds 1 (1 + 2 * 2) (1 + 2 * 2) a :=
  ⟨⟨by decide, by decide, Or.inr rfl⟩, by rfl,
    (central2d_step_index_safety 1 1 1 2 1 (by decide) (by decide) (by decide)
      (Or.inr rfl)).1⟩

/-! ## Closed form of the limiter -/

/-- C25: in exact arithmetic, for every triple `(um, u0, up)`,
`limdiff(um, u0, up) = sigma * min(2*|u0-um|, 2*|up-u0|, 0.5*|up-um|)` with `sigma = +1` when
`u0-um` and `up-u0` are both positive, `sigma = -1` when both are negative and `sigma = 0`
(the result is 0) otherwise; on linear data `limdiff(a-d, a, a+d) = d` for every `a`, `d`. -/
theorem limdiff_closed_form (um u0 up : ℚ) :
    limdiff um u0 up =
        (if 0 < u0 - um ∧ 0 < up - u0 then 1
          else if u0 - um < 0 ∧ up - u0 < 0 then -1 else 0) *
          min (2 * |u0 - um|) (min (2 * |up - u0|) (1 / 2 * |up - um|)) ∧
      (¬ (0 < u0 - um ∧ 0 < up - u0) → ¬ (u0 - um < 0 ∧ up - u0 < 0) →
        limdiff um u0 up = 0) ∧
      ∀ a d : ℚ, limdiff (a - d) a (a + d) = d := by
  have hzero : ¬ (0 < u0 - um ∧ 0 < up - u0) → ¬ (u0 - um < 0 ∧ up - u0 < 0) →
      limdiff um u0 up = 0 := by
    intro hp hn
    rcases lt_or_le (u0 - um) 0 with h1 | h1
    · have h2 : 0 ≤ up - u0 := by
        by_contra hc
        exact hn ⟨h1, not_le.mp hc⟩
      exact limdiff_neg_nonneg um u0 up h1 h2
    · rcases lt_or_le (up - u0) 0 with h2 | h2
      · exact limdiff_nonneg_neg um u0 up h1 h2
      · rw [limdiff_nonneg_nonneg um u0 up h1 h2]
        rcases eq_or_lt_of_le h1 with h3 | h3
        · rw [← h3]
          have : (0 : ℚ) ≤ min (2 * (up - u0)) ((up - um) / 2) := le_min (by linarith)
            (by linarith)
          simpa using this
        · have h4 : up - u0 = 0 := by
            by_contra hc
            exact hp ⟨h3, lt_of_le_of_ne h2 (Ne.symm hc)⟩
          rw [h4]
          have h5 : (0 : ℚ) ≤ (up - um) / 2 := by linarith
          have h6 : min (2 * (0 : ℚ)) ((up - um) / 2) = 0 := by
            rw [mul_zero]
            exact min_eq_left h5
          rw [h6]
          exact min_eq_right (by linarith)
  have hlin : ∀ a d : ℚ, limdiff (a - d) a (a + d) = d := by
    intro a d
    rcases lt_or_le d 0 with hd | hd
    · rw [limdiff_neg_neg (a - d) a (a + d) (by linarith) (by linarith)]
      have e1 : 2 * (a - d - a) = 2 * (-d) := by ring
      have e2 : 2 * (a - (a + d)) = 2 * (-d) := by ring
      have e3 : (a - d - (a + d)) / 2 = -d := by ring
      rw [e1, e2, e3, min_eq_right (by linarith : -d ≤ 2 * -d),
        min_eq_right (by linarith : -d ≤ 2 * -d)]
      ring
    · rw [limdiff_nonneg_nonneg (a - d) a (a + d) (by linarith) (by linarith)]
      have e1 : 2 * (a - (a - d)) = 2 * d := by ring
      have e2 : 2 * (a + d - a) = 2 * d := by ring
      have e3 : (a + d - (a - d)) / 2 = d := by ring
      rw [e1, e2, e3, min_eq_right (by linarith : d ≤ 2 * d),
        min_eq_right (by linarith : d ≤ 2 * d)]
  refine ⟨?_, hzero, hlin⟩
  by_cases hp : 0 < u0 - um ∧ 0 < up - u0
  · rw [if_pos hp, one_mul, limdiff_nonneg_nonneg um u0 up hp.1.le hp.2.le,
      abs_of_pos hp.1, abs_of_pos hp.2, abs_of_pos (by linarith : 0 < up - um)]
    have e : (up - um) / 2 = 1 / 2 * (up - um) := by ring
    rw [e]
  · by_cases hn : u0 - um < 0 ∧ up - u0 < 0
    · rw [if_neg hp, if_pos hn, limdiff_neg_neg um u0 up hn.1 hn.2,
        abs_of_neg hn.1, abs_of_neg hn.2, abs_of_neg (by linarith : up - um < 0)]
      have e1 : 2 * (um - u0) = 2 * -(u0 - um) := by ring
      have e2 : 2 * (u0 - up) = 2 * -(up - u0) := by ring
      have e3 : (um - up) / 2 = 1 / 2 * -(up - um) := by ring
      rw [e1, e2, e3]
      ring
    · rw [if_neg hp, if_neg hn, zero_mul]
      exact hzero hp hn

/-- C25 on the triple `(1, 3, 4)` and on the same-sign, opposite-sign and flat branches that
its second part speaks of: `limdiff(2, 1, 5) = 0`, as the differences `-1` and `4` disagree in
sign. -/
theorem limdiff_closed_form_witness :
    (¬ ((0 : ℚ) < 1 - 2 ∧ (0 : ℚ) < 5 - 1) ∧ ¬ ((1 : ℚ) - 2 < 0 ∧ (5 : ℚ) - 1 < 0)) ∧
      limdiff 2 1 5 = 0 :=
  ⟨⟨by norm_num, by norm_num⟩,
    (limdiff_closed_form 2 1 5).2.1 (by norm_num) (by norm_num)⟩

/-! ## The shallow-water flux, cell by cell -/

/-- The six values that `shallow2d_flux` writes for cell `i`, as the code computes them. -/
theorem shallow2d_flux_values (FU : Buf) (f0 : Int) (GU : Buf) (g0 : Int) (U : Buf)
    (u0 ncell stride : Int) (hn : 0 ≤ ncell) (hs : ncell ≤ stride) (i : Int) (hi0 : 0 ≤ i)
    (hi1 : i < ncell) :
    (shallow2d_flux FU f0 GU g0 U u0 ncell stride).1 (f0 + i) = U (u0 + stride + i) ∧
    (shallow2d_flux FU f0 GU g0 U u0 ncell stride).1 (f0 + stride + i) =
      U (u0 + stride + i) * U (u0 + stride + i) * (1 / U (u0 + i)) +
        1 / 2 * shallow2d_g * U (u0 + i) * U (u0 + i) ∧
    (shallow2d_flux FU f0 GU g0 U u0 ncell stride).1 (f0 + 2 * stride + i) =
      U (u0 + stride + i) * U (u0 + 2 * stride + i) * (1 / U (u0 + i)) ∧
    (shallow2d_flux FU f0 GU g0 U u0 ncell stride).2 (g0 + i) = U (u0 + 2 * stride + i) ∧
    (shallow2d_flux FU f0 GU g0 U u0 ncell stride).2 (g0 + stride + i) =
      U (u0 + stride + i) * U (u0 + 2 * stride + i) * (1 / U (u0 + i)) ∧
    (shallow2d_flux FU f0 GU g0 U u0 ncell stride).2 (g0 + 2 * stride + i) =
      U (u0 + 2 * stride + i) * U (u0 + 2 * stride + i) * (1 / U (u0 + i)) +
        1 / 2 * shallow2d_g * U (u0 + i) * U (u0 + i) := by
  obtain ⟨hval, _, _⟩ := shallow2d_flux_cellwise FU f0 GU g0 U u0 ncell stride hn hs
  have h0 := hval 0 i (by decide) (by decide) hi0 hi1
  have h1 := hval 1 i (by decide) (by decide) hi0 hi1
  have h2 := hval 2 i (by decide) (by decide) hi0 hi1
  simp only [shallow2d_phi, shallow2d_psi] at h0 h1 h2
  norm_num at h0 h1 h2
  exact ⟨h0.1, h1.1.trans (by ring), h2.1.trans (by ring), h0.2, h1.2.trans (by ring),
    h2.2.trans (by ring)⟩

/-- C27: in exact arithmetic, on `ncell` cells of three fields that do not overlap
(`0 ≤ ncell ≤ field_stride`), for every cell `i` with `h_i ≠ 0`, `shallow2d_flux` writes
`FU_i = (hu, hu^2/h + 0.5*g*h^2, hu*hv/h)` and `GU_i = (hv, hu*hv/h, hv^2/h + 0.5*g*h^2)` with
`g = 9.8`; each output cell depends only on the same input cell (`U2` agreeing with `U` on the
cell gives the same six values, from any initial `FU2`, `GU2`); and an input `U2` with `hu` and
`hv` exchanged gives `FU` and `GU` exchanged with their two momentum components swapped. -/
theorem shallow2d_flux_cell_formula (FU : Buf) (f0 : Int) (GU : Buf) (g0 : Int) (U : Buf)
    (u0 ncell stride : Int) (hn : 0 ≤ ncell) (hs : ncell ≤ stride) :
    ∃ r, shallow2d_flux FU f0 GU g0 U u0 ncell stride = r ∧
      (∀ i, 0 ≤ i → i < ncell → U (u0 + i) ≠ 0 →
        r.1 (f0 + i) = U (u0 + stride + i) ∧
        r.1 (f0 + stride + i) =
          U (u0 + stride + i) ^ 2 / U (u0 + i) + 1 / 2 * (98 / 10) * U (u0 + i) ^ 2 ∧
        r.1 (f0 + 2 * stride + i) =
          U (u0 + stride + i) * U (u0 + 2 * stride + i) / U (u0 + i) ∧
        r.2 (g0 + i) = U (u0 + 2 * stride + i) ∧
        r.2 (g0 + stride + i) =
          U (u0 + stride + i) * U (u0 + 2 * stride + i) / U (u0 + i) ∧
        r.2 (g0 + 2 * stride + i) =
          U (u0 + 2 * stride + i) ^ 2 / U (u0 + i) + 1 / 2 * (98 / 10) * U (u0 + i) ^ 2) ∧
      (∀ (FU2 GU2 U2 : Buf) (i : Int), 0 ≤ i → i < ncell →
        U2 (u0 + i) = U (u0 + i) → U2 (u0 + stride + i) = U (u0 + stride + i) →
        U2 (u0 + 2 * stride + i) = U (u0 + 2 * stride + i) →
        ∀ k, 0 ≤ k → k < 3 →
          (shallow2d_flux FU2 f0 GU2 g0 U2 u0 ncell stride).1 (f0 + k * stride + i) =
            r.1 (f0 + k * stride + i) ∧
          (shallow2d_flux FU2 f0 GU2 g0 U2 u0 ncell stride).2 (g0 + k * stride + i) =
            r.2 (g0 + k * stride + i)) ∧
      (∀ (FU2 GU2 U2 : Buf) (i : Int), 0 ≤ i → i < ncell →
        U2 (u0 + i) = U (u0 + i) → U2 (u0 + stride + i) = U (u0 + 2 * stride + i) →
        U2 (u0 + 2 * stride + i) = U (u0 + stride + i) →
        (shallow2d_flux FU2 f0 GU2 g0 U2 u0 ncell stride).1 (f0 + i) = r.2 (g0 + i) ∧
        (shallow2d_flux FU2 f0 GU2 g0 U2 u0 ncell stride).1 (f0 + stride + i) =
          r.2 (g0 + 2 * stride + i) ∧
        (shallow2d_flux FU2 f0 GU2 g0 U2 u0 ncell stride).1 (f0 + 2 * stride + i) =
          r.2 (g0 + stride + i) ∧
        (shallow2d_flux FU2 f0 GU2 g0 U2 u0 ncell stride).2 (g0 + i) = r.1 (f0 + i) ∧
        (shallow2d_flux FU2 f0 GU2 g0 U2 u0 ncell stride).2 (g0 + stride + i) =
          r.1 (f0 + 2 * stride + i) ∧
        (shallow2d_flux FU2 f0 GU2 g0 U2 u0 ncell stride).2 (g0 + 2 * stride + i) =
          r.1 (f0 + stride + i)) := by
  refine ⟨_, rfl, ?_, ?_, ?_⟩
  · intro i hi0 hi1 _
    obtain ⟨a1, a2, a3, a4, a5, a6⟩ := shallow2d_flux_values FU f0 GU g0 U u0 ncell stride hn
      hs i hi0 hi1
    refine ⟨a1, ?_, ?_, a4, ?_, ?_⟩
    · rw [a2]
      simp only [shallow2d_g]
      ring
    · rw [a3]
      ring
    · rw [a5]
      ring
    · rw [a6]
      simp only [shallow2d_g]
      ring
  · intro FU2 GU2 U2 i hi0 hi1 e0 e1 e2 k hk0 hk1
    obtain ⟨a1, a2, a3, a4, a5, a6⟩ := shallow2d_flux_values FU f0 GU g0 U u0 ncell stride hn
      hs i hi0 hi1
    obtain ⟨b1, b2, b3, b4, b5, b6⟩ := shallow2d_flux_values FU2 f0 GU2 g0 U2 u0 ncell stride
      hn hs i hi0 hi1
    simp only [e0, e1, e2] at b1 b2 b3 b4 b5 b6
    have hk : k = 0 ∨ k = 1 ∨ k = 2 := by omega
    rcases hk with rfl | rfl | rfl
    · simp only [zero_mul, add_zero]
      exact ⟨b1.trans a1.symm, b4.trans a4.symm⟩
    · simp only [one_mul]
      exact ⟨b2.trans a2.symm, b5.trans a5.symm⟩
    · exact ⟨b3.trans a3.symm, b6.trans a6.symm⟩
  · intro FU2 GU2 U2 i hi0 hi1 e0 e1 e2
    obtain ⟨a1, a2, a3, a4, a5, a6⟩ := shallow2d_flux_values FU f0 GU g0 U u0 ncell stride hn
      hs i hi0 hi1
    obtain ⟨b1, b2, b3, b4, b5, b6⟩ := shallow2d_flux_values FU2 f0 GU2 g0 U2 u0 ncell stride
      hn hs i hi0 hi1
    simp only [e0, e1, e2] at b1 b2 b3 b4 b5 b6
    refine ⟨b1.trans a4.symm, b2.trans a6.symm, ?_, b4.trans a1.symm, ?_, b6.trans a2.symm⟩
    · rw [b3, a5]
      ring
    · rw [b5, a3]
      ring

/-- C27 on the sample at rest (`h = 1`, `hu = hv = 0`, 256 cells per field), cell 0: the
x-flux of the height is `hu = 0`, and the x-flux of `hu` is `0^2/1 + 0.5*9.8*1^2`. -/
theorem shallow2d_flux_cell_formula_witness :
    ((0 : Int) ≤ 256 ∧ (256 : Int) ≤ 256 ∧ sample_flat.u (0 + 0) ≠ 0) ∧
      ∃ r, shallow2d_flux (fun _ => 0) 0 (fun _ => 0) 0 sample_flat.u 0 256 256 = r ∧
        r.1 (0 + 0) = sample_flat.u (0 + 256 + 0) ∧
        r.1 (0 + 256 + 0) = sample_flat.u (0 + 256 + 0) ^ 2 / sample_flat.u (0 + 0) +
          1 / 2 * (98 / 10) * sample_flat.u (0 + 0) ^ 2 := by
  have h1 : sample_flat.u (0 + 0) ≠ 0 := by norm_num [sample_flat]
  obtain ⟨r, hr, hval, _, _⟩ := shallow2d_flux_cell_formula (fun _ => 0) 0 (fun _ => 0) 0
    sample_flat.u 0 256 256 (by decide) (by decide)
  obtain ⟨a1, a2, _⟩ := hval 0 (by decide) (by decide) h1
  exact ⟨⟨by decide, by decide, h1⟩, r, hr, a1, a2⟩

/-! ## The wave-speed reduction is a maximum -/

/-- Both components of the result of `shallow2d_speed` are maxima in the sense of
`IsSpeedMax`, for a team of at least one thread and a schedule that gives every iteration to a
thread of the team. -/
theorem shallow2d_speed_isMax (sqrtf : ℚ → ℚ) (nthreads : Int) (owner : Int → Int)
    (cxy : ℚ × ℚ) (U : Buf) (u0 ncell stride : Int) (hT : 1 ≤ nthreads)
    (hown : ∀ i, 0 ≤ i → i < ncell → 0 ≤ owner i ∧ owner i < nthreads) :
    IsSpeedMax (shallow2d_speed sqrtf nthreads owner cxy U u0 ncell stride).1 cxy.1 ncell
        (fun i => 1 / 100000 ≤ |U (u0 + i)|)
        (fun i => |U (u0 + stride + i) / U (u0 + i)| + sqrtf (shallow2d_g * U (u0 + i))) ∧
      IsSpeedMax (shallow2d_speed sqrtf nthreads owner cxy U u0 ncell stride).2 cxy.2 ncell
        (fun i => 1 / 100000 ≤ |U (u0 + i)|)
        (fun i => |U (u0 + 2 * stride + i) / U (u0 + i)| +
          sqrtf (shallow2d_g * U (u0 + i))) := by
  obtain ⟨r, hr, ⟨a1, a2, a3⟩, ⟨b1, b2, b3⟩⟩ := forRange_max_pair 0 nthreads (fun _ => True)
    (fun t => (shallow2dv_speed_thread sqrtf owner t U u0 (u0 + stride) (u0 + 2 * stride)
      shallow2d_g ncell).1)
    (fun t => (shallow2dv_speed_thread sqrtf owner t U u0 (u0 + stride) (u0 + 2 * stride)
      shallow2d_g ncell).2) (cxy.1, cxy.2)
  simp only [if_true] at hr
  simp only [shallow2d_speed, shallow2dv_speed]
  rw [hr]
  have hthread : ∀ t, ∃ p, shallow2dv_speed_thread sqrtf owner t U u0 (u0 + stride)
      (u0 + 2 * stride) shallow2d_g ncell = p ∧
      (INT_MIN ≤ p.1 ∧
        (∀ i, 0 ≤ i → i < ncell → owner i = t ∧ 1 / 100000 ≤ |U (u0 + i)| →
          |U (u0 + stride + i) / U (u0 + i)| + sqrtf (shallow2d_g * U (u0 + i)) ≤ p.1) ∧
        (p.1 = INT_MIN ∨ ∃ i, 0 ≤ i ∧ i < ncell ∧
          (owner i = t ∧ 1 / 100000 ≤ |U (u0 + i)|) ∧
          p.1 = |U (u0 + stride + i) / U (u0 + i)| + sqrtf (shallow2d_g * U (u0 + i)))) ∧
      (INT_MIN ≤ p.2 ∧
        (∀ i, 0 ≤ i → i < ncell → owner i = t ∧ 1 / 100000 ≤ |U (u0 + i)| →
          |U (u0 + 2 * stride + i) / U (u0 + i)| + sqrtf (shallow2d_g * U (u0 + i)) ≤ p.2) ∧
        (p.2 = INT_MIN ∨ ∃ i, 0 ≤ i ∧ i < ncell ∧
          (owner i = t ∧ 1 / 100000 ≤ |U (u0 + i)|) ∧
          p.2 = |U (u0 + 2 * stride + i) / U (u0 + i)| +
            sqrtf (shallow2d_g * U (u0 + i)))) := by
    intro t
    rw [shallow2dv_speed_thread_eq]
    obtain ⟨p, hp, hp1, hp2⟩ := forRange_max_pair 0 ncell
      (fun i => owner i = t ∧ 1 / 100000 ≤ |U (u0 + i)|)
      (fun i => |U (u0 + stride + i) / U (u0 + i)| + sqrtf (shallow2d_g * U (u0 + i)))
      (fun i => |U (u0 + 2 * stride + i) / U (u0 + i)| + sqrtf (shallow2d_g * U (u0 + i)))
      (INT_MIN, INT_MIN)
    rw [hp]
    exact ⟨_, rfl, hp1, hp2⟩
  constructor
  · refine ⟨a1, ?_, ?_, ?_⟩
    · obtain ⟨p, hp, ⟨c1, _, _⟩, _⟩ := hthread 0
      have := a2 0 (le_refl _) (by omega) trivial
      simp only [hp] at this
      exact le_trans c1 this
    · intro i hi0 hi1 hq
      obtain ⟨p, hp, ⟨_, c2, _⟩, _⟩ := hthread (owner i)
      have := a2 (owner i) (hown i hi0 hi1).1 (hown i hi0 hi1).2 trivial
      simp only [hp] at this
      exact le_trans (c2 i hi0 hi1 ⟨rfl, hq⟩) this
    · rcases a3 with a3 | ⟨t, _, _, _, a3⟩
      · exact Or.inl a3
      · obtain ⟨p, hp, ⟨_, _, c3⟩, _⟩ := hthread t
        simp only [hp] at a3
        rcases c3 with c3 | ⟨i, hi0, hi1, hq, c3⟩
        · exact Or.inr (Or.inl (a3.trans c3))
        · exact Or.inr (Or.inr ⟨i, hi0, hi1, hq.2, a3.trans c3⟩)
  · refine ⟨b1, ?_, ?_, ?_⟩
    · obtain ⟨p, hp, _, ⟨c1, _, _⟩⟩ := hthread 0
      have := b2 0 (le_refl _) (by omega) trivial
      simp only [hp] at this
      exact le_trans c1 this
    · intro i hi0 hi1 hq
      obtain ⟨p, hp, _, ⟨_, c2, _⟩⟩ := hthread (owner i)
      have := b2 (owner i) (hown i hi0 hi1).1 (hown i hi0 hi1).2 trivial
      simp only [hp] at this
      exact le_trans (c2 i hi0 hi1 ⟨rfl, hq⟩) this
    · rcases b3 with b3 | ⟨t, _, _, _, b3⟩
      · exact Or.inl b3
      · obtain ⟨p, hp, _, ⟨_, _, c3⟩⟩ := hthread t
        simp only [hp] at b3
        rcases c3 with c3 | ⟨i, hi0, hi1, hq, c3⟩
        · exact Or.inr (Or.inl (b3.trans c3))
        · exact Or.inr (Or.inr ⟨i, hi0, hi1, hq.2, b3.trans c3⟩)

/-- A maximum is below every bound of its start value, of `INT_MIN` and of its cells. -/
theorem isSpeedMax_le (r c0 : ℚ) (n : Int) (keep : Int → Prop) (val : Int → ℚ) (b : ℚ)
    (hr : IsSpeedMax r c0 n keep val) (h1 : c0 ≤ b) (h2 : INT_MIN ≤ b)
    (h3 : ∀ i, 0 ≤ i → i < n → keep i → val i ≤ b) : r ≤ b := by
  obtain ⟨_, _, _, hmem⟩ := hr
  rcases hmem with h | h | ⟨i, hi0, hi1, hk, h⟩
  · rw [h]
    exact h1
  · rw [h]
    exact h2
  · rw [h]
    exact h3 i hi0 hi1 hk

/-- The maximum over a run is the maximum over its second part started from the maximum over
its first part. -/
theorem isSpeedMax_split (r a b c0 : ℚ) (n m : Int) (keep keepB : Int → Prop)
    (val valB : Int → ℚ) (hm0 : 0 ≤ m) (hm1 : m ≤ n)
    (hr : IsSpeedMax r c0 n keep val) (ha : IsSpeedMax a c0 m keep val)
    (hb : IsSpeedMax b a (n - m) keepB valB)
    (hB : ∀ i, 0 ≤ i → i < n - m → (keepB i ↔ keep (m + i)) ∧ valB i = val (m + i)) :
    b = r := by
  apply le_antisymm
  · apply isSpeedMax_le b a (n - m) keepB valB r hb
    · exact isSpeedMax_le a c0 m keep val r ha hr.1 hr.2.1
        (fun i hi0 hi1 hk => hr.2.2.1 i hi0 (by omega) hk)
    · exact hr.2.1
    · intro i hi0 hi1 hk
      rw [(hB i hi0 hi1).2]
      exact hr.2.2.1 (m + i) (by omega) (by omega) ((hB i hi0 hi1).1.mp hk)
  · apply isSpeedMax_le r c0 n keep val b hr
    · exact le_trans ha.1 hb.1
    · exact hb.2.1
    · intro i hi0 hi1 hk
      by_cases him : i < m
      · exact le_trans (ha.2.2.1 i hi0 him hk) hb.1
      · have e : m + (i - m) = i := by ring
        have h1 := hB (i - m) (by omega) (by omega)
        rw [e] at h1
        rw [← h1.2]
        exact hb.2.2.1 (i - m) (by omega) (by omega) (h1.1.mpr hk)

/-- The maximum over a run is the maximum over its first part started from the maximum over
its second part. -/
theorem isSpeedMax_split_rev (r a b c0 : ℚ) (n m : Int) (keep keepB : Int → Prop)
    (val valB : Int → ℚ) (hm0 : 0 ≤ m) (hm1 : m ≤ n)
    (hr : IsSpeedMax r c0 n keep val) (hb : IsSpeedMax b c0 (n - m) keepB valB)
    (ha : IsSpeedMax a b m keep val)
    (hB : ∀ i, 0 ≤ i → i < n - m → (keepB i ↔ keep (m + i)) ∧ valB i = val (m + i)) :
    a = r := by
  apply le_antisymm
  · apply isSpeedMax_le a b m keep val r ha
    · apply isSpeedMax_le b c0 (n - m) keepB valB r hb hr.1 hr.2.1
      intro i hi0 hi1 hk
      rw [(hB i hi0 hi1).2]
      exact hr.2.2.1 (m + i) (by omega) (by omega) ((hB i hi0 hi1).1.mp hk)
    · exact hr.2.1
    · intro i hi0 hi1 hk
      exact hr.2.2.1 i hi0 (by omega) hk
  · apply isSpeedMax_le r c0 n keep val a hr
    · exact le_trans hb.1 ha.1
    · exact ha.2.1
    · intro i hi0 hi1 hk
      by_cases him : i < m
      · exact ha.2.2.1 i hi0 him hk
      · have e : m + (i - m) = i := by ring
        have h1 := hB (i - m) (by omega) (by omega)
        rw [e] at h1
        rw [← h1.2]
        exact le_trans (hb.2.2.1 (i - m) (by omega) (by omega) (h1.1.mpr hk)) ha.1

/-- The maximum over a run does not change when the cells are permuted. -/
theorem isSpeedMax_perm (r r2 c0 : ℚ) (n : Int) (keep keep2 : Int → Prop)
    (val val2 : Int → ℚ) (sigma tau : Int → Int)
    (hr : IsSpeedMax r c0 n keep val) (hr2 : IsSpeedMax r2 c0 n keep2 val2)
    (hs : ∀ i, 0 ≤ i → i < n → (0 ≤ sigma i ∧ sigma i < n) ∧
      (keep2 i ↔ keep (sigma i)) ∧ val2 i = val (sigma i))
    (ht : ∀ j, 0 ≤ j → j < n → (0 ≤ tau j ∧ tau j < n) ∧ sigma (tau j) = j) :
    r2 = r := by
  apply le_antisymm
  · apply isSpeedMax_le r2 c0 n keep2 val2 r hr2 hr.1 hr.2.1
    intro i hi0 hi1 hk
    obtain ⟨⟨s0, s1⟩, sk, sv⟩ := hs i hi0 hi1
    rw [sv]
    exact hr.2.2.1 (sigma i) s0 s1 (sk.mp hk)
  · apply isSpeedMax_le r c0 n keep val r2 hr hr2.1 hr2.2.1
    intro j hj0 hj1 hk
    obtain ⟨⟨t0, t1⟩, tj⟩ := ht j hj0 hj1
    obtain ⟨_, sk, sv⟩ := hs (tau j) t0 t1
    rw [tj] at sk sv
    rw [← sv]
    exact hr2.2.2.1 (tau j) t0 t1 (sk.mpr hk)

/-- C21: the wave-speed reduction is order-independent and composable.  For any accumulator
`c` and any split of a run of `n` cells into the first `m` cells `A` and the remaining `n - m`
cells `B`, `shallow2d_speed` over the whole run equals `shallow2d_speed` over `B` applied to
the result of `shallow2d_speed` over `A`, and equals the same with `A` and `B` exchanged; and
an input `U2` that holds the cells of `U` in permuted order (`sigma`, with inverse `tau`) gives
the same result.  Every call runs with a team of at least one thread under a schedule of its
own. -/
theorem shallow2d_speed_order_independent (sqrtf : ℚ → ℚ) (nthreads : Int)
    (owner ownerA ownerB owner2 : Int → Int) (c : ℚ × ℚ) (U : Buf) (u0 n m stride : Int)
    (hT : 1 ≤ nthreads) (hm : 0 ≤ m ∧ m ≤ n)
    (hown : ∀ i, 0 ≤ owner i ∧ owner i < nthreads)
    (hownA : ∀ i, 0 ≤ ownerA i ∧ ownerA i < nthreads)
    (hownB : ∀ i, 0 ≤ ownerB i ∧ ownerB i < nthreads)
    (hown2 : ∀ i, 0 ≤ owner2 i ∧ owner2 i < nthreads) :
    shallow2d_speed sqrtf nthreads ownerB
        (shallow2d_speed sqrtf nthreads ownerA c U u0 m stride) U (u0 + m) (n - m) stride =
      shallow2d_speed sqrtf nthreads owner c U u0 n stride ∧
    shallow2d_speed sqrtf nthreads ownerA
        (shallow2d_speed sqrtf nthreads ownerB c U (u0 + m) (n - m) stride) U u0 m stride =
      shallow2d_speed sqrtf nthreads owner c U u0 n stride ∧
    (∀ (U2 : Buf) (sigma tau : Int → Int),
      (∀ i, 0 ≤ i → i < n → (0 ≤ sigma i ∧ sigma i < n) ∧
        U2 (u0 + i) = U (u0 + sigma i) ∧
        U2 (u0 + stride + i) = U (u0 + stride + sigma i) ∧
        U2 (u0 + 2 * stride + i) = U (u0 + 2 * stride + sigma i)) →
      (∀ j, 0 ≤ j → j < n → (0 ≤ tau j ∧ tau j < n) ∧ sigma (tau j) = j) →
      shallow2d_speed sqrtf nthreads owner2 c U2 u0 n stride =
        shallow2d_speed sqrtf nthreads owner c U u0 n stride) := by
  obtain ⟨w1, w2⟩ := shallow2d_speed_isMax sqrtf nthreads owner c U u0 n stride hT
    (fun i _ _ => hown i)
  obtain ⟨a1, a2⟩ := shallow2d_speed_isMax sqrtf nthreads ownerA c U u0 m stride hT
    (fun i _ _ => hownA i)
  obtain ⟨b1, b2⟩ := shallow2d_speed_isMax sqrtf nthreads ownerB c U (u0 + m) (n - m) stride
    hT (fun i _ _ => hownB i)
  obtain ⟨ba1, ba2⟩ := shallow2d_speed_isMax sqrtf nthreads ownerB
    (shallow2d_speed sqrtf nthreads ownerA c U u0 m stride) U (u0 + m) (n - m) stride hT
    (fun i _ _ => hownB i)
  obtain ⟨ab1, ab2⟩ := shallow2d_speed_isMax sqrtf nthreads ownerA
    (shallow2d_speed sqrtf nthreads ownerB c U (u0 + m) (n - m) stride) U u0 m stride hT
    (fun i _ _ => hownA i)
  have hB1 : ∀ i, 0 ≤ i → i < n - m →
      ((1 / 100000 ≤ |U (u0 + m + i)|) ↔ (1 / 100000 ≤ |U (u0 + (m + i))|)) ∧
      |U (u0 + m + stride + i) / U (u0 + m + i)| + sqrtf (shallow2d_g * U (u0 + m + i)) =
        |U (u0 + stride + (m + i)) / U (u0 + (m + i))| +
          sqrtf (shallow2d_g * U (u0 + (m + i))) := by
    intro i _ _
    have e1 : u0 + m + i = u0 + (m + i) := by ring
    have e2 : u0 + m + stride + i = u0 + stride + (m + i) := by ring
    rw [e1, e2]
    exact ⟨Iff.rfl, rfl⟩
  have hB2 : ∀ i, 0 ≤ i → i < n - m →
      ((1 / 100000 ≤ |U (u0 + m + i)|) ↔ (1 / 100000 ≤ |U (u0 + (m + i))|)) ∧
      |U (u0 + m + 2 * stride + i) / U (u0 + m + i)| + sqrtf (shallow2d_g * U (u0 + m + i)) =
        |U (u0 + 2 * stride + (m + i)) / U (u0 + (m + i))| +
          sqrtf (shallow2d_g * U (u0 + (m + i))) := by
    intro i _ _
    have e1 : u0 + m + i = u0 + (m + i) := by ring
    have e2 : u0 + m + 2 * stride + i = u0 + 2 * stride + (m + i) := by ring
    rw [e1, e2]
    exact ⟨Iff.rfl, rfl⟩
  refine ⟨?_, ?_, ?_⟩
  · exact Prod.ext
      (isSpeedMax_split _ _ _ _ n m _ _ _ _ hm.1 hm.2 w1 a1 ba1 hB1)
      (isSpeedMax_split _ _ _ _ n m _ _ _ _ hm.1 hm.2 w2 a2 ba2 hB2)
  · exact Prod.ext
      (isSpeedMax_split_rev _ _ _ _ n m _ _ _ _ hm.1 hm.2 w1 b1 ab1 hB1)
      (isSpeedMax_split_rev _ _ _ _ n m _ _ _ _ hm.1 hm.2 w2 b2 ab2 hB2)
  · intro U2 sigma tau hs ht
    obtain ⟨p1, p2⟩ := shallow2d_speed_isMax sqrtf nthreads owner2 c U2 u0 n stride hT
      (fun i _ _ => hown2 i)
    refine Prod.ext
      (isSpeedMax_perm _ _ _ n _ _ _ _ sigma tau w1 p1 ?_ ht)
      (isSpeedMax_perm _ _ _ n _ _ _ _ sigma tau w2 p2 ?_ ht)
    · intro i hi0 hi1
      obtain ⟨hr, e0, e1, _⟩ := hs i hi0 hi1
      rw [e0, e1]
      exact ⟨hr, Iff.rfl, rfl⟩
    · intro i hi0 hi1
      obtain ⟨hr, e0, _, e2⟩ := hs i hi0 hi1
      rw [e0, e2]
      exact ⟨hr, Iff.rfl, rfl⟩

/-- C21 on the sample at rest, 256 cells split after the first 100, teams of two threads with
three different schedules: both orders of the two partial reductions give the reduction over
the whole run. -/
theorem shallow2d_speed_order_independent_witness :
    ((1 : Int) ≤ 2 ∧ (0 : Int) ≤ 100 ∧ (100 : Int) ≤ 256) ∧
      shallow2d_speed sample_sqrtf 2 (fun _ => 1)
          (shallow2d_speed sample_sqrtf 2 (fun _ => 0) (1 / 10 ^ 15, 1 / 10 ^ 15)
            sample_flat.u 0 100 256) sample_flat.u (0 + 100) (256 - 100) 256 =
        shallow2d_speed sample_sqrtf 2 (fun i => i % 2) (1 / 10 ^ 15, 1 / 10 ^ 15)
          sample_flat.u 0 256 256 ∧
      shallow2d_speed sample_sqrtf 2 (fun _ => 0)
          (shallow2d_speed sample_sqrtf 2 (fun _ => 1) (1 / 10 ^ 15, 1 / 10 ^ 15)
            sample_flat.u (0 + 100) (256 - 100) 256) sample_flat.u 0 100 256 =
        shallow2d_speed sample_sqrtf 2 (fun i => i % 2) (1 / 10 ^ 15, 1 / 10 ^ 15)
          sample_flat.u 0 256 256 := by
  obtain ⟨h1, h2, _⟩ := shallow2d_speed_order_independent sample_sqrtf 2 (fun i => i % 2)
    (fun _ => 0) (fun _ => 1) (fun _ => 0) (1 / 10 ^ 15, 1 / 10 ^ 15) sample_flat.u 0 256 100
    256 (by decide) ⟨by decide, by decide⟩
    (fun i => by
      show 0 ≤ i % 2 ∧ i % 2 < 2
      omega)
    (fun _ => ⟨by norm_num, by norm_num⟩) (fun _ => ⟨by norm_num, by norm_num⟩)
    (fun _ => ⟨by norm_num, by norm_num⟩)
  exact ⟨⟨by decide, by decide, by decide⟩, h1, h2⟩

/-! ## Raster output -/

/-- A stepping loop with a positive step whose body appends `L i` to a list runs `n` times,
`n` the least number with `hi ≤ i0 + n * step`, and appends `L i0`, `L (i0 + step)`, ... in
this order, as soon as the fuel allows `n` iterations. -/
theorem forStepM_append {α : Type} (step hi : Int) (L : Int → List α) :
    ∀ (n fuel : Nat) (i0 : Int) (out : List α), n ≤ fuel → hi ≤ i0 + (n : Int) * step →
      (∀ j : Nat, j < n → i0 + (j : Int) * step < hi) →
      forStepM step hi (fun i out => some (out ++ L i)) fuel i0 out =
        some (out ++ (List.range n).flatMap (fun j => L (i0 + (j : Int) * step))) := by
  intro n
  induction n with
  | zero =>
    intro fuel i0 out _ hhi _
    have hnot : ¬ i0 < hi := by
      simp only [Nat.cast_zero, zero_mul, add_zero] at hhi
      omega
    cases fuel with
    | zero => simp [forStepM, hnot]
    | succ f => simp [forStepM, hnot]
  | succ n ih =>
    intro fuel i0 out hfuel hhi hlt
    cases fuel with
    | zero => omega
    | succ f =>
      have h0 : i0 < hi := by
        have := hlt 0 (by omega)
        simpa using this
      have hrec := ih f (i0 + step) (out ++ L i0) (by omega)
        (by
          have e : i0 + step + (n : Int) * step = i0 + ((n + 1 : Nat) : Int) * step := by
            push_cast
            ring
          rw [e]
          exact hhi)
        (by
          intro j hj
          have := hlt (j + 1) (by omega)
          have e : i0 + step + (j : Int) * step = i0 + ((j + 1 : Nat) : Int) * step := by
            push_cast
            ring
          rw [e]
          exact this)
      have e : ∀ j : Nat, L (i0 + step + (j : Int) * step) =
          L (i0 + ((j.succ : Nat) : Int) * step) := by
        intro j
        congr 1
        push_cast
        ring
      simp only [forStepM, if_pos h0, Option.some_bind]
      rw [hrec, List.range_succ_eq_map, List.flatMap_cons, List.flatMap_map, List.append_assoc]
      simp only [Nat.cast_zero, zero_mul, add_zero, Function.comp, e]

/-- The number of iterations of a stepping loop from 0: `hi / step` rounded up. -/
theorem forStep_count (step hi : Int) (hstep : 1 ≤ step) (n : Nat)
    (hn : (n : Int) = (hi + step - 1) / step) :
    hi ≤ 0 + (n : Int) * step ∧ ∀ j : Nat, j < n → 0 + (j : Int) * step < hi := by
  have h1 : (hi + step - 1) / step * step ≤ hi + step - 1 :=
    Int.ediv_mul_le _ (by omega)
  have h2 : hi + step - 1 < ((hi + step - 1) / step + 1) * step :=
    Int.lt_ediv_add_one_mul_self _ (by omega)
  rw [← hn] at h1 h2
  constructor
  · nlinarith
  · intro j hj
    have hj2 : (j : Int) + 1 ≤ (n : Int) := by omega
    have : ((j : Int) + 1) * step ≤ (n : Int) * step :=
      mul_le_mul_of_nonneg_right hj2 (by omega)
    nlinarith

/-- What `viz_frame` writes, for a stride `vskip ≥ 1`: with `W` and `H` the quotients
`nx / vskip` and `ny / vskip` rounded up, the `W * H` scalars of the leading field at the cells
`(a * vskip, b * vskip)`, `a < W`, `b < H`, in row-major order. -/
theorem viz_frame_shape (sim : central2d_t) (vskip : Int) (fuel : Nat) (out : List ℚ)
    (hv : 1 ≤ vskip) (W H : Nat)
    (hW : (W : Int) = (sim.nx + vskip - 1) / vskip)
    (hH : (H : Int) = (sim.ny + vskip - 1) / vskip) (hfW : W ≤ fuel) (hfH : H ≤ fuel) :
    viz_frame fuel out sim vskip =
      some (out ++ (List.range H).flatMap (fun b => (List.range W).flatMap (fun a =>
        [sim.u (central2d_offset sim 0 (0 + (a : Int) * vskip) (0 + (b : Int) * vskip))]))) := by
  obtain ⟨w1, w2⟩ := forStep_count vskip sim.nx hv W hW
  obtain ⟨h1, h2⟩ := forStep_count vskip sim.ny hv H hH
  have hinner : (fun iy (out : List ℚ) =>
      forStepM vskip sim.nx (fun ix out =>
        some (out ++ [sim.u (central2d_offset sim 0 ix iy)])) fuel 0 out) =
      (fun iy (out : List ℚ) => some (out ++ (List.range W).flatMap (fun a =>
        [sim.u (central2d_offset sim 0 (0 + (a : Int) * vskip) iy)]))) := by
    funext iy out2
    exact forStepM_append vskip sim.nx (fun ix => [sim.u (central2d_offset sim 0 ix iy)]) W
      fuel 0 out2 hfW w1 w2
  unfold viz_frame
  rw [hinner]
  exact forStepM_append vskip sim.ny (fun iy => (List.range W).flatMap (fun a =>
    [sim.u (central2d_offset sim 0 (0 + (a : Int) * vskip) iy)])) H fuel 0 out hfH h1 h2

/-- C23 fails on the code for a stride that does not divide the grid: on the 5 by 5 grid of
`central2d_init`, every cell holding its flat index, with `vskip = 2`, the header of `viz_open`
is `(2, 2)`, but `viz_frame` writes the nine scalars of the cells `(0,0), (2,0), (4,0), (0,2),
..., (4,4)`, three per row, not `2 * 2 = 4`. -/
theorem viz_frame_exceeds_header :
    viz_open (central2d_init (fun p => (p : ℚ)) 5 5 5 5 3 shallow2d_flux
        (fun cxy _ _ _ _ => cxy) 1) 2 = [2, 2] ∧
      viz_frame 5 [] (central2d_init (fun p => (p : ℚ)) 5 5 5 5 3 shallow2d_flux
        (fun cxy _ _ _ _ => cxy) 1) 2 = some [56, 58, 60, 82, 84, 86, 108, 110, 112] := by
  constructor
  · norm_num [viz_open, central2d_init, Int.tdiv]
  · norm_num [viz_frame, forStepM, central2d_init, central2d_offset]

/-! ## The assertions of the corrector -/

set_option maxRecDepth 100000 in
/-- C26, as stated, fails: on one field of 3 by 3 cells with the window `[0, 3) x [0, 3)` the
two assertions of `central2d_correct` hold (the call returns), but the fifth access, the read
`u[i - stride]` of `limited_derivk` on row `ylo = 0`, is at offset `-2`, outside
`[0, nfield*nx*ny)`. -/
theorem central2d_correct_asserts_counterexample :
    (∃ r, central2d_correct (fun _ => 0) 0 (fun _ => 0) sample_stripes sample_stripes
      sample_stripes (1 / 2) (1 / 3) 0 3 0 3 3 3 1 = some r) ∧
    (central2d_correct_trace 0 0 3 0 3 3 3 1 [])[4]? = some (Access.mk Arr.u 0 (-2)) ∧
    ¬ access_in_bounds 1 3 3 (Access.mk Arr.u 0 (-2)) := by
  refine ⟨central2d_correct_some _ _ _ _ _ _ _ _ 0 3 0 3 3 3 1
    ⟨by decide, by decide, by decide⟩ ⟨by decide, by decide, by decide⟩, by rfl, ?_⟩
  intro h
  have h2 : (0 : Int) ≤ -2 := h.1.1
  omega

/-- C26, amended: whenever `1 ≤ xlo < xhi ≤ nx-2` and `1 ≤ ylo < yhi ≤ ny-2` (the assertions
of `central2d_correct` then hold and the call returns), every read of `u`, `f`, `g`, every
write of `v` and every scratch access that `central2d_correct` performs is in bounds
(`u`, `f`, `g`, `v` inside `[0, nfield*nx*ny)` and within the field of the access, scratch
inside `[0, 6*nx)`), and the values that it reads from the scratch rows `ux`, `uy` are the
limited derivatives of the same row: the window of `v` holds the direct staggered formula on
`u`, `f`, `g`, whatever the scratch block held before (`sc2`). -/
theorem central2d_correct_window_safe (v sc u f g : Buf) (cx cy : ℚ)
    (xlo xhi ylo yhi nx ny nfield : Int)
    (hx : 1 ≤ xlo ∧ xlo < xhi ∧ xhi ≤ nx - 2) (hy : 1 ≤ ylo ∧ ylo < yhi ∧ yhi ≤ ny - 2) :
    ((0 ≤ xlo ∧ xlo < xhi ∧ xhi ≤ nx) ∧ (0 ≤ ylo ∧ ylo < yhi ∧ yhi ≤ ny) ∧ 3 ≤ nx) ∧
    (∀ a ∈ central2d_correct_trace 0 xlo xhi ylo yhi nx ny nfield [],
      access_in_bounds nfield nx ny a) ∧
    ∃ r, central2d_correct v 0 sc u f g cx cy xlo xhi ylo yhi nx ny nfield = some r ∧
      (∀ k ix iy, 0 ≤ k → k < nfield → xlo ≤ ix → ix < xhi → ylo ≤ iy → iy < yhi →
        r.1 (0 + ((k * ny + iy) * nx + ix)) =
          correct_at cx cy (view u nx ny) (view f nx ny) (view g nx ny) k ix iy) ∧
      (∀ sc2 : Buf, ∃ r2,
        central2d_correct v 0 sc2 u f g cx cy xlo xhi ylo yhi nx ny nfield = some r2 ∧
        ∀ k ix iy, 0 ≤ k → k < nfield → xlo ≤ ix → ix < xhi → ylo ≤ iy → iy < yhi →
          r2.1 (0 + ((k * ny + iy) * nx + ix)) = r.1 (0 + ((k * ny + iy) * nx + ix))) := by
  have hy2 : 0 ≤ ylo ∧ ylo < yhi ∧ yhi ≤ ny := ⟨by omega, hy.2.1, by omega⟩
  refine ⟨⟨⟨by omega, hx.2.1, by omega⟩, hy2, by omega⟩, ?_, ?_⟩
  · exact central2d_correct_trace_ok nfield nx ny 0 0 xlo xhi ylo yhi [] (by omega)
      (le_refl _) (by decide) (by ring) hx.1 hx.2.2 hy.1 (by omega) hy.2.2 (all_nil _)
  · obtain ⟨r, hr, hval, _⟩ := central2d_correct_frame v 0 sc u f g cx cy xlo xhi ylo yhi nx
      ny nfield hx hy2
    refine ⟨r, hr, hval, ?_⟩
    intro sc2
    obtain ⟨r2, hr2, hval2, _⟩ := central2d_correct_frame v 0 sc2 u f g cx cy xlo xhi ylo yhi
      nx ny nfield hx hy2
    refine ⟨r2, hr2, ?_⟩
    intro k ix iy hk0 hk1 hx0 hx1 hy0 hy1
    rw [hval k ix iy hk0 hk1 hx0 hx1 hy0 hy1, hval2 k ix iy hk0 hk1 hx0 hx1 hy0 hy1]

/-- C26 (amended) on one field of 6 by 6 cells with the window `[1, 3) x [1, 3)`: every access
of the corrector is in bounds. -/
theorem central2d_correct_window_safe_witness :
    ((1 : Int) ≤ 1 ∧ (1 : Int) < 3 ∧ (3 : Int) ≤ 6 - 2) ∧
      ∀ a ∈ central2d_correct_trace 0 1 3 1 3 6 6 1 [], access_in_bounds 1 6 6 a :=
  ⟨⟨by decide, by decide, by decide⟩,
    (central2d_correct_window_safe (fun _ => 0) (fun _ => 0) sample_stripes sample_stripes
      sample_stripes (1 / 2) (1 / 3) 1 3 1 3 6 6 1 ⟨by decide, by decide, by decide⟩
      ⟨by decide, by decide, by decide⟩).2.1⟩

/-! ## The back-copy of a pass -/

/-- How often a loop that appends `base + i` for `lo ≤ i < hi` writes the offset `p`. -/
theorem forRange_append_count (lo hi base : Int) (a : Int → Int) (ha : ∀ i, a i = base + i)
    (tr : List Int) (p : Int) :
    List.count p (forRange lo hi (fun i tr => tr ++ [a i]) tr) =
      List.count p tr + (if lo ≤ p - base ∧ p - base < hi then 1 else 0) := by
  have key := forRange_ind_max lo hi (fun i (tr : List Int) => tr ++ [a i])
    (fun m t => List.count p t =
      List.count p tr + (if lo ≤ p - base ∧ p - base < m then 1 else 0)) tr
    (by beta_reduce; split_ifs <;> omega)
    (by
      intro i t hi0 hi1 hinv
      beta_reduce at hinv ⊢
      rw [List.count_append, hinv, ha i]
      by_cases hpi : p = base + i
      · have e : List.count p [base + i] = 1 := by rw [hpi]; simp
        rw [e]
        split_ifs <;> omega
      · have e : List.count p [base + i] = 0 :=
          List.count_eq_zero.2 (by simpa using hpi)
        rw [e]
        split_ifs <;> omega)
  beta_reduce at key
  rw [key]
  split_ifs <;> omega

/-- How often `copy_subgrid` writes the cell at row `R`, column `i` of the destination: once
when the cell lies in the destination window, and not at all otherwise. -/
theorem copy_subgrid_writes_count (d0 w h s c0 r0 : Int) (tr : List Int)
    (hd0 : d0 = r0 * s + c0) (hc0 : 0 ≤ c0) (hw : c0 + w ≤ s)
    (R i : Int) (hi0 : 0 ≤ i) (hi1 : i < s) :
    List.count (R * s + i) (copy_subgrid_writes d0 w h s tr) =
      List.count (R * s + i) tr +
        (if c0 ≤ i ∧ i < c0 + w ∧ r0 ≤ R ∧ R < r0 + h then 1 else 0) := by
  have key := forRange_ind_max 0 h
    (fun iy (tr : List Int) => forRange 0 w (fun ix tr => tr ++ [d0 + (iy * s + ix)]) tr)
    (fun m t => List.count (R * s + i) t = List.count (R * s + i) tr +
      (if c0 ≤ i ∧ i < c0 + w ∧ r0 ≤ R ∧ R < r0 + m then 1 else 0)) tr
    (by beta_reduce; split_ifs <;> omega)
    (by
      intro iy t h1 h2 hinv
      beta_reduce at hinv ⊢
      rw [forRange_append_count 0 w (d0 + iy * s) (fun ix => d0 + (iy * s + ix))
        (by intro ix; ring) t (R * s + i), hinv]
      have e1 : R * s + i - (d0 + iy * s) = (R - r0 - iy) * s + (i - c0) := by
        rw [hd0]; ring
      rw [e1]
      have hiff := flat_window_iff s c0 w (R - r0 - iy) i hc0 hw hi0 hi1
      by_cases hc : 0 ≤ (R - r0 - iy) * s + (i - c0) ∧ (R - r0 - iy) * s + (i - c0) < w
      · obtain ⟨hD, h3, h4⟩ := hiff.mp hc
        rw [if_pos hc]
        split_ifs <;> omega
      · have hn : ¬ (R - r0 - iy = 0 ∧ c0 ≤ i ∧ i < c0 + w) := fun h => hc (hiff.mpr h)
        rw [if_neg hc]
        split_ifs <;> omega)
  unfold copy_subgrid_writes
  beta_reduce at key
  rw [key]
  split_ifs <;> omega

/-- How often `copy_subgrid_allfield` writes the cell at row `R`, column `i` of field `k` of
the destination: once when `0 ≤ k < nfield` and the cell lies in the destination window. -/
theorem copy_subgrid_allfield_writes_count (d0 w h c1 s nfield H c0 r0 : Int)
    (tr : List Int) (hd0 : d0 = r0 * s + c0) (hc1 : c1 = H * s) (hc0 : 0 ≤ c0)
    (hw : c0 + w ≤ s) (hr0 : 0 ≤ r0) (hh : r0 + h ≤ H)
    (k R i : Int) (hR0 : 0 ≤ R) (hR1 : R < H) (hi0 : 0 ≤ i) (hi1 : i < s) :
    List.count ((k * H + R) * s + i) (copy_subgrid_allfield_writes d0 w h c1 s nfield tr) =
      List.count ((k * H + R) * s + i) tr +
        (if 0 ≤ k ∧ k < nfield ∧ c0 ≤ i ∧ i < c0 + w ∧ r0 ≤ R ∧ R < r0 + h
          then 1 else 0) := by
  have key := forRange_ind_max 0 nfield
    (fun m (tr : List Int) => copy_subgrid_writes (d0 + m * c1) w h s tr)
    (fun m t => List.count ((k * H + R) * s + i) t =
      List.count ((k * H + R) * s + i) tr +
        (if 0 ≤ k ∧ k < m ∧ c0 ≤ i ∧ i < c0 + w ∧ r0 ≤ R ∧ R < r0 + h then 1 else 0)) tr
    (by beta_reduce; split_ifs <;> omega)
    (by
      intro m t hm0 hm1 hinv
      beta_reduce at hinv ⊢
      rw [copy_subgrid_writes_count (d0 + m * c1) w h s c0 (m * H + r0) t
        (by rw [hd0, hc1]; ring) hc0 hw (k * H + R) i hi0 hi1, hinv]
      by_cases hkm : k = m
      · subst hkm
        split_ifs <;> omega
      · have hne : ¬ (c0 ≤ i ∧ i < c0 + w ∧ m * H + r0 ≤ k * H + R ∧
            k * H + R < m * H + r0 + h) := by
          intro hc
          rcases lt_or_gt_of_ne hkm with hlt | hgt
          · have : (k + 1) * H ≤ m * H := mul_le_mul_of_nonneg_right (by omega) (by omega)
            have e : (k + 1) * H = k * H + H := by ring
            omega
          · have : (m + 1) * H ≤ k * H := mul_le_mul_of_nonneg_right (by omega) (by omega)
            have e : (m + 1) * H = m * H + H := by ring
            omega
        rw [if_neg hne]
        split_ifs <;> omega)
  unfold copy_subgrid_allfield_writes
  beta_reduce at key
  rw [key]
  split_ifs <;> omega

/-- A loop over `0, 1, 2, 3`, unrolled. -/
theorem forRange_four {σ : Type} (body : Int → σ → σ) (s : σ) :
    forRange 0 4 body s = body 3 (body 2 (body 1 (body 0 s))) := by
  have h : ((4 : Int) - 0).toNat = 4 := by decide
  simp only [forRange, h, loopN]
  norm_num

/-- How often the back-copy of tile `(px, py)` of a 2 by 2 tiling writes the cell at row `R`,
column `i` of field `k` of the global buffer. -/
theorem backcopy_tile_count (sx sy ng nfield px py : Int) (tr : List Int) (hng : 0 ≤ ng)
    (hpx : 0 ≤ px ∧ px ≤ 1) (hpy : 0 ≤ py ∧ py ≤ 1)
    (k R i : Int) (hR0 : 0 ≤ R) (hR1 : R < 2 * sy + 2 * ng) (hi0 : 0 ≤ i)
    (hi1 : i < 2 * sx + 2 * ng) :
    List.count ((k * (2 * sy + 2 * ng) + R) * (2 * sx + 2 * ng) + i)
        (copy_subgrid_allfield_writes
          ((2 * sx + 2 * ng) * (ng + py * sy) + (ng + px * sx)) sx sy
          ((2 * sx + 2 * ng) * (2 * sy + 2 * ng)) (2 * sx + 2 * ng) nfield tr) =
      List.count ((k * (2 * sy + 2 * ng) + R) * (2 * sx + 2 * ng) + i) tr +
        (if 0 ≤ k ∧ k < nfield ∧ ng + px * sx ≤ i ∧ i < ng + px * sx + sx ∧
            ng + py * sy ≤ R ∧ R < ng + py * sy + sy then 1 else 0) := by
  have hx : px = 0 ∨ px = 1 := by omega
  have hy : py = 0 ∨ py = 1 := by omega
  exact copy_subgrid_allfield_writes_count _ sx sy _ (2 * sx + 2 * ng) nfield
    (2 * sy + 2 * ng) (ng + px * sx) (ng + py * sy) tr (by ring) (by ring)
    (by rcases hx with h | h <;> subst h <;> omega)
    (by rcases hx with h | h <;> subst h <;> omega)
    (by rcases hy with h | h <;> subst h <;> omega)
    (by rcases hy with h | h <;> subst h <;> omega)
    k R i hR0 hR1 hi0 hi1

/-- How often one pass of the run loop writes the cell at row `R`, column `i` of field `k` of
the global buffer: once for an interior cell of a field, never otherwise. -/
theorem central2d_xrun_sweep_writes_count (nx ny ng nfield sx sy : Int)
    (hnx : nx = 2 * sx) (hny : ny = 2 * sy) (hsx : 0 ≤ sx) (hsy : 0 ≤ sy) (hng : 0 ≤ ng)
    (k R i : Int) (hR0 : 0 ≤ R) (hR1 : R < ny + 2 * ng) (hi0 : 0 ≤ i)
    (hi1 : i < nx + 2 * ng) :
    List.count ((k * (ny + 2 * ng) + R) * (nx + 2 * ng) + i)
        (central2d_xrun_sweep_writes nx ny ng nfield 2 2) =
      if 0 ≤ k ∧ k < nfield ∧ ng ≤ i ∧ i < ng + nx ∧ ng ≤ R ∧ R < ng + ny then 1 else 0 := by
  have hdx : Int.tdiv nx 2 = sx := by
    rw [Int.tdiv_eq_ediv (by omega) (by omega)]; omega
  have hdy : Int.tdiv ny 2 = sy := by
    rw [Int.tdiv_eq_ediv (by omega) (by omega)]; omega
  have h4 : (2 : Int) * 2 = 4 := by norm_num
  have m0 : Int.tmod 0 2 = 0 := by decide
  have m1 : Int.tmod 1 2 = 1 := by decide
  have m2 : Int.tmod 2 2 = 0 := by decide
  have m3 : Int.tmod 3 2 = 1 := by decide
  have d0 : Int.tdiv 0 2 = 0 := by decide
  have d1 : Int.tdiv 1 2 = 0 := by decide
  have d2 : Int.tdiv 2 2 = 1 := by decide
  have d3 : Int.tdiv 3 2 = 1 := by decide
  unfold central2d_xrun_sweep_writes
  simp only [hdx, hdy, h4, forRange_four, m0, m1, m2, m3, d0, d1, d2, d3]
  subst hnx hny
  rw [backcopy_tile_count sx sy ng nfield 1 1 _ hng (by omega) (by omega) k R i
      hR0 hR1 hi0 hi1,
    backcopy_tile_count sx sy ng nfield 0 1 _ hng (by omega) (by omega) k R i
      hR0 hR1 hi0 hi1,
    backcopy_tile_count sx sy ng nfield 1 0 _ hng (by omega) (by omega) k R i
      hR0 hR1 hi0 hi1,
    backcopy_tile_count sx sy ng nfield 0 0 _ hng (by omega) (by omega) k R i
      hR0 hR1 hi0 hi1, List.count_nil]
  split_ifs <;> omega

/-- Every offset that one pass of the run loop writes in the global buffer is the offset of
an interior cell of a field. -/
theorem central2d_xrun_sweep_writes_interior (nx ny ng nfield sx sy : Int)
    (hnx : nx = 2 * sx) (hny : ny = 2 * sy) (hsx : 0 ≤ sx) (hsy : 0 ≤ sy) :
    ∀ p ∈ central2d_xrun_sweep_writes nx ny ng nfield 2 2,
      ∃ k ix iy, (0 ≤ k ∧ k < nfield) ∧ (0 ≤ ix ∧ ix < nx) ∧ (0 ≤ iy ∧ iy < ny) ∧
        p = (k * (ny + 2 * ng) + (ng + iy)) * (nx + 2 * ng) + (ng + ix) := by
  have hdx : Int.tdiv nx 2 = sx := by
    rw [Int.tdiv_eq_ediv (by omega) (by omega)]; omega
  have hdy : Int.tdiv ny 2 = sy := by
    rw [Int.tdiv_eq_ediv (by omega) (by omega)]; omega
  unfold central2d_xrun_sweep_writes
  simp only [hdx, hdy]
  apply forRange_all
  · exact all_nil _
  · intro j tr hj0 hj1 htr
    have hjx : Int.tmod j 2 = j % 2 := Int.tmod_eq_emod hj0 (by omega)
    have hjy : Int.tdiv j 2 = j / 2 := Int.tdiv_eq_ediv hj0 (by omega)
    have hpx : Int.tmod j 2 = 0 ∨ Int.tmod j 2 = 1 := by omega
    have hpy : Int.tdiv j 2 = 0 ∨ Int.tdiv j 2 = 1 := by omega
    generalize Int.tmod j 2 = px at hpx
    generalize Int.tdiv j 2 = py at hpy
    unfold copy_subgrid_allfield_writes
    apply forRange_all
    · exact htr
    · intro k tr hk0 hk1 htr
      unfold copy_subgrid_writes
      apply forRange_all
      · exact htr
      · intro iy tr hy0 hy1 htr
        apply forRange_all
        · exact htr
        · intro ix tr hx0 hx1 htr
          refine all_append _ _ _ htr (all_cons _ _ _ ?_ (all_nil _))
          refine ⟨k, px * sx + ix, py * sy + iy, ⟨hk0, hk1⟩, ?_, ?_, ?_⟩
          · rcases hpx with h | h <;> subst h <;> omega
          · rcases hpy with h | h <;> subst h <;> omega
          · ring

/-- C22: for even `nx = 2*sx`, `ny = 2*sy` and the 2 by 2 tiling of `central2d_xrun`:
the tile sizes are `sx` and `sy`; the worker indices `j = 0..3` map through
`(px, py) = (j % 2, j / 2)` into the four tiles, and every tile is the image of exactly one
`j`; the back-copy of worker `j` puts the tile's local interior cell `(i, jj)` of field `k`
at the global flat index `central2d_offset(k, px*sx + i, py*sy + jj)`; in the offsets written
by one pass every interior cell of every field occurs exactly once, no ghost cell of any field
occurs, and every offset written is that of an interior cell of a field. -/
theorem central2d_xrun_backcopy_exact (sim : central2d_t) (sx sy : Int)
    (hnx : sim.nx = 2 * sx) (hny : sim.ny = 2 * sy) (hsx : 0 ≤ sx) (hsy : 0 ≤ sy)
    (hng : 0 ≤ sim.ng) :
    (Int.tdiv sim.nx 2 = sx ∧ Int.tdiv sim.ny 2 = sy) ∧
    (∀ j, 0 ≤ j → j < 2 * 2 →
      (0 ≤ Int.tmod j 2 ∧ Int.tmod j 2 < 2) ∧ (0 ≤ Int.tdiv j 2 ∧ Int.tdiv j 2 < 2)) ∧
    (∀ px py, 0 ≤ px → px < 2 → 0 ≤ py → py < 2 →
      ∃ j, (0 ≤ j ∧ j < 2 * 2) ∧ (Int.tmod j 2 = px ∧ Int.tdiv j 2 = py) ∧
        ∀ j2, 0 ≤ j2 → j2 < 2 * 2 → Int.tmod j2 2 = px → Int.tdiv j2 2 = py → j2 = j) ∧
    (∀ (acc pu : Buf) (j k i jj : Int), 0 ≤ j → j < 2 * 2 → 0 ≤ k → k < sim.nfield →
      0 ≤ i → i < sx → 0 ≤ jj → jj < sy →
      copy_subgrid_allfield acc
          ((sim.nx + 2 * sim.ng) * (sim.ng + Int.tdiv j 2 * sy) +
            (sim.ng + Int.tmod j 2 * sx))
          pu (sim.ng * (sx + 2 * sim.ng) + sim.ng) sx sy
          ((sim.nx + 2 * sim.ng) * (sim.ny + 2 * sim.ng))
          ((sx + 2 * sim.ng) * (sy + 2 * sim.ng)) (sim.nx + 2 * sim.ng) (sx + 2 * sim.ng)
          sim.nfield
          (central2d_offset sim k (Int.tmod j 2 * sx + i) (Int.tdiv j 2 * sy + jj)) =
        pu ((k * (sy + 2 * sim.ng) + (sim.ng + jj)) * (sx + 2 * sim.ng) + (sim.ng + i))) ∧
    (∀ k ix iy, 0 ≤ k → k < sim.nfield → 0 ≤ ix → ix < sim.nx → 0 ≤ iy → iy < sim.ny →
      List.count (central2d_offset sim k ix iy)
        (central2d_xrun_sweep_writes sim.nx sim.ny sim.ng sim.nfield 2 2) = 1) ∧
    (∀ k ix iy, -sim.ng ≤ ix → ix < sim.nx + sim.ng → -sim.ng ≤ iy → iy < sim.ny + sim.ng →
      ¬ (0 ≤ ix ∧ ix < sim.nx ∧ 0 ≤ iy ∧ iy < sim.ny) →
      central2d_offset sim k ix iy ∉
        central2d_xrun_sweep_writes sim.nx sim.ny sim.ng sim.nfield 2 2) ∧
    (∀ p ∈ central2d_xrun_sweep_writes sim.nx sim.ny sim.ng sim.nfield 2 2,
      ∃ k ix iy, (0 ≤ k ∧ k < sim.nfield) ∧ (0 ≤ ix ∧ ix < sim.nx) ∧
        (0 ≤ iy ∧ iy < sim.ny) ∧ p = central2d_offset sim k ix iy) := by
  have hdx : Int.tdiv sim.nx 2 = sx := by
    rw [Int.tdiv_eq_ediv (by omega) (by omega)]; omega
  have hdy : Int.tdiv sim.ny 2 = sy := by
    rw [Int.tdiv_eq_ediv (by omega) (by omega)]; omega
  refine ⟨⟨hdx, hdy⟩, ?_, ?_, ?_, ?_, ?_, ?_⟩
  · intro j hj0 hj1
    rw [Int.tmod_eq_emod hj0 (by omega), Int.tdiv_eq_ediv hj0 (by omega)]
    omega
  · intro px py hx0 hx1 hy0 hy1
    refine ⟨2 * py + px, by omega, ?_, ?_⟩
    · rw [Int.tmod_eq_emod (by omega) (by omega), Int.tdiv_eq_ediv (by omega) (by omega)]
      omega
    · intro j2 h0 h1 hm hd
      rw [Int.tmod_eq_emod h0 (by omega)] at hm
      rw [Int.tdiv_eq_ediv h0 (by omega)] at hd
      omega
  · intro acc pu j k i jj hj0 hj1 hk0 hk1 hi0 hi1 hjj0 hjj1
    have hjx : Int.tmod j 2 = j % 2 := Int.tmod_eq_emod hj0 (by omega)
    have hjy : Int.tdiv j 2 = j / 2 := Int.tdiv_eq_ediv hj0 (by omega)
    have hpx : Int.tmod j 2 = 0 ∨ Int.tmod j 2 = 1 := by omega
    have hpy : Int.tdiv j 2 = 0 ∨ Int.tdiv j 2 = 1 := by omega
    generalize Int.tmod j 2 = px at hpx
    generalize Int.tdiv j 2 = py at hpy
    have e : central2d_offset sim k (px * sx + i) (py * sy + jj) =
        (k * (sim.ny + 2 * sim.ng) + (sim.ng + py * sy + jj)) * (sim.nx + 2 * sim.ng) +
          (sim.ng + px * sx + i) := by
      simp only [central2d_offset]; ring
    rw [e, copy_subgrid_allfield_get acc pu _ _ sx sy _ _ (sim.nx + 2 * sim.ng)
      (sx + 2 * sim.ng) sim.nfield (sim.ny + 2 * sim.ng) (sim.ng + px * sx)
      (sim.ng + py * sy) (by ring) (by ring)
      (by rcases hpx with h | h <;> subst h <;> omega)
      (by rcases hpx with h | h <;> subst h <;> omega)
      (by rcases hpy with h | h <;> subst h <;> omega)
      (by rcases hpy with h | h <;> subst h <;> omega)
      k (sim.ng + py * sy + jj) (sim.ng + px * sx + i)
      (by rcases hpy with h | h <;> subst h <;> omega)
      (by rcases hpy with h | h <;> subst h <;> omega)
      (by rcases hpx with h | h <;> subst h <;> omega)
      (by rcases hpx with h | h <;> subst h <;> omega),
      if_pos (by omega)]
    congr 1
    ring
  · intro k ix iy hk0 hk1 hx0 hx1 hy0 hy1
    have e : central2d_offset sim k ix iy =
        (k * (sim.ny + 2 * sim.ng) + (sim.ng + iy)) * (sim.nx + 2 * sim.ng) +
          (sim.ng + ix) := rfl
    rw [e, central2d_xrun_sweep_writes_count sim.nx sim.ny sim.ng sim.nfield sx sy hnx hny
      hsx hsy hng k (sim.ng + iy) (sim.ng + ix) (by omega) (by omega) (by omega) (by omega),
      if_pos (by omega)]
  · intro k ix iy hx0 hx1 hy0 hy1 hout
    have e : central2d_offset sim k ix iy =
        (k * (sim.ny + 2 * sim.ng) + (sim.ng + iy)) * (sim.nx + 2 * sim.ng) +
          (sim.ng + ix) := rfl
    apply List.count_eq_zero.1
    rw [e, central2d_xrun_sweep_writes_count sim.nx sim.ny sim.ng sim.nfield sx sy hnx hny
      hsx hsy hng k (sim.ng + iy) (sim.ng + ix) (by omega) (by omega) (by omega) (by omega),
      if_neg (by omega)]
  · exact central2d_xrun_sweep_writes_interior sim.nx sim.ny sim.ng sim.nfield sx sy hnx hny
      hsx hsy

/-- C22 at the 8 by 8 sample grid with four ghost cells and
three fields (tiles of 4 by 4 cells). -/
theorem central2d_xrun_backcopy_exact_witness :
    (sample_sim.nx = 2 * 4 ∧ sample_sim.ny = 2 * 4 ∧ (0 : Int) ≤ 4 ∧ 0 ≤ sample_sim.ng) ∧
    (∀ k ix iy, 0 ≤ k → k < sample_sim.nfield → 0 ≤ ix → ix < sample_sim.nx → 0 ≤ iy →
      iy < sample_sim.ny →
      List.count (central2d_offset sample_sim k ix iy)
        (central2d_xrun_sweep_writes sample_sim.nx sample_sim.ny sample_sim.ng
          sample_sim.nfield 2 2) = 1) :=
  ⟨⟨rfl, rfl, by decide, by decide⟩,
    (central2d_xrun_backcopy_exact sample_sim 4 4 rfl rfl (by decide) (by decide)
      (by decide)).2.2.2.2.1⟩

/-! ## The time step and the ghost cells of the global buffer -/

/-- The stand-in for `sqrtf` at `g = 9.8` lies between 3 and 4. -/
theorem sample_sqrtf_bounds : 3 < sample_sqrtf (98 / 10) ∧ sample_sqrtf (98 / 10) < 4 := by
  constructor <;> norm_num [sample_sqrtf, Function.iterate_succ]

/-- The CFL time step of the 8 by 8 grid with four ghost cells when the padded buffer is at
rest (`h = 1`, `hu = hv = 0`) except for the `hu` entry `a ≥ 0` of the padded cell `(0, 0)`,
a ghost cell: `1 / (a + sqrtf(g))`. -/
theorem central2d_xrun_cfl_rest_ghost (u : Buf) (a : ℚ) (ha : 0 ≤ a)
    (hu : ∀ p, 0 ≤ p → p < 768 → u p = if p = 256 then a else if p < 256 then 1 else 0) :
    central2d_xrun_cfl u 8 8 4 (shallow2d_speed sample_sqrtf 4 (fun i => i % 4)) 1 1 1 =
      1 / (a + sample_sqrtf (98 / 10)) := by
  obtain ⟨hS3, hS4⟩ := sample_sqrtf_bounds
  obtain ⟨hx, hy⟩ := shallow2d_speed_isMax sample_sqrtf 4 (fun i => i % 4)
    (1 / 10 ^ 15, 1 / 10 ^ 15) u 0 256 256 (by norm_num)
    (fun i _ _ => by show 0 ≤ i % 4 ∧ i % 4 < 4; omega)
  have hv : ∀ i, 0 ≤ i → i < 256 → u (0 + i) = 1 ∧
      u (0 + 256 + i) = (if i = 0 then a else 0) ∧ u (0 + 2 * 256 + i) = 0 := by
    intro i h0 h1
    refine ⟨?_, ?_, ?_⟩
    · rw [hu _ (by omega) (by omega), if_neg (by omega), if_pos (by omega)]
    · rw [hu _ (by omega) (by omega)]
      by_cases hi : i = 0
      · rw [if_pos (by omega), if_pos hi]
      · rw [if_neg (by omega), if_neg (by omega), if_neg hi]
    · rw [hu _ (by omega) (by omega), if_neg (by omega), if_neg (by omega)]
  have hkeep : ∀ i, 0 ≤ i → i < 256 → (1 : ℚ) / 100000 ≤ |u (0 + i)| := by
    intro i h0 h1
    rw [(hv i h0 h1).1]
    norm_num
  have hval1 : ∀ i, 0 ≤ i → i < 256 →
      |u (0 + 256 + i) / u (0 + i)| + sample_sqrtf (shallow2d_g * u (0 + i)) =
        (if i = 0 then a else 0) + sample_sqrtf (98 / 10) := by
    intro i h0 h1
    obtain ⟨e0, e1, _⟩ := hv i h0 h1
    rw [e0, e1, div_one, mul_one]
    simp only [shallow2d_g]
    by_cases hi : i = 0
    · rw [if_pos hi, abs_of_nonneg ha]
    · rw [if_neg hi, abs_zero]
  have hval2 : ∀ i, 0 ≤ i → i < 256 →
      |u (0 + 2 * 256 + i) / u (0 + i)| + sample_sqrtf (shallow2d_g * u (0 + i)) =
        sample_sqrtf (98 / 10) := by
    intro i h0 h1
    obtain ⟨e0, _, e2⟩ := hv i h0 h1
    rw [e0, e2, div_one, mul_one, abs_zero, zero_add]
    simp only [shallow2d_g]
  have hI : INT_MIN ≤ 0 := by norm_num [INT_MIN]
  have e1 : (shallow2d_speed sample_sqrtf 4 (fun i => i % 4) (1 / 10 ^ 15, 1 / 10 ^ 15) u 0
      256 256).1 = a + sample_sqrtf (98 / 10) := by
    apply le_antisymm
    · apply isSpeedMax_le _ _ _ _ _ _ hx
      · show (1 : ℚ) / 10 ^ 15 ≤ a + sample_sqrtf (98 / 10)
        have : (1 : ℚ) / 10 ^ 15 ≤ 3 := by norm_num
        linarith
      · linarith
      · intro i h0 h1 _
        show |u (0 + 256 + i) / u (0 + i)| + sample_sqrtf (shallow2d_g * u (0 + i)) ≤ _
        rw [hval1 i h0 h1]
        by_cases hi : i = 0
        · rw [if_pos hi]
        · rw [if_neg hi]
          linarith
    · have h := hx.2.2.1 0 (by norm_num) (by norm_num) (hkeep 0 (by norm_num) (by norm_num))
      have h2 : |u (0 + 256 + 0) / u (0 + 0)| + sample_sqrtf (shallow2d_g * u (0 + 0)) ≤
          (shallow2d_speed sample_sqrtf 4 (fun i => i % 4) (1 / 10 ^ 15, 1 / 10 ^ 15) u 0
            256 256).1 := h
      rw [hval1 0 (by norm_num) (by norm_num), if_pos rfl] at h2
      exact h2
  have e2 : (shallow2d_speed sample_sqrtf 4 (fun i => i % 4) (1 / 10 ^ 15, 1 / 10 ^ 15) u 0
      256 256).2 = sample_sqrtf (98 / 10) := by
    apply le_antisymm
    · apply isSpeedMax_le _ _ _ _ _ _ hy
      · show (1 : ℚ) / 10 ^ 15 ≤ sample_sqrtf (98 / 10)
        have : (1 : ℚ) / 10 ^ 15 ≤ 3 := by norm_num
        linarith
      · linarith
      · intro i h0 h1 _
        show |u (0 + 2 * 256 + i) / u (0 + i)| + sample_sqrtf (shallow2d_g * u (0 + i)) ≤ _
        rw [hval2 i h0 h1]
    · have h := hy.2.2.1 0 (by norm_num) (by norm_num) (hkeep 0 (by norm_num) (by norm_num))
      have h2 : |u (0 + 2 * 256 + 0) / u (0 + 0)| + sample_sqrtf (shallow2d_g * u (0 + 0)) ≤
          (shallow2d_speed sample_sqrtf 4 (fun i => i % 4) (1 / 10 ^ 15, 1 / 10 ^ 15) u 0
            256 256).2 := h
      rw [hval2 0 (by norm_num) (by norm_num)] at h2
      exact h2
  have h256 : ((8 : Int) + 2 * 4) * (8 + 2 * 4) = 256 := by norm_num
  simp only [central2d_xrun_cfl, h256, e1, e2, div_one]
  rw [max_eq_left (by linarith)]

/-- A pass of the run loop on the 8 by 8 grid keeps the padded buffer at rest except for the
`hu` entry `a` of the padded cell `(0, 0)`: the interior stays uniform and no ghost cell is
written. -/
theorem central2d_xrun_body_rest_ghost (alloc : Nat → Int → Buf) (speed : speed_t)
    (tfinal : ℚ) (a : ℚ) (st : RunState)
    (hu : ∀ p, 0 ≤ p → p < 768 →
      st.u p = if p = 256 then a else if p < 256 then 1 else 0) :
    ∃ st2, central2d_xrun_body alloc 8 8 4 3 shallow2d_flux speed tfinal 1 1 1 st = some st2 ∧
      ∀ p, 0 ≤ p → p < 768 → st2.u p = if p = 256 then a else if p < 256 then 1 else 0 := by
  obtain ⟨st2, h2, hv2⟩ := central2d_xrun_body_spec shallow2d_flux 3 shallow2d_phi
    shallow2d_psi shallow2d_flux_cellwise alloc 8 8 4 speed tfinal 1 1 1 st (by decide)
    (by decide) (by decide) (by decide) (by decide)
  obtain ⟨_, _, _, _, _, hsw⟩ := central2d_xrun_body_fields alloc 8 8 4 3 shallow2d_flux speed
    tfinal 1 1 1 st st2 h2
  obtain ⟨u2, hu2, hfr⟩ := central2d_xrun_sweep_frame st.u (alloc st.iters) 8 8 4 3
    shallow2d_flux speed (central2d_xrun_dt st.u st.t 8 8 4 speed tfinal 1 1 1).1 1 1
    (by decide) (by decide) (by decide)
  rw [hsw, Option.some.injEq] at hu2
  refine ⟨st2, h2, ?_⟩
  intro p hp0 hp1
  have hp : p = ((p / 256) * (8 + 2 * 4) + p % 256 / 16) * (8 + 2 * 4) + p % 16 := by omega
  have hint : ∀ k gx gy, 0 ≤ k → k < 3 → 0 ≤ gx → gx < 8 → 0 ≤ gy → gy < 8 →
      st.u ((k * (8 + 2 * 4) + (4 + gy)) * (8 + 2 * 4) + (4 + gx)) =
        (fun k : Int => if k = 0 then (1 : ℚ) else 0) k := by
    intro k gx gy hk0 hk1 hx0 hx1 hy0 hy1
    rw [hu _ (by omega) (by omega)]
    beta_reduce
    split_ifs <;> first | rfl | (exfalso; omega)
  by_cases hin : (4 ≤ p % 16 ∧ p % 16 < 12) ∧ (4 ≤ p % 256 / 16 ∧ p % 256 / 16 < 12)
  · have h := hv2 (p / 256) (p % 16 - 4) (p % 256 / 16 - 4) (by omega) (by omega) (by omega)
      (by omega) (by omega) (by omega)
    rw [pass_at_const shallow2d_phi shallow2d_psi 3 _ _ st.u 8 8 4
      (fun k : Int => if k = 0 then (1 : ℚ) else 0) (by decide) (by decide) hint (p / 256)
      (p % 16 - 4) (p % 256 / 16 - 4) (by omega) (by omega)] at h
    have hp2 : p = ((p / 256) * (8 + 2 * 4) + (4 + (p % 256 / 16 - 4))) * (8 + 2 * 4) +
        (4 + (p % 16 - 4)) := by omega
    rw [← hp2] at h
    rw [h]
    split_ifs <;> first | rfl | (exfalso; omega)
  · have h := hfr (p / 256) (p % 256 / 16) (p % 16) (by omega) (by omega) (by omega)
      (by omega) (by omega)
    rw [← hp, ← hu2] at h
    rw [h]
    exact hu p hp0 hp1

/-- When pass `n` is the first that sets `done`, the run returns the state after pass `n` for
every fuel of at least `n`, and no fuel gives another result. -/
theorem central2d_xrun_loop_unique (alloc : Nat → Int → Buf) (nx ny ng nfield : Int)
    (flux : flux_t) (speed : speed_t) (tfinal dx dy cfl : ℚ) (n : Nat) (st rn : RunState)
    (hp : central2d_xrun_passes alloc nx ny ng nfield flux speed tfinal dx dy cfl n st =
      some rn)
    (hd : rn.done = true)
    (hbefore : ∀ m s, m < n →
      central2d_xrun_passes alloc nx ny ng nfield flux speed tfinal dx dy cfl m st =
        some s → s.done = false) :
    (∀ fuel, n ≤ fuel →
      central2d_xrun_loop alloc nx ny ng nfield flux speed tfinal dx dy cfl fuel st =
        some rn) ∧
    (∀ fuel r,
      central2d_xrun_loop alloc nx ny ng nfield flux speed tfinal dx dy cfl fuel st =
        some r → r = rn) := by
  refine ⟨?_, ?_⟩
  · intro fuel hf
    exact central2d_xrun_loop_of_passes alloc nx ny ng nfield flux speed tfinal dx dy cfl n
      st rn fuel hf hp hd hbefore
  · intro fuel r h
    obtain ⟨n2, _, hp2, hd2, hb2⟩ := central2d_xrun_loop_passes alloc nx ny ng nfield flux
      speed tfinal dx dy cfl fuel st r h
    rcases Nat.lt_trichotomy n2 n with hlt | heq | hgt
    · have := hbefore n2 r hlt hp2
      rw [hd2] at this
      exact absurd this (by decide)
    · rw [heq, hp] at hp2
      exact (Option.some.inj hp2).symm
    · have := hb2 n rn hgt hp
      rw [hd] at this
      exact absurd this (by decide)

/-- One more pass after `n` passes. -/
theorem central2d_xrun_passes_step (alloc : Nat → Int → Buf) (nx ny ng nfield : Int)
    (flux : flux_t) (speed : speed_t) (tfinal dx dy cfl : ℚ) (n : Nat) (st s s2 : RunState)
    (hs : central2d_xrun_passes alloc nx ny ng nfield flux speed tfinal dx dy cfl n st =
      some s)
    (h2 : central2d_xrun_body alloc nx ny ng nfield flux speed tfinal dx dy cfl s = some s2) :
    central2d_xrun_passes alloc nx ny ng nfield flux speed tfinal dx dy cfl (n + 1) st =
      some s2 := by
  simp only [central2d_xrun_passes, hs, Option.some_bind, h2]

/-- The first 250 passes of the run of `sample_wave_ghost` to `tfinal = 1/2`: each uses the
time step `1 / (1000 + sqrtf(g))` that the ghost cell dictates, and none sets `done`. -/
theorem central2d_run_passes_ghost (alloc : Nat → Int → Buf) (n : Nat) (hn : n ≤ 250) :
    ∃ s, central2d_xrun_passes alloc 8 8 4 3 shallow2d_flux
        (shallow2d_speed sample_sqrtf 4 (fun i => i % 4)) (1 / 2) 1 1 1 n
        (RunState.mk sample_wave_ghost.u 0 0 false 0 []) = some s ∧
      s.t = 2 * (n : ℚ) * (1 / (1000 + sample_sqrtf (98 / 10))) ∧ s.done = false ∧
      s.nstep = 2 * (n : Int) ∧
      ∀ p, 0 ≤ p → p < 768 → s.u p = if p = 256 then 1000 else if p < 256 then 1 else 0 := by
  obtain ⟨hS3, hS4⟩ := sample_sqrtf_bounds
  induction n with
  | zero =>
    refine ⟨_, rfl, ?_, rfl, rfl, ?_⟩
    · show (0 : ℚ) = 2 * ((0 : Nat) : ℚ) * (1 / (1000 + sample_sqrtf (98 / 10)))
      rw [Nat.cast_zero]; ring
    · intro p _ _
      rfl
  | succ m ih =>
    obtain ⟨s, hs, ht, hd, hns, hu⟩ := ih (by omega)
    obtain ⟨s2, h2, hu2⟩ := central2d_xrun_body_rest_ghost alloc
      (shallow2d_speed sample_sqrtf 4 (fun i => i % 4)) (1 / 2) 1000 s hu
    obtain ⟨f1, f2, f3, _, _, _⟩ := central2d_xrun_body_fields alloc 8 8 4 3 shallow2d_flux
      (shallow2d_speed sample_sqrtf 4 (fun i => i % 4)) (1 / 2) 1 1 1 s s2 h2
    have hm : (m : ℚ) ≤ 249 := by exact_mod_cast (by omega : m ≤ 249)
    have hpos : (0 : ℚ) < 1000 + sample_sqrtf (98 / 10) := by linarith
    have hdt : central2d_xrun_dt s.u s.t 8 8 4
        (shallow2d_speed sample_sqrtf 4 (fun i => i % 4)) (1 / 2) 1 1 1 =
        (1 / (1000 + sample_sqrtf (98 / 10)), false) := by
      simp only [central2d_xrun_dt]
      rw [central2d_xrun_cfl_rest_ghost s.u 1000 (by norm_num) hu, if_neg]
      rw [ht, ge_iff_le, not_le]
      have e : 2 * (m : ℚ) * (1 / (1000 + sample_sqrtf (98 / 10))) +
          2 * (1 / (1000 + sample_sqrtf (98 / 10))) =
          (2 * (m : ℚ) + 2) / (1000 + sample_sqrtf (98 / 10)) := by ring
      rw [e, div_lt_iff₀ hpos]
      linarith
    refine ⟨s2, by simp only [central2d_xrun_passes, hs, Option.some_bind, h2], ?_, ?_, ?_,
      hu2⟩
    · rw [f1, hdt, ht]
      push_cast
      ring
    · rw [f3, hdt]
    · rw [f2, hns]
      push_cast
      ring

/-- Pass 251 of the run of `sample_wave_ghost` to `tfinal = 1/2` is the first that sets
`done`; it ends sub-step 502. -/
theorem central2d_run_last_pass_ghost (alloc : Nat → Int → Buf) :
    ∃ r, central2d_xrun_passes alloc 8 8 4 3 shallow2d_flux
        (shallow2d_speed sample_sqrtf 4 (fun i => i % 4)) (1 / 2) 1 1 1 251
        (RunState.mk sample_wave_ghost.u 0 0 false 0 []) = some r ∧
      r.done = true ∧ r.nstep = 502 := by
  obtain ⟨hS3, hS4⟩ := sample_sqrtf_bounds
  obtain ⟨s, hs, ht, hd, hns, hu⟩ := central2d_run_passes_ghost alloc 250 (by omega)
  obtain ⟨s2, h2, hu2⟩ := central2d_xrun_body_rest_ghost alloc
    (shallow2d_speed sample_sqrtf 4 (fun i => i % 4)) (1 / 2) 1000 s hu
  obtain ⟨f1, f2, f3, _, _, _⟩ := central2d_xrun_body_fields alloc 8 8 4 3 shallow2d_flux
    (shallow2d_speed sample_sqrtf 4 (fun i => i % 4)) (1 / 2) 1 1 1 s s2 h2
  have hpos : (0 : ℚ) < 1000 + sample_sqrtf (98 / 10) := by linarith
  have hdt : (central2d_xrun_dt s.u s.t 8 8 4
      (shallow2d_speed sample_sqrtf 4 (fun i => i % 4)) (1 / 2) 1 1 1).2 = true := by
    simp only [central2d_xrun_dt]
    rw [central2d_xrun_cfl_rest_ghost s.u 1000 (by norm_num) hu, if_pos]
    rw [ht, ge_iff_le]
    have e : 2 * ((250 : Nat) : ℚ) * (1 / (1000 + sample_sqrtf (98 / 10))) +
        2 * (1 / (1000 + sample_sqrtf (98 / 10))) =
        502 / (1000 + sample_sqrtf (98 / 10)) := by push_cast; ring
    rw [e, le_div_iff₀ hpos]
    linarith
  refine ⟨s2, ?_, by rw [f3, hdt], ?_⟩
  · exact central2d_xrun_passes_step alloc 8 8 4 3 shallow2d_flux
      (shallow2d_speed sample_sqrtf 4 (fun i => i % 4)) (1 / 2) 1 1 1 250 _ s s2 hs h2
  · rw [f2, hns]
    norm_num

/-- C24 fails on the code: the configurations `sample_wave` and `sample_wave_ghost`
(8 by 8 cells, four ghost cells, the shallow-water callbacks) have the same parameters and
callbacks and agree on every interior cell of every field, indeed everywhere but at the flat
index 256, the `hu` entry of the ghost cell `(-4, -4)`.  Yet the first pass of
`central2d_run(sim, 1/2)` takes the time step `1/4` and sets `done` for `sample_wave`, and
takes the time step `1 / (1000 + sqrtf(g)) < 1/1000` without setting `done` for
`sample_wave_ghost`; the run of `sample_wave` returns the step count 2 (for every fuel of at
least 1, and no fuel gives another result), the run of `sample_wave_ghost` returns the step
count 502 (for every fuel of at least 251, and no fuel gives another result). -/
theorem central2d_run_ghost_dependence (alloc : Nat → Int → Buf) :
    (sample_wave_ghost.nfield = sample_wave.nfield ∧ sample_wave_ghost.nx = sample_wave.nx ∧
      sample_wave_ghost.ny = sample_wave.ny ∧ sample_wave_ghost.ng = sample_wave.ng ∧
      sample_wave_ghost.dx = sample_wave.dx ∧ sample_wave_ghost.dy = sample_wave.dy ∧
      sample_wave_ghost.cfl = sample_wave.cfl ∧ sample_wave_ghost.flux = sample_wave.flux ∧
      sample_wave_ghost.speed = sample_wave.speed) ∧
    (∀ k ix iy, 0 ≤ ix → ix < sample_wave.nx → 0 ≤ iy → iy < sample_wave.ny →
      sample_wave_ghost.u (central2d_offset sample_wave_ghost k ix iy) =
        sample_wave.u (central2d_offset sample_wave k ix iy)) ∧
    (∀ p, p ≠ 256 → sample_wave_ghost.u p = sample_wave.u p) ∧
    central2d_xrun_dt sample_wave.u 0 sample_wave.nx sample_wave.ny sample_wave.ng
      sample_wave.speed (1 / 2) sample_wave.dx sample_wave.dy sample_wave.cfl =
      (1 / 4, true) ∧
    central2d_xrun_dt sample_wave_ghost.u 0 sample_wave_ghost.nx sample_wave_ghost.ny
      sample_wave_ghost.ng sample_wave_ghost.speed (1 / 2) sample_wave_ghost.dx
      sample_wave_ghost.dy sample_wave_ghost.cfl =
      (1 / (1000 + sample_sqrtf (98 / 10)), false) ∧
    1 / (1000 + sample_sqrtf (98 / 10)) < 1 / 1000 ∧
    (∃ r, (∀ fuel, 1 ≤ fuel → central2d_run fuel alloc sample_wave (1 / 2) = some r) ∧
      (∀ fuel r2, central2d_run fuel alloc sample_wave (1 / 2) = some r2 → r2 = r) ∧
      r.nstep = 2) ∧
    (∃ r, (∀ fuel, 251 ≤ fuel →
        central2d_run fuel alloc sample_wave_ghost (1 / 2) = some r) ∧
      (∀ fuel r2, central2d_run fuel alloc sample_wave_ghost (1 / 2) = some r2 → r2 = r) ∧
      r.nstep = 502) := by
  obtain ⟨hS3, hS4⟩ := sample_sqrtf_bounds
  have hposA : (0 : ℚ) < 0 + sample_sqrtf (98 / 10) := by linarith
  have hposB : (0 : ℚ) < 1000 + sample_sqrtf (98 / 10) := by linarith
  have huA : ∀ p : Int, 0 ≤ p → p < 768 →
      sample_wave.u p = if p = 256 then 0 else if p < 256 then 1 else 0 := by
    intro p _ _
    show (if p < 256 then (1 : ℚ) else 0) = _
    split_ifs <;> first | rfl | (exfalso; omega)
  have huB : ∀ p : Int, 0 ≤ p → p < 768 →
      sample_wave_ghost.u p = if p = 256 then 1000 else if p < 256 then 1 else 0 :=
    fun _ _ _ => rfl
  have hdtA : central2d_xrun_dt sample_wave.u 0 8 8 4
      (shallow2d_speed sample_sqrtf 4 (fun i => i % 4)) (1 / 2) 1 1 1 = (1 / 4, true) := by
    simp only [central2d_xrun_dt]
    rw [central2d_xrun_cfl_rest_ghost sample_wave.u 0 le_rfl huA, if_pos]
    · norm_num
    · rw [ge_iff_le]
      have e : (0 : ℚ) + 2 * (1 / (0 + sample_sqrtf (98 / 10))) =
          2 / (0 + sample_sqrtf (98 / 10)) := by ring
      rw [e, le_div_iff₀ hposA]
      linarith
  have hdtB : central2d_xrun_dt sample_wave_ghost.u 0 8 8 4
      (shallow2d_speed sample_sqrtf 4 (fun i => i % 4)) (1 / 2) 1 1 1 =
      (1 / (1000 + sample_sqrtf (98 / 10)), false) := by
    simp only [central2d_xrun_dt]
    rw [central2d_xrun_cfl_rest_ghost sample_wave_ghost.u 1000 (by norm_num) huB, if_neg]
    rw [ge_iff_le, not_le]
    have e : (0 : ℚ) + 2 * (1 / (1000 + sample_sqrtf (98 / 10))) =
        2 / (1000 + sample_sqrtf (98 / 10)) := by ring
    rw [e, div_lt_iff₀ hposB]
    linarith
  refine ⟨⟨rfl, rfl, rfl, rfl, rfl, rfl, rfl, rfl, rfl⟩, ?_, ?_, hdtA, hdtB, ?_, ?_, ?_⟩
  · intro k ix iy hx0 hx1 hy0 hy1
    have hx : ix < 8 := hx1
    have hy : iy < 8 := hy1
    have e : central2d_offset sample_wave_ghost k ix iy =
        central2d_offset sample_wave k ix iy := rfl
    have e2 : central2d_offset sample_wave k ix iy =
        (k * (8 + 2 * 4) + (4 + iy)) * (8 + 2 * 4) + (4 + ix) := rfl
    rw [e]
    show (if central2d_offset sample_wave k ix iy = 256 then (1000 : ℚ)
      else if central2d_offset sample_wave k ix iy < 256 then 1 else 0) =
      (if central2d_offset sample_wave k ix iy < 256 then 1 else 0)
    rw [if_neg (by rw [e2]; omega)]
  · intro p hp
    show (if p = 256 then (1000 : ℚ) else if p < 256 then 1 else 0) =
      (if p < 256 then 1 else 0)
    rw [if_neg hp]
  · exact one_div_lt_one_div_of_lt (by norm_num) (by linarith)
  · obtain ⟨r, hr, _⟩ := central2d_xrun_body_rest_ghost alloc
      (shallow2d_speed sample_sqrtf 4 (fun i => i % 4)) (1 / 2) 0
      (RunState.mk sample_wave.u 0 0 false 0 []) huA
    obtain ⟨_, f2, f3, _, _, _⟩ := central2d_xrun_body_fields alloc 8 8 4 3 shallow2d_flux
      (shallow2d_speed sample_sqrtf 4 (fun i => i % 4)) (1 / 2) 1 1 1 _ r hr
    have hd : r.done = true := by
      rw [f3]
      exact congrArg Prod.snd hdtA
    obtain ⟨u1, u2⟩ := central2d_xrun_loop_unique alloc 8 8 4 3 shallow2d_flux
      (shallow2d_speed sample_sqrtf 4 (fun i => i % 4)) (1 / 2) 1 1 1 1
      (RunState.mk sample_wave.u 0 0 false 0 []) r
      (central2d_xrun_passes_step alloc 8 8 4 3 shallow2d_flux
        (shallow2d_speed sample_sqrtf 4 (fun i => i % 4)) (1 / 2) 1 1 1 0 _ _ r rfl hr)
      hd
      (by
        intro m s hm hs
        have hm0 : m = 0 := by omega
        subst hm0
        have : s = RunState.mk sample_wave.u 0 0 false 0 [] := (Option.some.inj hs).symm
        rw [this])
    exact ⟨r, u1, u2, by rw [f2]; rfl⟩
  · obtain ⟨r, hr, hd, hn⟩ := central2d_run_last_pass_ghost alloc
    obtain ⟨u1, u2⟩ := central2d_xrun_loop_unique alloc 8 8 4 3 shallow2d_flux
      (shallow2d_speed sample_sqrtf 4 (fun i => i % 4)) (1 / 2) 1 1 1 251
      (RunState.mk sample_wave_ghost.u 0 0 false 0 []) r hr hd
      (by
        intro m s hm hs
        obtain ⟨s2, hs2, _, hd2, _, _⟩ := central2d_run_passes_ghost alloc m (by omega)
        rw [hs2] at hs
        rw [← Option.some.inj hs]
        exact hd2)
    exact ⟨r, u1, u2, hn⟩

end ShallowWater
